import Mathlib

/-!
# Ordered field-index inserter of the memory index

A shallow embedding of
`searchlib/src/vespa/searchlib/memoryindex/ordered_field_index_inserter.cpp`.

* A failed `assert` aborts the process: every operation that contains an
  assertion returns `Option`, and `none` is the abort.
* `uint32_t` document ids and `size_t` sizes are natural numbers; the only
  narrowing conversion of the file (`cap_u16`) is written out with `% 2 ^ 16`.
* The collaborators the file only calls (word store, feature store, dictionary
  B-tree with its iterator, posting-list store, removal listener) are not part
  of the translated sources.  They are modelled from the specification, each
  under a doc comment that says so, and every call by which the inserter
  changes one of them, seeks in the dictionary or notifies the listener is
  recorded in `FieldIndex.trace` in call order.
* `noDocId` is declared in the header, which is not among the sources; it is a
  parameter of every operation that reads it.
-/

namespace search.memoryindex

/-! ## Data model -/

/-- A term: the bytes of a `vespalib::string`.  `<` on lists is the
lexicographic order, the order of `operator<` on strings. -/
abbrev Word := List Nat

/-- The constant `emptyWord` of the anonymous namespace. -/
def emptyWord : Word := []

/-- The function `cap_u16`: `std::min(val, uint32_t(0xffff))`, converted to the
`uint16_t` return type. -/
def cap_u16 (val : Nat) : Nat := (min val 65535) % 2 ^ 16

/-- The part of `index::DocIdAndFeatures` the inserter reads: the two counters
behind `num_occs()` and `field_length()`; `blob` stands for the remaining
content, which the inserter only passes on to the feature store. -/
structure DocIdAndFeatures where
  num_occs : Nat
  field_length : Nat
  blob : List Nat
deriving DecidableEq, Repr

/-- The record `PostingListEntryType(featureRef, num_occs, field_length)` built
by `add`. -/
structure PostingListEntryType where
  features : Nat
  num_occs : Nat
  field_length : Nat
deriving DecidableEq, Repr

/-- The pair `PostingListKeyDataType(docId, entry)` pushed on `_adds`; `_key` is
the document id. -/
structure PostingListKeyDataType where
  _key : Nat
  data : PostingListEntryType
deriving DecidableEq, Repr

/-- A posting list: document ids with their records, ascending by id. -/
abbrev PostingList := List (Nat × PostingListEntryType)

/-- One slot of the feature store. -/
inductive FeatureStoreItem where
  | features (f : DocIdAndFeatures)
  | guardBytes
deriving DecidableEq, Repr

/-- The calls the inserter makes on its collaborators. -/
inductive Event where
  | addFeatures (f : DocIdAndFeatures)
  | add_features_guard_bytes
  | binarySeek (word : Word)
  | addWord (word : Word)
  | dictInsert (wordRef : Nat)
  | listenerInsert (wordRef : Nat) (docId : Nat)
  | apply (pidx : PostingList) (adds : List PostingListKeyDataType) (removes : List Nat)
  | store_release (wordRef : Nat)
  | listenerFlush
deriving DecidableEq, Repr

/-- Modelled from the spec: the field index the inserter works on, none of
whose classes is among the sources.  `wordStore` interns term bytes (a word
reference is the position of the word), `featureStore` is the append-only
arena of feature blobs (a feature reference is the position of the blob),
`dictionary` is the term dictionary in tree order, each entry a word reference
with the posting list its root denotes (the null root is the empty list), and
`trace` records the collaborator calls in call order. -/
structure FieldIndex where
  wordStore : List Word
  featureStore : List FeatureStoreItem
  dictionary : List (Nat × PostingList)
  trace : List Event
deriving DecidableEq, Repr

/-- Modelled from the spec: `WordStore::getWord`, id to bytes. -/
def FieldIndex.getWord (fi : FieldIndex) (wordRef : Nat) : Word :=
  fi.wordStore.getD wordRef []

/-- Modelled from the spec: `FieldIndex::addWord`, intern(bytes) to id. -/
def FieldIndex.addWord (fi : FieldIndex) (word : Word) : Nat × FieldIndex :=
  (fi.wordStore.length,
    { fi with wordStore := fi.wordStore ++ [word], trace := fi.trace ++ [Event.addWord word] })

/-- Modelled from the spec: `FieldIndex::addFeatures`, serialize(features) to
reference, append-only. -/
def FieldIndex.addFeatures (fi : FieldIndex) (features : DocIdAndFeatures) : Nat × FieldIndex :=
  (fi.featureStore.length,
    { fi with featureStore := fi.featureStore ++ [FeatureStoreItem.features features],
              trace := fi.trace ++ [Event.addFeatures features] })

/-- Modelled from the spec: `FieldIndex::add_features_guard_bytes`,
append-guard-bytes(), append-only. -/
def FieldIndex.add_features_guard_bytes (fi : FieldIndex) : FieldIndex :=
  { fi with featureStore := fi.featureStore ++ [FeatureStoreItem.guardBytes],
            trace := fi.trace ++ [Event.add_features_guard_bytes] }

/-- Modelled from the spec: the dictionary iterator's `binarySeek(key, cmp)`,
a forward seek from the current position `itr` to the first entry whose term
is not smaller than `word` (the end position when there is none). -/
def FieldIndex.binarySeek (fi : FieldIndex) (itr : Nat) (word : Word) : Nat :=
  itr + ((fi.dictionary.drop itr).takeWhile (fun e => decide (fi.getWord e.1 < word))).length

/-- Modelled from the spec: `DictionaryTree::insert(itr, key, data)`, in-place
insert at the iterator position; the iterator then stands on the new entry. -/
def FieldIndex.dictInsert (fi : FieldIndex) (itr : Nat) (wordRef : Nat) (data : PostingList) :
    FieldIndex :=
  { fi with dictionary := fi.dictionary.take itr ++ (wordRef, data) :: fi.dictionary.drop itr,
            trace := fi.trace ++ [Event.dictInsert wordRef] }

/-- Modelled from the spec: one ordered insert of the posting-list merge; an
existing record of the same document id is overwritten. -/
def PostingList.insertEntry : PostingList → PostingListKeyDataType → PostingList
  | [], a => [(a._key, a.data)]
  | (k, v) :: rest, a =>
    if a._key < k then (a._key, a.data) :: (k, v) :: rest
    else if a._key = k then (a._key, a.data) :: rest
    else (k, v) :: PostingList.insertEntry rest a

/-- Modelled from the spec: `PostingListStore::apply`, the merge-apply of a
batch into a posting list: all adds minus all removes, net of same-docId
remove-then-add updates (the removed ids are deleted, then the added pairs are
inserted). -/
def PostingListStore.apply (pidx : PostingList) (adds : List PostingListKeyDataType)
    (removes : List Nat) : PostingList :=
  adds.foldl PostingList.insertEntry (pidx.filter (fun e => decide (e.1 ∉ removes)))

/-- The members of `OrderedFieldIndexInserter`.  `_fieldIndex` is a reference
in the source; here the inserter carries the field index it mutates.  `_dItr`
is the position of the dictionary iterator, valid when it is below the number
of entries.  `_listener` is the document remover of the field index; its calls
go to `FieldIndex.trace`. -/
structure OrderedFieldIndexInserter where
  _word : Word
  _prevDocId : Nat
  _prevAdd : Bool
  _fieldIndex : FieldIndex
  _dItr : Nat
  _removes : List Nat
  _adds : List PostingListKeyDataType
  _word_entries : List (Word × Nat × Nat)
  _removes_offset : Nat
  _adds_offset : Nat
deriving DecidableEq, Repr

namespace OrderedFieldIndexInserter

/-! ## Operations -/

/-- The constructor: an inserter on `fieldIndex`, the iterator at
`getDictionaryTree().begin()`. -/
def construct (noDocId : Nat) (fieldIndex : FieldIndex) : OrderedFieldIndexInserter :=
  { _word := [],
    _prevDocId := noDocId,
    _prevAdd := false,
    _fieldIndex := fieldIndex,
    _dItr := 0,
    _removes := [],
    _adds := [],
    _word_entries := [],
    _removes_offset := 0,
    _adds_offset := 0 }

/-- The method `flushWord`.  The two `size_t` differences are taken on offsets
that never exceed the sizes (`Inv.adds_le`, `Inv.removes_le`), so they do not
wrap around. -/
def flushWord (s : OrderedFieldIndexInserter) : OrderedFieldIndexInserter :=
  if s._removes.length = s._removes_offset ∧ s._adds.length = s._adds_offset then s
  else
    { s with
      _word_entries := s._word_entries ++
        [(s._word, s._adds.length - s._adds_offset, s._removes.length - s._removes_offset)],
      _adds_offset := s._adds.length,
      _removes_offset := s._removes.length }

/-- The method `setNextWord`. -/
def setNextWord (noDocId : Nat) (s : OrderedFieldIndexInserter) (word : Word) :
    Option OrderedFieldIndexInserter :=
  let s := flushWord s
  if s._word < word then
    some { s with _word := word, _prevDocId := noDocId, _prevAdd := false }
  else none

/-- The method `add`. -/
def add (noDocId : Nat) (s : OrderedFieldIndexInserter) (docId : Nat)
    (features : DocIdAndFeatures) : Option OrderedFieldIndexInserter :=
  if docId = noDocId then none
  else if ¬ (s._prevDocId = noDocId ∨ s._prevDocId < docId ∨
      (s._prevDocId = docId ∧ s._prevAdd = false)) then none
  else if ¬ (features.num_occs ≤ features.field_length) then none
  else
    let r := s._fieldIndex.addFeatures features
    some { s with
      _fieldIndex := r.2,
      _adds := s._adds ++ [⟨docId, ⟨r.1, cap_u16 features.num_occs,
        cap_u16 features.field_length⟩⟩],
      _prevDocId := docId,
      _prevAdd := true }

/-- The method `remove`. -/
def remove (noDocId : Nat) (s : OrderedFieldIndexInserter) (docId : Nat) :
    Option OrderedFieldIndexInserter :=
  if docId = noDocId then none
  else if ¬ (s._prevDocId = noDocId ∨ s._prevDocId < docId) then none
  else
    some { s with
      _removes := s._removes ++ [docId],
      _prevDocId := docId,
      _prevAdd := false }

/-- The method `rewind`. -/
def rewind (noDocId : Nat) (s : OrderedFieldIndexInserter) : Option OrderedFieldIndexInserter :=
  if s._removes = [] ∧ s._adds = [] then
    some { s with _word := [], _prevDocId := noDocId, _prevAdd := false, _dItr := 0 }
  else none

/-- The dictionary entry under the iterator, `none` when `_dItr.valid()` is
false. -/
def dItrEntry (s : OrderedFieldIndexInserter) : Option (Nat × PostingList) :=
  s._fieldIndex.dictionary[s._dItr]?

/-- First statement of the loop body of `flush`:
`if (_dItr.valid() && cmp(_dItr.getKey(), key)) { _dItr.binarySeek(key, cmp); }`
where `cmp(_dItr.getKey(), key)` compares the term under the iterator with
`word`. -/
def flushSeek (s : OrderedFieldIndexInserter) (word : Word) : OrderedFieldIndexInserter :=
  match s.dItrEntry with
  | some e =>
    if s._fieldIndex.getWord e.1 < word then
      { s with
        _dItr := s._fieldIndex.binarySeek s._dItr word,
        _fieldIndex := { s._fieldIndex with
          trace := s._fieldIndex.trace ++ [Event.binarySeek word] } }
    else s
  | none => s

/-- Second statement of the loop body of `flush`:
`if (!_dItr.valid() || cmp(key, _dItr.getKey())) { wordRef = addWord(word);
dTree.insert(_dItr, insertKey, AtomicEntryRef()); }`. -/
def flushInsert (s : OrderedFieldIndexInserter) (word : Word) : OrderedFieldIndexInserter :=
  let missing : Bool :=
    match s.dItrEntry with
    | some e => decide (word < s._fieldIndex.getWord e.1)
    | none => true
  if missing then
    let r := s._fieldIndex.addWord word
    { s with _fieldIndex := r.2.dictInsert s._dItr r.1 [] }
  else s

/-- Rest of the loop body of `flush`: the two assertions on the iterator, the
listener notifications, the posting-list merge and the publication of a changed
root. -/
def flushApply (s : OrderedFieldIndexInserter) (word : Word)
    (adds : List PostingListKeyDataType) (removes : List Nat) :
    Option OrderedFieldIndexInserter :=
  match s.dItrEntry with
  | none => none
  | some e =>
    if word ≠ s._fieldIndex.getWord e.1 then none
    else
      let fi1 : FieldIndex := { s._fieldIndex with
        trace := s._fieldIndex.trace ++ adds.map (fun a => Event.listenerInsert e.1 a._key) }
      let pidx := PostingListStore.apply e.2 adds removes
      let fi2 : FieldIndex := { fi1 with trace := fi1.trace ++ [Event.apply e.2 adds removes] }
      let fi3 : FieldIndex :=
        if pidx ≠ e.2 then
          { fi2 with dictionary := fi2.dictionary.set s._dItr (e.1, pidx),
                     trace := fi2.trace ++ [Event.store_release e.1] }
        else fi2
      some { s with _fieldIndex := fi3 }

/-- The body of the loop of `flush` for one queued descriptor `word_entry`;
`adds_offset` and `removes_offset` are the two locals of `flush`, and the
slices `adds` and `removes` are the `ConstArrayRef`s of the source, whose size
is the count of the descriptor. -/
def flushEntry (s : OrderedFieldIndexInserter) (adds_offset removes_offset : Nat)
    (word_entry : Word × Nat × Nat) : Option (OrderedFieldIndexInserter × Nat × Nat) :=
  let word := word_entry.1
  let adds := (s._adds.drop adds_offset).take word_entry.2.1
  let removes := (s._removes.drop removes_offset).take word_entry.2.2
  match flushApply (flushInsert (flushSeek s word) word) word adds removes with
  | none => none
  | some s3 => some (s3, adds_offset + word_entry.2.1, removes_offset + word_entry.2.2)

/-- The loop of `flush` over the queued descriptors. -/
def flushLoop (s : OrderedFieldIndexInserter) (adds_offset removes_offset : Nat) :
    List (Word × Nat × Nat) → Option (OrderedFieldIndexInserter × Nat × Nat)
  | [] => some (s, adds_offset, removes_offset)
  | word_entry :: rest =>
    match flushEntry s adds_offset removes_offset word_entry with
    | none => none
    | some r => flushLoop r.1 r.2.1 r.2.2 rest

/-- The method `flush`. -/
def flush (s : OrderedFieldIndexInserter) : Option OrderedFieldIndexInserter :=
  let s := flushWord s
  if s._adds_offset ≠ s._adds.length then none
  else if s._removes_offset ≠ s._removes.length then none
  else
    let s : OrderedFieldIndexInserter :=
      if s._adds ≠ [] then { s with _fieldIndex := s._fieldIndex.add_features_guard_bytes }
      else s
    match flushLoop s 0 0 s._word_entries with
    | none => none
    | some r =>
      if r.2.1 ≠ r.1._adds.length then none
      else if r.2.2 ≠ r.1._removes.length then none
      else
        some { r.1 with
          _removes_offset := 0,
          _adds_offset := 0,
          _adds := [],
          _removes := [],
          _word_entries := [],
          _fieldIndex := { r.1._fieldIndex with
            trace := r.1._fieldIndex.trace ++ [Event.listenerFlush] } }

/-- A call on the inserter. -/
inductive Call where
  | setNextWord (word : Word)
  | add (docId : Nat) (features : DocIdAndFeatures)
  | remove (docId : Nat)
  | flushWord
  | flush
  | rewind
deriving DecidableEq, Repr

/-- One call; `none` when an assertion of the called method fails. -/
def step (noDocId : Nat) (s : OrderedFieldIndexInserter) : Call → Option OrderedFieldIndexInserter
  | Call.setNextWord word => setNextWord noDocId s word
  | Call.add docId features => add noDocId s docId features
  | Call.remove docId => remove noDocId s docId
  | Call.flushWord => some (flushWord s)
  | Call.flush => flush s
  | Call.rewind => rewind noDocId s

/-- A sequence of calls, each on the state the previous one left. -/
def run (noDocId : Nat) (s : OrderedFieldIndexInserter) : List Call → Option OrderedFieldIndexInserter
  | [] => some s
  | c :: cs =>
    match step noDocId s c with
    | none => none
    | some s1 => run noDocId s1 cs

/-- The calls `add` and `remove`, the operations made inside one term. -/
def Call.isTermOp : Call → Bool
  | Call.add _ _ => true
  | Call.remove _ => true
  | _ => false

/-- The calls `setNextWord`, `add` and `remove`, the stream a caller feeds
between two drains. -/
def Call.isFeed : Call → Bool
  | Call.setNextWord _ => true
  | Call.add _ _ => true
  | Call.remove _ => true
  | _ => false

/-! ## Example inputs -/

/-- An empty field index. -/
def emptyFieldIndex : FieldIndex := ⟨[], [], [], []⟩

/-- Example features: one occurrence in a field of length three. -/
def exampleFeatures : DocIdAndFeatures := ⟨1, 3, [7]⟩

/-- Example features with counters above the 16-bit range. -/
def largeFeatures : DocIdAndFeatures := ⟨70000, 80000, [8]⟩

/-- Example features whose occurrence count exceeds the field length. -/
def inconsistentFeatures : DocIdAndFeatures := ⟨2, 1, []⟩

/-- A newly opened term `"a"` on an empty field index, `noDocId` being the
largest 32-bit value. -/
def exampleOpen : OrderedFieldIndexInserter :=
  { construct 4294967295 emptyFieldIndex with _word := [97] }

/-- The state `exampleOpen` after an accepted `add(5, exampleFeatures)`. -/
def exampleAdded : OrderedFieldIndexInserter :=
  { exampleOpen with
    _fieldIndex := (emptyFieldIndex.addFeatures exampleFeatures).2,
    _adds := [⟨5, ⟨0, 1, 3⟩⟩],
    _prevDocId := 5,
    _prevAdd := true }

/-- The state `exampleOpen` after an accepted `remove(5)`. -/
def exampleRemoved : OrderedFieldIndexInserter :=
  { exampleOpen with _removes := [5], _prevDocId := 5, _prevAdd := false }

/-! ## The tracker of one term -/

/-- The tracker says that `docId` can no longer be added in the current term:
a document id has been seen and `docId` is below it, or is it after an add. -/
def Blocked (noDocId : Nat) (s : OrderedFieldIndexInserter) (docId : Nat) : Prop :=
  s._prevDocId ≠ noDocId ∧
    (docId < s._prevDocId ∨ (docId = s._prevDocId ∧ s._prevAdd = true))

end OrderedFieldIndexInserter

/-! ## Views of the dictionary and of the pending batch -/

/-- The dictionary read through the word store: each entry's term with its
posting list, in tree order. -/
def FieldIndex.entries (fi : FieldIndex) : List (Word × PostingList) :=
  fi.dictionary.map (fun e => (fi.getWord e.1, e.2))

/-- The terms of the dictionary, in tree order. -/
def FieldIndex.terms (fi : FieldIndex) : List Word :=
  fi.entries.map Prod.fst

/-- The posting list found under `word` in a list of entries, the empty list
when there is no entry for `word`. -/
def postingListOf (entries : List (Word × PostingList)) (word : Word) : PostingList :=
  match entries.find? (fun e => decide (e.1 = word)) with
  | some e => e.2
  | none => []

/-- The posting list of `word` in the dictionary (empty when `word` has no
entry). -/
def FieldIndex.postingList (fi : FieldIndex) (word : Word) : PostingList :=
  postingListOf fi.entries word

/-- The record stored for `docId` in a posting list, if any. -/
def PostingList.record (p : PostingList) (docId : Nat) : Option PostingListEntryType :=
  match p.find? (fun e => decide (e.1 = docId)) with
  | some e => some e.2
  | none => none

/-- The data-model invariants of the field index: every dictionary key is an
interned word, and iteration over the dictionary yields the terms in strictly
ascending order. -/
def FieldIndex.WellFormed (fi : FieldIndex) : Prop :=
  (∀ e ∈ fi.dictionary, e.1 < fi.wordStore.length) ∧ fi.terms.Pairwise (· < ·)

/-- The collaborator calls of the loop of the drain: the seek, the interning
and insertion of a missing term, the listener's insert notifications, the
posting-list merge and the publication of a changed root. -/
def Event.isDrainStep : Event → Bool
  | Event.binarySeek _ => true
  | Event.addWord _ => true
  | Event.dictInsert _ => true
  | Event.listenerInsert _ _ => true
  | Event.apply _ _ _ => true
  | Event.store_release _ => true
  | _ => false

/-- What the removal listener and the posting-list store see of a drain: an
`insert(wordRef, docId)` notification, or the merge of a batch. -/
inductive DrainEvent where
  | notify (wordRef : Nat) (docId : Nat)
  | merge (adds : List PostingListKeyDataType) (removes : List Nat)
deriving DecidableEq, Repr

/-- The listener notifications and the posting-list merges of a trace, in call
order. -/
def drainEvents : List Event → List DrainEvent
  | [] => []
  | Event.listenerInsert wordRef docId :: rest => DrainEvent.notify wordRef docId :: drainEvents rest
  | Event.apply _ adds removes :: rest => DrainEvent.merge adds removes :: drainEvents rest
  | _ :: rest => drainEvents rest

/-- The document ids the listener is notified of, in call order. -/
def notifiedDocIds : List DrainEvent → List Nat
  | [] => []
  | DrainEvent.notify _ docId :: rest => docId :: notifiedDocIds rest
  | _ :: rest => notifiedDocIds rest

/-- The dictionary key of `word`: the word reference of the first entry whose
term is `word`, `none` when the dictionary has no entry for `word`. -/
def FieldIndex.wordRefOf (fi : FieldIndex) (word : Word) : Option Nat :=
  (fi.dictionary.find? (fun e => decide (fi.getWord e.1 = word))).map Prod.fst

/-- The merges handed to the posting-list store, in call order: the `adds` and
`removes` arguments of every `apply` call of a trace. -/
def mergeCalls : List Event → List (List PostingListKeyDataType × List Nat)
  | [] => []
  | Event.apply _ adds removes :: rest => (adds, removes) :: mergeCalls rest
  | _ :: rest => mergeCalls rest

namespace OrderedFieldIndexInserter

/-- A batch: a term, the records added and the document ids removed under
it. -/
abbrev Batch := Word × List PostingListKeyDataType × List Nat

/-- A batch with at least one add or remove. -/
def Batch.nonEmpty (b : Batch) : Bool :=
  !(b.2.1.isEmpty && b.2.2.isEmpty)

/-- The slices of `adds` and `removes` the loop of `flush` takes for the queued
descriptors, the two offsets starting at `adds_offset` and `removes_offset`. -/
def descriptorSlices (adds : List PostingListKeyDataType) (removes : List Nat) :
    Nat → Nat → List (Word × Nat × Nat) → List Batch
  | _, _, [] => []
  | adds_offset, removes_offset, word_entry :: rest =>
    (word_entry.1, (adds.drop adds_offset).take word_entry.2.1,
      (removes.drop removes_offset).take word_entry.2.2) ::
      descriptorSlices adds removes (adds_offset + word_entry.2.1)
        (removes_offset + word_entry.2.2) rest

/-- The batches of a call sequence, as the caller made them: `cur` is the
batch of the current term, `setNextWord` closes it and opens an empty one,
`add` puts the record of the call (document id, the reference the feature
store returns, capped counters) behind its adds, `remove` puts the document id
behind its removes. -/
def batchesOf (fi : FieldIndex) (cur : Batch) : List Call → List Batch
  | [] => [cur]
  | Call.setNextWord word :: cs => cur :: batchesOf fi (word, [], []) cs
  | Call.add docId features :: cs =>
    batchesOf (fi.addFeatures features).2
      (cur.1, cur.2.1 ++ [⟨docId, ⟨(fi.addFeatures features).1, cap_u16 features.num_occs,
        cap_u16 features.field_length⟩⟩], cur.2.2) cs
  | Call.remove docId :: cs => batchesOf fi (cur.1, cur.2.1, cur.2.2 ++ [docId]) cs
  | _ :: cs => batchesOf fi cur cs

/-- The adds of a list of batches, batch after batch. -/
def batchAdds : List Batch → List PostingListKeyDataType
  | [] => []
  | b :: bs => b.2.1 ++ batchAdds bs

/-- The removes of a list of batches, batch after batch. -/
def batchRemoves : List Batch → List Nat
  | [] => []
  | b :: bs => b.2.2 ++ batchRemoves bs

/-- The posting lists after merging batches one after the other, each into the
posting list of its term. -/
def mergeBatches (postings : Word → PostingList) : List Batch → Word → PostingList
  | [] => postings
  | b :: bs =>
    mergeBatches
      (fun w => if w = b.1 then PostingListStore.apply (postings w) b.2.1 b.2.2 else postings w)
      bs

/-- The terms passed to `setNextWord`, in call order. -/
def fedTerms : List Call → List Word
  | [] => []
  | Call.setNextWord word :: cs => word :: fedTerms cs
  | _ :: cs => fedTerms cs

/-- Whether a call sequence starts with an `add` or a `remove`. -/
def startsWithTermOp : List Call → Bool
  | c :: _ => c.isTermOp
  | [] => false

/-- The terms passed to `setNextWord` under which at least one `add` or
`remove` follows before the next `setNextWord`. -/
def termsWithOps : List Call → List Word
  | [] => []
  | Call.setNextWord word :: cs =>
    if startsWithTermOp cs then word :: termsWithOps cs else termsWithOps cs
  | _ :: cs => termsWithOps cs

/-- The effect of one loop step of `flush` on the entries of a dictionary:
the posting list of `word` becomes `g` of it, a missing entry being inserted
at its place with `g` of the null root. -/
def upsertEntries (word : Word) (g : PostingList → PostingList) :
    List (Word × PostingList) → List (Word × PostingList)
  | [] => [(word, g [])]
  | (k, v) :: rest =>
    if k < word then (k, v) :: upsertEntries word g rest
    else if word < k then (word, g []) :: (k, v) :: rest
    else (k, g v) :: rest

/-- The invariant of the inserter: the field index is well formed, the
iterator stands inside the dictionary with only smaller terms than the queued
and the current one before it, the offsets are the sums of the queued counts
and lie inside the pending sequences, every queued descriptor covers at least
one operation, and the queued terms followed by the current term ascend. -/
structure Inv (s : OrderedFieldIndexInserter) : Prop where
  wellFormed : s._fieldIndex.WellFormed
  itr_le : s._dItr ≤ s._fieldIndex.dictionary.length
  itr_lt : ∀ w ∈ s._word_entries.map Prod.fst ++ [s._word],
    ∀ e ∈ s._fieldIndex.dictionary.take s._dItr, s._fieldIndex.getWord e.1 < w
  adds_le : s._adds_offset ≤ s._adds.length
  removes_le : s._removes_offset ≤ s._removes.length
  adds_sum : (s._word_entries.map (fun e => e.2.1)).sum = s._adds_offset
  removes_sum : (s._word_entries.map (fun e => e.2.2)).sum = s._removes_offset
  covers : ∀ e ∈ s._word_entries, 0 < e.2.1 + e.2.2
  ascending : (s._word_entries.map Prod.fst ++ [s._word]).Pairwise (· ≤ ·)

/-- The batch of the current term not yet covered by a descriptor. -/
def pendingBatch (s : OrderedFieldIndexInserter) : Batch :=
  (s._word, s._adds.drop s._adds_offset, s._removes.drop s._removes_offset)

/-- The batches the queued descriptors cover. -/
def queuedBatches (s : OrderedFieldIndexInserter) : List Batch :=
  descriptorSlices s._adds s._removes 0 0 s._word_entries

/-- The record a batch of adds holds for `docId`, the last add of `docId`
deciding; `none` when the batch does not add `docId`. -/
def addedRecord : List PostingListKeyDataType → Nat → Option PostingListEntryType
  | [], _ => none
  | a :: rest, docId =>
    match addedRecord rest docId with
    | some r => some r
    | none => if a._key = docId then some a.data else none

/-- Example calls: the term `"a"` with two adds, the term `"b"` without
operation, the term `"c"` with a remove followed by an add of the same
document. -/
def exampleCalls : List Call :=
  [Call.setNextWord [97], Call.add 5 exampleFeatures, Call.add 9 largeFeatures,
    Call.setNextWord [98], Call.setNextWord [99], Call.remove 5, Call.add 5 exampleFeatures]

/-- A field index with the terms `"a"` and `"c"`, document `5` in both. -/
def exampleFieldIndex : FieldIndex :=
  { wordStore := [[97], [99]],
    featureStore := [FeatureStoreItem.features exampleFeatures],
    dictionary := [(0, [(5, ⟨0, 1, 3⟩)]), (1, [(5, ⟨0, 1, 3⟩), (7, ⟨0, 1, 3⟩)])],
    trace := [] }

/-- The state `exampleCalls` leaves on a fresh inserter over
`exampleFieldIndex`. -/
def exampleFed : OrderedFieldIndexInserter :=
  { _word := [99],
    _prevDocId := 5,
    _prevAdd := true,
    _fieldIndex :=
      { exampleFieldIndex with
        featureStore := [FeatureStoreItem.features exampleFeatures,
          FeatureStoreItem.features exampleFeatures, FeatureStoreItem.features largeFeatures,
          FeatureStoreItem.features exampleFeatures],
        trace := [Event.addFeatures exampleFeatures, Event.addFeatures largeFeatures,
          Event.addFeatures exampleFeatures] },
    _dItr := 0,
    _removes := [5],
    _adds := [⟨5, ⟨1, 1, 3⟩⟩, ⟨9, ⟨2, 65535, 65535⟩⟩, ⟨5, ⟨3, 1, 3⟩⟩],
    _word_entries := [([97], 2, 0)],
    _removes_offset := 0,
    _adds_offset := 2 }

/-- The bookkeeping part of the invariant: the offsets lie inside the pending
sequences and are the sums of the queued counts, and every queued descriptor
covers at least one operation. -/
structure Book (s : OrderedFieldIndexInserter) : Prop where
  adds_le : s._adds_offset ≤ s._adds.length
  removes_le : s._removes_offset ≤ s._removes.length
  adds_sum : (s._word_entries.map (fun e => e.2.1)).sum = s._adds_offset
  removes_sum : (s._word_entries.map (fun e => e.2.2)).sum = s._removes_offset
  covers : ∀ e ∈ s._word_entries, 0 < e.2.1 + e.2.2

/-- The call `rewind`. -/
def Call.isRewind : Call → Bool
  | Call.rewind => true
  | _ => false

/-- The state `exampleOpen` after an accepted `remove(5)` and the `flushWord`
of a term boundary: one queued descriptor with no add and one remove. -/
def exampleRemovedQueued : OrderedFieldIndexInserter :=
  { exampleRemoved with _word_entries := [([97], 0, 1)], _removes_offset := 1 }

/-- The document id of an `add` or a `remove` call. -/
def Call.docId : Call → Nat
  | Call.add docId _ => docId
  | Call.remove docId => docId
  | _ => 0

/-- The call `add`. -/
def Call.isAdd : Call → Bool
  | Call.add _ _ => true
  | _ => false

/-- The call `remove`. -/
def Call.isRemove : Call → Bool
  | Call.remove _ => true
  | _ => false

/-- The order of two operations of one term, the first made before the second:
the document id grows, or it stays and the first is a remove and the second an
add. -/
def opOrdered (c1 c2 : Call) : Prop :=
  c1.docId < c2.docId ∨ (c1.docId = c2.docId ∧ c1.isAdd = false ∧ c2.isAdd = true)

/-- The order of the pending operations: in every queued batch and in the batch
of the current term the added document ids and the removed document ids are
strictly increasing, and the tracker bounds the batch of the current term: no
pending add or remove is above the last seen document id, and a pending add
with the last seen document id was the last operation. -/
structure BatchOrdered (noDocId : Nat) (s : OrderedFieldIndexInserter) : Prop where
  queued : ∀ b ∈ queuedBatches s,
    (b.2.1.map (fun a => a._key)).Pairwise (· < ·) ∧ b.2.2.Pairwise (· < ·)
  pending_adds : ((pendingBatch s).2.1.map (fun a => a._key)).Pairwise (· < ·)
  pending_removes : (pendingBatch s).2.2.Pairwise (· < ·)
  adds_below : ∀ a ∈ (pendingBatch s).2.1,
    s._prevDocId ≠ noDocId ∧ a._key ≤ s._prevDocId ∧ (a._key = s._prevDocId → s._prevAdd = true)
  removes_below : ∀ d ∈ (pendingBatch s).2.2, s._prevDocId ≠ noDocId ∧ d ≤ s._prevDocId

/-- The notifications and merges of a drain of the batches `kbs`, each batch
with the word reference its term is notified under: batch by batch, first one
notification per add of the batch, in the order of the adds, then the merge of
the batch. -/
def drainOf : List (Nat × Batch) → List DrainEvent
  | [] => []
  | kb :: rest =>
    kb.2.2.1.map (fun a => DrainEvent.notify kb.1 a._key) ++
      DrainEvent.merge kb.2.2.1 kb.2.2.2 :: drainOf rest

end OrderedFieldIndexInserter

end search.memoryindex

/-!
# Value arena and unique value builder

A shallow embedding of
`vespalib/src/vespa/vespalib/datastore/unique_store_allocator.h` and
`vespalib/src/vespa/vespalib/datastore/unique_store_builder.hpp`.

* Dereferencing a reference that denotes no entry and reading an iterator past
  the end of its sequence are undefined: an operation that can do either
  returns `Option`, and `none` is the undefined run.
* Of the allocator only `get_wrapped` and `get` are defined in the header;
  `allocate`, `hold` and `move` are declared there and defined elsewhere.  They
  are modelled from the specification, each under a doc comment that says so.
* The null reference `EntryRef()` is declared in a header that is not among the
  sources; it is a parameter of the constructor of the builder.
* The calls the builder makes on its collaborators are recorded in
  `UniqueStoreBuilder.trace` in call order.
-/

namespace search.datastore

/-- A reference `EntryRef`: the number of the slot it denotes in the data
store. -/
abbrev EntryRef := Nat

/-- Modelled from the spec: the wrapped entry `UniqueStoreEntry<EntryT>`, which
is not among the sources: the stored value plus a reference count. -/
structure UniqueStoreEntry (EntryT : Type) where
  value : EntryT
  ref_count : Nat
deriving DecidableEq, Repr

/-- Modelled from the spec: `UniqueStoreEntry::set_ref_count`, which writes the
count into the wrapped entry. -/
def UniqueStoreEntry.set_ref_count {EntryT : Type} (e : UniqueStoreEntry EntryT)
    (ref_count : Nat) : UniqueStoreEntry EntryT :=
  { e with ref_count := ref_count }

/-- The class `UniqueStoreAllocator`.  `_store` is the data store, the wrapped
entry of reference `r` at position `r`; `held` lists the references on hold, in
the order of the `hold` calls. -/
structure UniqueStoreAllocator (EntryT : Type) where
  _store : List (UniqueStoreEntry EntryT)
  held : List EntryRef
deriving DecidableEq, Repr

namespace UniqueStoreAllocator

/-- The method `get_wrapped`; `none` when `ref` denotes no entry. -/
def get_wrapped {EntryT : Type} (a : UniqueStoreAllocator EntryT) (ref : EntryRef) :
    Option (UniqueStoreEntry EntryT) :=
  a._store[ref]?

/-- The method `get`: `get_wrapped(ref).value()`. -/
def get {EntryT : Type} (a : UniqueStoreAllocator EntryT) (ref : EntryRef) : Option EntryT :=
  (a.get_wrapped ref).map (fun e => e.value)

/-- Modelled from the spec: `allocate(value)`, which stores `value` wrapped with
a zero reference count in a new slot of the growing store, without
deduplication, and returns the reference of the slot. -/
def allocate {EntryT : Type} (a : UniqueStoreAllocator EntryT) (value : EntryT) :
    EntryRef × UniqueStoreAllocator EntryT :=
  (a._store.length, { a with _store := a._store ++ [⟨value, 0⟩] })

/-- Modelled from the spec: `hold(ref)`, which marks the entry for deferred
reclamation and does not invalidate `ref`. -/
def hold {EntryT : Type} (a : UniqueStoreAllocator EntryT) (ref : EntryRef) :
    UniqueStoreAllocator EntryT :=
  { a with held := a.held ++ [ref] }

/-- Modelled from the spec: `move(ref)`, which copies the referenced entry to a
new location and returns its new reference; `none` when `ref` denotes no
entry. -/
def move {EntryT : Type} (a : UniqueStoreAllocator EntryT) (ref : EntryRef) :
    Option (EntryRef × UniqueStoreAllocator EntryT) :=
  match a.get_wrapped ref with
  | none => none
  | some e => some (a._store.length, { a with _store := a._store ++ [e] })

/-- The write `get_wrapped(ref).set_ref_count(ref_count)` the builder makes
through the reference `get_wrapped` returns; `none` when `ref` denotes no
entry. -/
def write_ref_count {EntryT : Type} (a : UniqueStoreAllocator EntryT) (ref : EntryRef)
    (ref_count : Nat) : Option (UniqueStoreAllocator EntryT) :=
  match a.get_wrapped ref with
  | none => none
  | some e => some { a with _store := a._store.set ref (e.set_ref_count ref_count) }

/-- A call on the allocator. -/
inductive Call (EntryT : Type) where
  | allocate (value : EntryT)
  | hold (ref : EntryRef)
  | move (ref : EntryRef)
deriving DecidableEq, Repr

/-- The calls `allocate`. -/
def Call.isAllocate {EntryT : Type} : Call EntryT → Bool
  | Call.allocate _ => true
  | _ => false

/-- One call, the returned reference dropped; `none` when the call
dereferences a reference that denotes no entry. -/
def step {EntryT : Type} (a : UniqueStoreAllocator EntryT) :
    Call EntryT → Option (UniqueStoreAllocator EntryT)
  | Call.allocate value => some (a.allocate value).2
  | Call.hold ref => some (a.hold ref)
  | Call.move ref => (a.move ref).map Prod.snd

/-- A sequence of calls, each on the state the previous one left. -/
def run {EntryT : Type} (a : UniqueStoreAllocator EntryT) :
    List (Call EntryT) → Option (UniqueStoreAllocator EntryT)
  | [] => some a
  | c :: cs =>
    match a.step c with
    | none => none
    | some a1 => run a1 cs

end UniqueStoreAllocator

/-- The calls the builder makes on the wrapped entries, on the dictionary and,
through the callback it hands to the dictionary, on the allocator. -/
inductive BuilderEvent where
  | set_ref_count (ref : EntryRef) (ref_count : Nat)
  | build (refs : List EntryRef) (ref_counts : List Nat)
  | hold (ref : EntryRef)
deriving DecidableEq, Repr

/-- The part of `UniqueStoreDictionaryBase` the builder uses, the class not
being among the sources: `unkept refs ref_counts` lists the references
`build(refs, ref_counts, hold)` decides not to keep, in the order in which it
calls `hold` for them. -/
structure UniqueStoreDictionaryBase where
  unkept : List EntryRef → List Nat → List EntryRef

/-- The members of `UniqueStoreBuilder`; `_allocator` and `_dict` are references
in the source, here the builder carries the objects it changes.  `trace`
records the calls on the collaborators. -/
structure UniqueStoreBuilder (EntryT : Type) where
  _allocator : UniqueStoreAllocator EntryT
  _dict : UniqueStoreDictionaryBase
  _refs : List EntryRef
  _refCounts : List Nat
  trace : List BuilderEvent

namespace UniqueStoreBuilder

/-- The constructor.  `_refs.reserve(uniqueValuesHint)` changes the capacity of
the vector only, which the model does not carry; `nullRef` is `EntryRef()`. -/
def construct {EntryT : Type} (nullRef : EntryRef) (allocator : UniqueStoreAllocator EntryT)
    (dict : UniqueStoreDictionaryBase) (uniqueValuesHint : Nat) : UniqueStoreBuilder EntryT :=
  let _reserved := uniqueValuesHint
  { _allocator := allocator,
    _dict := dict,
    _refs := [] ++ [nullRef],
    _refCounts := [],
    trace := [] }

/-- Modelled from the spec: `add(value)`, defined in the header of the builder,
which allocates the value via the arena and records the assigned reference
behind the others. -/
def add {EntryT : Type} (b : UniqueStoreBuilder EntryT) (value : EntryT) :
    UniqueStoreBuilder EntryT :=
  { b with
    _allocator := (b._allocator.allocate value).2,
    _refs := b._refs ++ [(b._allocator.allocate value).1] }

/-- The call `std::vector<uint32_t>::resize(n)`: the first `n` elements are
kept and zeros are appended up to the size `n`. -/
def resize (v : List Nat) (n : Nat) : List Nat :=
  v.take n ++ List.replicate (n - v.length) 0

/-- The method `setupRefCounts`. -/
def setupRefCounts {EntryT : Type} (b : UniqueStoreBuilder EntryT) : UniqueStoreBuilder EntryT :=
  { b with _refCounts := resize b._refCounts b._refs.length }

/-- The loop of `makeDictionary` over the references `refs` still to visit,
`ref_count_itr` the counters from the iterator on; `none` when the iterator is
read at the end of the counters or a reference denotes no entry. -/
def makeDictionaryLoop {EntryT : Type} (b : UniqueStoreBuilder EntryT) :
    List EntryRef → List Nat → Option (UniqueStoreBuilder EntryT)
  | [], _ => some b
  | _ :: _, [] => none
  | ref :: refs, ref_count :: ref_count_itr =>
    match b._allocator.write_ref_count ref ref_count with
    | none => none
    | some a =>
      makeDictionaryLoop
        { b with _allocator := a,
                 trace := b.trace ++ [BuilderEvent.set_ref_count ref ref_count] }
        refs ref_count_itr

/-- The call `_dict.build(_refs, _refCounts, callback)` with the callback
`[this](EntryRef ref) { _allocator.hold(ref); }`: the call is recorded, and the
callback runs for every reference the dictionary does not keep. -/
def dictBuild {EntryT : Type} (b : UniqueStoreBuilder EntryT) : UniqueStoreBuilder EntryT :=
  (b._dict.unkept b._refs b._refCounts).foldl
    (fun b ref => { b with _allocator := b._allocator.hold ref,
                           trace := b.trace ++ [BuilderEvent.hold ref] })
    { b with trace := b.trace ++ [BuilderEvent.build b._refs b._refCounts] }

/-- The method `makeDictionary`. -/
def makeDictionary {EntryT : Type} (b : UniqueStoreBuilder EntryT) :
    Option (UniqueStoreBuilder EntryT) :=
  match makeDictionaryLoop b b._refs b._refCounts with
  | none => none
  | some b1 => some (dictBuild b1)

/-- An arena with the slot of the null reference `0` and nothing else. -/
def exampleArena : UniqueStoreAllocator Nat := ⟨[⟨0, 0⟩], []⟩

/-- A dictionary that keeps every reference but the sentinel and those whose
final count is zero. -/
def exampleDict : UniqueStoreDictionaryBase :=
  ⟨fun refs ref_counts =>
    ((refs.zip ref_counts).filter (fun p => p.1 == 0 || p.2 == 0)).map Prod.fst⟩

/-- A builder over `exampleArena`: the values `70` and `80` accumulated, the
counters set up and raised to `2` for `70`. -/
def exampleBuilder : UniqueStoreBuilder Nat :=
  { (setupRefCounts (add (add (construct 0 exampleArena exampleDict 2) 70) 80)) with
    _refCounts := [0, 2, 0] }

end UniqueStoreBuilder

end search.datastore

/-!
# Field name map of the streaming visitors

A shallow embedding of the class `StringFieldIdTMap` of
`streamingvisitors/src/vespa/vsm/common/document.cpp`.

* `_map` maps field names to field ids; the model keeps its entries as a list
  with distinct keys, a new key behind the others.
* `FieldIdT` and `npos` are declared in the header, which is not among the
  sources: the width of `FieldIdT` in bits and the value of `npos` are
  parameters, and the conversion of a `size_t` to `FieldIdT` and the increment
  of a `FieldIdT` are written out with `% 2 ^ fieldIdBits`.
-/

namespace vsm

/-- The call `_map.find(s)`: the id stored for `s`, `none` for `_map.end()`. -/
def mapFind : List (String × Nat) → String → Option Nat
  | [], _ => none
  | (k, v) :: rest, s => if k = s then some v else mapFind rest s

/-- The assignment `_map[s] = fieldId`: the id of `s` is overwritten, or `s` is
inserted with the id. -/
def mapAssign : List (String × Nat) → String → Nat → List (String × Nat)
  | [], s, fieldId => [(s, fieldId)]
  | (k, v) :: rest, s, fieldId =>
    if k = s then (k, fieldId) :: rest else (k, v) :: mapAssign rest s fieldId

/-- The class `StringFieldIdTMap`. -/
structure StringFieldIdTMap where
  _map : List (String × Nat)
deriving DecidableEq, Repr

namespace StringFieldIdTMap

/-- The constructor: the empty map. -/
def construct : StringFieldIdTMap := ⟨[]⟩

/-- The method `add(s, fieldId)`. -/
def addWithId (m : StringFieldIdTMap) (s : String) (fieldId : Nat) : StringFieldIdTMap :=
  ⟨mapAssign m._map s fieldId⟩

/-- The method `add(s)`; `FieldIdT fieldId = _map.size()` converts the size to
`FieldIdT`. -/
def add (fieldIdBits : Nat) (m : StringFieldIdTMap) (s : String) : StringFieldIdTMap :=
  if mapFind m._map s = none then
    let fieldId := m._map.length % 2 ^ fieldIdBits
    ⟨mapAssign m._map s fieldId⟩
  else m

/-- The method `fieldNo`. -/
def fieldNo (npos : Nat) (m : StringFieldIdTMap) (fName : String) : Nat :=
  match mapFind m._map fName with
  | some fNo => fNo
  | none => npos

/-- The loop of `highestFieldNo` over the entries in the order `fields`, from
`maxFNo`; `field.second + 1` is computed in `FieldIdT`. -/
def highestFieldNoLoop (fieldIdBits : Nat) (maxFNo : Nat) (fields : List (String × Nat)) : Nat :=
  fields.foldl
    (fun maxFNo field =>
      if field.2 ≥ maxFNo then (field.2 + 1) % 2 ^ fieldIdBits else maxFNo)
    maxFNo

/-- The method `highestFieldNo`, the map iterated in the order of `_map`. -/
def highestFieldNo (fieldIdBits : Nat) (m : StringFieldIdTMap) : Nat :=
  highestFieldNoLoop fieldIdBits 0 m._map

/-- The map built from the empty map by one `add(name)` call per element of
`names`, in order. -/
def build (fieldIdBits : Nat) (names : List String) : StringFieldIdTMap :=
  names.foldl (add fieldIdBits) construct

/-- The distinct names of `names` behind the names `seen`, each at its first
occurrence. -/
def distinctFrom (seen : List String) : List String → List String
  | [] => seen
  | s :: rest => if s ∈ seen then distinctFrom seen rest else distinctFrom (seen ++ [s]) rest

/-- The distinct names of `names` in first-insertion order. -/
def distinctNames (names : List String) : List String :=
  distinctFrom [] names

/-- The names `names` with the ids `first`, `first + 1`, and so on. -/
def numberedFrom (first : Nat) : List String → List (String × Nat)
  | [] => []
  | s :: rest => (s, first) :: numberedFrom (first + 1) rest

end StringFieldIdTMap

end vsm

/-!
# Second-phase work of the match loop communicator

A shallow embedding of `MatchLoopCommunicator::GetSecondPhaseWork::mingle` of
`searchcore/src/vespa/searchcore/proton/matching/match_loop_communicator.cpp`.

* `Score` stands for `search::feature_t`: `mingle` only copies scores and hands
  them to the comparator of the queue, so the type is a parameter.
* The sorted hit sequences, the tagged hits, the rendezvous with its inputs and
  outputs, the priority queue, the ranges, the diversifier and the first-phase
  rank lookup are declared in headers that are not among the sources.  Each is
  modelled by the part `mingle` uses, and the literal `0.0`, the range `Range()`
  and the order of the queue's comparator come in as the parameter `Declared`.
* Calling `get()` on a sequence that is not valid, `front()` on an empty queue
  and `out(i)` for a thread that does not exist are undefined: the loop returns
  `Option`, and `none` is the undefined run (or a run that needs more steps than
  there are input hits, which no run does).
-/

namespace proton.matching

/-- A hit: the document id and the score. -/
abbrev Hit (Score : Type) := Nat × Score

/-- The struct `Range`: the two bounds `low` and `high`. -/
structure Range (Score : Type) where
  low : Score
  high : Score
deriving DecidableEq, Repr

/-- The struct `BestDropped`. -/
structure BestDropped (Score : Type) where
  valid : Bool
  score : Score
deriving DecidableEq, Repr

/-- The interface `IDiversifier`, whose `accepted(docId)` may depend on the
calls made before: `asked` lists the document ids it was asked about with its
answers, and `answer` gives the next answer from them. -/
structure IDiversifier where
  asked : List (Nat × Bool)
  answer : List (Nat × Bool) → Nat → Bool

/-- The call `diversifier->accepted(docId)`. -/
def IDiversifier.accepted (d : IDiversifier) (docId : Nat) : Bool × IDiversifier :=
  (d.answer d.asked docId, { d with asked := d.asked ++ [(docId, d.answer d.asked docId)] })

/-- What `mingle` takes from declarations that are not among the sources: the
value of the literal `0.0`, the default range `Range()`, and the order of
`SelectCmp` on the current hits of two inputs (`cmp a b` when the hit `a` goes
before the hit `b`). -/
structure Declared (Score : Type) where
  zero : Score
  emptyRange : Range Score
  cmp : Hit Score → Hit Score → Bool

/-- The members of `GetSecondPhaseWork` with the inputs and outputs of the
rendezvous.  `_in[i]` holds the hits of the sorted hit sequence `in(i)` from
its current position on (`valid()` is non-emptiness, `get()` the first hit,
`next()` drops it), `_out[i]` the tagged hits `out(i)`; `_diversifier` and
`_first_phase_rank_lookup` are `none` for a null pointer, the lookup listing
the `add(docid, rank)` calls made on it. -/
structure GetSecondPhaseWork (Score : Type) where
  topN : Nat
  best_scores : Range Score
  best_dropped : BestDropped Score
  _diversifier : Option IDiversifier
  _first_phase_rank_lookup : Option (List (Nat × Nat))
  _in : List (List (Hit Score))
  _out : List (List (Hit Score × Nat))

/-- The locals of the loop of `mingle`: the priority queue as the list of the
queued input indices, `picked`, `last_score`, and the counter `_rank` of the
register object. -/
structure MingleLocals (Score : Type) where
  queue : List Nat
  picked : Nat
  last_score : Score
  _rank : Nat
deriving DecidableEq, Repr

namespace GetSecondPhaseWork

/-- The method `size()` of the rendezvous: the number of threads. -/
def size {Score : Type} (s : GetSecondPhaseWork Score) : Nat := s._in.length

/-- The input `in(i)`. -/
def input {Score : Type} (s : GetSecondPhaseWork Score) (i : Nat) : List (Hit Score) :=
  s._in.getD i []

/-- The output `out(i)`. -/
def output {Score : Type} (s : GetSecondPhaseWork Score) (i : Nat) : List (Hit Score × Nat) :=
  s._out.getD i []

/-- The comparator `SelectCmp` of the queue on two input indices: the order of
the current hits of the two inputs. -/
def selectCmp {Score : Type} (d : Declared Score) (s : GetSecondPhaseWork Score) (a b : Nat) :
    Bool :=
  match (s.input a).head?, (s.input b).head? with
  | some x, some y => d.cmp x y
  | _, _ => false

/-- The call `queue.front()`: the queued index the comparator puts first, the
earliest queued among equals; `none` on an empty queue. -/
def front {Score : Type} (d : Declared Score) (s : GetSecondPhaseWork Score) :
    List Nat → Option Nat
  | [] => none
  | i :: rest => some (rest.foldl (fun best j => if selectCmp d s j best then j else best) i)

/-- The callable `accept` that `mingle(queue, register)` hands on: the
diversifier's answer, or `true` when there is no diversifier. -/
def accept (diversifier : Option IDiversifier) (docId : Nat) : Bool × Option IDiversifier :=
  match diversifier with
  | some dv => ((dv.accepted docId).1, some (dv.accepted docId).2)
  | none => (true, none)

/-- The body of the loop of `mingle(queue, accept, register)`. -/
def mingleStep {Score : Type} (d : Declared Score) (s : GetSecondPhaseWork Score)
    (l : MingleLocals Score) : Option (GetSecondPhaseWork Score × MingleLocals Score) :=
  match front d s l.queue with
  | none => none
  | some i =>
    match s.input i with
    | [] => none
    | hit :: rest =>
      let a := accept s._diversifier hit.1
      let r : Option (GetSecondPhaseWork Score × MingleLocals Score) :=
        if a.1 then
          match s._out[l.picked % s.size]? with
          | none => none
          | some o =>
            some
              ({ s with
                 _diversifier := a.2,
                 _first_phase_rank_lookup :=
                   s._first_phase_rank_lookup.map (fun t => t ++ [(hit.1, l._rank + 1)]),
                 _out := s._out.set (l.picked % s.size) (o ++ [(hit, i)]),
                 best_scores :=
                   if l.picked + 1 = 1 then { s.best_scores with high := hit.2 }
                   else s.best_scores },
               { l with
                 last_score := hit.2,
                 picked := l.picked + 1,
                 _rank := if s._first_phase_rank_lookup.isSome then l._rank + 1 else l._rank })
        else
          some
            ({ s with
               _diversifier := a.2,
               best_dropped :=
                 if s.best_dropped.valid = false then ⟨true, hit.2⟩ else s.best_dropped },
             { l with
               _rank := if s._first_phase_rank_lookup.isSome then l._rank + 1 else l._rank })
      match r with
      | none => none
      | some (s1, l1) =>
        some ({ s1 with _in := s1._in.set i rest },
          if !rest.isEmpty then l1 else { l1 with queue := l1.queue.erase i })

/-- The loop `while ((picked < topN) && !queue.empty())`, run for at most
`steps` iterations; `none` when more are needed. -/
def mingleLoop {Score : Type} (d : Declared Score) :
    Nat → GetSecondPhaseWork Score → MingleLocals Score →
      Option (GetSecondPhaseWork Score × MingleLocals Score)
  | 0, s, l => if l.picked < s.topN ∧ l.queue ≠ [] then none else some (s, l)
  | steps + 1, s, l =>
    if l.picked < s.topN ∧ l.queue ≠ [] then
      match mingleStep d s l with
      | none => none
      | some (s1, l1) => mingleLoop d steps s1 l1
    else some (s, l)

/-- The method `mingle()` with the two templates it runs: the reset of
`best_scores` and `best_dropped.valid`, the queue of the valid inputs in index
order, the loop, which takes one input hit per iteration, and the assignment of
`best_scores.low`.  `reserve` changes the capacity of an output only, which the
model does not carry. -/
def mingle {Score : Type} (d : Declared Score) (s : GetSecondPhaseWork Score) :
    Option (GetSecondPhaseWork Score) :=
  let s0 : GetSecondPhaseWork Score :=
    { s with best_scores := d.emptyRange,
             best_dropped := { s.best_dropped with valid := false } }
  let queue := (List.range s0.size).filter (fun i => !(s0.input i).isEmpty)
  match mingleLoop d (s0._in.map List.length).sum s0 ⟨queue, 0, d.zero, 0⟩ with
  | none => none
  | some (s1, l1) =>
    some (if l1.picked > 0 then
      { s1 with best_scores := { s1.best_scores with low := l1.last_score } }
    else s1)

/-- The hits a run took from the inputs, in the order it took them, each with
the index of its input and whether it was accepted. -/
abbrev Taken (Score : Type) := List (Hit Score × Nat × Bool)

/-- The accepted hits of a run with their input indices, in order. -/
def emitted {Score : Type} (p : Taken Score) : List (Hit Score × Nat) :=
  (p.filter (fun x => x.2.2)).map (fun x => (x.1, x.2.1))

/-- The rejected hits of a run with their input indices, in order. -/
def rejected {Score : Type} (p : Taken Score) : List (Hit Score × Nat) :=
  (p.filter (fun x => !x.2.2)).map (fun x => (x.1, x.2.1))

/-- The hits a run took from the input `i`, in order. -/
def takenFrom {Score : Type} (p : Taken Score) (i : Nat) : List (Hit Score) :=
  (p.filter (fun x => decide (x.2.1 = i))).map (fun x => x.1)

/-- What holds of the queue and of the inputs in a run from `s0` that has taken
the hits `p`: the queue holds each valid input once and no other index, every
input was taken from its front, and each taken hit left its input. -/
structure InputsInv {Score : Type} (s0 s : GetSecondPhaseWork Score) (l : MingleLocals Score)
    (p : Taken Score) : Prop where
  topN_eq : s.topN = s0.topN
  in_length : s._in.length = s0._in.length
  queue_nodup : l.queue.Nodup
  queue_mem : ∀ i, i ∈ l.queue ↔ i < s._in.length ∧ s.input i ≠ []
  taken : ∀ i, s0.input i = takenFrom p i ++ s.input i
  remaining : (s._in.map List.length).sum + p.length = (s0._in.map List.length).sum

/-- What holds of the outputs of `n` threads in a run that has taken the hits
`p`: `picked` counts the emitted hits, the outputs hold them all, the hit
number `k` at position `k / n` of output `k % n`. -/
structure OutputsInv {Score : Type} (n : Nat) (s : GetSecondPhaseWork Score)
    (l : MingleLocals Score) (p : Taken Score) : Prop where
  out_length : s._out.length = n
  picked_eq : l.picked = (emitted p).length
  out_sum : (s._out.map List.length).sum = l.picked
  out_len : ∀ j, j < n →
    (s.output j).length = l.picked / n + (if j < l.picked % n then 1 else 0)
  out_hit : ∀ k, k < l.picked → (s.output (k % n))[k / n]? = (emitted p)[k]?

/-- What holds of the scores and of the diversifier in a run from `s0` that has
taken the hits `p`. -/
structure ScoresInv {Score : Type} (s0 s : GetSecondPhaseWork Score) (l : MingleLocals Score)
    (p : Taken Score) : Prop where
  high : ∀ e, (emitted p).head? = some e → s.best_scores.high = e.1.2
  none_emitted : emitted p = [] → s.best_scores = s0.best_scores
  last : ∀ e, (emitted p).getLast? = some e → l.last_score = e.1.2
  dropped : ∀ e, (rejected p).head? = some e → s.best_dropped = ⟨true, e.1.2⟩
  none_dropped : rejected p = [] → s.best_dropped = s0.best_dropped
  no_diversifier : s0._diversifier = none → s._diversifier = none ∧ rejected p = []
  asked : ∀ dv0, s0._diversifier = some dv0 →
    ∃ dv, s._diversifier = some dv ∧ dv.answer = dv0.answer ∧
      dv.asked = dv0.asked ++ p.map (fun x => (x.1.1, x.2.2))

/-- Integer scores ordered downwards: the hit with the higher score goes
first. -/
def exampleDeclared : Declared Int := ⟨0, ⟨1, 0⟩, fun a b => decide (b.2 < a.2)⟩

/-- A diversifier that accepts a document id once and rejects the id `7`. -/
def exampleDiversifier : IDiversifier :=
  ⟨[], fun asked docId => decide (docId ≠ 7) && !(asked.map Prod.fst).contains docId⟩

/-- Three threads with the sorted inputs of the first two non-empty, empty
outputs, and room for four hits. -/
def exampleWork : GetSecondPhaseWork Int :=
  { topN := 4,
    best_scores := ⟨5, 6⟩,
    best_dropped := ⟨true, 9⟩,
    _diversifier := none,
    _first_phase_rank_lookup := some [],
    _in := [[(1, 90), (2, 50), (3, 10)], [(7, 95), (8, 60), (9, 55)], []],
    _out := [[], [], []] }

end GetSecondPhaseWork

end proton.matching

namespace search.memoryindex

namespace OrderedFieldIndexInserter

/-- The method `getWordRef`: `_dItr.getKey()._wordRef`, the word reference of
the entry under the iterator; `none` when the iterator is not valid. -/
def getWordRef (s : OrderedFieldIndexInserter) : Option Nat :=
  s.dItrEntry.map Prod.fst

/-- The term under the iterator: the word the word store holds for
`getWordRef()`. -/
def dItrWord (s : OrderedFieldIndexInserter) : Option Word :=
  s.getWordRef.map s._fieldIndex.getWord

/-- A field index with the term `"c"` alone, its posting list empty. -/
def singleTermFieldIndex : FieldIndex :=
  { wordStore := [[99]],
    featureStore := [],
    dictionary := [(0, [])],
    trace := [] }

/-! # Properties -/

theorem add_none_of_blocked (noDocId : Nat) (s : OrderedFieldIndexInserter) (docId : Nat)
    (features : DocIdAndFeatures) (h : Blocked noDocId s docId) :
    add noDocId s docId features = none := by
  obtain ⟨h0, h1⟩ := h
  unfold add
  by_cases hd : docId = noDocId
  · simp [hd]
  · rw [if_neg hd, if_pos]
    rintro (h2 | h2 | ⟨h2, h3⟩)
    · exact h0 h2
    · rcases h1 with h1 | ⟨h1, _⟩ <;> omega
    · rcases h1 with h1 | ⟨h1, h4⟩
      · omega
      · rw [h3] at h4; exact Bool.noConfusion h4

theorem add_eq_some (noDocId : Nat) (s s1 : OrderedFieldIndexInserter) (docId : Nat)
    (features : DocIdAndFeatures) (h : add noDocId s docId features = some s1) :
    docId ≠ noDocId ∧
    (s._prevDocId = noDocId ∨ s._prevDocId < docId ∨
      (s._prevDocId = docId ∧ s._prevAdd = false)) ∧
    features.num_occs ≤ features.field_length ∧
    s1 = { s with
      _fieldIndex := (s._fieldIndex.addFeatures features).2,
      _adds := s._adds ++ [⟨docId, ⟨(s._fieldIndex.addFeatures features).1,
        cap_u16 features.num_occs, cap_u16 features.field_length⟩⟩],
      _prevDocId := docId,
      _prevAdd := true } := by
  unfold add at h
  by_cases hd : docId = noDocId
  · simp [hd] at h
  · rw [if_neg hd] at h
    by_cases ht : (s._prevDocId = noDocId ∨ s._prevDocId < docId ∨
        (s._prevDocId = docId ∧ s._prevAdd = false))
    · rw [if_neg (not_not.mpr ht)] at h
      by_cases hf : features.num_occs ≤ features.field_length
      · rw [if_neg (not_not.mpr hf)] at h
        exact ⟨hd, ht, hf, (Option.some.inj h).symm⟩
      · rw [if_pos hf] at h; exact Option.noConfusion h
    · rw [if_pos ht] at h; exact Option.noConfusion h

theorem add_eq_some_of (noDocId : Nat) (s : OrderedFieldIndexInserter) (docId : Nat)
    (features : DocIdAndFeatures) (hd : docId ≠ noDocId)
    (ht : s._prevDocId = noDocId ∨ s._prevDocId < docId ∨
      (s._prevDocId = docId ∧ s._prevAdd = false))
    (hf : features.num_occs ≤ features.field_length) :
    add noDocId s docId features = some { s with
      _fieldIndex := (s._fieldIndex.addFeatures features).2,
      _adds := s._adds ++ [⟨docId, ⟨(s._fieldIndex.addFeatures features).1,
        cap_u16 features.num_occs, cap_u16 features.field_length⟩⟩],
      _prevDocId := docId,
      _prevAdd := true } := by
  unfold add
  rw [if_neg hd, if_neg (not_not.mpr ht), if_neg (not_not.mpr hf)]

theorem remove_eq_some (noDocId : Nat) (s s1 : OrderedFieldIndexInserter) (docId : Nat)
    (h : remove noDocId s docId = some s1) :
    docId ≠ noDocId ∧ (s._prevDocId = noDocId ∨ s._prevDocId < docId) ∧
    s1 = { s with _removes := s._removes ++ [docId], _prevDocId := docId, _prevAdd := false } := by
  unfold remove at h
  by_cases hd : docId = noDocId
  · simp [hd] at h
  · rw [if_neg hd] at h
    by_cases ht : (s._prevDocId = noDocId ∨ s._prevDocId < docId)
    · rw [if_neg (not_not.mpr ht)] at h
      exact ⟨hd, ht, (Option.some.inj h).symm⟩
    · rw [if_pos ht] at h; exact Option.noConfusion h

theorem remove_eq_some_of (noDocId : Nat) (s : OrderedFieldIndexInserter) (docId : Nat)
    (hd : docId ≠ noDocId) (ht : s._prevDocId = noDocId ∨ s._prevDocId < docId) :
    remove noDocId s docId =
      some { s with _removes := s._removes ++ [docId], _prevDocId := docId, _prevAdd := false } := by
  unfold remove
  rw [if_neg hd, if_neg (not_not.mpr ht)]

theorem blocked_step (noDocId : Nat) (s s1 : OrderedFieldIndexInserter) (docId : Nat) (c : Call)
    (hc : c.isTermOp = true) (h : Blocked noDocId s docId) (hs : step noDocId s c = some s1) :
    Blocked noDocId s1 docId := by
  obtain ⟨h0, h1⟩ := h
  cases c with
  | add d f =>
    obtain ⟨hd, ht, _, rfl⟩ := add_eq_some noDocId s s1 d f hs
    refine ⟨hd, ?_⟩
    show docId < d ∨ (docId = d ∧ true = true)
    rcases ht with ht | ht | ⟨ht, hp⟩
    · exact absurd ht h0
    · rcases h1 with h1 | ⟨h1, _⟩
      · left; omega
      · left; omega
    · rcases h1 with h1 | ⟨h1, h2⟩
      · left; omega
      · rw [hp] at h2; exact Bool.noConfusion h2
  | remove d =>
    obtain ⟨hd, ht, rfl⟩ := remove_eq_some noDocId s s1 d hs
    refine ⟨hd, ?_⟩
    show docId < d ∨ (docId = d ∧ false = true)
    rcases ht with ht | ht
    · exact absurd ht h0
    · rcases h1 with h1 | ⟨h1, _⟩ <;> (left; omega)
  | setNextWord w => exact Bool.noConfusion hc
  | flushWord => exact Bool.noConfusion hc
  | flush => exact Bool.noConfusion hc
  | rewind => exact Bool.noConfusion hc

theorem blocked_run (noDocId : Nat) (docId : Nat) (ops : List Call) :
    ∀ (s s1 : OrderedFieldIndexInserter), (∀ c ∈ ops, c.isTermOp = true) →
      Blocked noDocId s docId → run noDocId s ops = some s1 → Blocked noDocId s1 docId := by
  induction ops with
  | nil =>
    intro s s1 _ h hr
    simp only [run, Option.some.injEq] at hr
    exact hr ▸ h
  | cons c cs ih =>
    intro s s1 hops h hr
    simp only [run] at hr
    cases hs : step noDocId s c with
    | none => rw [hs] at hr; exact Option.noConfusion hr
    | some s2 =>
      rw [hs] at hr
      exact ih s2 s1 (fun c hc => hops c (List.mem_cons_of_mem _ hc))
        (blocked_step noDocId s s2 docId c (hops c (List.mem_cons_self _ _)) h hs) hr

/-! ## Claims on `add`, `remove`, `setNextWord` and `cap_u16` -/

/-- C3: `add` rejects every docId ordering violation.  When a document id has
been seen in the current term, `add(docId, features)` aborts if `docId` is
below the last seen id, or equal to it after an add; and once `add(docId, _)`
was accepted, no later `add(docId, _)` of the same term is accepted, whatever
adds and removes were accepted in between. -/
theorem add_rejects_ordering_violation (noDocId : Nat) (s : OrderedFieldIndexInserter)
    (docId : Nat) (features : DocIdAndFeatures) :
    (s._prevDocId ≠ noDocId →
      (docId < s._prevDocId ∨ (docId = s._prevDocId ∧ s._prevAdd = true)) →
      add noDocId s docId features = none) ∧
    (∀ (s1 s2 : OrderedFieldIndexInserter) (ops : List Call) (features2 : DocIdAndFeatures),
      add noDocId s docId features = some s1 →
      (∀ c ∈ ops, c.isTermOp = true) →
      run noDocId s1 ops = some s2 →
      add noDocId s2 docId features2 = none) := by
  refine ⟨fun h0 h1 => add_none_of_blocked noDocId s docId features ⟨h0, h1⟩, ?_⟩
  intro s1 s2 ops features2 hadd hops hrun
  obtain ⟨hd, _, _, rfl⟩ := add_eq_some noDocId s s1 docId features hadd
  exact add_none_of_blocked noDocId s2 docId features2
    (blocked_run noDocId docId ops _ s2 hops ⟨hd, Or.inr ⟨rfl, rfl⟩⟩ hrun)

/-- Witness of C3: after `add(5)` in the term `"a"`, `add(3)` and a second
`add(5)` abort, also when `remove(7)` was accepted in between. -/
theorem add_rejects_ordering_violation_witness :
    add 4294967295 exampleAdded 3 exampleFeatures = none ∧
    add 4294967295 exampleAdded 5 exampleFeatures = none ∧
    add 4294967295 exampleOpen 5 exampleFeatures = some exampleAdded ∧
    run 4294967295 exampleAdded [Call.remove 7] =
      some { exampleAdded with _removes := [7], _prevDocId := 7, _prevAdd := false } ∧
    add 4294967295 { exampleAdded with _removes := [7], _prevDocId := 7, _prevAdd := false }
      5 largeFeatures = none :=
  ⟨(add_rejects_ordering_violation 4294967295 exampleAdded 3 exampleFeatures).1
      (by decide) (Or.inl (by decide)),
    (add_rejects_ordering_violation 4294967295 exampleAdded 5 exampleFeatures).1
      (by decide) (Or.inr ⟨rfl, rfl⟩),
    by decide,
    by decide,
    (add_rejects_ordering_violation 4294967295 exampleOpen 5 exampleFeatures).2
      exampleAdded _ [Call.remove 7] largeFeatures (by decide) (by decide) (by decide)⟩

/-- C4, counterexample: in the newly opened term `"a"`, where no document id
has been seen, `add` aborts for the document id `noDocId` and for features
whose occurrence count exceeds the field length; the second also after
`remove(5)`, for the same document id. -/
theorem add_precondition_counterexample :
    exampleOpen._prevDocId = 4294967295 ∧
    add 4294967295 exampleOpen 4294967295 exampleFeatures = none ∧
    add 4294967295 exampleOpen 5 inconsistentFeatures = none ∧
    (exampleRemoved._prevDocId = 5 ∧ exampleRemoved._prevAdd = false) ∧
    add 4294967295 exampleRemoved 5 inconsistentFeatures = none := by
  decide

/-- C4, amended: `add(docId, features)` is accepted whenever `docId` is not
`noDocId`, the occurrence count of `features` does not exceed its field
length, and `docId` is greater than the last seen document id of the term (or
none has been seen yet), or equal to it with the prior operation a remove. -/
theorem add_accepts (noDocId : Nat) (s : OrderedFieldIndexInserter) (docId : Nat)
    (features : DocIdAndFeatures) (hd : docId ≠ noDocId)
    (hf : features.num_occs ≤ features.field_length)
    (ht : s._prevDocId = noDocId ∨ s._prevDocId < docId ∨
      (s._prevDocId = docId ∧ s._prevAdd = false)) :
    (add noDocId s docId features).isSome = true := by
  rw [add_eq_some_of noDocId s docId features hd ht hf]
  rfl

/-- Witness of C4: `add(5, exampleFeatures)` after `remove(5)`. -/
theorem add_accepts_witness :
    (add 4294967295 exampleRemoved 5 exampleFeatures).isSome = true :=
  add_accepts 4294967295 exampleRemoved 5 exampleFeatures (by decide) (by decide)
    (Or.inr (Or.inr ⟨rfl, rfl⟩))

/-- C5: an accepted `add(docId, features)` appends exactly one record, made of
`docId`, the reference the feature store returned for `features` and the two
capped counters, at the end of `_adds`, and sets the tracker to
`(docId, isAdd = true)`; `_removes`, `_word_entries`, both offsets, the current
term and the iterator are unchanged. -/
theorem add_appends_record (noDocId : Nat) (s s1 : OrderedFieldIndexInserter) (docId : Nat)
    (features : DocIdAndFeatures) (h : add noDocId s docId features = some s1) :
    s1._adds = s._adds ++ [⟨docId, ⟨(s._fieldIndex.addFeatures features).1,
      cap_u16 features.num_occs, cap_u16 features.field_length⟩⟩] ∧
    s1._prevDocId = docId ∧ s1._prevAdd = true ∧
    s1._removes = s._removes ∧ s1._word_entries = s._word_entries ∧
    s1._adds_offset = s._adds_offset ∧ s1._removes_offset = s._removes_offset ∧
    s1._word = s._word ∧ s1._dItr = s._dItr ∧
    s1._fieldIndex = (s._fieldIndex.addFeatures features).2 := by
  obtain ⟨_, _, _, rfl⟩ := add_eq_some noDocId s s1 docId features h
  exact ⟨rfl, rfl, rfl, rfl, rfl, rfl, rfl, rfl, rfl, rfl⟩

/-- Witness of C5: the second add of the term `"a"` goes behind the first. -/
theorem add_appends_record_witness :
    add 4294967295 exampleAdded 9 largeFeatures = some
      { exampleAdded with
        _fieldIndex := (exampleAdded._fieldIndex.addFeatures largeFeatures).2,
        _adds := [⟨5, ⟨0, 1, 3⟩⟩, ⟨9, ⟨1, 65535, 65535⟩⟩],
        _prevDocId := 9 } ∧
    ({ exampleAdded with
        _fieldIndex := (exampleAdded._fieldIndex.addFeatures largeFeatures).2,
        _adds := [⟨5, ⟨0, 1, 3⟩⟩, ⟨9, ⟨1, 65535, 65535⟩⟩],
        _prevDocId := 9 } : OrderedFieldIndexInserter)._adds =
      exampleAdded._adds ++ [⟨9, ⟨1, 65535, 65535⟩⟩] :=
  ⟨by decide,
    (add_appends_record 4294967295 exampleAdded _ 9 largeFeatures (by decide)).1⟩

theorem cap_u16_eq_min (val : Nat) : cap_u16 val = min val 65535 := by
  unfold cap_u16
  apply Nat.mod_eq_of_lt
  have : min val 65535 ≤ 65535 := Nat.min_le_right _ _
  omega

/-- C6: `cap_u16(v)` is `65535` when `v > 65535` and `v` when `v ≤ 65535`,
that is `min(v, 65535)` with no truncation modulo `2 ^ 16`, for every `v` (in
particular every 32-bit one); hence the record an accepted `add` appends holds
`min(num_occs, 65535)` and `min(field_length, 65535)`. -/
theorem cap_u16_correct (val : Nat) :
    (65535 < val → cap_u16 val = 65535) ∧
    (val ≤ 65535 → cap_u16 val = val) ∧
    cap_u16 val = min val 65535 ∧
    (∀ (noDocId : Nat) (s s1 : OrderedFieldIndexInserter) (docId : Nat)
      (features : DocIdAndFeatures),
      add noDocId s docId features = some s1 →
      ∃ r, s1._adds = s._adds ++ [r] ∧ r._key = docId ∧
        r.data.num_occs = min features.num_occs 65535 ∧
        r.data.field_length = min features.field_length 65535) := by
  refine ⟨fun h => ?_, fun h => ?_, cap_u16_eq_min val, ?_⟩
  · rw [cap_u16_eq_min]; omega
  · rw [cap_u16_eq_min]; omega
  · intro noDocId s s1 docId features h
    obtain ⟨_, _, _, rfl⟩ := add_eq_some noDocId s s1 docId features h
    exact ⟨_, rfl, rfl, cap_u16_eq_min _, cap_u16_eq_min _⟩

/-- Witness of C6: `cap_u16` at `70000`, `65536`, `65535` and `12`, and the
record stored for features with counters `70000` and `80000`. -/
theorem cap_u16_correct_witness :
    cap_u16 70000 = 65535 ∧ cap_u16 65536 = 65535 ∧ cap_u16 65535 = 65535 ∧ cap_u16 12 = 12 ∧
    ∃ r, (exampleAdded._adds ++ [(⟨9, ⟨1, 65535, 65535⟩⟩ : PostingListKeyDataType)]) =
        exampleAdded._adds ++ [r] ∧ r._key = 9 ∧
      r.data.num_occs = min largeFeatures.num_occs 65535 ∧
      r.data.field_length = min largeFeatures.field_length 65535 :=
  ⟨(cap_u16_correct 70000).1 (by decide), (cap_u16_correct 65536).1 (by decide),
    (cap_u16_correct 65535).2.1 (by decide), (cap_u16_correct 12).2.1 (by decide),
    (cap_u16_correct 0).2.2.2 4294967295 exampleAdded
      { exampleAdded with
        _fieldIndex := (exampleAdded._fieldIndex.addFeatures largeFeatures).2,
        _adds := [⟨5, ⟨0, 1, 3⟩⟩, ⟨9, ⟨1, 65535, 65535⟩⟩],
        _prevDocId := 9 } 9 largeFeatures (by decide)⟩

/-- C7: `remove(docId)` aborts whenever a document id has been seen in the
current term and `docId` is not strictly greater than it, so a remove directly
after an accepted add or remove of the same id aborts; an accepted remove
appends `docId` at the end of `_removes`, sets the tracker to
`(docId, isAdd = false)` and leaves `_adds`, `_word_entries`, the offsets, the
current term, the iterator and the field index unchanged. -/
theorem remove_contract (noDocId : Nat) (s : OrderedFieldIndexInserter) (docId : Nat) :
    (s._prevDocId ≠ noDocId → ¬ s._prevDocId < docId → remove noDocId s docId = none) ∧
    (∀ s0 features, add noDocId s0 docId features = some s → remove noDocId s docId = none) ∧
    (∀ s0, remove noDocId s0 docId = some s → remove noDocId s docId = none) ∧
    (∀ s1, remove noDocId s docId = some s1 →
      s1._removes = s._removes ++ [docId] ∧ s1._prevDocId = docId ∧ s1._prevAdd = false ∧
      s1._adds = s._adds ∧ s1._word_entries = s._word_entries ∧
      s1._adds_offset = s._adds_offset ∧ s1._removes_offset = s._removes_offset ∧
      s1._word = s._word ∧ s1._dItr = s._dItr ∧ s1._fieldIndex = s._fieldIndex) := by
  have key : s._prevDocId ≠ noDocId → ¬ s._prevDocId < docId →
      remove noDocId s docId = none := by
    intro h0 h1
    unfold remove
    by_cases hd : docId = noDocId
    · simp [hd]
    · rw [if_neg hd, if_pos]
      rintro (h2 | h2)
      · exact h0 h2
      · exact h1 h2
  refine ⟨key, ?_, ?_, ?_⟩
  · intro s0 features h
    obtain ⟨hd, _, _, rfl⟩ := add_eq_some noDocId s0 s docId features h
    exact key hd (lt_irrefl docId)
  · intro s0 h
    obtain ⟨hd, _, rfl⟩ := remove_eq_some noDocId s0 s docId h
    exact key hd (lt_irrefl docId)
  · intro s1 h
    obtain ⟨_, _, rfl⟩ := remove_eq_some noDocId s s1 docId h
    exact ⟨rfl, rfl, rfl, rfl, rfl, rfl, rfl, rfl, rfl, rfl⟩

/-- Witness of C7: after `add(5)`, `remove(5)` and `remove(4)` abort and
`remove(8)` appends `8`. -/
theorem remove_contract_witness :
    remove 4294967295 exampleAdded 4 = none ∧
    remove 4294967295 exampleAdded 5 = none ∧
    remove 4294967295 exampleRemoved 5 = none ∧
    remove 4294967295 exampleAdded 8 =
      some { exampleAdded with _removes := [8], _prevDocId := 8, _prevAdd := false } ∧
    ({ exampleAdded with _removes := [8], _prevDocId := 8, _prevAdd := false } :
      OrderedFieldIndexInserter)._removes = exampleAdded._removes ++ [8] :=
  ⟨(remove_contract 4294967295 exampleAdded 4).1 (by decide) (by decide),
    (remove_contract 4294967295 exampleAdded 5).2.1 exampleOpen exampleFeatures (by decide),
    (remove_contract 4294967295 exampleRemoved 5).2.2.1 exampleOpen (by decide),
    by decide,
    ((remove_contract 4294967295 exampleAdded 8).2.2.2 _ (by decide)).1⟩

theorem setNextWord_eq_some_of (noDocId : Nat) (s : OrderedFieldIndexInserter) (word : Word)
    (h : s._word < word) :
    setNextWord noDocId s word =
      some { flushWord s with _word := word, _prevDocId := noDocId, _prevAdd := false } := by
  have hw : (flushWord s)._word = s._word := by
    unfold flushWord; split <;> rfl
  simp only [setNextWord, hw, if_pos h]

theorem setNextWord_eq_some (noDocId : Nat) (s s1 : OrderedFieldIndexInserter) (word : Word)
    (h : setNextWord noDocId s word = some s1) :
    s._word < word ∧
      s1 = { flushWord s with _word := word, _prevDocId := noDocId, _prevAdd := false } := by
  have hw : (flushWord s)._word = s._word := by
    unfold flushWord; split <;> rfl
  by_cases hlt : s._word < word
  · simp only [setNextWord, hw, if_pos hlt, Option.some.injEq] at h
    exact ⟨hlt, h.symm⟩
  · simp only [setNextWord, hw, if_neg hlt] at h
    exact Option.noConfusion h

/-- C8: `setNextWord(term)` aborts unless `term` is strictly greater than the
previous term; when accepted, the result is the state `flushWord` leaves, with
`term` as the current term and the tracker reset to `(noDocId, isAdd = false)`,
and `_adds` and `_removes` are those of the state before the call. -/
theorem setNextWord_contract (noDocId : Nat) (s : OrderedFieldIndexInserter) (word : Word) :
    (¬ s._word < word → setNextWord noDocId s word = none) ∧
    (s._word < word → setNextWord noDocId s word =
      some { flushWord s with _word := word, _prevDocId := noDocId, _prevAdd := false }) ∧
    (∀ s1, setNextWord noDocId s word = some s1 →
      s._word < word ∧
      s1 = { flushWord s with _word := word, _prevDocId := noDocId, _prevAdd := false } ∧
      s1._adds = s._adds ∧ s1._removes = s._removes) := by
  have ha : (flushWord s)._adds = s._adds := by
    unfold flushWord; split <;> rfl
  have hr : (flushWord s)._removes = s._removes := by
    unfold flushWord; split <;> rfl
  refine ⟨fun h => ?_, setNextWord_eq_some_of noDocId s word, fun s1 h => ?_⟩
  · cases hs : setNextWord noDocId s word with
    | none => rfl
    | some s1 => exact absurd (setNextWord_eq_some noDocId s s1 word hs).1 h
  · obtain ⟨hlt, rfl⟩ := setNextWord_eq_some noDocId s s1 word h
    exact ⟨hlt, rfl, ha, hr⟩

/-- Witness of C8: in the term `"a"` with one pending add, `setNextWord("a")`
and `setNextWord("")` abort and `setNextWord("b")` queues `("a", 1, 0)`. -/
theorem setNextWord_contract_witness :
    setNextWord 4294967295 exampleAdded [97] = none ∧
    setNextWord 4294967295 exampleAdded [] = none ∧
    setNextWord 4294967295 exampleAdded [98] = some
      { exampleAdded with
        _word := [98], _prevDocId := 4294967295, _prevAdd := false,
        _word_entries := [([97], 1, 0)], _adds_offset := 1 } ∧
    (flushWord exampleAdded)._adds = exampleAdded._adds :=
  ⟨(setNextWord_contract 4294967295 exampleAdded [97]).1 (by decide),
    (setNextWord_contract 4294967295 exampleAdded []).1 (by decide),
    by decide,
    ((setNextWord_contract 4294967295 exampleAdded [98]).2.2 _
      ((setNextWord_contract 4294967295 exampleAdded [98]).2.1 (by decide))).2.2.1⟩

theorem postingListOf_nil (x : Word) : postingListOf [] x = [] := rfl

theorem postingListOf_cons (k : Word) (v : PostingList) (rest : List (Word × PostingList)) (x : Word) :
    postingListOf ((k, v) :: rest) x = if k = x then v else postingListOf rest x := by
  unfold postingListOf
  by_cases h : k = x
  · simp [List.find?_cons, h]
  · simp [List.find?_cons, h]

theorem postingListOf_absent (V : List (Word × PostingList)) (x : Word)
    (h : ∀ e ∈ V, e.1 ≠ x) : postingListOf V x = [] := by
  induction V with
  | nil => rfl
  | cons e rest ih =>
    obtain ⟨k, v⟩ := e
    rw [postingListOf_cons, if_neg (h (k, v) (List.mem_cons_self _ _))]
    exact ih (fun e he => h e (List.mem_cons_of_mem _ he))

theorem upsertEntries_append (w : Word) (g : PostingList → PostingList) (pre hi : List (Word × PostingList))
    (h : ∀ e ∈ pre, e.1 < w) :
    upsertEntries w g (pre ++ hi) = pre ++ upsertEntries w g hi := by
  induction pre with
  | nil => rfl
  | cons e rest ih =>
    obtain ⟨k, v⟩ := e
    have hk : k < w := h (k, v) (List.mem_cons_self _ _)
    have e1 : upsertEntries w g ((k, v) :: (rest ++ hi)) =
        (k, v) :: upsertEntries w g (rest ++ hi) := by
      simp only [upsertEntries, if_pos hk]
    rw [List.cons_append, e1, ih (fun e he => h e (List.mem_cons_of_mem _ he)), List.cons_append]

theorem postingListOf_upsert_other (w x : Word) (g : PostingList → PostingList) (V : List (Word × PostingList))
    (hx : x ≠ w) : postingListOf (upsertEntries w g V) x = postingListOf V x := by
  induction V with
  | nil =>
    simp only [upsertEntries]
    rw [postingListOf_cons, if_neg (Ne.symm hx)]
  | cons e rest ih =>
    obtain ⟨k, v⟩ := e
    simp only [upsertEntries]
    by_cases h1 : k < w
    · rw [if_pos h1, postingListOf_cons, postingListOf_cons, ih]
    · rw [if_neg h1]
      by_cases h2 : w < k
      · rw [if_pos h2, postingListOf_cons, if_neg (Ne.symm hx)]
      · rw [if_neg h2]
        have hkw : k = w := le_antisymm (not_lt.mp h2) (not_lt.mp h1)
        rw [postingListOf_cons, postingListOf_cons, if_neg (by rw [hkw]; exact Ne.symm hx),
          if_neg (by rw [hkw]; exact Ne.symm hx)]

theorem postingListOf_upsert_same (w : Word) (g : PostingList → PostingList) (V : List (Word × PostingList))
    (hs : (V.map Prod.fst).Pairwise (· < ·)) :
    postingListOf (upsertEntries w g V) w = g (postingListOf V w) := by
  induction V with
  | nil =>
    simp only [upsertEntries]
    rw [postingListOf_cons, if_pos rfl, postingListOf_nil]
  | cons e rest ih =>
    obtain ⟨k, v⟩ := e
    simp only [List.map_cons, List.pairwise_cons] at hs
    simp only [upsertEntries]
    by_cases h1 : k < w
    · rw [if_pos h1, postingListOf_cons, postingListOf_cons, if_neg (ne_of_lt h1),
        if_neg (ne_of_lt h1), ih hs.2]
    · rw [if_neg h1]
      by_cases h2 : w < k
      · rw [if_pos h2, postingListOf_cons, if_pos rfl, postingListOf_cons,
          if_neg (ne_of_gt h2), postingListOf_absent]
        intro e he heq
        have := hs.1 e.1 (List.mem_map_of_mem Prod.fst he)
        rw [heq] at this
        exact lt_asymm h2 this
      · rw [if_neg h2]
        have hkw : k = w := le_antisymm (not_lt.mp h2) (not_lt.mp h1)
        rw [postingListOf_cons, postingListOf_cons, if_pos hkw, if_pos hkw]

theorem mem_upsert_terms (w x : Word) (g : PostingList → PostingList) (V : List (Word × PostingList)) :
    x ∈ (upsertEntries w g V).map Prod.fst ↔ x = w ∨ x ∈ V.map Prod.fst := by
  induction V with
  | nil => simp [upsertEntries]
  | cons e rest ih =>
    obtain ⟨k, v⟩ := e
    simp only [upsertEntries]
    by_cases h1 : k < w
    · rw [if_pos h1]
      simp only [List.map_cons, List.mem_cons, ih]
      tauto
    · rw [if_neg h1]
      by_cases h2 : w < k
      · rw [if_pos h2]
        simp only [List.map_cons, List.mem_cons]
      · rw [if_neg h2]
        have hkw : k = w := le_antisymm (not_lt.mp h2) (not_lt.mp h1)
        simp only [List.map_cons, List.mem_cons, hkw]
        tauto

theorem upsert_sorted (w : Word) (g : PostingList → PostingList) (V : List (Word × PostingList))
    (hs : (V.map Prod.fst).Pairwise (· < ·)) :
    ((upsertEntries w g V).map Prod.fst).Pairwise (· < ·) := by
  induction V with
  | nil => simp [upsertEntries]
  | cons e rest ih =>
    obtain ⟨k, v⟩ := e
    simp only [List.map_cons, List.pairwise_cons] at hs
    simp only [upsertEntries]
    by_cases h1 : k < w
    · rw [if_pos h1]
      simp only [List.map_cons, List.pairwise_cons]
      refine ⟨?_, ih hs.2⟩
      intro x hx
      rcases (mem_upsert_terms w x g rest).mp hx with rfl | hx
      · exact h1
      · exact hs.1 x hx
    · rw [if_neg h1]
      by_cases h2 : w < k
      · rw [if_pos h2]
        simp only [List.map_cons, List.pairwise_cons, List.mem_cons]
        refine ⟨?_, hs⟩
        rintro x (rfl | hx)
        · exact h2
        · exact lt_trans h2 (hs.1 x hx)
      · rw [if_neg h2]
        simp only [List.map_cons, List.pairwise_cons]
        exact hs

/-! ## List facts used by the loop of `flush` -/

theorem getElem?_length_append {α : Type} (pre hi : List α) :
    (pre ++ hi)[pre.length]? = hi.head? := by
  induction pre with
  | nil => cases hi <;> simp
  | cons a pre ih => simpa using ih

theorem set_length_append {α : Type} (pre rest : List α) (a b : α) :
    (pre ++ a :: rest).set pre.length b = pre ++ b :: rest := by
  induction pre with
  | nil => rfl
  | cons x pre ih => simp [ih]

theorem take_length_append {α : Type} (pre rest : List α) :
    (pre ++ rest).take pre.length = pre := by
  simp

theorem drop_length_append {α : Type} (pre rest : List α) :
    (pre ++ rest).drop pre.length = rest := by
  simp

theorem takeWhile_stop {α : Type} (p : α → Bool) (l : List α) (e : α)
    (h : l[(l.takeWhile p).length]? = some e) : p e = false := by
  induction l with
  | nil => simp at h
  | cons a l ih =>
    by_cases ha : p a = true
    · simp only [List.takeWhile_cons, ha, if_true, List.length_cons, List.getElem?_cons_succ] at h
      exact ih h
    · simp only [List.takeWhile_cons, ha, Bool.false_eq_true, if_false, List.length_nil,
        List.getElem?_cons_zero, Option.some.injEq] at h
      rw [← h]
      simpa using ha

theorem take_takeWhile_length {α : Type} (p : α → Bool) (l : List α) :
    l.take (l.takeWhile p).length = l.takeWhile p := by
  induction l with
  | nil => rfl
  | cons a l ih =>
    by_cases ha : p a = true
    · simp [List.takeWhile_cons, ha, ih]
    · simp [List.takeWhile_cons, ha]

theorem takeWhile_length_le {α : Type} (p : α → Bool) (l : List α) :
    (l.takeWhile p).length ≤ l.length := by
  induction l with
  | nil => simp
  | cons a l ih =>
    by_cases ha : p a = true
    · simp [List.takeWhile_cons, ha, ih]
    · simp [List.takeWhile_cons, ha]

/-! ## One loop step of `flush` -/

theorem mergeCalls_append (a b : List Event) :
    mergeCalls (a ++ b) = mergeCalls a ++ mergeCalls b := by
  induction a with
  | nil => rfl
  | cons e a ih => cases e <;> simp [mergeCalls, ih]

theorem mergeCalls_listenerInsert (k : Nat) (adds : List PostingListKeyDataType) :
    mergeCalls (adds.map (fun a => Event.listenerInsert k a._key)) = [] := by
  induction adds with
  | nil => rfl
  | cons a adds ih => simp [mergeCalls, ih]

theorem flushSeek_spec (s : OrderedFieldIndexInserter) (w : Word)
    (hle : s._dItr ≤ s._fieldIndex.dictionary.length)
    (hlt : ∀ e ∈ s._fieldIndex.dictionary.take s._dItr, s._fieldIndex.getWord e.1 < w) :
    ∃ j tr, flushSeek s w =
        { s with _dItr := j, _fieldIndex := { s._fieldIndex with trace := tr } } ∧
      j ≤ s._fieldIndex.dictionary.length ∧
      (∀ e ∈ s._fieldIndex.dictionary.take j, s._fieldIndex.getWord e.1 < w) ∧
      (∀ e, s._fieldIndex.dictionary[j]? = some e → ¬ s._fieldIndex.getWord e.1 < w) ∧
      mergeCalls tr = mergeCalls s._fieldIndex.trace ∧
      (∃ ext, tr = s._fieldIndex.trace ++ ext) := by
  unfold flushSeek dItrEntry
  cases h : s._fieldIndex.dictionary[s._dItr]? with
  | none =>
    refine ⟨s._dItr, s._fieldIndex.trace, rfl, hle, hlt, ?_, rfl, [], by simp⟩
    intro e he
    rw [h] at he
    exact Option.noConfusion he
  | some e =>
    by_cases hw : s._fieldIndex.getWord e.1 < w
    · simp only [if_pos hw]
      refine ⟨_, _, rfl, ?_, ?_, ?_, ?_, [Event.binarySeek w], rfl⟩
      · unfold FieldIndex.binarySeek
        have := takeWhile_length_le (fun e => decide (s._fieldIndex.getWord e.1 < w))
          (s._fieldIndex.dictionary.drop s._dItr)
        rw [List.length_drop] at this
        omega
      · intro e1 he1
        unfold FieldIndex.binarySeek at he1
        rw [List.take_add, take_takeWhile_length, List.mem_append] at he1
        rcases he1 with he1 | he1
        · exact hlt e1 he1
        · have := List.mem_takeWhile_imp he1
          simpa using this
      · intro e1 he1
        unfold FieldIndex.binarySeek at he1
        rw [← List.getElem?_drop] at he1
        have := takeWhile_stop _ _ _ he1
        simpa using this
      · rw [mergeCalls_append]
        simp [mergeCalls]
    · simp only [if_neg hw]
      refine ⟨s._dItr, s._fieldIndex.trace, rfl, hle, hlt, ?_, rfl, [], by simp⟩
      intro e1 he1
      rw [h] at he1
      cases he1
      exact hw

theorem getWord_addWord_old (fi : FieldIndex) (w : Word) (r : Nat)
    (hr : r < fi.wordStore.length) :
    (fi.addWord w).2.getWord r = fi.getWord r := by
  simp only [FieldIndex.getWord, FieldIndex.addWord, List.getD_eq_getElem?_getD]
  rw [List.getElem?_append_left hr]

theorem getWord_addWord_new (fi : FieldIndex) (w : Word) :
    (fi.addWord w).2.getWord (fi.addWord w).1 = w := by
  simp [FieldIndex.getWord, FieldIndex.addWord]

theorem flushInsert_spec (s : OrderedFieldIndexInserter) (w : Word)
    (hkeys : ∀ e ∈ s._fieldIndex.dictionary, e.1 < s._fieldIndex.wordStore.length)
    (hhead : ∀ e, s._fieldIndex.dictionary[s._dItr]? = some e → ¬ s._fieldIndex.getWord e.1 < w) :
    ∃ fi2 k old rest, flushInsert s w = { s with _fieldIndex := fi2 } ∧
      fi2.dictionary = s._fieldIndex.dictionary.take s._dItr ++ (k, old) :: rest ∧
      fi2.getWord k = w ∧
      (∀ e ∈ fi2.dictionary, e.1 < fi2.wordStore.length) ∧
      (∀ r, r < s._fieldIndex.wordStore.length → fi2.getWord r = s._fieldIndex.getWord r) ∧
      (∀ e ∈ rest, e.1 < s._fieldIndex.wordStore.length) ∧
      (∀ g, upsertEntries w g
          ((s._fieldIndex.dictionary.drop s._dItr).map
            (fun e => (s._fieldIndex.getWord e.1, e.2))) =
        (w, g old) :: rest.map (fun e => (s._fieldIndex.getWord e.1, e.2))) ∧
      mergeCalls fi2.trace = mergeCalls s._fieldIndex.trace ∧
      (∃ ext, fi2.trace = s._fieldIndex.trace ++ ext) := by
  unfold flushInsert dItrEntry
  cases h : s._fieldIndex.dictionary[s._dItr]? with
  | none =>
    have hge : s._fieldIndex.dictionary.length ≤ s._dItr := List.getElem?_eq_none_iff.mp h
    have hdrop : s._fieldIndex.dictionary.drop s._dItr = [] := List.drop_eq_nil_of_le hge
    simp only [if_true]
    refine ⟨_, s._fieldIndex.wordStore.length, [], [], rfl, ?_, ?_, ?_, ?_, ?_, ?_, ?_, ?_⟩
    · simp [FieldIndex.dictInsert, FieldIndex.addWord, hdrop]
    · exact getWord_addWord_new s._fieldIndex w
    · intro e he
      simp only [FieldIndex.dictInsert, FieldIndex.addWord, hdrop, List.mem_append,
        List.mem_singleton, List.length_append, List.length_singleton] at he ⊢
      rcases he with he | rfl
      · have := hkeys e (List.mem_of_mem_take he)
        omega
      · simp
    · intro r hr
      exact getWord_addWord_old s._fieldIndex w r hr
    · intro e he
      simp at he
    · intro g
      rw [hdrop]
      rfl
    · simp [FieldIndex.dictInsert, FieldIndex.addWord, mergeCalls_append, mergeCalls]
    · exact ⟨[Event.addWord w, Event.dictInsert s._fieldIndex.wordStore.length], by
        simp [FieldIndex.dictInsert, FieldIndex.addWord]⟩
  | some e =>
    have hlt : s._dItr < s._fieldIndex.dictionary.length := by
      by_contra hc
      rw [List.getElem?_eq_none_iff.mpr (not_lt.mp hc)] at h
      exact Option.noConfusion h
    have hget : s._fieldIndex.dictionary[s._dItr] = e := by
      rw [List.getElem?_eq_getElem hlt] at h
      exact Option.some.inj h
    have hdrop : s._fieldIndex.dictionary.drop s._dItr =
        e :: s._fieldIndex.dictionary.drop (s._dItr + 1) := by
      rw [← hget]
      exact List.drop_eq_getElem_cons hlt
    have hnlt : ¬ s._fieldIndex.getWord e.1 < w := hhead e h
    by_cases hw : w < s._fieldIndex.getWord e.1
    · simp only [hw, decide_True, if_true]
      refine ⟨_, s._fieldIndex.wordStore.length, [],
        e :: s._fieldIndex.dictionary.drop (s._dItr + 1), rfl, ?_, ?_, ?_, ?_, ?_, ?_, ?_, ?_⟩
      · simp [FieldIndex.dictInsert, FieldIndex.addWord, hdrop]
      · exact getWord_addWord_new s._fieldIndex w
      · intro e1 he1
        simp only [FieldIndex.dictInsert, FieldIndex.addWord, List.mem_append,
          List.mem_cons, List.length_append, List.length_singleton] at he1 ⊢
        rcases he1 with he1 | rfl | he1
        · have := hkeys e1 (List.mem_of_mem_take he1)
          omega
        · simp
        · have := hkeys e1 (List.mem_of_mem_drop he1)
          omega
      · intro r hr
        exact getWord_addWord_old s._fieldIndex w r hr
      · intro e1 he1
        rw [← hdrop] at he1
        exact hkeys e1 (List.mem_of_mem_drop he1)
      · intro g
        rw [hdrop]
        simp only [List.map_cons, upsertEntries, if_neg hnlt, if_pos hw]
      · simp [FieldIndex.dictInsert, FieldIndex.addWord, mergeCalls_append, mergeCalls]
      · exact ⟨[Event.addWord w, Event.dictInsert s._fieldIndex.wordStore.length], by
          simp [FieldIndex.dictInsert, FieldIndex.addWord]⟩
    · simp only [hw, decide_False, Bool.false_eq_true, if_false]
      have heq : s._fieldIndex.getWord e.1 = w := le_antisymm (not_lt.mp hw) (not_lt.mp hnlt)
      refine ⟨s._fieldIndex, e.1, e.2, s._fieldIndex.dictionary.drop (s._dItr + 1), rfl,
        ?_, heq, hkeys, fun _ _ => rfl, ?_, ?_, rfl, [], by simp⟩
      · rw [← hdrop, List.take_append_drop]
      · intro e1 he1
        exact hkeys e1 (List.mem_of_mem_drop he1)
      · intro g
        rw [hdrop]
        simp only [List.map_cons, upsertEntries, if_neg hnlt, if_neg hw, heq]
        simp

theorem flushApply_spec (s : OrderedFieldIndexInserter) (w : Word)
    (adds : List PostingListKeyDataType) (removes : List Nat)
    (pre rest : List (Nat × PostingList)) (k : Nat) (old : PostingList)
    (hdict : s._fieldIndex.dictionary = pre ++ (k, old) :: rest)
    (hitr : s._dItr = pre.length) (hk : s._fieldIndex.getWord k = w) :
    ∃ fi3, flushApply s w adds removes = some { s with _fieldIndex := fi3 } ∧
      fi3.dictionary = pre ++ (k, PostingListStore.apply old adds removes) :: rest ∧
      fi3.wordStore = s._fieldIndex.wordStore ∧
      mergeCalls fi3.trace = mergeCalls s._fieldIndex.trace ++ [(adds, removes)] ∧
      (∃ ext, fi3.trace = s._fieldIndex.trace ++ ext) := by
  have hentry : s._fieldIndex.dictionary[s._dItr]? = some (k, old) := by
    rw [hdict, hitr, getElem?_length_append]
    rfl
  unfold flushApply dItrEntry
  rw [hentry]
  simp only [hk, ne_eq, not_true_eq_false, if_false]
  by_cases hp : PostingListStore.apply old adds removes = old
  · simp only [hp, not_true_eq_false, if_false]
    refine ⟨_, rfl, ?_, rfl, ?_, ?_⟩
    · exact hdict
    · simp [mergeCalls_append, mergeCalls_listenerInsert, mergeCalls]
    · exact ⟨_, List.append_assoc _ _ _⟩
  · simp only [hp, not_false_eq_true, if_true]
    refine ⟨_, rfl, ?_, rfl, ?_, ?_⟩
    · simp only [hdict, hitr]
      exact set_length_append pre rest _ _
    · simp [mergeCalls_append, mergeCalls_listenerInsert, mergeCalls]
    · exact ⟨_, by simp only [List.append_assoc]; rfl⟩

theorem getWord_congr (fi1 fi2 : FieldIndex) (h : fi1.wordStore = fi2.wordStore) (r : Nat) :
    fi1.getWord r = fi2.getWord r := by
  unfold FieldIndex.getWord
  rw [h]

theorem flushEntry_spec (s : OrderedFieldIndexInserter) (adds_offset removes_offset : Nat)
    (word_entry : Word × Nat × Nat)
    (hkeys : ∀ e ∈ s._fieldIndex.dictionary, e.1 < s._fieldIndex.wordStore.length)
    (hle : s._dItr ≤ s._fieldIndex.dictionary.length)
    (hlt : ∀ e ∈ s._fieldIndex.dictionary.take s._dItr,
      s._fieldIndex.getWord e.1 < word_entry.1) :
    ∃ s3, flushEntry s adds_offset removes_offset word_entry =
        some (s3, adds_offset + word_entry.2.1, removes_offset + word_entry.2.2) ∧
      s3 = { s with _dItr := s3._dItr, _fieldIndex := s3._fieldIndex } ∧
      s3._fieldIndex.entries = upsertEntries word_entry.1
        (fun p => PostingListStore.apply p ((s._adds.drop adds_offset).take word_entry.2.1)
          ((s._removes.drop removes_offset).take word_entry.2.2)) s._fieldIndex.entries ∧
      (∀ e ∈ s3._fieldIndex.dictionary, e.1 < s3._fieldIndex.wordStore.length) ∧
      s3._dItr ≤ s3._fieldIndex.dictionary.length ∧
      (∀ e ∈ s3._fieldIndex.dictionary.take s3._dItr,
        s3._fieldIndex.getWord e.1 < word_entry.1) ∧
      mergeCalls s3._fieldIndex.trace = mergeCalls s._fieldIndex.trace ++
        [((s._adds.drop adds_offset).take word_entry.2.1,
          (s._removes.drop removes_offset).take word_entry.2.2)] ∧
      (∃ ext, s3._fieldIndex.trace = s._fieldIndex.trace ++ ext) := by
  obtain ⟨j, tr, hs1, hj, hjlt, hjhead, hm1, ext1, hext1⟩ :=
    flushSeek_spec s word_entry.1 hle hlt
  obtain ⟨fi2, k, old, rest, hs2, hd2, hk2, hkeys2, hstable, hrest, hups, hm2, ext2, hext2⟩ :=
    flushInsert_spec
      { s with _dItr := j, _fieldIndex := { s._fieldIndex with trace := tr } }
      word_entry.1 hkeys hjhead
  have hlen : (s._fieldIndex.dictionary.take j).length = j := by
    rw [List.length_take]; omega
  have hd2 : fi2.dictionary = s._fieldIndex.dictionary.take j ++ (k, old) :: rest := hd2
  have hstable : ∀ r, r < s._fieldIndex.wordStore.length →
      fi2.getWord r = s._fieldIndex.getWord r := hstable
  have hrest : ∀ e ∈ rest, e.1 < s._fieldIndex.wordStore.length := hrest
  have hups : ∀ g, upsertEntries word_entry.1 g
      ((s._fieldIndex.dictionary.drop j).map (fun e => (s._fieldIndex.getWord e.1, e.2))) =
      (word_entry.1, g old) :: rest.map (fun e => (s._fieldIndex.getWord e.1, e.2)) := hups
  have hm2 : mergeCalls fi2.trace = mergeCalls tr := hm2
  have hext2 : fi2.trace = tr ++ ext2 := hext2
  obtain ⟨fi3, hs3, hd3, hws3, hm3, ext3, hext3⟩ :=
    flushApply_spec
      { s with _dItr := j, _fieldIndex := fi2 } word_entry.1
      ((s._adds.drop adds_offset).take word_entry.2.1)
      ((s._removes.drop removes_offset).take word_entry.2.2)
      (s._fieldIndex.dictionary.take j) rest k old hd2 hlen.symm hk2
  have hw32 : ∀ r, fi3.getWord r = fi2.getWord r := getWord_congr fi3 fi2 hws3
  have hpre : ∀ e ∈ s._fieldIndex.dictionary.take j,
      fi3.getWord e.1 = s._fieldIndex.getWord e.1 := by
    intro e he
    rw [hw32]
    exact hstable e.1 (hkeys e (List.mem_of_mem_take he))
  refine ⟨{ s with _dItr := j, _fieldIndex := fi3 }, ?_, rfl, ?_, ?_, ?_, ?_, ?_, ?_⟩
  · unfold flushEntry
    simp only [hs1, hs2]
    rw [hs3]
  · show fi3.entries = _
    unfold FieldIndex.entries
    rw [hd3, List.map_append, List.map_cons]
    have e1 : (s._fieldIndex.dictionary.take j).map (fun e => (fi3.getWord e.1, e.2)) =
        (s._fieldIndex.dictionary.take j).map (fun e => (s._fieldIndex.getWord e.1, e.2)) := by
      apply List.map_congr_left
      intro e he
      rw [hpre e he]
    have e2 : rest.map (fun e => (fi3.getWord e.1, e.2)) =
        rest.map (fun e => (s._fieldIndex.getWord e.1, e.2)) := by
      apply List.map_congr_left
      intro e he
      rw [hw32]
      exact congrArg (fun x => (x, e.2)) (hstable e.1 (hrest e he))
    rw [e1, e2, hw32, hk2]
    conv_rhs => rw [← List.take_append_drop j s._fieldIndex.dictionary, List.map_append]
    rw [upsertEntries_append, hups]
    intro e he
    obtain ⟨x, hx, rfl⟩ := List.mem_map.mp he
    exact hjlt x hx
  · show ∀ e ∈ fi3.dictionary, e.1 < fi3.wordStore.length
    intro e he
    rw [hws3]
    rw [hd3] at he
    simp only [List.mem_append, List.mem_cons] at he
    rcases he with he | rfl | he
    · exact hkeys2 e (by rw [hd2]; simp [he])
    · exact hkeys2 (k, old) (by rw [hd2]; simp)
    · exact hkeys2 e (by rw [hd2]; simp [he])
  · show j ≤ fi3.dictionary.length
    rw [hd3, List.length_append, hlen]
    omega
  · show ∀ e ∈ fi3.dictionary.take j, fi3.getWord e.1 < word_entry.1
    intro e he
    rw [hd3, List.take_left' hlen] at he
    rw [hpre e he]
    exact hjlt e he
  · show mergeCalls fi3.trace = _
    rw [hm3, hm2, hm1]
  · show ∃ ext, fi3.trace = s._fieldIndex.trace ++ ext
    refine ⟨ext1 ++ ext2 ++ ext3, ?_⟩
    rw [hext3, hext2, hext1]
    simp only [List.append_assoc]

/-! ## The loop of `flush` -/

theorem flushLoop_spec (es : List (Word × Nat × Nat)) :
    ∀ (s : OrderedFieldIndexInserter) (adds_offset removes_offset : Nat),
      s._fieldIndex.WellFormed →
      s._dItr ≤ s._fieldIndex.dictionary.length →
      (es.map Prod.fst).Pairwise (· ≤ ·) →
      (∀ w ∈ es.map Prod.fst, ∀ e ∈ s._fieldIndex.dictionary.take s._dItr,
        s._fieldIndex.getWord e.1 < w) →
      ∃ s1, flushLoop s adds_offset removes_offset es =
          some (s1, adds_offset + (es.map (fun e => e.2.1)).sum,
            removes_offset + (es.map (fun e => e.2.2)).sum) ∧
        s1 = { s with _dItr := s1._dItr, _fieldIndex := s1._fieldIndex } ∧
        s1._fieldIndex.WellFormed ∧
        s1._dItr ≤ s1._fieldIndex.dictionary.length ∧
        (∀ x, s1._fieldIndex.postingList x =
          mergeBatches s._fieldIndex.postingList
            (descriptorSlices s._adds s._removes adds_offset removes_offset es) x) ∧
        (∀ x, x ∈ s1._fieldIndex.terms ↔ x ∈ s._fieldIndex.terms ∨ x ∈ es.map Prod.fst) ∧
        (∀ x, (∀ w ∈ es.map Prod.fst, w ≤ x) →
          (∀ e ∈ s._fieldIndex.dictionary.take s._dItr, s._fieldIndex.getWord e.1 < x) →
          ∀ e ∈ s1._fieldIndex.dictionary.take s1._dItr, s1._fieldIndex.getWord e.1 < x) ∧
        mergeCalls s1._fieldIndex.trace = mergeCalls s._fieldIndex.trace ++
          (descriptorSlices s._adds s._removes adds_offset removes_offset es).map Prod.snd ∧
        (∃ ext, s1._fieldIndex.trace = s._fieldIndex.trace ++ ext) := by
  induction es with
  | nil =>
    intro s ao ro hwf hle _ _
    refine ⟨s, by simp [flushLoop], rfl, hwf, hle, fun x => rfl, ?_, ?_, ?_, [], by simp⟩
    · intro x; simp
    · intro x _ h; exact h
    · simp [descriptorSlices]
  | cons e es ih =>
    intro s ao ro hwf hle hasc hlt
    simp only [List.map_cons, List.pairwise_cons] at hasc
    obtain ⟨s3, hs3, hframe3, hent3, hkeys3, hle3, hlt3, hm3, ext3, hext3⟩ :=
      flushEntry_spec s ao ro e hwf.1 hle
        (hlt e.1 (by simp))
    have hadds : s3._adds = s._adds := congrArg (fun t => t._adds) hframe3
    have hrems : s3._removes = s._removes := congrArg (fun t => t._removes) hframe3
    have hsorted3 : s3._fieldIndex.terms.Pairwise (· < ·) := by
      unfold FieldIndex.terms
      rw [hent3]
      exact upsert_sorted _ _ _ hwf.2
    obtain ⟨s1, hs1, hframe1, hwf1, hle1, hpost1, hterms1, hitr1, hm1, ext1, hext1⟩ :=
      ih s3 (ao + e.2.1) (ro + e.2.2) ⟨hkeys3, hsorted3⟩ hle3 hasc.2
        (fun w hw x hx => lt_of_lt_of_le (hlt3 x hx) (hasc.1 w hw))
    refine ⟨s1, ?_, ?_, hwf1, hle1, ?_, ?_, ?_, ?_, ?_⟩
    · simp only [flushLoop, hs3, hs1, List.map_cons, List.sum_cons]
      simp only [Nat.add_assoc]
    · rw [hframe1]
      conv_lhs => rw [hframe3]
    · intro x
      rw [hpost1 x, hadds, hrems]
      simp only [descriptorSlices, mergeBatches]
      congr 1
      funext w
      unfold FieldIndex.postingList
      rw [hent3]
      by_cases hw : w = e.1
      · rw [if_pos hw, hw]
        exact postingListOf_upsert_same _ _ _ hwf.2
      · rw [if_neg hw]
        exact postingListOf_upsert_other _ _ _ _ hw
    · intro x
      rw [hterms1 x]
      unfold FieldIndex.terms
      rw [hent3, mem_upsert_terms]
      simp only [List.map_cons, List.mem_cons]
      tauto
    · intro x hx hpre
      apply hitr1 x (fun w hw => hx w (List.mem_cons_of_mem _ hw))
      intro x1 hx1
      exact lt_of_lt_of_le (hlt3 x1 hx1) (hx e.1 (List.mem_cons_self _ _))
    · rw [hm1, hm3, hadds, hrems]
      simp only [descriptorSlices, List.map_cons, List.append_assoc, List.singleton_append]
    · exact ⟨ext3 ++ ext1, by rw [hext1, hext3, List.append_assoc]⟩

/-! ## The invariant of the inserter -/

theorem flushWord_word (s : OrderedFieldIndexInserter) : (flushWord s)._word = s._word := by
  unfold flushWord; split <;> rfl

theorem flushWord_adds (s : OrderedFieldIndexInserter) : (flushWord s)._adds = s._adds := by
  unfold flushWord; split <;> rfl

theorem flushWord_removes (s : OrderedFieldIndexInserter) :
    (flushWord s)._removes = s._removes := by
  unfold flushWord; split <;> rfl

theorem flushWord_fieldIndex (s : OrderedFieldIndexInserter) :
    (flushWord s)._fieldIndex = s._fieldIndex := by
  unfold flushWord; split <;> rfl

theorem flushWord_dItr (s : OrderedFieldIndexInserter) : (flushWord s)._dItr = s._dItr := by
  unfold flushWord; split <;> rfl

theorem flushWord_prevDocId (s : OrderedFieldIndexInserter) :
    (flushWord s)._prevDocId = s._prevDocId := by
  unfold flushWord; split <;> rfl

theorem flushWord_prevAdd (s : OrderedFieldIndexInserter) :
    (flushWord s)._prevAdd = s._prevAdd := by
  unfold flushWord; split <;> rfl

theorem flushWord_adds_offset (s : OrderedFieldIndexInserter) :
    (flushWord s)._adds_offset = s._adds.length := by
  unfold flushWord
  split
  · rename_i h; exact h.2.symm
  · rfl

theorem flushWord_removes_offset (s : OrderedFieldIndexInserter) :
    (flushWord s)._removes_offset = s._removes.length := by
  unfold flushWord
  split
  · rename_i h; exact h.1.symm
  · rfl

theorem flushWord_word_entries (s : OrderedFieldIndexInserter) :
    (flushWord s)._word_entries =
      if s._removes.length = s._removes_offset ∧ s._adds.length = s._adds_offset then
        s._word_entries
      else s._word_entries ++
        [(s._word, s._adds.length - s._adds_offset, s._removes.length - s._removes_offset)] := by
  unfold flushWord
  split <;> rfl

theorem inv_construct (noDocId : Nat) (fieldIndex : FieldIndex) (h : fieldIndex.WellFormed) :
    Inv (construct noDocId fieldIndex) where
  wellFormed := h
  itr_le := Nat.zero_le _
  itr_lt := by intro w _ e he; simp [construct] at he
  adds_le := Nat.le_refl _
  removes_le := Nat.le_refl _
  adds_sum := rfl
  removes_sum := rfl
  covers := by intro e he; simp [construct] at he
  ascending := by simp [construct]

theorem inv_flushWord (s : OrderedFieldIndexInserter) (h : Inv s) : Inv (flushWord s) := by
  have hwe := flushWord_word_entries s
  have hasc := List.pairwise_append.mp h.ascending
  by_cases hc : s._removes.length = s._removes_offset ∧ s._adds.length = s._adds_offset
  · rw [if_pos hc] at hwe
    constructor
    · rw [flushWord_fieldIndex]; exact h.wellFormed
    · rw [flushWord_fieldIndex, flushWord_dItr]; exact h.itr_le
    · rw [flushWord_fieldIndex, flushWord_dItr, flushWord_word, hwe]; exact h.itr_lt
    · rw [flushWord_adds_offset, flushWord_adds]
    · rw [flushWord_removes_offset, flushWord_removes]
    · rw [flushWord_adds_offset, hwe, h.adds_sum, hc.2]
    · rw [flushWord_removes_offset, hwe, h.removes_sum, hc.1]
    · rw [hwe]; exact h.covers
    · rw [flushWord_word, hwe]; exact h.ascending
  · rw [if_neg hc] at hwe
    have hal := h.adds_le
    have hrl := h.removes_le
    constructor
    · rw [flushWord_fieldIndex]; exact h.wellFormed
    · rw [flushWord_fieldIndex, flushWord_dItr]; exact h.itr_le
    · rw [flushWord_fieldIndex, flushWord_dItr, flushWord_word, hwe]
      intro w hw
      apply h.itr_lt w
      simp only [List.map_append, List.map_cons, List.map_nil, List.mem_append,
        List.mem_singleton] at hw ⊢
      tauto
    · rw [flushWord_adds_offset, flushWord_adds]
    · rw [flushWord_removes_offset, flushWord_removes]
    · rw [flushWord_adds_offset, hwe]
      simp only [List.map_append, List.map_cons, List.map_nil, List.sum_append, List.sum_cons,
        List.sum_nil, h.adds_sum]
      omega
    · rw [flushWord_removes_offset, hwe]
      simp only [List.map_append, List.map_cons, List.map_nil, List.sum_append, List.sum_cons,
        List.sum_nil, h.removes_sum]
      omega
    · rw [hwe]
      intro e he
      rcases List.mem_append.mp he with he | he
      · exact h.covers e he
      · rw [List.mem_singleton.mp he]
        show 0 < s._adds.length - s._adds_offset + (s._removes.length - s._removes_offset)
        omega
    · rw [flushWord_word, hwe]
      simp only [List.map_append, List.map_cons, List.map_nil]
      rw [List.pairwise_append]
      refine ⟨h.ascending, List.pairwise_singleton _ _, ?_⟩
      intro a ha b hb
      rw [List.mem_singleton.mp hb]
      rcases List.mem_append.mp ha with ha | ha
      · exact hasc.2.2 a ha s._word (List.mem_singleton_self _)
      · rw [List.mem_singleton.mp ha]

theorem inv_setNextWord (noDocId : Nat) (s s1 : OrderedFieldIndexInserter) (word : Word)
    (h : Inv s) (hs : setNextWord noDocId s word = some s1) : Inv s1 := by
  obtain ⟨hlt, rfl⟩ := setNextWord_eq_some noDocId s s1 word hs
  have h0 := inv_flushWord s h
  have hasc := List.pairwise_append.mp h0.ascending
  rw [flushWord_word] at hasc
  constructor
  · exact h0.wellFormed
  · exact h0.itr_le
  · intro w hw e he
    rcases List.mem_append.mp hw with hw | hw
    · exact h0.itr_lt w (List.mem_append_left _ hw) e he
    · rw [List.mem_singleton.mp hw]
      have := h0.itr_lt (flushWord s)._word (List.mem_append_right _ (List.mem_singleton_self _))
        e he
      rw [flushWord_word] at this
      exact lt_trans this hlt
  · exact h0.adds_le
  · exact h0.removes_le
  · exact h0.adds_sum
  · exact h0.removes_sum
  · exact h0.covers
  · show ((flushWord s)._word_entries.map Prod.fst ++ [word]).Pairwise (· ≤ ·)
    rw [List.pairwise_append]
    refine ⟨hasc.1, List.pairwise_singleton _ _, ?_⟩
    intro a ha b hb
    rw [List.mem_singleton.mp hb]
    exact le_trans (hasc.2.2 a ha s._word (List.mem_singleton_self _)) (le_of_lt hlt)

theorem inv_add (noDocId : Nat) (s s1 : OrderedFieldIndexInserter) (docId : Nat)
    (features : DocIdAndFeatures) (h : Inv s) (hs : add noDocId s docId features = some s1) :
    Inv s1 := by
  obtain ⟨_, _, _, rfl⟩ := add_eq_some noDocId s s1 docId features hs
  constructor
  · exact h.wellFormed
  · exact h.itr_le
  · exact h.itr_lt
  · show s._adds_offset ≤ (s._adds ++ [_]).length
    have := h.adds_le
    rw [List.length_append]
    omega
  · exact h.removes_le
  · exact h.adds_sum
  · exact h.removes_sum
  · exact h.covers
  · exact h.ascending

theorem inv_remove (noDocId : Nat) (s s1 : OrderedFieldIndexInserter) (docId : Nat)
    (h : Inv s) (hs : remove noDocId s docId = some s1) : Inv s1 := by
  obtain ⟨_, _, rfl⟩ := remove_eq_some noDocId s s1 docId hs
  constructor
  · exact h.wellFormed
  · exact h.itr_le
  · exact h.itr_lt
  · exact h.adds_le
  · show s._removes_offset ≤ (s._removes ++ [_]).length
    have := h.removes_le
    rw [List.length_append]
    omega
  · exact h.adds_sum
  · exact h.removes_sum
  · exact h.covers
  · exact h.ascending

theorem word_entries_nil_of_idle (s : OrderedFieldIndexInserter) (h : Inv s)
    (ha : s._adds = []) (hr : s._removes = []) : s._word_entries = [] := by
  have h1 := h.adds_le
  have h2 := h.removes_le
  rw [ha] at h1
  rw [hr] at h2
  simp only [List.length_nil, Nat.le_zero] at h1 h2
  have s1 := h.adds_sum
  have s2 := h.removes_sum
  rw [h1] at s1
  rw [h2] at s2
  cases hq : s._word_entries with
  | nil => rfl
  | cons e es =>
    exfalso
    have hc := h.covers e (by rw [hq]; exact List.mem_cons_self _ _)
    rw [hq] at s1 s2
    simp only [List.map_cons, List.sum_cons] at s1 s2
    omega

theorem inv_rewind (noDocId : Nat) (s s1 : OrderedFieldIndexInserter)
    (h : Inv s) (hs : rewind noDocId s = some s1) : Inv s1 := by
  unfold rewind at hs
  split at hs
  · rename_i hc
    cases hs
    have hq := word_entries_nil_of_idle s h hc.2 hc.1
    constructor
    · exact h.wellFormed
    · exact Nat.zero_le _
    · intro w _ e he
      simp at he
    · exact h.adds_le
    · exact h.removes_le
    · exact h.adds_sum
    · exact h.removes_sum
    · exact h.covers
    · show (s._word_entries.map Prod.fst ++ [[]]).Pairwise (· ≤ ·)
      rw [hq]
      simp
  · exact Option.noConfusion hs

/-! ## The drain -/

theorem flush_spec (s : OrderedFieldIndexInserter) (h : Inv s) :
    ∃ s1, flush s = some s1 ∧ Inv s1 ∧
      s1._word = s._word ∧ s1._prevDocId = s._prevDocId ∧ s1._prevAdd = s._prevAdd ∧
      s1._adds = [] ∧ s1._removes = [] ∧ s1._word_entries = [] ∧
      s1._adds_offset = 0 ∧ s1._removes_offset = 0 ∧
      (∀ x, s1._fieldIndex.postingList x =
        mergeBatches s._fieldIndex.postingList (queuedBatches (flushWord s)) x) ∧
      (∀ x, x ∈ s1._fieldIndex.terms ↔
        x ∈ s._fieldIndex.terms ∨ x ∈ (flushWord s)._word_entries.map Prod.fst) ∧
      mergeCalls s1._fieldIndex.trace = mergeCalls s._fieldIndex.trace ++
        (queuedBatches (flushWord s)).map Prod.snd := by
  have h0 := inv_flushWord s h
  have hasc := List.pairwise_append.mp h0.ascending
  have key : ∀ fi : FieldIndex, fi.dictionary = s._fieldIndex.dictionary →
      fi.wordStore = s._fieldIndex.wordStore →
      mergeCalls fi.trace = mergeCalls s._fieldIndex.trace →
      ∃ r, flushLoop { flushWord s with _fieldIndex := fi } 0 0 (flushWord s)._word_entries =
          some r ∧
        r.2.1 = r.1._adds.length ∧ r.2.2 = r.1._removes.length ∧
        r.1._word = s._word ∧ r.1._prevDocId = s._prevDocId ∧ r.1._prevAdd = s._prevAdd ∧
        r.1._fieldIndex.WellFormed ∧ r.1._dItr ≤ r.1._fieldIndex.dictionary.length ∧
        (∀ e ∈ r.1._fieldIndex.dictionary.take r.1._dItr,
          r.1._fieldIndex.getWord e.1 < s._word) ∧
        (∀ x, r.1._fieldIndex.postingList x =
          mergeBatches s._fieldIndex.postingList (queuedBatches (flushWord s)) x) ∧
        (∀ x, x ∈ r.1._fieldIndex.terms ↔
          x ∈ s._fieldIndex.terms ∨ x ∈ (flushWord s)._word_entries.map Prod.fst) ∧
        mergeCalls r.1._fieldIndex.trace = mergeCalls s._fieldIndex.trace ++
          (queuedBatches (flushWord s)).map Prod.snd := by
    intro fi hd hw hm
    have hgw : ∀ r, fi.getWord r = s._fieldIndex.getWord r := getWord_congr fi _ hw
    have hent : fi.entries = s._fieldIndex.entries := by
      unfold FieldIndex.entries
      rw [hd]
      apply List.map_congr_left
      intro e _
      rw [hgw]
    have hwf : fi.WellFormed := by
      refine ⟨?_, ?_⟩
      · rw [hd, hw]; exact h.wellFormed.1
      · unfold FieldIndex.terms; rw [hent]; exact h.wellFormed.2
    have hpl : fi.postingList = s._fieldIndex.postingList := by
      funext x
      unfold FieldIndex.postingList
      rw [hent]
    have hitr : ∀ w ∈ (flushWord s)._word_entries.map Prod.fst ++ [s._word],
        ∀ e ∈ fi.dictionary.take s._dItr, fi.getWord e.1 < w := by
      intro w hw e he
      rw [hgw]
      rw [hd] at he
      have := h0.itr_lt w (by rw [flushWord_word]; exact hw) e
      rw [flushWord_fieldIndex, flushWord_dItr] at this
      exact this he
    obtain ⟨s1, hs1, hframe, hwf1, hle1, hpost1, hterms1, hitr1, hm1, _⟩ :=
      flushLoop_spec (flushWord s)._word_entries { flushWord s with _fieldIndex := fi } 0 0
        hwf (by
          show (flushWord s)._dItr ≤ fi.dictionary.length
          rw [flushWord_dItr, hd]; exact h.itr_le)
        hasc.1 (by
          intro w hw e he
          have he : e ∈ fi.dictionary.take (flushWord s)._dItr := he
          rw [flushWord_dItr] at he
          exact hitr w (List.mem_append_left _ hw) e he)
    have hA : s1._adds = s._adds := by
      rw [hframe]; exact flushWord_adds s
    have hR : s1._removes = s._removes := by
      rw [hframe]; exact flushWord_removes s
    refine ⟨(s1, _, _), hs1, ?_, ?_, ?_, ?_, ?_, hwf1, hle1, ?_, ?_, ?_, ?_⟩
    · show 0 + _ = s1._adds.length
      rw [h0.adds_sum, flushWord_adds_offset, hA, Nat.zero_add]
    · show 0 + _ = s1._removes.length
      rw [h0.removes_sum, flushWord_removes_offset, hR, Nat.zero_add]
    · show s1._word = s._word
      rw [hframe]; exact flushWord_word s
    · show s1._prevDocId = s._prevDocId
      rw [hframe]; exact flushWord_prevDocId s
    · show s1._prevAdd = s._prevAdd
      rw [hframe]; exact flushWord_prevAdd s
    · apply hitr1 s._word
      · intro w hw
        have := hasc.2.2 w hw (flushWord s)._word (List.mem_singleton_self _)
        rw [flushWord_word] at this
        exact this
      · intro e he
        have he : e ∈ fi.dictionary.take (flushWord s)._dItr := he
        rw [flushWord_dItr] at he
        exact hitr s._word (List.mem_append_right _ (List.mem_singleton_self _)) e he
    · intro x
      rw [hpost1 x]
      show mergeBatches fi.postingList
        (descriptorSlices (flushWord s)._adds (flushWord s)._removes 0 0
          (flushWord s)._word_entries) x = _
      rw [hpl]
      rfl
    · intro x
      rw [hterms1 x]
      show x ∈ fi.terms ∨ _ ↔ _
      unfold FieldIndex.terms
      rw [hent]
    · rw [hm1]
      show mergeCalls fi.trace ++ _ = _
      rw [hm]
      rfl
  have fin : ∀ r : OrderedFieldIndexInserter × Nat × Nat,
      r.1._word = s._word → r.1._fieldIndex.WellFormed →
      r.1._dItr ≤ r.1._fieldIndex.dictionary.length →
      (∀ e ∈ r.1._fieldIndex.dictionary.take r.1._dItr,
          r.1._fieldIndex.getWord e.1 < s._word) →
      Inv { r.1 with
          _removes_offset := 0, _adds_offset := 0, _adds := [], _removes := [],
          _word_entries := [],
          _fieldIndex := { r.1._fieldIndex with
            trace := r.1._fieldIndex.trace ++ [Event.listenerFlush] } } := by
    intro r hw hwf hle hlt
    constructor
    · exact hwf
    · exact hle
    · intro w hw1 e he
      simp only [List.map_nil, List.nil_append, List.mem_singleton] at hw1
      rw [hw1]
      show r.1._fieldIndex.getWord e.1 < r.1._word
      rw [hw]
      exact hlt e he
    · exact Nat.le_refl _
    · exact Nat.le_refl _
    · rfl
    · rfl
    · intro e he; simp at he
    · simp
  have c1 : ¬ ((flushWord s)._adds_offset ≠ (flushWord s)._adds.length) := by
    rw [flushWord_adds_offset, flushWord_adds]; simp
  have c2 : ¬ ((flushWord s)._removes_offset ≠ (flushWord s)._removes.length) := by
    rw [flushWord_removes_offset, flushWord_removes]; simp
  simp only [flush]
  rw [if_neg c1, if_neg c2]
  by_cases hne : (flushWord s)._adds ≠ []
  · rw [if_pos hne]
    obtain ⟨r, hr, h1, h2, hw, hp, hpa, hwf, hle, hlt, hpost, hterms, hm⟩ :=
      key (flushWord s)._fieldIndex.add_features_guard_bytes
        (by rw [flushWord_fieldIndex]; rfl) (by rw [flushWord_fieldIndex]; rfl)
        (by
          rw [flushWord_fieldIndex]
          show mergeCalls (s._fieldIndex.trace ++ [Event.add_features_guard_bytes]) = _
          rw [mergeCalls_append]
          simp [mergeCalls])
    have hr : flushLoop { flushWord s with
        _fieldIndex := (flushWord s)._fieldIndex.add_features_guard_bytes } 0 0
        (flushWord s)._word_entries = some r := hr
    rw [hr]
    simp only [h1, h2, ne_eq, not_true_eq_false, if_false]
    refine ⟨_, rfl, fin r hw hwf hle hlt, hw, hp, hpa, rfl, rfl, rfl, rfl, rfl, hpost, hterms, ?_⟩
    show mergeCalls (r.1._fieldIndex.trace ++ [Event.listenerFlush]) = _
    rw [mergeCalls_append, hm]
    simp [mergeCalls]
  · rw [if_neg hne]
    obtain ⟨r, hr, h1, h2, hw, hp, hpa, hwf, hle, hlt, hpost, hterms, hm⟩ :=
      key (flushWord s)._fieldIndex (by rw [flushWord_fieldIndex])
        (by rw [flushWord_fieldIndex]) (by rw [flushWord_fieldIndex])
    have hr : flushLoop (flushWord s) 0 0 (flushWord s)._word_entries = some r := hr
    rw [hr]
    simp only [h1, h2, ne_eq, not_true_eq_false, if_false]
    refine ⟨_, rfl, fin r hw hwf hle hlt, hw, hp, hpa, rfl, rfl, rfl, rfl, rfl, hpost, hterms, ?_⟩
    show mergeCalls (r.1._fieldIndex.trace ++ [Event.listenerFlush]) = _
    rw [mergeCalls_append, hm]
    simp [mergeCalls]

/-! ## Reachable states -/

theorem inv_step (noDocId : Nat) (s s1 : OrderedFieldIndexInserter) (c : Call)
    (h : Inv s) (hs : step noDocId s c = some s1) : Inv s1 := by
  cases c with
  | setNextWord w => exact inv_setNextWord noDocId s s1 w h hs
  | add d f => exact inv_add noDocId s s1 d f h hs
  | remove d => exact inv_remove noDocId s s1 d h hs
  | flushWord =>
    simp only [step, Option.some.injEq] at hs
    rw [← hs]
    exact inv_flushWord s h
  | flush =>
    obtain ⟨s2, h2, hinv, _⟩ := flush_spec s h
    simp only [step] at hs
    rw [h2] at hs
    cases hs
    exact hinv
  | rewind => exact inv_rewind noDocId s s1 h hs

theorem inv_run (noDocId : Nat) (calls : List Call) :
    ∀ (s s1 : OrderedFieldIndexInserter), Inv s → run noDocId s calls = some s1 → Inv s1 := by
  induction calls with
  | nil =>
    intro s s1 h hr
    simp only [run, Option.some.injEq] at hr
    exact hr ▸ h
  | cons c cs ih =>
    intro s s1 h hr
    simp only [run] at hr
    cases hs : step noDocId s c with
    | none => rw [hs] at hr; exact Option.noConfusion hr
    | some s2 =>
      rw [hs] at hr
      exact ih s2 s1 (inv_step noDocId s s2 c h hs) hr

/-! ## The slices of the queued descriptors -/

theorem descriptorSlices_append (adds : List PostingListKeyDataType) (removes : List Nat)
    (es fs : List (Word × Nat × Nat)) :
    ∀ (ao ro : Nat), descriptorSlices adds removes ao ro (es ++ fs) =
      descriptorSlices adds removes ao ro es ++
        descriptorSlices adds removes (ao + (es.map (fun e => e.2.1)).sum)
          (ro + (es.map (fun e => e.2.2)).sum) fs := by
  induction es with
  | nil => intro ao ro; simp [descriptorSlices]
  | cons e es ih =>
    intro ao ro
    have e1 : descriptorSlices adds removes ao ro (e :: (es ++ fs)) =
        (e.1, (adds.drop ao).take e.2.1, (removes.drop ro).take e.2.2) ::
          descriptorSlices adds removes (ao + e.2.1) (ro + e.2.2) (es ++ fs) := rfl
    rw [List.cons_append, e1, ih]
    simp only [descriptorSlices, List.map_cons, List.sum_cons, Nat.add_assoc, List.cons_append]

theorem descriptorSlices_extend (adds xs : List PostingListKeyDataType) (removes ys : List Nat)
    (es : List (Word × Nat × Nat)) :
    ∀ (ao ro : Nat), ao + (es.map (fun e => e.2.1)).sum ≤ adds.length →
      ro + (es.map (fun e => e.2.2)).sum ≤ removes.length →
      descriptorSlices (adds ++ xs) (removes ++ ys) ao ro es =
        descriptorSlices adds removes ao ro es := by
  induction es with
  | nil => intro ao ro _ _; rfl
  | cons e es ih =>
    intro ao ro ha hr
    simp only [List.map_cons, List.sum_cons] at ha hr
    simp only [descriptorSlices]
    rw [ih (ao + e.2.1) (ro + e.2.2) (by omega) (by omega)]
    rw [List.drop_append_of_le_length (by omega), List.drop_append_of_le_length (by omega)]
    rw [List.take_append_of_le_length (by rw [List.length_drop]; omega),
      List.take_append_of_le_length (by rw [List.length_drop]; omega)]

theorem descriptorSlices_words (adds : List PostingListKeyDataType) (removes : List Nat)
    (es : List (Word × Nat × Nat)) :
    ∀ (ao ro : Nat), (descriptorSlices adds removes ao ro es).map Prod.fst = es.map Prod.fst := by
  induction es with
  | nil => intro ao ro; rfl
  | cons e es ih => intro ao ro; simp only [descriptorSlices, List.map_cons, ih]

theorem descriptorSlices_nonEmpty (adds : List PostingListKeyDataType) (removes : List Nat)
    (es : List (Word × Nat × Nat)) :
    ∀ (ao ro : Nat), ao + (es.map (fun e => e.2.1)).sum ≤ adds.length →
      ro + (es.map (fun e => e.2.2)).sum ≤ removes.length →
      (∀ e ∈ es, 0 < e.2.1 + e.2.2) →
      ∀ b ∈ descriptorSlices adds removes ao ro es, Batch.nonEmpty b = true := by
  induction es with
  | nil => intro ao ro _ _ _ b hb; simp [descriptorSlices] at hb
  | cons e es ih =>
    intro ao ro ha hr hc b hb
    simp only [List.map_cons, List.sum_cons] at ha hr
    simp only [descriptorSlices, List.mem_cons] at hb
    rcases hb with rfl | hb
    · have hpos := hc e (List.mem_cons_self _ _)
      have h1 : ((adds.drop ao).take e.2.1).length = e.2.1 := by
        rw [List.length_take, List.length_drop]; omega
      have h2 : ((removes.drop ro).take e.2.2).length = e.2.2 := by
        rw [List.length_take, List.length_drop]; omega
      unfold Batch.nonEmpty
      simp only [List.isEmpty_eq_true, Bool.not_eq_true', Bool.and_eq_false_imp,
        decide_eq_true_eq]
      intro ha0
      rw [ha0] at h1
      by_contra hr0
      simp only [Bool.not_eq_false, List.isEmpty_eq_true] at hr0
      rw [hr0] at h2
      simp only [List.length_nil] at h1 h2
      omega
    · exact ih (ao + e.2.1) (ro + e.2.2) (by omega) (by omega)
        (fun e he => hc e (List.mem_cons_of_mem _ he)) b hb

theorem queuedBatches_nonEmpty (s : OrderedFieldIndexInserter) (h : Inv s) :
    ∀ b ∈ queuedBatches s, Batch.nonEmpty b = true := by
  apply descriptorSlices_nonEmpty
  · rw [h.adds_sum, Nat.zero_add]; exact h.adds_le
  · rw [h.removes_sum, Nat.zero_add]; exact h.removes_le
  · exact h.covers

theorem filter_queuedBatches (s : OrderedFieldIndexInserter) (h : Inv s) :
    (queuedBatches s).filter Batch.nonEmpty = queuedBatches s :=
  List.filter_eq_self.mpr (queuedBatches_nonEmpty s h)

theorem pendingBatch_nonEmpty (s : OrderedFieldIndexInserter) (h : Inv s) :
    Batch.nonEmpty (pendingBatch s) = true ↔
      ¬ (s._removes.length = s._removes_offset ∧ s._adds.length = s._adds_offset) := by
  have ha := h.adds_le
  have hr := h.removes_le
  unfold Batch.nonEmpty pendingBatch
  simp only [Bool.not_eq_true', Bool.and_eq_false_imp, List.isEmpty_eq_true,
    List.drop_eq_nil_iff, List.isEmpty_eq_false, ne_eq]
  constructor
  · intro hx hc
    have := hx (by omega)
    omega
  · intro hx h1
    omega

theorem queuedBatches_flushWord (s : OrderedFieldIndexInserter) (h : Inv s) :
    queuedBatches (flushWord s) =
      queuedBatches s ++ [pendingBatch s].filter Batch.nonEmpty := by
  have hne := pendingBatch_nonEmpty s h
  unfold queuedBatches
  rw [flushWord_adds, flushWord_removes, flushWord_word_entries]
  by_cases hc : s._removes.length = s._removes_offset ∧ s._adds.length = s._adds_offset
  · rw [if_pos hc]
    have : Batch.nonEmpty (pendingBatch s) = false := by
      rw [← Bool.not_eq_true, hne]; exact not_not.mpr hc
    simp [List.filter, this]
  · rw [if_neg hc]
    have : Batch.nonEmpty (pendingBatch s) = true := hne.mpr hc
    rw [descriptorSlices_append]
    simp only [List.filter, this, descriptorSlices, h.adds_sum, h.removes_sum, Nat.zero_add]
    congr 1
    unfold pendingBatch
    rw [List.take_of_length_le (by rw [List.length_drop]),
      List.take_of_length_le (by rw [List.length_drop])]

/-! ## The batches of a call sequence -/

theorem batches_run (noDocId : Nat) (calls : List Call) :
    ∀ (s s1 : OrderedFieldIndexInserter), Inv s → (∀ c ∈ calls, c.isFeed = true) →
      run noDocId s calls = some s1 →
      (queuedBatches s1 ++ [pendingBatch s1]).filter Batch.nonEmpty =
        (queuedBatches s ++ batchesOf s._fieldIndex (pendingBatch s) calls).filter
          Batch.nonEmpty ∧
      s1._fieldIndex.dictionary = s._fieldIndex.dictionary ∧
      s1._fieldIndex.wordStore = s._fieldIndex.wordStore ∧
      s1._dItr = s._dItr ∧
      mergeCalls s1._fieldIndex.trace = mergeCalls s._fieldIndex.trace := by
  induction calls with
  | nil =>
    intro s s1 _ _ hr
    simp only [run, Option.some.injEq] at hr
    subst hr
    exact ⟨rfl, rfl, rfl, rfl, rfl⟩
  | cons c cs ih =>
    intro s s1 h hfeed hr
    simp only [run] at hr
    cases hs : step noDocId s c with
    | none => rw [hs] at hr; exact Option.noConfusion hr
    | some s2 =>
      rw [hs] at hr
      have h2 := inv_step noDocId s s2 c h hs
      obtain ⟨hb, hd, hw, hi, hm⟩ :=
        ih s2 s1 h2 (fun c hc => hfeed c (List.mem_cons_of_mem _ hc)) hr
      have hc := hfeed c (List.mem_cons_self _ _)
      cases c with
      | setNextWord w =>
        obtain ⟨_, hs2⟩ := setNextWord_eq_some noDocId s s2 w hs
        have hq : queuedBatches s2 = queuedBatches s ++ [pendingBatch s].filter Batch.nonEmpty := by
          rw [← queuedBatches_flushWord s h, hs2]
          rfl
        have hp : pendingBatch s2 = (w, [], []) := by
          rw [hs2]
          show (w, (flushWord s)._adds.drop (flushWord s)._adds_offset,
            (flushWord s)._removes.drop (flushWord s)._removes_offset) = _
          rw [flushWord_adds_offset, flushWord_removes_offset, flushWord_adds,
            flushWord_removes, List.drop_length, List.drop_length]
        have hf : s2._fieldIndex = s._fieldIndex := by
          rw [hs2]
          exact flushWord_fieldIndex s
        have hi2 : s2._dItr = s._dItr := by
          rw [hs2]
          exact flushWord_dItr s
        rw [hq, hp, hf] at hb
        refine ⟨?_, ?_, ?_, ?_, ?_⟩
        · rw [hb]
          simp only [batchesOf, List.filter_append, List.filter_filter, Bool.and_self,
            List.append_assoc]
          congr 1
          exact (List.filter_append [pendingBatch s] _).symm
        · rw [hd, hf]
        · rw [hw, hf]
        · rw [hi, hi2]
        · rw [hm, hf]
      | add d f =>
        obtain ⟨_, _, _, rfl⟩ := add_eq_some noDocId s s2 d f hs
        have hq : queuedBatches ({ s with
            _fieldIndex := (s._fieldIndex.addFeatures f).2,
            _adds := s._adds ++ [⟨d, ⟨(s._fieldIndex.addFeatures f).1,
              cap_u16 f.num_occs, cap_u16 f.field_length⟩⟩],
            _prevDocId := d, _prevAdd := true } : OrderedFieldIndexInserter) =
            queuedBatches s := by
          have := descriptorSlices_extend s._adds [⟨d, ⟨(s._fieldIndex.addFeatures f).1,
              cap_u16 f.num_occs, cap_u16 f.field_length⟩⟩] s._removes [] s._word_entries 0 0
            (by rw [h.adds_sum, Nat.zero_add]; exact h.adds_le)
            (by rw [h.removes_sum, Nat.zero_add]; exact h.removes_le)
          rw [List.append_nil] at this
          exact this
        have hp : pendingBatch ({ s with
            _fieldIndex := (s._fieldIndex.addFeatures f).2,
            _adds := s._adds ++ [⟨d, ⟨(s._fieldIndex.addFeatures f).1,
              cap_u16 f.num_occs, cap_u16 f.field_length⟩⟩],
            _prevDocId := d, _prevAdd := true } : OrderedFieldIndexInserter) =
            ((pendingBatch s).1, (pendingBatch s).2.1 ++ [⟨d, ⟨(s._fieldIndex.addFeatures f).1,
              cap_u16 f.num_occs, cap_u16 f.field_length⟩⟩], (pendingBatch s).2.2) := by
          show (s._word, (s._adds ++ [_]).drop s._adds_offset, s._removes.drop s._removes_offset)
            = _
          rw [List.drop_append_of_le_length h.adds_le]
          rfl
        rw [hq, hp] at hb
        refine ⟨?_, hd, hw, hi, ?_⟩
        · rw [hb]
          rfl
        · rw [hm]
          show mergeCalls (s._fieldIndex.trace ++ [Event.addFeatures f]) = _
          rw [mergeCalls_append]
          simp [mergeCalls]
      | remove d =>
        obtain ⟨_, _, rfl⟩ := remove_eq_some noDocId s s2 d hs
        have hq : queuedBatches ({ s with
            _removes := s._removes ++ [d], _prevDocId := d, _prevAdd := false } :
            OrderedFieldIndexInserter) = queuedBatches s := by
          have := descriptorSlices_extend s._adds [] s._removes [d] s._word_entries 0 0
            (by rw [h.adds_sum, Nat.zero_add]; exact h.adds_le)
            (by rw [h.removes_sum, Nat.zero_add]; exact h.removes_le)
          rw [List.append_nil] at this
          exact this
        have hp : pendingBatch ({ s with
            _removes := s._removes ++ [d], _prevDocId := d, _prevAdd := false } :
            OrderedFieldIndexInserter) =
            ((pendingBatch s).1, (pendingBatch s).2.1, (pendingBatch s).2.2 ++ [d]) := by
          show (s._word, s._adds.drop s._adds_offset, (s._removes ++ [d]).drop s._removes_offset)
            = _
          rw [List.drop_append_of_le_length h.removes_le]
          rfl
        rw [hq, hp] at hb
        exact ⟨by rw [hb]; rfl, hd, hw, hi, hm⟩
      | flushWord => exact Bool.noConfusion hc
      | flush => exact Bool.noConfusion hc
      | rewind => exact Bool.noConfusion hc

theorem batches_ascending (noDocId : Nat) (calls : List Call) :
    ∀ (s s1 : OrderedFieldIndexInserter) (fi : FieldIndex) (cur : Batch),
      cur.1 = s._word → (∀ c ∈ calls, c.isFeed = true) →
      run noDocId s calls = some s1 →
      ((batchesOf fi cur calls).map Prod.fst).Pairwise (· < ·) ∧
        ∀ x ∈ (batchesOf fi cur calls).map Prod.fst, cur.1 ≤ x := by
  induction calls with
  | nil =>
    intro s s1 fi cur _ _ _
    simp [batchesOf]
  | cons c cs ih =>
    intro s s1 fi cur hcur hfeed hr
    simp only [run] at hr
    cases hs : step noDocId s c with
    | none => rw [hs] at hr; exact Option.noConfusion hr
    | some s2 =>
      rw [hs] at hr
      have hc := hfeed c (List.mem_cons_self _ _)
      have hfeed2 : ∀ c ∈ cs, c.isFeed = true := fun c hc => hfeed c (List.mem_cons_of_mem _ hc)
      cases c with
      | setNextWord w =>
        obtain ⟨hlt, hs2⟩ := setNextWord_eq_some noDocId s s2 w hs
        obtain ⟨h1, h2⟩ := ih s2 s1 fi (w, [], []) (by rw [hs2]) hfeed2 hr
        simp only [batchesOf, List.map_cons, List.pairwise_cons, List.mem_cons]
        refine ⟨⟨?_, h1⟩, ?_⟩
        · intro x hx
          rw [hcur]
          exact lt_of_lt_of_le hlt (h2 x hx)
        · rintro x (rfl | hx)
          · exact le_refl _
          · rw [hcur]
            exact le_of_lt (lt_of_lt_of_le hlt (h2 x hx))
      | add d f =>
        obtain ⟨_, _, _, hs2⟩ := add_eq_some noDocId s s2 d f hs
        exact ih s2 s1 (fi.addFeatures f).2 _ (by rw [hs2]; exact hcur) hfeed2 hr
      | remove d =>
        obtain ⟨_, _, hs2⟩ := remove_eq_some noDocId s s2 d hs
        exact ih s2 s1 fi _ (by rw [hs2]; exact hcur) hfeed2 hr
      | flushWord => exact Bool.noConfusion hc
      | flush => exact Bool.noConfusion hc
      | rewind => exact Bool.noConfusion hc

/-! ## Merging batches of distinct terms -/

theorem apply_nil (p : PostingList) : PostingListStore.apply p [] [] = p := by
  unfold PostingListStore.apply
  simp

theorem mergeBatches_not_mem (bs : List Batch) :
    ∀ (P : Word → PostingList) (x : Word), x ∉ bs.map Prod.fst → mergeBatches P bs x = P x := by
  induction bs with
  | nil => intro P x _; rfl
  | cons b bs ih =>
    intro P x hx
    simp only [List.map_cons, List.mem_cons, not_or] at hx
    simp only [mergeBatches]
    rw [ih _ x hx.2, if_neg hx.1]

theorem mergeBatches_mem (bs : List Batch) :
    ∀ (P : Word → PostingList) (b : Batch), (bs.map Prod.fst).Pairwise (· < ·) → b ∈ bs →
      mergeBatches P bs b.1 = PostingListStore.apply (P b.1) b.2.1 b.2.2 := by
  induction bs with
  | nil => intro P b _ hb; simp at hb
  | cons a bs ih =>
    intro P b hp hb
    simp only [List.map_cons, List.pairwise_cons] at hp
    simp only [mergeBatches]
    rcases List.mem_cons.mp hb with rfl | hb
    · rw [mergeBatches_not_mem bs _ b.1, if_pos rfl]
      intro hmem
      exact lt_irrefl _ (hp.1 b.1 hmem)
    · rw [ih _ b hp.2 hb, if_neg]
      intro heq
      have := hp.1 b.1 (List.mem_map_of_mem Prod.fst hb)
      rw [heq] at this
      exact lt_irrefl _ this

theorem mergeBatches_filter (bs : List Batch) :
    ∀ (P : Word → PostingList) (x : Word),
      mergeBatches P (bs.filter Batch.nonEmpty) x = mergeBatches P bs x := by
  induction bs with
  | nil => intro P x; rfl
  | cons b bs ih =>
    intro P x
    by_cases hb : Batch.nonEmpty b = true
    · rw [List.filter_cons_of_pos hb]
      simp only [mergeBatches]
      exact ih _ x
    · rw [List.filter_cons_of_neg hb, ih]
      simp only [mergeBatches]
      have h1 : b.2.1 = [] ∧ b.2.2 = [] := by
        unfold Batch.nonEmpty at hb
        simpa using hb
      congr 1
      funext w
      split
      · rw [h1.1, h1.2, apply_nil]
      · rfl

/-! ## Records of a merged posting list -/

theorem record_nil (d : Nat) : PostingList.record [] d = none := rfl

theorem record_cons (k : Nat) (v : PostingListEntryType) (rest : PostingList) (d : Nat) :
    PostingList.record ((k, v) :: rest) d = if k = d then some v else PostingList.record rest d := by
  unfold PostingList.record
  by_cases h : k = d
  · simp [List.find?_cons, h]
  · simp [List.find?_cons, h]

theorem record_insertEntry (p : PostingList) (a : PostingListKeyDataType) (d : Nat) :
    PostingList.record (PostingList.insertEntry p a) d =
      if a._key = d then some a.data else PostingList.record p d := by
  induction p with
  | nil =>
    simp only [PostingList.insertEntry]
    rw [record_cons]
  | cons e rest ih =>
    obtain ⟨k, v⟩ := e
    simp only [PostingList.insertEntry]
    by_cases h1 : a._key < k
    · rw [if_pos h1, record_cons]
    · rw [if_neg h1]
      by_cases h2 : a._key = k
      · rw [if_pos h2, record_cons, record_cons]
        by_cases h3 : a._key = d
        · simp only [if_pos h3]
        · have h4 : ¬ k = d := fun hk => h3 (h2.trans hk)
          simp only [if_neg h3, if_neg h4]
      · rw [if_neg h2, record_cons, record_cons, ih]
        by_cases h3 : k = d
        · have h4 : ¬ a._key = d := fun hk => h2 (hk.trans h3.symm)
          simp only [if_pos h3, if_neg h4]
        · simp only [if_neg h3]

theorem record_filter (p : PostingList) (removes : List Nat) (d : Nat) :
    PostingList.record (p.filter (fun e => decide (e.1 ∉ removes))) d =
      if d ∈ removes then none else PostingList.record p d := by
  induction p with
  | nil => simp [record_nil]
  | cons e rest ih =>
    obtain ⟨k, v⟩ := e
    by_cases hk : k ∈ removes
    · rw [List.filter_cons_of_neg (by simpa using hk), ih, record_cons]
      by_cases hd : d ∈ removes
      · rw [if_pos hd, if_pos hd]
      · rw [if_neg hd, if_neg hd, if_neg]
        intro heq
        exact hd (heq ▸ hk)
    · rw [List.filter_cons_of_pos (by simpa using hk), record_cons, record_cons, ih]
      by_cases hkd : k = d
      · rw [if_pos hkd, if_pos hkd, if_neg (hkd ▸ hk)]
      · rw [if_neg hkd, if_neg hkd]

theorem record_foldl (adds : List PostingListKeyDataType) (d : Nat) :
    ∀ q : PostingList, PostingList.record (adds.foldl PostingList.insertEntry q) d =
      match addedRecord adds d with
      | some r => some r
      | none => PostingList.record q d := by
  induction adds with
  | nil => intro q; rfl
  | cons a rest ih =>
    intro q
    rw [List.foldl_cons, ih, record_insertEntry]
    simp only [addedRecord]
    cases addedRecord rest d with
    | some r => rfl
    | none =>
      by_cases h : a._key = d
      · simp [h]
      · simp [h]

theorem record_apply (p : PostingList) (adds : List PostingListKeyDataType) (removes : List Nat)
    (d : Nat) :
    PostingList.record (PostingListStore.apply p adds removes) d =
      match addedRecord adds d with
      | some r => some r
      | none => if d ∈ removes then none else PostingList.record p d := by
  unfold PostingListStore.apply
  rw [record_foldl, record_filter]

theorem addedRecord_append_singleton (adds : List PostingListKeyDataType)
    (a : PostingListKeyDataType) : addedRecord (adds ++ [a]) a._key = some a.data := by
  induction adds with
  | nil => simp [addedRecord]
  | cons b rest ih => simp [addedRecord, ih]

theorem mergeBatches_append_singleton (bs : List Batch) (b : Batch) :
    ∀ (P : Word → PostingList),
      mergeBatches P (bs ++ [b]) b.1 =
        PostingListStore.apply (mergeBatches P bs b.1) b.2.1 b.2.2 := by
  induction bs with
  | nil => intro P; simp [mergeBatches]
  | cons a bs ih =>
    intro P
    show mergeBatches _ (bs ++ [b]) b.1 = PostingListStore.apply (mergeBatches _ bs b.1) _ _
    exact ih _

/-! ## The drain after a fed call sequence -/

theorem entries_congr (fi1 fi2 : FieldIndex) (hd : fi1.dictionary = fi2.dictionary)
    (hw : fi1.wordStore = fi2.wordStore) : fi1.entries = fi2.entries := by
  unfold FieldIndex.entries
  rw [hd]
  apply List.map_congr_left
  intro e _
  rw [getWord_congr fi1 fi2 hw]

theorem queuedBatches_flushWord_of_run (noDocId : Nat) (calls : List Call)
    (s0 s : OrderedFieldIndexInserter) (h0 : Inv s0)
    (hidle : s0._adds = [] ∧ s0._removes = [])
    (hfeed : ∀ c ∈ calls, c.isFeed = true) (hrun : run noDocId s0 calls = some s) :
    queuedBatches (flushWord s) =
      (batchesOf s0._fieldIndex (s0._word, [], []) calls).filter Batch.nonEmpty := by
  have hs := inv_run noDocId calls s0 s h0 hrun
  obtain ⟨hb, _, _, _, _⟩ := batches_run noDocId calls s0 s h0 hfeed hrun
  have hq0 : queuedBatches s0 = [] := by
    unfold queuedBatches
    rw [word_entries_nil_of_idle s0 h0 hidle.1 hidle.2]
    rfl
  have hp0 : pendingBatch s0 = (s0._word, [], []) := by
    unfold pendingBatch
    rw [hidle.1, hidle.2, List.drop_nil, List.drop_nil]
  rw [queuedBatches_flushWord s hs]
  conv_lhs => rw [← filter_queuedBatches s hs]
  rw [← List.filter_append, hb, hq0, hp0, List.nil_append]

theorem filter_batches_terms (calls : List Call) :
    ∀ (fi : FieldIndex) (cur : Batch), (∀ c ∈ calls, c.isFeed = true) →
      ((batchesOf fi cur calls).filter Batch.nonEmpty).map Prod.fst =
        (if (Batch.nonEmpty cur || startsWithTermOp calls) = true then [cur.1] else []) ++
          termsWithOps calls := by
  induction calls with
  | nil =>
    intro fi cur _
    by_cases h : Batch.nonEmpty cur = true
    · simp [batchesOf, startsWithTermOp, termsWithOps, h]
    · simp [batchesOf, startsWithTermOp, termsWithOps, h]
  | cons c cs ih =>
    intro fi cur hfeed
    have hc := hfeed c (List.mem_cons_self _ _)
    have hfeed2 : ∀ c ∈ cs, c.isFeed = true := fun c hc => hfeed c (List.mem_cons_of_mem _ hc)
    cases c with
    | setNextWord w =>
      have hw : Batch.nonEmpty ((w, [], []) : Batch) = false := rfl
      have e1 : batchesOf fi cur (Call.setNextWord w :: cs) =
          cur :: batchesOf fi (w, [], []) cs := rfl
      have e2 : startsWithTermOp (Call.setNextWord w :: cs) = false := rfl
      have e3 : termsWithOps (Call.setNextWord w :: cs) =
          if startsWithTermOp cs = true then w :: termsWithOps cs else termsWithOps cs := rfl
      rw [e1, e2, e3, Bool.or_false]
      by_cases h : Batch.nonEmpty cur = true
      · rw [List.filter_cons_of_pos h, List.map_cons, ih fi _ hfeed2, hw, if_pos h,
          Bool.false_or]
        by_cases h2 : startsWithTermOp cs = true
        · simp only [if_pos h2]; rfl
        · simp only [if_neg h2]; rfl
      · rw [List.filter_cons_of_neg h, ih fi _ hfeed2, hw, if_neg h, Bool.false_or]
        by_cases h2 : startsWithTermOp cs = true
        · simp only [if_pos h2]; rfl
        · simp only [if_neg h2]
    | add d f =>
      have e1 : batchesOf fi cur (Call.add d f :: cs) =
          batchesOf (fi.addFeatures f).2
            (cur.1, cur.2.1 ++ [⟨d, ⟨(fi.addFeatures f).1, cap_u16 f.num_occs,
              cap_u16 f.field_length⟩⟩], cur.2.2) cs := rfl
      have e2 : startsWithTermOp (Call.add d f :: cs) = true := rfl
      have e3 : termsWithOps (Call.add d f :: cs) = termsWithOps cs := rfl
      have e4 : Batch.nonEmpty ((cur.1, cur.2.1 ++ [⟨d, ⟨(fi.addFeatures f).1,
          cap_u16 f.num_occs, cap_u16 f.field_length⟩⟩], cur.2.2) : Batch) = true := by
        simp [Batch.nonEmpty]
      rw [e1, e2, e3, ih _ _ hfeed2, e4, Bool.or_true, Bool.true_or]
    | remove d =>
      have e1 : batchesOf fi cur (Call.remove d :: cs) =
          batchesOf fi (cur.1, cur.2.1, cur.2.2 ++ [d]) cs := rfl
      have e2 : startsWithTermOp (Call.remove d :: cs) = true := rfl
      have e3 : termsWithOps (Call.remove d :: cs) = termsWithOps cs := rfl
      have e4 : Batch.nonEmpty ((cur.1, cur.2.1, cur.2.2 ++ [d]) : Batch) = true := by
        simp [Batch.nonEmpty]
      rw [e1, e2, e3, ih _ _ hfeed2, e4, Bool.or_true, Bool.true_or]
    | flushWord => exact Bool.noConfusion hc
    | flush => exact Bool.noConfusion hc
    | rewind => exact Bool.noConfusion hc

theorem termsWithOps_subset_fedTerms (calls : List Call) :
    ∀ w ∈ termsWithOps calls, w ∈ fedTerms calls := by
  induction calls with
  | nil => intro w hw; simp [termsWithOps] at hw
  | cons c cs ih =>
    intro w hw
    cases c with
    | setNextWord x =>
      simp only [termsWithOps] at hw
      simp only [fedTerms, List.mem_cons]
      split at hw
      · rcases List.mem_cons.mp hw with rfl | hw
        · exact Or.inl rfl
        · exact Or.inr (ih w hw)
      · exact Or.inr (ih w hw)
    | add d f => exact ih w hw
    | remove d => exact ih w hw
    | flushWord => exact ih w hw
    | flush => exact ih w hw
    | rewind => exact ih w hw

theorem pending_run (noDocId : Nat) (calls : List Call) :
    ∀ (s s1 : OrderedFieldIndexInserter) (cur : Batch)
      (pa : List PostingListKeyDataType) (pr : List Nat),
      (∀ c ∈ calls, c.isFeed = true) →
      s._adds = pa ++ cur.2.1 → s._removes = pr ++ cur.2.2 →
      run noDocId s calls = some s1 →
      s1._adds = pa ++ batchAdds (batchesOf s._fieldIndex cur calls) ∧
      s1._removes = pr ++ batchRemoves (batchesOf s._fieldIndex cur calls) := by
  induction calls with
  | nil =>
    intro s s1 cur pa pr _ ha hr hrun
    simp only [run, Option.some.injEq] at hrun
    subst hrun
    simp only [batchesOf, batchAdds, batchRemoves, List.append_nil]
    exact ⟨ha, hr⟩
  | cons c cs ih =>
    intro s s1 cur pa pr hfeed ha hr hrun
    simp only [run] at hrun
    cases hs : step noDocId s c with
    | none => rw [hs] at hrun; exact Option.noConfusion hrun
    | some s2 =>
      rw [hs] at hrun
      have hc := hfeed c (List.mem_cons_self _ _)
      have hfeed2 : ∀ c ∈ cs, c.isFeed = true := fun c hc => hfeed c (List.mem_cons_of_mem _ hc)
      cases c with
      | setNextWord w =>
        obtain ⟨_, hs2⟩ := setNextWord_eq_some noDocId s s2 w hs
        have hf : s2._fieldIndex = s._fieldIndex := by
          rw [hs2]; exact flushWord_fieldIndex s
        have ha2 : s2._adds = (pa ++ cur.2.1) ++ [] := by
          rw [hs2, List.append_nil, ← ha]; exact flushWord_adds s
        have hr2 : s2._removes = (pr ++ cur.2.2) ++ [] := by
          rw [hs2, List.append_nil, ← hr]; exact flushWord_removes s
        obtain ⟨h1, h2⟩ := ih s2 s1 (w, [], []) _ _ hfeed2 ha2 hr2 hrun
        rw [hf] at h1 h2
        simp only [batchesOf, batchAdds, batchRemoves]
        rw [h1, h2, List.append_assoc, List.append_assoc]
        exact ⟨rfl, rfl⟩
      | add d f =>
        obtain ⟨_, _, _, hs2⟩ := add_eq_some noDocId s s2 d f hs
        have hf : s2._fieldIndex = (s._fieldIndex.addFeatures f).2 := by rw [hs2]
        have ha2 : s2._adds = pa ++ (cur.2.1 ++ [⟨d, ⟨(s._fieldIndex.addFeatures f).1,
            cap_u16 f.num_occs, cap_u16 f.field_length⟩⟩]) := by
          rw [hs2, ← List.append_assoc, ← ha]
        have hr2 : s2._removes = pr ++ cur.2.2 := by rw [hs2]; exact hr
        obtain ⟨h1, h2⟩ := ih s2 s1 (cur.1, cur.2.1 ++ [⟨d, ⟨(s._fieldIndex.addFeatures f).1,
            cap_u16 f.num_occs, cap_u16 f.field_length⟩⟩], cur.2.2) pa pr hfeed2 ha2 hr2 hrun
        rw [hf] at h1 h2
        exact ⟨h1, h2⟩
      | remove d =>
        obtain ⟨_, _, hs2⟩ := remove_eq_some noDocId s s2 d hs
        have hf : s2._fieldIndex = s._fieldIndex := by rw [hs2]
        have ha2 : s2._adds = pa ++ cur.2.1 := by rw [hs2]; exact ha
        have hr2 : s2._removes = pr ++ (cur.2.2 ++ [d]) := by
          rw [hs2, ← List.append_assoc, ← hr]
        obtain ⟨h1, h2⟩ := ih s2 s1 (cur.1, cur.2.1, cur.2.2 ++ [d]) pa pr hfeed2 ha2 hr2 hrun
        rw [hf] at h1 h2
        exact ⟨h1, h2⟩
      | flushWord => exact Bool.noConfusion hc
      | flush => exact Bool.noConfusion hc
      | rewind => exact Bool.noConfusion hc

/-- C1: let `s0` be a state reached from a fresh inserter in which no add
and no remove is pending (a fresh, a drained or a rewound inserter).  After a
sequence of `setNextWord`/`add`/`remove` calls accepted from `s0`, the pending
adds and removes are those of the terms' batches, one batch after the other in
term order; `flush()` completes and hands the posting-list store, descriptor by
descriptor, exactly the adds and removes made while the descriptor's term was
current (the non-empty batches of the call sequence, in order); the posting
list of every term of the sequence is the merge of its own batch into the
posting list it had before, so a document's record is the one added under the
term, absent when the document was only removed under it, and unchanged
otherwise; and the posting list of every other term is unchanged. -/
theorem flush_merges_term_batches (noDocId : Nat) (fieldIndex : FieldIndex)
    (prior calls : List Call) (s0 s : OrderedFieldIndexInserter) (hwf : fieldIndex.WellFormed)
    (hprior : run noDocId (construct noDocId fieldIndex) prior = some s0)
    (hidle : s0._adds = [] ∧ s0._removes = [])
    (hfeed : ∀ c ∈ calls, c.isFeed = true)
    (hrun : run noDocId s0 calls = some s) :
    s._adds = batchAdds (batchesOf s0._fieldIndex (s0._word, [], []) calls) ∧
    s._removes = batchRemoves (batchesOf s0._fieldIndex (s0._word, [], []) calls) ∧
    ∃ s1, flush s = some s1 ∧
      mergeCalls s1._fieldIndex.trace = mergeCalls s0._fieldIndex.trace ++
        ((batchesOf s0._fieldIndex (s0._word, [], []) calls).filter Batch.nonEmpty).map
          Prod.snd ∧
      (∀ b ∈ batchesOf s0._fieldIndex (s0._word, [], []) calls,
        s1._fieldIndex.postingList b.1 =
          PostingListStore.apply (s0._fieldIndex.postingList b.1) b.2.1 b.2.2) ∧
      (∀ b ∈ batchesOf s0._fieldIndex (s0._word, [], []) calls, ∀ docId,
        (s1._fieldIndex.postingList b.1).record docId =
          match addedRecord b.2.1 docId with
          | some r => some r
          | none =>
            if docId ∈ b.2.2 then none else (s0._fieldIndex.postingList b.1).record docId) ∧
      (∀ w, w ∉ (batchesOf s0._fieldIndex (s0._word, [], []) calls).map Prod.fst →
        s1._fieldIndex.postingList w = s0._fieldIndex.postingList w) := by
  have h0 := inv_run noDocId prior _ s0 (inv_construct noDocId fieldIndex hwf) hprior
  have hs := inv_run noDocId calls s0 s h0 hrun
  obtain ⟨s1, hfl, _, _, _, _, _, _, _, _, _, hpost, _, hm⟩ := flush_spec s hs
  obtain ⟨_, hd, hw, _, hmc⟩ := batches_run noDocId calls s0 s h0 hfeed hrun
  obtain ⟨hpa, hpr⟩ := pending_run noDocId calls s0 s (s0._word, [], []) [] [] hfeed
    (by rw [hidle.1]; rfl) (by rw [hidle.2]; rfl) hrun
  have hq := queuedBatches_flushWord_of_run noDocId calls s0 s h0 hidle hfeed hrun
  have hpl : s._fieldIndex.postingList = s0._fieldIndex.postingList := by
    funext x
    unfold FieldIndex.postingList
    rw [entries_congr s._fieldIndex s0._fieldIndex hd hw]
  have hasc := (batches_ascending noDocId calls s0 s s0._fieldIndex (s0._word, [], []) rfl
    hfeed hrun).1
  have hpost2 : ∀ x, s1._fieldIndex.postingList x =
      mergeBatches s0._fieldIndex.postingList
        (batchesOf s0._fieldIndex (s0._word, [], []) calls) x := by
    intro x
    rw [hpost x, hq, hpl, mergeBatches_filter]
  have hmem : ∀ b ∈ batchesOf s0._fieldIndex (s0._word, [], []) calls,
      s1._fieldIndex.postingList b.1 =
        PostingListStore.apply (s0._fieldIndex.postingList b.1) b.2.1 b.2.2 := by
    intro b hb
    rw [hpost2 b.1]
    exact mergeBatches_mem _ _ b hasc hb
  refine ⟨by rw [hpa, List.nil_append], by rw [hpr, List.nil_append], s1, hfl, ?_, hmem, ?_, ?_⟩
  · rw [hm, hq, hmc]
  · intro b hb docId
    rw [hmem b hb, record_apply]
  · intro w hw
    rw [hpost2 w]
    exact mergeBatches_not_mem _ _ w hw

theorem wellFormed_emptyFieldIndex : emptyFieldIndex.WellFormed := by
  constructor
  · decide
  · decide

theorem wellFormed_exampleFieldIndex : exampleFieldIndex.WellFormed := by
  constructor
  · decide
  · decide

/-- Witness of C1: the calls `exampleCalls` on a fresh inserter over
`exampleFieldIndex`, whose dictionary already holds the terms `"a"` and `"c"`;
the drain merges the two adds of `"a"` and the remove and add of `"c"`. -/
theorem flush_merges_term_batches_witness :
    exampleFieldIndex.WellFormed ∧
    run 4294967295 (construct 4294967295 exampleFieldIndex) exampleCalls = some exampleFed ∧
    (flush exampleFed).map (fun s => s._fieldIndex.dictionary) =
      some [(0, [(5, ⟨1, 1, 3⟩), (9, ⟨2, 65535, 65535⟩)]),
        (1, [(5, ⟨3, 1, 3⟩), (7, ⟨0, 1, 3⟩)])] ∧
    exampleFed._adds = batchAdds (batchesOf exampleFieldIndex ([], [], []) exampleCalls) ∧
    exampleFed._removes = batchRemoves (batchesOf exampleFieldIndex ([], [], []) exampleCalls) ∧
    ∃ s1, flush exampleFed = some s1 ∧
      mergeCalls s1._fieldIndex.trace = mergeCalls exampleFieldIndex.trace ++
        ((batchesOf exampleFieldIndex ([], [], []) exampleCalls).filter
          Batch.nonEmpty).map Prod.snd ∧
      (∀ b ∈ batchesOf exampleFieldIndex ([], [], []) exampleCalls,
        s1._fieldIndex.postingList b.1 =
          PostingListStore.apply (exampleFieldIndex.postingList b.1) b.2.1 b.2.2) ∧
      (∀ b ∈ batchesOf exampleFieldIndex ([], [], []) exampleCalls, ∀ docId,
        (s1._fieldIndex.postingList b.1).record docId =
          match addedRecord b.2.1 docId with
          | some r => some r
          | none =>
            if docId ∈ b.2.2 then none
            else (exampleFieldIndex.postingList b.1).record docId) ∧
      (∀ w, w ∉ (batchesOf exampleFieldIndex ([], [], []) exampleCalls).map Prod.fst →
        s1._fieldIndex.postingList w = exampleFieldIndex.postingList w) :=
  ⟨wellFormed_exampleFieldIndex, by decide, by decide,
    flush_merges_term_batches 4294967295 exampleFieldIndex [] exampleCalls
      (construct 4294967295 exampleFieldIndex) exampleFed
      wellFormed_exampleFieldIndex rfl ⟨rfl, rfl⟩ (by decide) (by decide)⟩

/-- C2, counterexample: on an empty dictionary the calls `setNextWord("a")`,
`setNextWord("b")`, `add(9)` and `flush()` are accepted and leave only the
term `"b"` in the dictionary, although `"a"` was passed to `setNextWord`. -/
theorem drained_terms_counterexample :
    (run 4294967295 (construct 4294967295 emptyFieldIndex)
      [Call.setNextWord [97], Call.setNextWord [98], Call.add 9 exampleFeatures,
        Call.flush]).map (fun s => s._fieldIndex.terms) = some [[98]] ∧
    fedTerms [Call.setNextWord [97], Call.setNextWord [98], Call.add 9 exampleFeatures] =
      [[97], [98]] := by
  decide

/-- C2, amended: after a sequence of `setNextWord`/`add`/`remove` calls that
starts with no `add` or `remove` before the first `setNextWord` and is
accepted on a fresh inserter over an empty dictionary, `flush()` completes and
the terms of the dictionary are exactly the terms passed to `setNextWord`
under which at least one `add` or `remove` was made; each of them was passed
to `setNextWord`. -/
theorem drained_terms (noDocId : Nat) (fieldIndex : FieldIndex) (calls : List Call)
    (s : OrderedFieldIndexInserter) (hempty : fieldIndex.dictionary = [])
    (hfeed : ∀ c ∈ calls, c.isFeed = true) (hopen : startsWithTermOp calls = false)
    (hrun : run noDocId (construct noDocId fieldIndex) calls = some s) :
    ∃ s1, flush s = some s1 ∧
      (∀ w, w ∈ s1._fieldIndex.terms ↔ w ∈ termsWithOps calls) ∧
      (∀ w, w ∈ s1._fieldIndex.terms → w ∈ fedTerms calls) := by
  have hterms0 : fieldIndex.terms = [] := by
    unfold FieldIndex.terms FieldIndex.entries
    rw [hempty]
    rfl
  have hwf : fieldIndex.WellFormed := by
    constructor
    · intro e he
      rw [hempty] at he
      exact absurd he (List.not_mem_nil e)
    · rw [hterms0]
      exact List.Pairwise.nil
  have h0 := inv_construct noDocId fieldIndex hwf
  have hs := inv_run noDocId calls _ s h0 hrun
  obtain ⟨s1, hfl, _, _, _, _, _, _, _, _, _, _, hterms, _⟩ := flush_spec s hs
  obtain ⟨_, hd, hw, _, _⟩ := batches_run noDocId calls _ s h0 hfeed hrun
  have hq : queuedBatches (flushWord s) =
      (batchesOf fieldIndex ([], [], []) calls).filter Batch.nonEmpty :=
    queuedBatches_flushWord_of_run noDocId calls _ s h0 ⟨rfl, rfl⟩ hfeed hrun
  have hst : s._fieldIndex.terms = [] := by
    unfold FieldIndex.terms
    rw [entries_congr s._fieldIndex fieldIndex hd hw]
    exact hterms0
  have hwords : (flushWord s)._word_entries.map Prod.fst = termsWithOps calls := by
    rw [← descriptorSlices_words (flushWord s)._adds (flushWord s)._removes
      (flushWord s)._word_entries 0 0]
    show (queuedBatches (flushWord s)).map Prod.fst = _
    rw [hq, filter_batches_terms calls fieldIndex ([], [], []) hfeed, hopen]
    rfl
  have key : ∀ w, w ∈ s1._fieldIndex.terms ↔ w ∈ termsWithOps calls := by
    intro w
    rw [hterms w, hst, hwords]
    simp
  exact ⟨s1, hfl, key, fun w hw => termsWithOps_subset_fedTerms calls w ((key w).mp hw)⟩

/-- Witness of C2: the calls `exampleCalls` on an empty dictionary leave the
terms `"a"` and `"c"`; the term `"b"`, opened without an operation, is not
entered. -/
theorem drained_terms_witness :
    ({ exampleFieldIndex with dictionary := [] } : FieldIndex).dictionary = [] ∧
    run 4294967295 (construct 4294967295 { exampleFieldIndex with dictionary := [] })
      exampleCalls =
      some { exampleFed with
        _fieldIndex := { exampleFed._fieldIndex with dictionary := [] } } ∧
    termsWithOps exampleCalls = [[97], [99]] ∧
    (flush { exampleFed with
        _fieldIndex := { exampleFed._fieldIndex with dictionary := [] } }).map
      (fun s => s._fieldIndex.terms) = some [[97], [99]] ∧
    ∃ s1, flush { exampleFed with
        _fieldIndex := { exampleFed._fieldIndex with dictionary := [] } } = some s1 ∧
      (∀ w, w ∈ s1._fieldIndex.terms ↔ w ∈ termsWithOps exampleCalls) ∧
      (∀ w, w ∈ s1._fieldIndex.terms → w ∈ fedTerms exampleCalls) :=
  ⟨rfl, by decide, by decide, by decide,
    drained_terms 4294967295 { exampleFieldIndex with dictionary := [] } exampleCalls _ rfl
      (by decide) (by decide) (by decide)⟩

/-- C10, counterexample: in the term `"a"`, after `add(5)`, `remove(7)` is
accepted and the `add(7, F)` that follows it aborts when the occurrence count
of `F` exceeds its field length; and after `remove(5)`, `add(5, F)` and
`flush()` with the counters `70000` and `80000` in `F`, the record of document
`5` holds `65535` twice. -/
theorem remove_then_add_counterexample :
    (remove 4294967295 exampleAdded 7).isSome = true ∧
    (match remove 4294967295 exampleAdded 7 with
      | some s1 => add 4294967295 s1 7 inconsistentFeatures
      | none => none) = none ∧
    (largeFeatures.num_occs = 70000 ∧ largeFeatures.field_length = 80000) ∧
    (run 4294967295 (construct 4294967295 exampleFieldIndex)
      [Call.setNextWord [97], Call.remove 5, Call.add 5 largeFeatures, Call.flush]).map
      (fun s => (s._fieldIndex.postingList [97]).record 5) = some (some ⟨1, 65535, 65535⟩) := by
  decide

/-- C10, amended: in every state reached from a fresh inserter, for every
document id `docId` that `remove` accepts and every `features` whose occurrence
count does not exceed its field length, `remove(docId)` immediately followed by
`add(docId, features)` is accepted, and after `flush()` the record of `docId`
in the posting list of the current term holds the reference the feature store
returned for `features` and its two capped counters. -/
theorem remove_then_add_updates (noDocId : Nat) (fieldIndex : FieldIndex) (calls : List Call)
    (s s1 : OrderedFieldIndexInserter) (docId : Nat) (features : DocIdAndFeatures)
    (hwf : fieldIndex.WellFormed)
    (hrun : run noDocId (construct noDocId fieldIndex) calls = some s)
    (hrem : remove noDocId s docId = some s1)
    (hf : features.num_occs ≤ features.field_length) :
    ∃ s2 s3, add noDocId s1 docId features = some s2 ∧ flush s2 = some s3 ∧
      (s3._fieldIndex.postingList s._word).record docId =
        some ⟨(s1._fieldIndex.addFeatures features).1, cap_u16 features.num_occs,
          cap_u16 features.field_length⟩ := by
  have h0 := inv_construct noDocId fieldIndex hwf
  have hs := inv_run noDocId calls _ s h0 hrun
  have hs1 := inv_remove noDocId s s1 docId hs hrem
  obtain ⟨hd, _, hs1eq⟩ := remove_eq_some noDocId s s1 docId hrem
  have htr : s1._prevDocId = docId ∧ s1._prevAdd = false := by
    rw [hs1eq]; exact ⟨rfl, rfl⟩
  have hw1 : s1._word = s._word := by rw [hs1eq]
  have hadd := add_eq_some_of noDocId s1 docId features hd (Or.inr (Or.inr htr)) hf
  have hs2 := inv_add noDocId s1 _ docId features hs1 hadd
  obtain ⟨s3, hfl, _, _, _, _, _, _, _, _, _, hpost, _, _⟩ := flush_spec _ hs2
  refine ⟨_, s3, hadd, hfl, ?_⟩
  rw [hpost s._word, queuedBatches_flushWord _ hs2]
  have hne : Batch.nonEmpty (pendingBatch ({ s1 with
      _fieldIndex := (s1._fieldIndex.addFeatures features).2,
      _adds := s1._adds ++ [⟨docId, ⟨(s1._fieldIndex.addFeatures features).1,
        cap_u16 features.num_occs, cap_u16 features.field_length⟩⟩],
      _prevDocId := docId, _prevAdd := true } : OrderedFieldIndexInserter)) = true := by
    rw [pendingBatch_nonEmpty _ hs2]
    intro hc
    have h1 : (s1._adds ++ [(⟨docId, ⟨(s1._fieldIndex.addFeatures features).1,
        cap_u16 features.num_occs, cap_u16 features.field_length⟩⟩ :
        PostingListKeyDataType)]).length = s1._adds_offset := hc.2
    have h2 := hs1.adds_le
    rw [List.length_append] at h1
    simp only [List.length_singleton] at h1
    omega
  rw [List.filter_cons_of_pos hne, List.filter_nil]
  have hp : pendingBatch ({ s1 with
      _fieldIndex := (s1._fieldIndex.addFeatures features).2,
      _adds := s1._adds ++ [⟨docId, ⟨(s1._fieldIndex.addFeatures features).1,
        cap_u16 features.num_occs, cap_u16 features.field_length⟩⟩],
      _prevDocId := docId, _prevAdd := true } : OrderedFieldIndexInserter) =
      (s._word, s1._adds.drop s1._adds_offset ++ [⟨docId,
        ⟨(s1._fieldIndex.addFeatures features).1, cap_u16 features.num_occs,
          cap_u16 features.field_length⟩⟩], s1._removes.drop s1._removes_offset) := by
    show (s1._word, (s1._adds ++ [_]).drop s1._adds_offset, _) = _
    rw [List.drop_append_of_le_length hs1.adds_le, hw1]
  rw [hp]
  have := mergeBatches_append_singleton
    (queuedBatches ({ s1 with
      _fieldIndex := (s1._fieldIndex.addFeatures features).2,
      _adds := s1._adds ++ [⟨docId, ⟨(s1._fieldIndex.addFeatures features).1,
        cap_u16 features.num_occs, cap_u16 features.field_length⟩⟩],
      _prevDocId := docId, _prevAdd := true } : OrderedFieldIndexInserter))
    (s._word, s1._adds.drop s1._adds_offset ++ [⟨docId,
        ⟨(s1._fieldIndex.addFeatures features).1, cap_u16 features.num_occs,
          cap_u16 features.field_length⟩⟩], s1._removes.drop s1._removes_offset)
    (s1._fieldIndex.addFeatures features).2.postingList
  rw [this, record_apply]
  have hrec := addedRecord_append_singleton (s1._adds.drop s1._adds_offset)
    ⟨docId, ⟨(s1._fieldIndex.addFeatures features).1, cap_u16 features.num_occs,
      cap_u16 features.field_length⟩⟩
  simp only [] at hrec
  rw [hrec]

/-- Witness of C10: over `exampleFieldIndex`, whose term `"a"` holds document
`5` with the feature reference `0`, the calls `setNextWord("a")`, `remove(5)`,
`add(5, largeFeatures)` and `flush()` leave the new reference `1` and the
capped counters in the record of document `5`. -/
theorem remove_then_add_updates_witness :
    (exampleFieldIndex.postingList [97]).record 5 = some ⟨0, 1, 3⟩ ∧
    (run 4294967295 (construct 4294967295 exampleFieldIndex)
      [Call.setNextWord [97], Call.remove 5, Call.add 5 largeFeatures, Call.flush]).map
      (fun s => (s._fieldIndex.postingList [97]).record 5) = some (some ⟨1, 65535, 65535⟩) ∧
    ∃ s2 s3,
      add 4294967295
        { construct 4294967295 exampleFieldIndex with
          _word := [97], _removes := [5], _prevDocId := 5 } 5 largeFeatures = some s2 ∧
      flush s2 = some s3 ∧
      (s3._fieldIndex.postingList [97]).record 5 =
        some ⟨(exampleFieldIndex.addFeatures largeFeatures).1, cap_u16 largeFeatures.num_occs,
          cap_u16 largeFeatures.field_length⟩ :=
  ⟨by decide, by decide,
    remove_then_add_updates 4294967295 exampleFieldIndex [Call.setNextWord [97]]
      { construct 4294967295 exampleFieldIndex with _word := [97] }
      { construct 4294967295 exampleFieldIndex with
        _word := [97], _removes := [5], _prevDocId := 5 }
      5 largeFeatures wellFormed_exampleFieldIndex (by decide) (by decide) (by decide)⟩

/-! ## Claims on `remove` in a new term and on `flushWord` -/

/-- C11, counterexample: directly after `setNextWord("a")` on a fresh
inserter, `remove(9)` is accepted although nothing was added, and `9` is
appended to the pending removes. -/
theorem remove_in_new_term_counterexample :
    setNextWord 4294967295 (construct 4294967295 emptyFieldIndex) [97] = some exampleOpen ∧
    exampleOpen._adds = [] ∧
    remove 4294967295 exampleOpen 9 =
      some { exampleOpen with _removes := [9], _prevDocId := 9, _prevAdd := false } := by
  decide

/-- C11, amended: in a newly opened term (directly after an accepted
`setNextWord`), `remove(docId)` with no prior add is accepted for every
`docId` other than `noDocId`: it appends `docId` to the pending removes and
sets the tracker to `(docId, isAdd = false)`; only `remove(noDocId)` aborts. -/
theorem remove_in_new_term (noDocId : Nat) (s s1 : OrderedFieldIndexInserter) (word : Word)
    (docId : Nat) (h : setNextWord noDocId s word = some s1) :
    (docId ≠ noDocId → remove noDocId s1 docId =
      some { s1 with
        _removes := s1._removes ++ [docId], _prevDocId := docId, _prevAdd := false }) ∧
    (docId = noDocId → remove noDocId s1 docId = none) := by
  obtain ⟨_, hs1⟩ := setNextWord_eq_some noDocId s s1 word h
  have hp : s1._prevDocId = noDocId := by rw [hs1]
  constructor
  · intro hd
    exact remove_eq_some_of noDocId s1 docId hd (Or.inl hp)
  · intro hd
    unfold remove
    rw [if_pos hd]

/-- Witness of C11: `remove(9)` and `remove(noDocId)` directly after
`setNextWord("a")`. -/
theorem remove_in_new_term_witness :
    remove 4294967295 exampleOpen 9 =
      some { exampleOpen with
        _removes := exampleOpen._removes ++ [9], _prevDocId := 9, _prevAdd := false } ∧
    remove 4294967295 exampleOpen 4294967295 = none :=
  ⟨(remove_in_new_term 4294967295 (construct 4294967295 emptyFieldIndex) exampleOpen [97] 9
      (by decide)).1 (by decide),
    (remove_in_new_term 4294967295 (construct 4294967295 emptyFieldIndex) exampleOpen [97]
      4294967295 (by decide)).2 rfl⟩

theorem flushWord_of_covered (s : OrderedFieldIndexInserter)
    (h : s._removes.length = s._removes_offset ∧ s._adds.length = s._adds_offset) :
    flushWord s = s := by
  unfold flushWord
  rw [if_pos h]

theorem flushWord_of_uncovered (s : OrderedFieldIndexInserter)
    (h : ¬ (s._removes.length = s._removes_offset ∧ s._adds.length = s._adds_offset)) :
    flushWord s = { s with
      _word_entries := s._word_entries ++
        [(s._word, s._adds.length - s._adds_offset, s._removes.length - s._removes_offset)],
      _adds_offset := s._adds.length,
      _removes_offset := s._removes.length } := by
  unfold flushWord
  rw [if_neg h]

theorem flushWord_idem (s : OrderedFieldIndexInserter) :
    flushWord (flushWord s) = flushWord s :=
  flushWord_of_covered (flushWord s)
    ⟨by rw [flushWord_removes_offset, flushWord_removes],
      by rw [flushWord_adds_offset, flushWord_adds]⟩

/-- C12: in a state whose offsets lie inside the pending sequences (as in
every reachable state), `flushWord` appends exactly one descriptor (current
term, number of uncovered adds, number of uncovered removes) and moves both
offsets to the ends of the sequences when at least one add or remove is not
yet covered, and leaves the whole state unchanged when nothing is uncovered;
in both cases `_adds` and `_removes` keep all their elements, and `flushWord`
applied twice equals `flushWord` applied once. -/
theorem flushWord_contract (s : OrderedFieldIndexInserter)
    (ha : s._adds_offset ≤ s._adds.length) (hr : s._removes_offset ≤ s._removes.length) :
    ((s._adds.drop s._adds_offset ≠ [] ∨ s._removes.drop s._removes_offset ≠ []) →
      flushWord s = { s with
        _word_entries := s._word_entries ++
          [(s._word, (s._adds.drop s._adds_offset).length,
            (s._removes.drop s._removes_offset).length)],
        _adds_offset := s._adds.length,
        _removes_offset := s._removes.length }) ∧
    ((s._adds.drop s._adds_offset = [] ∧ s._removes.drop s._removes_offset = []) →
      flushWord s = s) ∧
    (flushWord s)._adds = s._adds ∧ (flushWord s)._removes = s._removes ∧
    flushWord (flushWord s) = flushWord s := by
  refine ⟨fun h => ?_, fun h => ?_, flushWord_adds s, flushWord_removes s, flushWord_idem s⟩
  · rw [List.length_drop, List.length_drop]
    apply flushWord_of_uncovered
    intro hc
    rcases h with h | h
    · apply h
      rw [List.drop_eq_nil_iff]
      omega
    · apply h
      rw [List.drop_eq_nil_iff]
      omega
  · apply flushWord_of_covered
    have h1 := List.drop_eq_nil_iff.mp h.1
    have h2 := List.drop_eq_nil_iff.mp h.2
    constructor <;> omega

/-- Witness of C12: with one uncovered add in the term `"a"`, `flushWord`
queues `("a", 1, 0)`; applied again it changes nothing. -/
theorem flushWord_contract_witness :
    exampleAdded._adds.drop exampleAdded._adds_offset ≠ [] ∧
    flushWord exampleAdded =
      { exampleAdded with _word_entries := [([97], 1, 0)], _adds_offset := 1 } ∧
    flushWord { exampleAdded with _word_entries := [([97], 1, 0)], _adds_offset := 1 } =
      { exampleAdded with _word_entries := [([97], 1, 0)], _adds_offset := 1 } :=
  ⟨by decide,
    (flushWord_contract exampleAdded (by decide) (by decide)).1 (Or.inl (by decide)),
    (flushWord_contract { exampleAdded with _word_entries := [([97], 1, 0)], _adds_offset := 1 }
      (by decide) (by decide)).2.1 ⟨by decide, by decide⟩⟩

/-! ## What every loop step and every drain leaves unchanged -/

theorem set_of_getElem? {α : Type} (l : List α) :
    ∀ (i : Nat) (a : α), l[i]? = some a → l.set i a = l := by
  induction l with
  | nil => intro i a _; rfl
  | cons x l ih =>
    intro i a h
    cases i with
    | zero =>
      simp only [List.getElem?_cons_zero, Option.some.injEq] at h
      rw [List.set_cons_zero, h]
    | succ i =>
      simp only [List.getElem?_cons_succ] at h
      rw [List.set_cons_succ, ih i a h]

theorem flushSeek_frame (s : OrderedFieldIndexInserter) (w : Word) :
    ∃ j ext, flushSeek s w =
        { s with _dItr := j, _fieldIndex := { s._fieldIndex with
          trace := s._fieldIndex.trace ++ ext } } ∧
      s._dItr ≤ j ∧ (ext = [] ∨ ext = [Event.binarySeek w]) := by
  have hsame : s = { s with _dItr := s._dItr, _fieldIndex := { s._fieldIndex with
      trace := s._fieldIndex.trace ++ [] } } := by
    rw [List.append_nil]
  unfold flushSeek
  cases h : s.dItrEntry with
  | none => exact ⟨s._dItr, [], hsame, Nat.le_refl _, Or.inl rfl⟩
  | some e =>
    by_cases hw : s._fieldIndex.getWord e.1 < w
    · simp only [if_pos hw]
      exact ⟨_, [Event.binarySeek w], rfl, Nat.le_add_right _ _, Or.inr rfl⟩
    · simp only [if_neg hw]
      exact ⟨s._dItr, [], hsame, Nat.le_refl _, Or.inl rfl⟩

theorem flushInsert_frame (s : OrderedFieldIndexInserter) (w : Word) :
    ∃ fi2 ext, flushInsert s w = { s with _fieldIndex := fi2 } ∧
      fi2.trace = s._fieldIndex.trace ++ ext ∧
      (ext = [] ∨ ext = [Event.addWord w, Event.dictInsert s._fieldIndex.wordStore.length]) ∧
      fi2.featureStore = s._fieldIndex.featureStore := by
  have hins : ∃ fi2 ext,
      ({ s with _fieldIndex :=
          (s._fieldIndex.addWord w).2.dictInsert s._dItr (s._fieldIndex.addWord w).1 [] } :
        OrderedFieldIndexInserter) = { s with _fieldIndex := fi2 } ∧
      fi2.trace = s._fieldIndex.trace ++ ext ∧
      (ext = [] ∨ ext = [Event.addWord w, Event.dictInsert s._fieldIndex.wordStore.length]) ∧
      fi2.featureStore = s._fieldIndex.featureStore :=
    ⟨_, [Event.addWord w, Event.dictInsert s._fieldIndex.wordStore.length], rfl,
      by simp [FieldIndex.dictInsert, FieldIndex.addWord], Or.inr rfl, rfl⟩
  have hsame : ∃ fi2 ext, s = { s with _fieldIndex := fi2 } ∧
      fi2.trace = s._fieldIndex.trace ++ ext ∧
      (ext = [] ∨ ext = [Event.addWord w, Event.dictInsert s._fieldIndex.wordStore.length]) ∧
      fi2.featureStore = s._fieldIndex.featureStore :=
    ⟨s._fieldIndex, [], rfl, by simp, Or.inl rfl, rfl⟩
  unfold flushInsert
  cases h : s.dItrEntry with
  | none => simpa using hins
  | some e =>
    by_cases hw : w < s._fieldIndex.getWord e.1
    · simpa [hw] using hins
    · simpa [hw] using hsame

theorem flushApply_frame (s s3 : OrderedFieldIndexInserter) (w : Word)
    (adds : List PostingListKeyDataType) (removes : List Nat)
    (h : flushApply s w adds removes = some s3) :
    ∃ e fi3 rel, s.dItrEntry = some e ∧ w = s._fieldIndex.getWord e.1 ∧
      s3 = { s with _fieldIndex := fi3 } ∧
      fi3.trace = s._fieldIndex.trace ++
        (adds.map (fun a => Event.listenerInsert e.1 a._key) ++
          Event.apply e.2 adds removes :: rel) ∧
      (rel = [] ∨ rel = [Event.store_release e.1]) ∧
      fi3.featureStore = s._fieldIndex.featureStore ∧
      fi3.wordStore = s._fieldIndex.wordStore ∧
      fi3.dictionary = s._fieldIndex.dictionary.set s._dItr
        (e.1, PostingListStore.apply e.2 adds removes) := by
  unfold flushApply at h
  cases he : s.dItrEntry with
  | none => rw [he] at h; exact Option.noConfusion h
  | some e =>
    rw [he] at h
    simp only [] at h
    by_cases hw : w = s._fieldIndex.getWord e.1
    · rw [if_neg (not_not.mpr hw)] at h
      have hget : s._fieldIndex.dictionary[s._dItr]? = some e := he
      by_cases hp : PostingListStore.apply e.2 adds removes = e.2
      · rw [if_neg (not_not.mpr hp)] at h
        refine ⟨e, _, [], rfl, hw, (Option.some.inj h).symm, ?_, Or.inl rfl, rfl, rfl, ?_⟩
        · simp only [List.append_assoc, List.singleton_append]
        · show s._fieldIndex.dictionary = _
          rw [hp]
          exact (set_of_getElem? _ _ _ hget).symm
      · rw [if_pos hp] at h
        refine ⟨e, _, [Event.store_release e.1], rfl, hw, (Option.some.inj h).symm, ?_,
          Or.inr rfl, rfl, rfl, rfl⟩
        simp only [List.append_assoc, List.singleton_append]
    · rw [if_pos hw] at h
      exact Option.noConfusion h

theorem flushEntry_frame (s : OrderedFieldIndexInserter) (adds_offset removes_offset : Nat)
    (word_entry : Word × Nat × Nat) (r : OrderedFieldIndexInserter × Nat × Nat)
    (h : flushEntry s adds_offset removes_offset word_entry = some r) :
    r.2.1 = adds_offset + word_entry.2.1 ∧ r.2.2 = removes_offset + word_entry.2.2 ∧
    r.1 = { s with _dItr := r.1._dItr, _fieldIndex := r.1._fieldIndex } ∧
    s._dItr ≤ r.1._dItr ∧
    r.1._fieldIndex.featureStore = s._fieldIndex.featureStore ∧
    ∃ pre k old rel,
      r.1._fieldIndex.trace = s._fieldIndex.trace ++ (pre ++
        (((s._adds.drop adds_offset).take word_entry.2.1).map
            (fun a => Event.listenerInsert k a._key) ++
          Event.apply old ((s._adds.drop adds_offset).take word_entry.2.1)
            ((s._removes.drop removes_offset).take word_entry.2.2) :: rel)) ∧
      (∀ x ∈ pre, x = Event.binarySeek word_entry.1 ∨ x = Event.addWord word_entry.1 ∨
        ∃ n, x = Event.dictInsert n) ∧
      (rel = [] ∨ rel = [Event.store_release k]) ∧
      r.1.dItrEntry = some (k, PostingListStore.apply old
        ((s._adds.drop adds_offset).take word_entry.2.1)
        ((s._removes.drop removes_offset).take word_entry.2.2)) ∧
      r.1._fieldIndex.getWord k = word_entry.1 := by
  obtain ⟨j, ext1, hs1, hj, hext1⟩ := flushSeek_frame s word_entry.1
  obtain ⟨fi2, ext2, hs2, htr2, hext2, hfs2⟩ :=
    flushInsert_frame (flushSeek s word_entry.1) word_entry.1
  unfold flushEntry at h
  simp only [] at h
  cases hA : flushApply (flushInsert (flushSeek s word_entry.1) word_entry.1) word_entry.1
      ((s._adds.drop adds_offset).take word_entry.2.1)
      ((s._removes.drop removes_offset).take word_entry.2.2) with
  | none => rw [hA] at h; exact Option.noConfusion h
  | some s3 =>
    rw [hA] at h
    simp only [Option.some.injEq] at h
    subst h
    obtain ⟨e, fi3, rel, hent, hw, hs3, htr3, hrel, hfs3, hws3, hd3⟩ :=
      flushApply_frame _ s3 _ _ _ hA
    have hfull : s3 = { s with _dItr := j, _fieldIndex := fi3 } := by
      rw [hs3, hs2, hs1]
    have hitr2 : (flushInsert (flushSeek s word_entry.1) word_entry.1)._dItr = j := by
      rw [hs2, hs1]
    have htrace2 : (flushInsert (flushSeek s word_entry.1) word_entry.1)._fieldIndex.trace =
        s._fieldIndex.trace ++ (ext1 ++ ext2) := by
      rw [hs2]
      show fi2.trace = _
      rw [htr2, hs1, List.append_assoc]
    have hfs : (flushInsert (flushSeek s word_entry.1) word_entry.1)._fieldIndex.featureStore =
        s._fieldIndex.featureStore := by
      rw [hs2]
      show fi2.featureStore = _
      rw [hfs2, hs1]
    have hd3j : s3._dItr = j := by rw [hfull]
    have hfi3 : s3._fieldIndex = fi3 := by rw [hfull]
    refine ⟨rfl, rfl, ?_, ?_, ?_, ext1 ++ ext2, e.1, e.2, rel, ?_, ?_, ?_, ?_, ?_⟩
    · rw [hfull]
    · rw [hd3j]; exact hj
    · rw [hfi3, hfs3, hfs]
    · rw [hfi3, htr3, htrace2]
      simp only [List.append_assoc]
    · intro x hx
      rcases List.mem_append.mp hx with hx | hx
      · rcases hext1 with rfl | rfl
        · simp at hx
        · simp only [List.mem_singleton] at hx
          exact Or.inl hx
      · rcases hext2 with rfl | rfl
        · simp at hx
        · simp only [List.mem_cons, List.mem_singleton, List.not_mem_nil, or_false] at hx
          rcases hx with hx | hx
          · exact Or.inr (Or.inl hx)
          · exact Or.inr (Or.inr ⟨_, hx⟩)
    · rcases hrel with h1 | h1
      · exact Or.inl h1
      · exact Or.inr h1
    · unfold dItrEntry
      rw [hfi3, hd3j, hd3, hitr2]
      have hlt : j < (flushInsert (flushSeek s word_entry.1)
          word_entry.1)._fieldIndex.dictionary.length := by
        have hent2 : (flushInsert (flushSeek s word_entry.1)
            word_entry.1)._fieldIndex.dictionary[(flushInsert (flushSeek s word_entry.1)
            word_entry.1)._dItr]? = some e := hent
        rw [hitr2] at hent2
        by_contra hc
        rw [List.getElem?_eq_none_iff.mpr (not_lt.mp hc)] at hent2
        exact Option.noConfusion hent2
      exact List.getElem?_set_self hlt
    · rw [hfi3, getWord_congr fi3 _ hws3]
      exact hw.symm

theorem flushLoop_frame (es : List (Word × Nat × Nat)) :
    ∀ (s : OrderedFieldIndexInserter) (adds_offset removes_offset : Nat)
      (r : OrderedFieldIndexInserter × Nat × Nat),
      flushLoop s adds_offset removes_offset es = some r →
      r.2.1 = adds_offset + (es.map (fun e => e.2.1)).sum ∧
      r.2.2 = removes_offset + (es.map (fun e => e.2.2)).sum ∧
      r.1 = { s with _dItr := r.1._dItr, _fieldIndex := r.1._fieldIndex } ∧
      s._dItr ≤ r.1._dItr ∧
      r.1._fieldIndex.featureStore = s._fieldIndex.featureStore ∧
      ∃ ext, r.1._fieldIndex.trace = s._fieldIndex.trace ++ ext ∧
        ∀ x ∈ ext, x.isDrainStep = true := by
  induction es with
  | nil =>
    intro s ao ro r h
    simp only [flushLoop, Option.some.injEq] at h
    subst h
    exact ⟨by simp, by simp, rfl, Nat.le_refl _, rfl, [], by simp, by simp⟩
  | cons e es ih =>
    intro s ao ro r h
    simp only [flushLoop] at h
    cases h1 : flushEntry s ao ro e with
    | none => rw [h1] at h; exact Option.noConfusion h
    | some r1 =>
      rw [h1] at h
      simp only [] at h
      obtain ⟨ha1, hr1, hf1, hi1, hfs1, pre, k, old, rel, htr1, hpre, hrel, _, _⟩ :=
        flushEntry_frame s ao ro e r1 h1
      obtain ⟨ha2, hr2, hf2, hi2, hfs2, ext2, htr2, hext2⟩ := ih r1.1 r1.2.1 r1.2.2 r h
      refine ⟨?_, ?_, ?_, Nat.le_trans hi1 hi2, hfs2.trans hfs1,
        (pre ++ (((s._adds.drop ao).take e.2.1).map (fun a => Event.listenerInsert k a._key) ++
          Event.apply old ((s._adds.drop ao).take e.2.1) ((s._removes.drop ro).take e.2.2) ::
            rel)) ++ ext2, ?_, ?_⟩
      · rw [ha2, ha1, List.map_cons, List.sum_cons, Nat.add_assoc]
      · rw [hr2, hr1, List.map_cons, List.sum_cons, Nat.add_assoc]
      · rw [hf2]
        conv_lhs => rw [hf1]
      · rw [htr2, htr1, List.append_assoc]
      · intro x hx
        rcases List.mem_append.mp hx with hx | hx
        · rcases List.mem_append.mp hx with hx | hx
          · rcases hpre x hx with rfl | rfl | ⟨n, rfl⟩ <;> rfl
          · rcases List.mem_append.mp hx with hx | hx
            · obtain ⟨a, _, rfl⟩ := List.mem_map.mp hx
              rfl
            · rcases List.mem_cons.mp hx with rfl | hx
              · rfl
              · rcases hrel with rfl | rfl
                · simp at hx
                · rw [List.mem_singleton.mp hx]; rfl
        · exact hext2 x hx

theorem flush_frame (s s1 : OrderedFieldIndexInserter) (h : flush s = some s1) :
    s1._adds = [] ∧ s1._removes = [] ∧ s1._word_entries = [] ∧
    s1._adds_offset = 0 ∧ s1._removes_offset = 0 ∧
    s1._word = s._word ∧ s1._prevDocId = s._prevDocId ∧ s1._prevAdd = s._prevAdd ∧
    s._dItr ≤ s1._dItr ∧
    ∃ mid, (∀ x ∈ mid, x.isDrainStep = true) ∧
      s1._fieldIndex.trace = s._fieldIndex.trace ++
        ((if s._adds = [] then [] else [Event.add_features_guard_bytes]) ++ mid ++
          [Event.listenerFlush]) ∧
      s1._fieldIndex.featureStore = s._fieldIndex.featureStore ++
        (if s._adds = [] then [] else [FeatureStoreItem.guardBytes]) := by
  simp only [flush] at h
  split at h
  · exact Option.noConfusion h
  · split at h
    · exact Option.noConfusion h
    · cases hl : flushLoop
          (if (flushWord s)._adds ≠ [] then
            { flushWord s with
              _fieldIndex := (flushWord s)._fieldIndex.add_features_guard_bytes }
          else flushWord s) 0 0
          (if (flushWord s)._adds ≠ [] then
            { flushWord s with
              _fieldIndex := (flushWord s)._fieldIndex.add_features_guard_bytes }
          else flushWord s)._word_entries with
      | none => rw [hl] at h; exact Option.noConfusion h
      | some r =>
        rw [hl] at h
        simp only [] at h
        split at h
        · exact Option.noConfusion h
        · split at h
          · exact Option.noConfusion h
          · simp only [Option.some.injEq] at h
            subst h
            obtain ⟨_, _, hf, hi, hfs, ext, htr, hext⟩ := flushLoop_frame _ _ _ _ _ hl
            have hw : r.1._word = s._word := by
              rw [hf]
              show (if (flushWord s)._adds ≠ [] then _ else flushWord s)._word = _
              split <;> exact flushWord_word s
            have hp : r.1._prevDocId = s._prevDocId := by
              rw [hf]
              show (if (flushWord s)._adds ≠ [] then _ else flushWord s)._prevDocId = _
              split <;> exact flushWord_prevDocId s
            have hpa : r.1._prevAdd = s._prevAdd := by
              rw [hf]
              show (if (flushWord s)._adds ≠ [] then _ else flushWord s)._prevAdd = _
              split <;> exact flushWord_prevAdd s
            refine ⟨rfl, rfl, rfl, rfl, rfl, hw, hp, hpa, ?_, ext, hext, ?_, ?_⟩
            · refine Nat.le_trans ?_ hi
              show s._dItr ≤ (if (flushWord s)._adds ≠ [] then _ else flushWord s)._dItr
              split <;> rw [flushWord_dItr]
            · show r.1._fieldIndex.trace ++ [Event.listenerFlush] = _
              rw [htr, flushWord_adds]
              by_cases hA : s._adds = []
              · simp [hA, flushWord_fieldIndex]
              · simp [hA, flushWord_fieldIndex, FieldIndex.add_features_guard_bytes]
            · show r.1._fieldIndex.featureStore = _
              rw [hfs, flushWord_adds]
              by_cases hA : s._adds = []
              · simp [hA, flushWord_fieldIndex]
              · simp [hA, flushWord_fieldIndex, FieldIndex.add_features_guard_bytes]

/-! ## The bookkeeping of reachable states -/

theorem book_construct (noDocId : Nat) (fieldIndex : FieldIndex) :
    Book (construct noDocId fieldIndex) where
  adds_le := Nat.le_refl _
  removes_le := Nat.le_refl _
  adds_sum := rfl
  removes_sum := rfl
  covers := by intro e he; simp [construct] at he

theorem book_of_inv (s : OrderedFieldIndexInserter) (h : Inv s) : Book s :=
  ⟨h.adds_le, h.removes_le, h.adds_sum, h.removes_sum, h.covers⟩

theorem book_flushWord (s : OrderedFieldIndexInserter) (h : Book s) : Book (flushWord s) := by
  have hal := h.adds_le
  have hrl := h.removes_le
  by_cases hc : s._removes.length = s._removes_offset ∧ s._adds.length = s._adds_offset
  · rw [flushWord_of_covered s hc]; exact h
  · rw [flushWord_of_uncovered s hc]
    constructor
    · exact Nat.le_refl _
    · exact Nat.le_refl _
    · show ((s._word_entries ++ [_]).map (fun e : Word × Nat × Nat => e.2.1)).sum =
        s._adds.length
      simp only [List.map_append, List.map_cons, List.map_nil, List.sum_append, List.sum_cons,
        List.sum_nil, h.adds_sum]
      omega
    · show ((s._word_entries ++ [_]).map (fun e : Word × Nat × Nat => e.2.2)).sum =
        s._removes.length
      simp only [List.map_append, List.map_cons, List.map_nil, List.sum_append, List.sum_cons,
        List.sum_nil, h.removes_sum]
      omega
    · intro e he
      rcases List.mem_append.mp he with he | he
      · exact h.covers e he
      · rw [List.mem_singleton.mp he]
        show 0 < s._adds.length - s._adds_offset + (s._removes.length - s._removes_offset)
        omega

theorem book_of_empty (s : OrderedFieldIndexInserter)
    (hq : s._word_entries = []) (hao : s._adds_offset = 0) (hro : s._removes_offset = 0) :
    Book s := by
  constructor
  · rw [hao]; exact Nat.zero_le _
  · rw [hro]; exact Nat.zero_le _
  · rw [hq, hao]; rfl
  · rw [hq, hro]; rfl
  · intro e he; rw [hq] at he; simp at he

theorem book_word_entries_nil (s : OrderedFieldIndexInserter) (h : Book s)
    (ha : s._adds = []) (hr : s._removes = []) : s._word_entries = [] := by
  have h1 := h.adds_le
  have h2 := h.removes_le
  rw [ha] at h1
  rw [hr] at h2
  simp only [List.length_nil, Nat.le_zero] at h1 h2
  have s1 := h.adds_sum
  have s2 := h.removes_sum
  rw [h1] at s1
  rw [h2] at s2
  cases hq : s._word_entries with
  | nil => rfl
  | cons e es =>
    exfalso
    have hc := h.covers e (by rw [hq]; exact List.mem_cons_self _ _)
    rw [hq] at s1 s2
    simp only [List.map_cons, List.sum_cons] at s1 s2
    omega

theorem rewind_eq_some (noDocId : Nat) (s s1 : OrderedFieldIndexInserter)
    (h : rewind noDocId s = some s1) :
    (s._removes = [] ∧ s._adds = []) ∧
      s1 = { s with _word := [], _prevDocId := noDocId, _prevAdd := false, _dItr := 0 } := by
  unfold rewind at h
  split at h
  · rename_i hc
    exact ⟨hc, (Option.some.inj h).symm⟩
  · exact Option.noConfusion h

theorem book_step (noDocId : Nat) (s s1 : OrderedFieldIndexInserter) (c : Call)
    (h : Book s) (hs : step noDocId s c = some s1) : Book s1 := by
  cases c with
  | setNextWord w =>
    obtain ⟨_, rfl⟩ := setNextWord_eq_some noDocId s s1 w hs
    have h0 := book_flushWord s h
    exact ⟨h0.adds_le, h0.removes_le, h0.adds_sum, h0.removes_sum, h0.covers⟩
  | add d f =>
    obtain ⟨_, _, _, rfl⟩ := add_eq_some noDocId s s1 d f hs
    refine ⟨?_, h.removes_le, h.adds_sum, h.removes_sum, h.covers⟩
    show s._adds_offset ≤ (s._adds ++ [_]).length
    have := h.adds_le
    rw [List.length_append]
    omega
  | remove d =>
    obtain ⟨_, _, rfl⟩ := remove_eq_some noDocId s s1 d hs
    refine ⟨h.adds_le, ?_, h.adds_sum, h.removes_sum, h.covers⟩
    show s._removes_offset ≤ (s._removes ++ [_]).length
    have := h.removes_le
    rw [List.length_append]
    omega
  | flushWord =>
    simp only [step, Option.some.injEq] at hs
    rw [← hs]
    exact book_flushWord s h
  | flush =>
    obtain ⟨_, _, hq, hao, hro, _⟩ := flush_frame s s1 hs
    exact book_of_empty s1 hq hao hro
  | rewind =>
    obtain ⟨_, rfl⟩ := rewind_eq_some noDocId s s1 hs
    exact ⟨h.adds_le, h.removes_le, h.adds_sum, h.removes_sum, h.covers⟩

theorem book_run (noDocId : Nat) (calls : List Call) :
    ∀ (s s1 : OrderedFieldIndexInserter), Book s → run noDocId s calls = some s1 → Book s1 := by
  induction calls with
  | nil =>
    intro s s1 h hr
    simp only [run, Option.some.injEq] at hr
    exact hr ▸ h
  | cons c cs ih =>
    intro s s1 h hr
    simp only [run] at hr
    cases hs : step noDocId s c with
    | none => rw [hs] at hr; exact Option.noConfusion hr
    | some s2 =>
      rw [hs] at hr
      exact ih s2 s1 (book_step noDocId s s2 c h hs) hr

/-! ## Claims on the drain and on `rewind` -/

/-- C13, counterexample: `flush()` on a freshly constructed inserter, where
nothing is pending, issues the listener's `flush()` notification. -/
theorem flush_idle_counterexample :
    (construct 4294967295 emptyFieldIndex)._adds = [] ∧
    (construct 4294967295 emptyFieldIndex)._removes = [] ∧
    (construct 4294967295 emptyFieldIndex)._word_entries = [] ∧
    (construct 4294967295 emptyFieldIndex)._fieldIndex.trace = [] ∧
    (flush (construct 4294967295 emptyFieldIndex)).map (fun s => s._fieldIndex.trace) =
      some [Event.listenerFlush] := by
  decide

/-- C13, amended: `flush()` with an empty pending batch (no pending add, no
pending remove, no queued descriptor, the offsets inside the sequences as in
every reachable state) completes and leaves the dictionary, the posting lists,
the word store, the feature store and every member of the inserter unchanged;
it issues no insert notification, no merge and no guard bytes, and it issues the
listener's `flush()` notification exactly once. -/
theorem flush_idle (s : OrderedFieldIndexInserter) (ha : s._adds = []) (hr : s._removes = [])
    (hq : s._word_entries = []) (hao : s._adds_offset ≤ s._adds.length)
    (hro : s._removes_offset ≤ s._removes.length) :
    flush s = some { s with
      _fieldIndex := { s._fieldIndex with
        trace := s._fieldIndex.trace ++ [Event.listenerFlush] } } := by
  obtain ⟨w, p, pa, fi, it, rs, as, es, ro, ao⟩ := s
  simp only at ha hr hq hao hro
  subst ha hr hq
  simp only [List.length_nil, Nat.le_zero] at hao hro
  subst hao hro
  rfl

/-- Witness of C13: `flush()` on the drained state of a fresh inserter. -/
theorem flush_idle_witness :
    flush (construct 4294967295 exampleFieldIndex) = some
      { construct 4294967295 exampleFieldIndex with
        _fieldIndex := { exampleFieldIndex with trace := [Event.listenerFlush] } } :=
  flush_idle (construct 4294967295 exampleFieldIndex) rfl rfl rfl (by decide) (by decide)

/-- C14: after every completed `flush()` the pending adds, the pending removes
and the descriptor queue are empty and both offsets are `0`, the current term
and the tracker are those before the call, and the collaborator calls of the
drain are followed by exactly one `flush()` notification of the listener: the
calls made before it hold no such notification, and it is the last call. -/
theorem flush_clears (s s1 : OrderedFieldIndexInserter) (h : flush s = some s1) :
    s1._adds = [] ∧ s1._removes = [] ∧ s1._word_entries = [] ∧
    s1._adds_offset = 0 ∧ s1._removes_offset = 0 ∧
    s1._word = s._word ∧ s1._prevDocId = s._prevDocId ∧ s1._prevAdd = s._prevAdd ∧
    ∃ mid, s1._fieldIndex.trace = s._fieldIndex.trace ++ (mid ++ [Event.listenerFlush]) ∧
      Event.listenerFlush ∉ mid ∧ (mid ++ [Event.listenerFlush]).count Event.listenerFlush = 1 := by
  obtain ⟨h1, h2, h3, h4, h5, h6, h7, h8, _, mid, hmid, htr, _⟩ := flush_frame s s1 h
  have hno : Event.listenerFlush ∉
      (if s._adds = [] then [] else [Event.add_features_guard_bytes]) ++ mid := by
    intro hm
    rcases List.mem_append.mp hm with hm | hm
    · split at hm
      · simp at hm
      · simp at hm
    · have := hmid _ hm
      exact Bool.noConfusion this
  refine ⟨h1, h2, h3, h4, h5, h6, h7, h8, _, htr, hno, ?_⟩
  rw [List.count_append, List.count_eq_zero_of_not_mem hno]
  rfl

/-- Witness of C14: the drain of `exampleFed`. -/
theorem flush_clears_witness :
    ∃ s1, flush exampleFed = some s1 ∧
      s1._adds = [] ∧ s1._removes = [] ∧ s1._word_entries = [] ∧
      s1._adds_offset = 0 ∧ s1._removes_offset = 0 ∧
      s1._word = exampleFed._word ∧ s1._prevDocId = exampleFed._prevDocId ∧
      s1._prevAdd = exampleFed._prevAdd ∧
      ∃ mid, s1._fieldIndex.trace = exampleFed._fieldIndex.trace ++
          (mid ++ [Event.listenerFlush]) ∧
        Event.listenerFlush ∉ mid ∧
        (mid ++ [Event.listenerFlush]).count Event.listenerFlush = 1 := by
  have h : (flush exampleFed).isSome = true := by decide
  obtain ⟨s1, hs1⟩ := Option.isSome_iff_exists.mp h
  exact ⟨s1, hs1, flush_clears exampleFed s1 hs1⟩

/-- C15, counterexample: the drain of a term with one remove and no add has a
queued descriptor and appends no guard bytes: neither the trace nor the feature
store gets any. -/
theorem flush_guard_bytes_counterexample :
    (flushWord exampleRemoved)._word_entries = [([97], 0, 1)] ∧
    (flush exampleRemoved).map (fun s => s._fieldIndex.trace) =
      some [Event.addWord [97], Event.dictInsert 0, Event.apply [] [] [5],
        Event.listenerFlush] ∧
    (flush exampleRemoved).map (fun s => s._fieldIndex.featureStore) = some [] ∧
    exampleRemovedQueued._word_entries = [([97], 0, 1)] ∧
    (flush exampleRemovedQueued).map (fun s => s._fieldIndex.trace) =
      some [Event.addWord [97], Event.dictInsert 0, Event.apply [] [] [5],
        Event.listenerFlush] := by
  decide

/-- C15, amended: every completed `flush()` with at least one pending add
appends the feature-store guard bytes exactly once, as its first collaborator
call, before every dictionary lookup, insertion, notification and merge of the
drain; a `flush()` without pending add appends none, also when descriptors
with removes are queued. -/
theorem flush_guard_bytes (s s1 : OrderedFieldIndexInserter) (h : flush s = some s1) :
    (s._adds ≠ [] →
      ∃ mid, s1._fieldIndex.trace = s._fieldIndex.trace ++
          (Event.add_features_guard_bytes :: (mid ++ [Event.listenerFlush])) ∧
        (∀ x ∈ mid, x.isDrainStep = true) ∧
        Event.add_features_guard_bytes ∉ mid ++ [Event.listenerFlush] ∧
        s1._fieldIndex.featureStore =
          s._fieldIndex.featureStore ++ [FeatureStoreItem.guardBytes]) ∧
    (s._adds = [] →
      ∃ mid, s1._fieldIndex.trace = s._fieldIndex.trace ++ (mid ++ [Event.listenerFlush]) ∧
        (∀ x ∈ mid, x.isDrainStep = true) ∧
        Event.add_features_guard_bytes ∉ mid ++ [Event.listenerFlush] ∧
        s1._fieldIndex.featureStore = s._fieldIndex.featureStore) := by
  obtain ⟨_, _, _, _, _, _, _, _, _, mid, hmid, htr, hfs⟩ := flush_frame s s1 h
  have hno : Event.add_features_guard_bytes ∉ mid ++ [Event.listenerFlush] := by
    intro hm
    rcases List.mem_append.mp hm with hm | hm
    · exact Bool.noConfusion (hmid _ hm)
    · simp at hm
  constructor
  · intro hA
    rw [if_neg hA] at htr hfs
    exact ⟨mid, by rw [htr]; simp, hmid, hno, hfs⟩
  · intro hA
    rw [if_pos hA] at htr hfs
    exact ⟨mid, by rw [htr]; simp, hmid, hno, by rw [hfs, List.append_nil]⟩

/-- Witness of C15: the drain of `exampleFed`, which has three pending
adds. -/
theorem flush_guard_bytes_witness :
    exampleFed._adds ≠ [] ∧
    ∃ s1, flush exampleFed = some s1 ∧
      ∃ mid, s1._fieldIndex.trace = exampleFed._fieldIndex.trace ++
          (Event.add_features_guard_bytes :: (mid ++ [Event.listenerFlush])) ∧
        (∀ x ∈ mid, x.isDrainStep = true) ∧
        Event.add_features_guard_bytes ∉ mid ++ [Event.listenerFlush] ∧
        s1._fieldIndex.featureStore =
          exampleFed._fieldIndex.featureStore ++ [FeatureStoreItem.guardBytes] := by
  have h : (flush exampleFed).isSome = true := by decide
  obtain ⟨s1, hs1⟩ := Option.isSome_iff_exists.mp h
  exact ⟨by decide, s1, hs1, (flush_guard_bytes exampleFed s1 hs1).1 (by decide)⟩

/-- C18: `rewind()` aborts when a pending add or a pending remove exists; when
it is accepted, the current term is the empty word, the tracker is
`(noDocId, isAdd = false)`, the iterator stands at the first entry of the
dictionary, and the field index (dictionary, posting lists, stores) and all
other members are untouched; and in every state reached from a fresh inserter
an accepted `rewind()` finds no queued descriptor. -/
theorem rewind_contract (noDocId : Nat) (s : OrderedFieldIndexInserter) :
    ((s._adds ≠ [] ∨ s._removes ≠ []) → rewind noDocId s = none) ∧
    (∀ s1, rewind noDocId s = some s1 →
      s._adds = [] ∧ s._removes = [] ∧
      s1 = { s with _word := [], _prevDocId := noDocId, _prevAdd := false, _dItr := 0 } ∧
      s1._word = emptyWord ∧ s1._prevDocId = noDocId ∧ s1._prevAdd = false ∧ s1._dItr = 0 ∧
      s1._fieldIndex = s._fieldIndex) ∧
    (∀ fieldIndex calls s1, run noDocId (construct noDocId fieldIndex) calls = some s →
      rewind noDocId s = some s1 → s._word_entries = [] ∧ s1._word_entries = []) := by
  refine ⟨?_, ?_, ?_⟩
  · intro h
    unfold rewind
    rw [if_neg]
    intro hc
    rcases h with h | h
    · exact h hc.2
    · exact h hc.1
  · intro s1 h
    obtain ⟨hc, rfl⟩ := rewind_eq_some noDocId s s1 h
    exact ⟨hc.2, hc.1, rfl, rfl, rfl, rfl, rfl, rfl⟩
  · intro fieldIndex calls s1 hrun h
    obtain ⟨hc, rfl⟩ := rewind_eq_some noDocId s s1 h
    have hb := book_run noDocId calls _ s (book_construct noDocId fieldIndex) hrun
    have hq := book_word_entries_nil s hb hc.2 hc.1
    exact ⟨hq, hq⟩

/-- Witness of C18: `rewind()` aborts with one pending add and with one queued
remove, and is accepted on the newly opened term `"a"`. -/
theorem rewind_contract_witness :
    rewind 4294967295 exampleAdded = none ∧
    rewind 4294967295 exampleRemovedQueued = none ∧
    rewind 4294967295 exampleOpen = some (construct 4294967295 emptyFieldIndex) ∧
    (construct 4294967295 emptyFieldIndex)._dItr = 0 ∧
    exampleOpen._word_entries = [] :=
  ⟨(rewind_contract 4294967295 exampleAdded).1 (Or.inl (by decide)),
    (rewind_contract 4294967295 exampleRemovedQueued).1 (Or.inr (by decide)),
    by decide,
    ((rewind_contract 4294967295 exampleOpen).2.1 _ (by decide)).2.2.2.2.2.2.1,
    ((rewind_contract 4294967295 exampleOpen).2.2 emptyFieldIndex [Call.setNextWord [97]]
      (construct 4294967295 emptyFieldIndex) (by decide) (by decide)).1⟩

/-! ## The current term along a run -/

theorem word_step (noDocId : Nat) (s s1 : OrderedFieldIndexInserter) (c : Call)
    (hc : c.isRewind = false) (hs : step noDocId s c = some s1) :
    s._word ≤ s1._word ∧ ∀ t ∈ fedTerms [c], s._word < t ∧ t = s1._word := by
  cases c with
  | setNextWord w =>
    obtain ⟨hlt, rfl⟩ := setNextWord_eq_some noDocId s s1 w hs
    refine ⟨le_of_lt hlt, ?_⟩
    intro t ht
    simp only [fedTerms, List.mem_singleton] at ht
    subst ht
    exact ⟨hlt, rfl⟩
  | add d f =>
    obtain ⟨_, _, _, rfl⟩ := add_eq_some noDocId s s1 d f hs
    exact ⟨le_refl _, fun t ht => by simp [fedTerms] at ht⟩
  | remove d =>
    obtain ⟨_, _, rfl⟩ := remove_eq_some noDocId s s1 d hs
    exact ⟨le_refl _, fun t ht => by simp [fedTerms] at ht⟩
  | flushWord =>
    simp only [step, Option.some.injEq] at hs
    subst hs
    exact ⟨le_of_eq (flushWord_word s).symm, fun t ht => by simp [fedTerms] at ht⟩
  | flush =>
    obtain ⟨_, _, _, _, _, hw, _⟩ := flush_frame s s1 hs
    exact ⟨le_of_eq hw.symm, fun t ht => by simp [fedTerms] at ht⟩
  | rewind => exact Bool.noConfusion hc

theorem fedTerms_cons (c : Call) (cs : List Call) :
    fedTerms (c :: cs) = fedTerms [c] ++ fedTerms cs := by
  cases c <;> rfl

theorem word_run (noDocId : Nat) (calls : List Call) :
    ∀ (s s1 : OrderedFieldIndexInserter), (∀ c ∈ calls, c.isRewind = false) →
      run noDocId s calls = some s1 →
      s._word ≤ s1._word ∧ (fedTerms calls).Pairwise (· < ·) ∧
        ∀ t ∈ fedTerms calls, s._word < t ∧ t ≤ s1._word := by
  induction calls with
  | nil =>
    intro s s1 _ hr
    simp only [run, Option.some.injEq] at hr
    subst hr
    exact ⟨le_refl _, List.Pairwise.nil, fun t ht => by simp [fedTerms] at ht⟩
  | cons c cs ih =>
    intro s s1 hnr hr
    simp only [run] at hr
    cases hs : step noDocId s c with
    | none => rw [hs] at hr; exact Option.noConfusion hr
    | some s2 =>
      rw [hs] at hr
      obtain ⟨h1, h2⟩ := word_step noDocId s s2 c (hnr c (List.mem_cons_self _ _)) hs
      obtain ⟨h3, h4, h5⟩ := ih s2 s1 (fun c hc => hnr c (List.mem_cons_of_mem _ hc)) hr
      rw [fedTerms_cons]
      refine ⟨le_trans h1 h3, ?_, ?_⟩
      · rw [List.pairwise_append]
        refine ⟨?_, h4, ?_⟩
        · cases c <;> simp [fedTerms]
        · intro a ha b hb
          rw [(h2 a ha).2]
          exact (h5 b hb).1
      · intro t ht
        rcases List.mem_append.mp ht with ht | ht
        · exact ⟨(h2 t ht).1, by rw [(h2 t ht).2]; exact h3⟩
        · exact ⟨lt_of_le_of_lt h1 (h5 t ht).1, (h5 t ht).2⟩

/-- C19: in every run without `rewind()`, whatever `add`, `remove`, `flushWord`
and `flush` calls it holds, the terms accepted by the successive `setNextWord`
calls are strictly increasing, each is greater than the current term at the
start and not greater than the current term at the end, and after the run
`setNextWord(t')` aborts for every `t'` that is not greater than a term accepted
during the run: `flush()` does not reset the current term. -/
theorem terms_strictly_increase (noDocId : Nat) (calls : List Call)
    (s s1 : OrderedFieldIndexInserter) (hnr : ∀ c ∈ calls, c.isRewind = false)
    (hrun : run noDocId s calls = some s1) :
    (fedTerms calls).Pairwise (· < ·) ∧
    (∀ t ∈ fedTerms calls, s._word < t ∧ t ≤ s1._word) ∧
    (∀ t ∈ fedTerms calls, ∀ t', t' ≤ t → setNextWord noDocId s1 t' = none) ∧
    (∀ s2, flush s1 = some s2 → s2._word = s1._word) := by
  obtain ⟨_, h2, h3⟩ := word_run noDocId calls s s1 hnr hrun
  refine ⟨h2, h3, ?_, ?_⟩
  · intro t ht t' hle
    cases hs : setNextWord noDocId s1 t' with
    | none => rfl
    | some s2 =>
      exfalso
      have hlt := (setNextWord_eq_some noDocId s1 s2 t' hs).1
      exact absurd (lt_of_lt_of_le hlt (le_trans hle (h3 t ht).2)) (lt_irrefl _)
  · intro s2 hf
    obtain ⟨_, _, _, _, _, hw, _⟩ := flush_frame s1 s2 hf
    exact hw

/-- Witness of C19: after `setNextWord("a")`, `add(5)`, `flush()`,
`setNextWord("c")`, `remove(5)`, `flush()`, the current term is still `"c"` and
`setNextWord` aborts for `"a"`, `"b"` and `"c"`. -/
theorem terms_strictly_increase_witness :
    (run 4294967295 (construct 4294967295 emptyFieldIndex)
      [Call.setNextWord [97], Call.add 5 exampleFeatures, Call.flush, Call.setNextWord [99],
        Call.remove 5, Call.flush]).isSome = true ∧
    ∃ s1, run 4294967295 (construct 4294967295 emptyFieldIndex)
        [Call.setNextWord [97], Call.add 5 exampleFeatures, Call.flush, Call.setNextWord [99],
          Call.remove 5, Call.flush] = some s1 ∧
      s1._word = [99] ∧
      setNextWord 4294967295 s1 [97] = none ∧ setNextWord 4294967295 s1 [98] = none ∧
      setNextWord 4294967295 s1 [99] = none := by
  have h : (run 4294967295 (construct 4294967295 emptyFieldIndex)
      [Call.setNextWord [97], Call.add 5 exampleFeatures, Call.flush, Call.setNextWord [99],
        Call.remove 5, Call.flush]).isSome = true := by decide
  obtain ⟨s1, hs1⟩ := Option.isSome_iff_exists.mp h
  have key := terms_strictly_increase 4294967295 _ _ s1 (by decide) hs1
  refine ⟨h, s1, hs1, ?_, key.2.2.1 [97] (by decide) [97] (by decide),
    key.2.2.1 [99] (by decide) [98] (by decide), key.2.2.1 [99] (by decide) [99] (by decide)⟩
  have hw : (run 4294967295 (construct 4294967295 emptyFieldIndex)
      [Call.setNextWord [97], Call.add 5 exampleFeatures, Call.flush, Call.setNextWord [99],
        Call.remove 5, Call.flush]).map (fun t => t._word) = some [99] := by decide
  rw [hs1] at hw
  exact Option.some.inj hw

/-! ## The order of the operations of one term -/

theorem tracker_step (noDocId : Nat) (s s1 : OrderedFieldIndexInserter) (c : Call)
    (hc : c.isTermOp = true) (hs : step noDocId s c = some s1) :
    s1._prevDocId = c.docId ∧ s1._prevAdd = c.isAdd ∧ c.docId ≠ noDocId ∧
      (s._prevDocId = noDocId ∨ s._prevDocId < c.docId ∨
        (s._prevDocId = c.docId ∧ s._prevAdd = false ∧ c.isAdd = true)) := by
  cases c with
  | add d f =>
    obtain ⟨hd, ht, _, rfl⟩ := add_eq_some noDocId s s1 d f hs
    refine ⟨rfl, rfl, hd, ?_⟩
    rcases ht with ht | ht | ⟨h1, h2⟩
    · exact Or.inl ht
    · exact Or.inr (Or.inl ht)
    · exact Or.inr (Or.inr ⟨h1, h2, rfl⟩)
  | remove d =>
    obtain ⟨hd, ht, rfl⟩ := remove_eq_some noDocId s s1 d hs
    refine ⟨rfl, rfl, hd, ?_⟩
    rcases ht with ht | ht
    · exact Or.inl ht
    · exact Or.inr (Or.inl ht)
  | setNextWord w => exact Bool.noConfusion hc
  | flushWord => exact Bool.noConfusion hc
  | flush => exact Bool.noConfusion hc
  | rewind => exact Bool.noConfusion hc

theorem opOrdered_trans (a b c : Call) (h1 : opOrdered a b) (h2 : opOrdered b c) :
    opOrdered a c := by
  unfold opOrdered at *
  rcases h1 with h1 | ⟨h1, _, hb⟩
  · rcases h2 with h2 | ⟨h2, _, _⟩
    · left; omega
    · left; omega
  · rcases h2 with h2 | ⟨_, hb2, _⟩
    · left; omega
    · rw [hb] at hb2; exact Bool.noConfusion hb2

theorem ops_chain (noDocId : Nat) (ops : List Call) :
    ∀ (s s1 : OrderedFieldIndexInserter), (∀ c ∈ ops, c.isTermOp = true) →
      run noDocId s ops = some s1 →
      ops.Chain' opOrdered ∧ ∀ c ∈ ops, c.docId ≠ noDocId := by
  induction ops with
  | nil => intro s s1 _ _; exact ⟨List.chain'_nil, fun c hc => by simp at hc⟩
  | cons c cs ih =>
    intro s s1 hops hr
    simp only [run] at hr
    cases hs : step noDocId s c with
    | none => rw [hs] at hr; exact Option.noConfusion hr
    | some s2 =>
      rw [hs] at hr
      obtain ⟨hp, hpa, hd, _⟩ := tracker_step noDocId s s2 c (hops c (List.mem_cons_self _ _)) hs
      obtain ⟨h1, h2⟩ := ih s2 s1 (fun c hc => hops c (List.mem_cons_of_mem _ hc)) hr
      refine ⟨?_, ?_⟩
      · cases cs with
        | nil => exact List.chain'_singleton c
        | cons c2 rest =>
          rw [List.chain'_cons]
          refine ⟨?_, h1⟩
          simp only [run] at hr
          cases hs2 : step noDocId s2 c2 with
          | none => rw [hs2] at hr; exact Option.noConfusion hr
          | some s3 =>
            obtain ⟨_, _, _, ht⟩ := tracker_step noDocId s2 s3 c2
              (hops c2 (List.mem_cons_of_mem _ (List.mem_cons_self _ _))) hs2
            rw [hp, hpa] at ht
            rcases ht with ht | ht | ht
            · exact absurd ht hd
            · exact Or.inl ht
            · exact Or.inr ht
      · intro x hx
        rcases List.mem_cons.mp hx with rfl | hx
        · exact hd
        · exact h2 x hx

theorem ops_pairwise (noDocId : Nat) (ops : List Call)
    (s s1 : OrderedFieldIndexInserter) (hops : ∀ c ∈ ops, c.isTermOp = true)
    (hrun : run noDocId s ops = some s1) : ops.Pairwise opOrdered :=
  (@List.chain'_iff_pairwise _ opOrdered ⟨opOrdered_trans⟩ ops).mp
    (ops_chain noDocId ops s s1 hops hrun).1

theorem adds_increasing (ops : List Call) (h : ops.Pairwise opOrdered) :
    ((ops.filter Call.isAdd).map Call.docId).Pairwise (· < ·) := by
  rw [List.pairwise_map]
  refine List.Pairwise.imp_of_mem ?_ (List.Pairwise.filter _ h)
  intro a b ha _ hab
  have haa : a.isAdd = true := (List.mem_filter.mp ha).2
  rcases hab with hab | ⟨_, hn, _⟩
  · exact hab
  · rw [haa] at hn; exact Bool.noConfusion hn

theorem removes_increasing (ops : List Call) (h : ops.Pairwise opOrdered) :
    ((ops.filter Call.isRemove).map Call.docId).Pairwise (· < ·) := by
  rw [List.pairwise_map]
  refine List.Pairwise.imp_of_mem ?_ (List.Pairwise.filter _ h)
  intro a b _ hb hab
  have hbr : b.isRemove = true := (List.mem_filter.mp hb).2
  rcases hab with hab | ⟨_, _, hn⟩
  · exact hab
  · cases b <;> first | exact Bool.noConfusion hbr | exact Bool.noConfusion hn

theorem docIds_nondecreasing (ops : List Call) (h : ops.Pairwise opOrdered) :
    (ops.map Call.docId).Pairwise (· ≤ ·) := by
  rw [List.pairwise_map]
  refine List.Pairwise.imp ?_ h
  intro a b hab
  rcases hab with hab | ⟨hab, _⟩
  · exact le_of_lt hab
  · exact le_of_eq hab

theorem batches_extend (s s1 : OrderedFieldIndexInserter) (hb : Book s)
    (xs : List PostingListKeyDataType) (ys : List Nat)
    (h1 : s1._adds = s._adds ++ xs) (h2 : s1._removes = s._removes ++ ys)
    (h3 : s1._adds_offset = s._adds_offset) (h4 : s1._removes_offset = s._removes_offset)
    (h5 : s1._word_entries = s._word_entries) (h6 : s1._word = s._word) :
    queuedBatches s1 = queuedBatches s ∧
      pendingBatch s1 =
        ((pendingBatch s).1, (pendingBatch s).2.1 ++ xs, (pendingBatch s).2.2 ++ ys) := by
  constructor
  · unfold queuedBatches
    rw [h1, h2, h5]
    exact descriptorSlices_extend s._adds xs s._removes ys s._word_entries 0 0
      (by rw [hb.adds_sum, Nat.zero_add]; exact hb.adds_le)
      (by rw [hb.removes_sum, Nat.zero_add]; exact hb.removes_le)
  · unfold pendingBatch
    rw [h1, h2, h3, h4, h6, List.drop_append_of_le_length hb.adds_le,
      List.drop_append_of_le_length hb.removes_le]

theorem flushWord_batches (s : OrderedFieldIndexInserter) (hb : Book s) :
    queuedBatches (flushWord s) =
        queuedBatches s ++ [pendingBatch s].filter Batch.nonEmpty ∧
      pendingBatch (flushWord s) = (s._word, [], []) := by
  have hal := hb.adds_le
  have hrl := hb.removes_le
  constructor
  · by_cases hc : s._removes.length = s._removes_offset ∧ s._adds.length = s._adds_offset
    · rw [flushWord_of_covered s hc]
      have : Batch.nonEmpty (pendingBatch s) = false := by
        unfold Batch.nonEmpty pendingBatch
        rw [List.drop_eq_nil_iff.mpr (le_of_eq hc.2), List.drop_eq_nil_iff.mpr (le_of_eq hc.1)]
        rfl
      rw [List.filter_cons_of_neg (by rw [this]; exact Bool.false_ne_true), List.filter_nil,
        List.append_nil]
    · have hne : Batch.nonEmpty (pendingBatch s) = true := by
        unfold Batch.nonEmpty pendingBatch
        simp only [Bool.not_eq_true', Bool.and_eq_false_imp, List.isEmpty_eq_true,
          List.drop_eq_nil_iff, List.isEmpty_eq_false, ne_eq]
        intro h1 h2
        exact hc ⟨by omega, by omega⟩
      rw [List.filter_cons_of_pos hne, List.filter_nil]
      unfold queuedBatches
      rw [flushWord_adds, flushWord_removes, flushWord_word_entries, if_neg hc,
        descriptorSlices_append]
      simp only [descriptorSlices, hb.adds_sum, hb.removes_sum, Nat.zero_add]
      congr 1
      unfold pendingBatch
      rw [List.take_of_length_le (by rw [List.length_drop]),
        List.take_of_length_le (by rw [List.length_drop])]
  · unfold pendingBatch
    rw [flushWord_adds_offset, flushWord_removes_offset, flushWord_adds, flushWord_removes,
      flushWord_word, List.drop_length, List.drop_length]

theorem batchOrdered_of_empty (noDocId : Nat) (s : OrderedFieldIndexInserter)
    (hq : queuedBatches s = []) (hp : (pendingBatch s).2.1 = [])
    (hr : (pendingBatch s).2.2 = []) : BatchOrdered noDocId s := by
  constructor
  · intro b hb; rw [hq] at hb; simp at hb
  · rw [hp]; exact List.Pairwise.nil
  · rw [hr]; exact List.Pairwise.nil
  · intro a ha; rw [hp] at ha; simp at ha
  · intro d hd; rw [hr] at hd; simp at hd

theorem batchOrdered_flushWord (noDocId : Nat) (s : OrderedFieldIndexInserter) (hb : Book s)
    (h : BatchOrdered noDocId s) : BatchOrdered noDocId (flushWord s) := by
  obtain ⟨hq, hp⟩ := flushWord_batches s hb
  constructor
  · intro b hbm
    rw [hq] at hbm
    rcases List.mem_append.mp hbm with hbm | hbm
    · exact h.queued b hbm
    · have := (List.mem_filter.mp hbm).1
      rw [List.mem_singleton.mp this]
      exact ⟨h.pending_adds, h.pending_removes⟩
  · rw [hp]; exact List.Pairwise.nil
  · rw [hp]; exact List.Pairwise.nil
  · intro a ha; rw [hp] at ha; simp at ha
  · intro d hd; rw [hp] at hd; simp at hd

theorem batchOrdered_step (noDocId : Nat) (s s1 : OrderedFieldIndexInserter) (c : Call)
    (hb : Book s) (h : BatchOrdered noDocId s) (hs : step noDocId s c = some s1) :
    BatchOrdered noDocId s1 := by
  cases c with
  | setNextWord w =>
    obtain ⟨_, hs1⟩ := setNextWord_eq_some noDocId s s1 w hs
    have h0 := batchOrdered_flushWord noDocId s hb h
    obtain ⟨_, hp⟩ := flushWord_batches s hb
    have hq1 : queuedBatches s1 = queuedBatches (flushWord s) := by rw [hs1]; rfl
    have hp1 : (pendingBatch s1).2 = (pendingBatch (flushWord s)).2 := by rw [hs1]; rfl
    rw [hp] at hp1
    constructor
    · rw [hq1]; exact h0.queued
    · rw [hp1]; exact List.Pairwise.nil
    · rw [hp1]; exact List.Pairwise.nil
    · intro a ha; rw [hp1] at ha; simp at ha
    · intro d hd; rw [hp1] at hd; simp at hd
  | add d f =>
    obtain ⟨hd, ht, _, hs1⟩ := add_eq_some noDocId s s1 d f hs
    obtain ⟨hq, hp⟩ := batches_extend s s1 hb
      [⟨d, ⟨(s._fieldIndex.addFeatures f).1, cap_u16 f.num_occs, cap_u16 f.field_length⟩⟩] []
      (by rw [hs1]) (by rw [hs1, List.append_nil]) (by rw [hs1]) (by rw [hs1]) (by rw [hs1])
      (by rw [hs1])
    rw [List.append_nil] at hp
    have hpd : s1._prevDocId = d := by rw [hs1]
    have hpa : s1._prevAdd = true := by rw [hs1]
    have hlt : ∀ a ∈ (pendingBatch s).2.1, a._key < d := by
      intro a ha
      obtain ⟨h1, h2, h3⟩ := h.adds_below a ha
      rcases ht with ht | ht | ⟨ht, hf⟩
      · exact absurd ht h1
      · omega
      · rcases Nat.lt_or_eq_of_le h2 with h4 | h4
        · omega
        · rw [h3 h4] at hf; exact Bool.noConfusion hf
    have hle : ∀ x ∈ (pendingBatch s).2.2, x ≤ d := by
      intro x hx
      obtain ⟨h1, h2⟩ := h.removes_below x hx
      rcases ht with ht | ht | ⟨ht, _⟩
      · exact absurd ht h1
      · omega
      · omega
    constructor
    · rw [hq]; exact h.queued
    · rw [hp]
      simp only [List.map_append, List.map_cons, List.map_nil]
      rw [List.pairwise_append]
      refine ⟨h.pending_adds, List.pairwise_singleton _ _, ?_⟩
      intro x hx y hy
      rw [List.mem_singleton.mp hy]
      obtain ⟨a, ha, rfl⟩ := List.mem_map.mp hx
      exact hlt a ha
    · rw [hp]; exact h.pending_removes
    · intro a ha
      rw [hp] at ha
      rw [hpd, hpa]
      rcases List.mem_append.mp ha with ha | ha
      · exact ⟨hd, le_of_lt (hlt a ha), fun _ => rfl⟩
      · rw [List.mem_singleton.mp ha]
        exact ⟨hd, le_refl _, fun _ => rfl⟩
    · intro x hx
      rw [hp] at hx
      rw [hpd]
      exact ⟨hd, hle x hx⟩
  | remove d =>
    obtain ⟨hd, ht, hs1⟩ := remove_eq_some noDocId s s1 d hs
    obtain ⟨hq, hp⟩ := batches_extend s s1 hb [] [d]
      (by rw [hs1, List.append_nil]) (by rw [hs1]) (by rw [hs1]) (by rw [hs1]) (by rw [hs1])
      (by rw [hs1])
    rw [List.append_nil] at hp
    have hpd : s1._prevDocId = d := by rw [hs1]
    have hlta : ∀ a ∈ (pendingBatch s).2.1, a._key < d := by
      intro a ha
      obtain ⟨h1, h2, _⟩ := h.adds_below a ha
      rcases ht with ht | ht
      · exact absurd ht h1
      · omega
    have hltr : ∀ x ∈ (pendingBatch s).2.2, x < d := by
      intro x hx
      obtain ⟨h1, h2⟩ := h.removes_below x hx
      rcases ht with ht | ht
      · exact absurd ht h1
      · omega
    constructor
    · rw [hq]; exact h.queued
    · rw [hp]; exact h.pending_adds
    · rw [hp]
      show ((pendingBatch s).2.2 ++ [d]).Pairwise (· < ·)
      rw [List.pairwise_append]
      refine ⟨h.pending_removes, List.pairwise_singleton _ _, ?_⟩
      intro x hx y hy
      rw [List.mem_singleton.mp hy]
      exact hltr x hx
    · intro a ha
      rw [hp] at ha
      rw [hpd]
      have := hlta a ha
      exact ⟨hd, le_of_lt this, fun heq => absurd heq (ne_of_lt this)⟩
    · intro x hx
      rw [hp] at hx
      rw [hpd]
      rcases List.mem_append.mp hx with hx | hx
      · exact ⟨hd, le_of_lt (hltr x hx)⟩
      · rw [List.mem_singleton.mp hx]
        exact ⟨hd, le_refl _⟩
  | flushWord =>
    simp only [step, Option.some.injEq] at hs
    rw [← hs]
    exact batchOrdered_flushWord noDocId s hb h
  | flush =>
    obtain ⟨ha, hr, hq, _, _, _⟩ := flush_frame s s1 hs
    apply batchOrdered_of_empty
    · unfold queuedBatches; rw [hq]; rfl
    · unfold pendingBatch; rw [ha]; simp
    · unfold pendingBatch; rw [hr]; simp
  | rewind =>
    obtain ⟨hc, hs1⟩ := rewind_eq_some noDocId s s1 hs
    have hq := book_word_entries_nil s hb hc.2 hc.1
    apply batchOrdered_of_empty
    · unfold queuedBatches; rw [hs1]; show descriptorSlices _ _ 0 0 s._word_entries = []
      rw [hq]; rfl
    · unfold pendingBatch; rw [hs1]; show s._adds.drop _ = []
      rw [hc.2]; simp
    · unfold pendingBatch; rw [hs1]; show s._removes.drop _ = []
      rw [hc.1]; simp

theorem batchOrdered_run (noDocId : Nat) (calls : List Call) :
    ∀ (s s1 : OrderedFieldIndexInserter), Book s → BatchOrdered noDocId s →
      run noDocId s calls = some s1 → BatchOrdered noDocId s1 := by
  induction calls with
  | nil =>
    intro s s1 _ h hr
    simp only [run, Option.some.injEq] at hr
    exact hr ▸ h
  | cons c cs ih =>
    intro s s1 hb h hr
    simp only [run] at hr
    cases hs : step noDocId s c with
    | none => rw [hs] at hr; exact Option.noConfusion hr
    | some s2 =>
      rw [hs] at hr
      exact ih s2 s1 (book_step noDocId s s2 c hb hs) (batchOrdered_step noDocId s s2 c hb h hs) hr


theorem pending_of_ops (noDocId : Nat) (ops : List Call) :
    ∀ (s s1 : OrderedFieldIndexInserter), Book s → (∀ c ∈ ops, c.isTermOp = true) →
      run noDocId s ops = some s1 →
      queuedBatches s1 = queuedBatches s ∧ (pendingBatch s1).1 = (pendingBatch s).1 ∧
        (pendingBatch s1).2.1.map (·._key) =
          (pendingBatch s).2.1.map (·._key) ++ (ops.filter Call.isAdd).map Call.docId ∧
        (pendingBatch s1).2.2 =
          (pendingBatch s).2.2 ++ (ops.filter Call.isRemove).map Call.docId := by
  induction ops with
  | nil =>
    intro s s1 _ _ hr
    simp only [run, Option.some.injEq] at hr
    subst hr
    simp
  | cons c cs ih =>
    intro s s1 hb hops hr
    simp only [run] at hr
    cases hs : step noDocId s c with
    | none => rw [hs] at hr; exact Option.noConfusion hr
    | some s2 =>
      rw [hs] at hr
      obtain ⟨i1, i2, i3, i4⟩ := ih s2 s1 (book_step noDocId s s2 c hb hs)
        (fun x hx => hops x (List.mem_cons_of_mem _ hx)) hr
      have hc := hops c (List.mem_cons_self _ _)
      cases c with
      | add d f =>
        obtain ⟨_, _, _, hs1⟩ := add_eq_some noDocId s s2 d f hs
        obtain ⟨hq, hp⟩ := batches_extend s s2 hb
          [⟨d, ⟨(s._fieldIndex.addFeatures f).1, cap_u16 f.num_occs, cap_u16 f.field_length⟩⟩] []
          (by rw [hs1]) (by rw [hs1, List.append_nil]) (by rw [hs1]) (by rw [hs1]) (by rw [hs1])
          (by rw [hs1])
        rw [i1, i2, i3, i4, hq, hp]
        simp [Call.isAdd, Call.isRemove, Call.docId]
      | remove d =>
        obtain ⟨_, _, hs1⟩ := remove_eq_some noDocId s s2 d hs
        obtain ⟨hq, hp⟩ := batches_extend s s2 hb [] [d]
          (by rw [hs1, List.append_nil]) (by rw [hs1]) (by rw [hs1]) (by rw [hs1]) (by rw [hs1])
          (by rw [hs1])
        rw [i1, i2, i3, i4, hq, hp]
        simp [Call.isAdd, Call.isRemove, Call.docId]
      | setNextWord w => exact Bool.noConfusion hc
      | flushWord => exact Bool.noConfusion hc
      | flush => exact Bool.noConfusion hc
      | rewind => exact Bool.noConfusion hc

theorem batchOrdered_construct (noDocId : Nat) (fi : FieldIndex) :
    BatchOrdered noDocId (construct noDocId fi) :=
  batchOrdered_of_empty noDocId _ rfl rfl rfl

theorem nodup_of_increasing (l : List Nat) (h : l.Pairwise (· < ·)) : l.Nodup :=
  List.Pairwise.imp (fun hab => ne_of_lt hab) h

/-- C20: the batch ordering invariant. For every accepted sequence of `add` and
`remove` calls made within one term, from any state: each operation and the next
are ordered (the document id grows, or it stays and the two are a remove then an
add), the document ids are non-decreasing, and the added ids and the removed ids
are each strictly increasing without a repeat. In every state reached from a
fresh inserter, every queued descriptor's slice and the pending slice of the
current term have strictly increasing added ids and removed ids, without a
repeat; and the operations of a term extend exactly the pending slice, the adds
and the removes in call order. -/
theorem batch_ordering (noDocId : Nat) :
    (∀ (ops : List Call) (s s1 : OrderedFieldIndexInserter),
      (∀ c ∈ ops, c.isTermOp = true) → run noDocId s ops = some s1 →
      ops.Chain' opOrdered ∧ (ops.map Call.docId).Pairwise (· ≤ ·) ∧
        ((ops.filter Call.isAdd).map Call.docId).Pairwise (· < ·) ∧
        ((ops.filter Call.isRemove).map Call.docId).Pairwise (· < ·) ∧
        ((ops.filter Call.isAdd).map Call.docId).Nodup ∧
        ((ops.filter Call.isRemove).map Call.docId).Nodup) ∧
    (∀ (fi : FieldIndex) (calls : List Call) (s : OrderedFieldIndexInserter),
      run noDocId (construct noDocId fi) calls = some s →
      ∀ b ∈ queuedBatches s ++ [pendingBatch s],
        (b.2.1.map (·._key)).Pairwise (· < ·) ∧ b.2.2.Pairwise (· < ·) ∧
          (b.2.1.map (·._key)).Nodup ∧ b.2.2.Nodup) ∧
    (∀ (fi : FieldIndex) (calls ops : List Call) (s s1 : OrderedFieldIndexInserter),
      run noDocId (construct noDocId fi) calls = some s →
      (∀ c ∈ ops, c.isTermOp = true) → run noDocId s ops = some s1 →
      queuedBatches s1 = queuedBatches s ∧ (pendingBatch s1).1 = (pendingBatch s).1 ∧
        (pendingBatch s1).2.1.map (·._key) =
          (pendingBatch s).2.1.map (·._key) ++ (ops.filter Call.isAdd).map Call.docId ∧
        (pendingBatch s1).2.2 =
          (pendingBatch s).2.2 ++ (ops.filter Call.isRemove).map Call.docId) := by
  refine ⟨?_, ?_, ?_⟩
  · intro ops s s1 hops hrun
    have hp := ops_pairwise noDocId ops s s1 hops hrun
    exact ⟨(ops_chain noDocId ops s s1 hops hrun).1, docIds_nondecreasing ops hp,
      adds_increasing ops hp, removes_increasing ops hp,
      nodup_of_increasing _ (adds_increasing ops hp),
      nodup_of_increasing _ (removes_increasing ops hp)⟩
  · intro fi calls s hreach b hb
    have ho := batchOrdered_run noDocId calls _ s (book_construct noDocId fi)
      (batchOrdered_construct noDocId fi) hreach
    have h2 : (b.2.1.map (·._key)).Pairwise (· < ·) ∧ b.2.2.Pairwise (· < ·) := by
      rcases List.mem_append.mp hb with hb | hb
      · exact ho.queued b hb
      · rw [List.mem_singleton.mp hb]
        exact ⟨ho.pending_adds, ho.pending_removes⟩
    exact ⟨h2.1, h2.2, nodup_of_increasing _ h2.1, nodup_of_increasing _ h2.2⟩
  · intro fi calls ops s s1 hreach hops hrun
    exact pending_of_ops noDocId ops s s1
      (book_run noDocId calls _ s (book_construct noDocId fi) hreach) hops hrun

/-- Witness of C20: in the term `"a"` the calls `remove(3)`, `add(3)`, `add(5)`,
`remove(7)` are accepted and ordered, and the batches of the state the example
calls reach from a fresh inserter have strictly increasing slices. -/
theorem batch_ordering_witness :
    (run 4294967295 exampleOpen
      [Call.remove 3, Call.add 3 exampleFeatures, Call.add 5 exampleFeatures,
        Call.remove 7]).isSome = true ∧
    ([Call.remove 3, Call.add 3 exampleFeatures, Call.add 5 exampleFeatures,
        Call.remove 7].Chain' opOrdered ∧
      ([Call.remove 3, Call.add 3 exampleFeatures, Call.add 5 exampleFeatures,
        Call.remove 7].map Call.docId).Pairwise (· ≤ ·) ∧
      (([Call.remove 3, Call.add 3 exampleFeatures, Call.add 5 exampleFeatures,
        Call.remove 7].filter Call.isAdd).map Call.docId).Pairwise (· < ·) ∧
      (([Call.remove 3, Call.add 3 exampleFeatures, Call.add 5 exampleFeatures,
        Call.remove 7].filter Call.isRemove).map Call.docId).Pairwise (· < ·) ∧
      (([Call.remove 3, Call.add 3 exampleFeatures, Call.add 5 exampleFeatures,
        Call.remove 7].filter Call.isAdd).map Call.docId).Nodup ∧
      (([Call.remove 3, Call.add 3 exampleFeatures, Call.add 5 exampleFeatures,
        Call.remove 7].filter Call.isRemove).map Call.docId).Nodup) ∧
    ∃ s, run 4294967295 (construct 4294967295 emptyFieldIndex) exampleCalls = some s ∧
      ∀ b ∈ queuedBatches s ++ [pendingBatch s],
        (b.2.1.map (·._key)).Pairwise (· < ·) ∧ b.2.2.Pairwise (· < ·) ∧
          (b.2.1.map (·._key)).Nodup ∧ b.2.2.Nodup := by
  have h : (run 4294967295 exampleOpen
      [Call.remove 3, Call.add 3 exampleFeatures, Call.add 5 exampleFeatures,
        Call.remove 7]).isSome = true := by decide
  have h2 : (run 4294967295 (construct 4294967295 emptyFieldIndex) exampleCalls).isSome
      = true := by decide
  obtain ⟨s1, hs1⟩ := Option.isSome_iff_exists.mp h
  obtain ⟨s, hs⟩ := Option.isSome_iff_exists.mp h2
  exact ⟨h, (batch_ordering 4294967295).1 _ exampleOpen s1 (by decide) hs1,
    s, hs, (batch_ordering 4294967295).2.1 emptyFieldIndex exampleCalls s hs⟩


/-! ## The notifications of a drain -/

theorem drainEvents_append (a b : List Event) :
    drainEvents (a ++ b) = drainEvents a ++ drainEvents b := by
  induction a with
  | nil => rfl
  | cons e a ih => cases e <;> simp [drainEvents, ih]

theorem drainEvents_listenerInsert (k : Nat) (adds : List PostingListKeyDataType) :
    drainEvents (adds.map (fun a => Event.listenerInsert k a._key)) =
      adds.map (fun a => DrainEvent.notify k a._key) := by
  induction adds with
  | nil => rfl
  | cons a adds ih => simp [drainEvents, ih]

theorem drainEvents_of_silent (l : List Event)
    (h : ∀ x ∈ l, (∀ k d, x ≠ Event.listenerInsert k d) ∧ ∀ p a r, x ≠ Event.apply p a r) :
    drainEvents l = [] := by
  induction l with
  | nil => rfl
  | cons e l ih =>
    have he := h e (List.mem_cons_self _ _)
    have hl := ih (fun x hx => h x (List.mem_cons_of_mem _ hx))
    cases e with
    | listenerInsert k d => exact absurd rfl (he.1 k d)
    | apply p a r => exact absurd rfl (he.2 p a r)
    | addFeatures f => simpa [drainEvents] using hl
    | add_features_guard_bytes => simpa [drainEvents] using hl
    | binarySeek w => simpa [drainEvents] using hl
    | addWord w => simpa [drainEvents] using hl
    | dictInsert n => simpa [drainEvents] using hl
    | store_release n => simpa [drainEvents] using hl
    | listenerFlush => simpa [drainEvents] using hl

theorem wordRefOf_eq (fi : FieldIndex) (hwf : fi.WellFormed) (k : Nat) (p : PostingList)
    (w : Word) (hmem : (k, p) ∈ fi.dictionary) (hk : fi.getWord k = w) :
    fi.wordRefOf w = some k := by
  have hp : (fi.dictionary.map (fun e => fi.getWord e.1)).Pairwise (· < ·) := by
    have := hwf.2
    unfold FieldIndex.terms FieldIndex.entries at this
    rw [List.map_map] at this
    exact this
  unfold FieldIndex.wordRefOf
  generalize fi.dictionary = D at hmem hp
  induction D with
  | nil => simp at hmem
  | cons e D ih =>
    rw [List.map_cons, List.pairwise_cons] at hp
    by_cases he : fi.getWord e.1 = w
    · rw [List.find?_cons_of_pos _ (by simpa using he)]
      rcases List.mem_cons.mp hmem with h | h
      · rw [← h]; rfl
      · have := hp.1 (fi.getWord k) (List.mem_map.mpr ⟨(k, p), h, rfl⟩)
        rw [hk, he] at this
        exact absurd this (lt_irrefl _)
    · rw [List.find?_cons_of_neg _ (by simpa using he)]
      rcases List.mem_cons.mp hmem with h | h
      · rw [← h] at he; exact absurd hk he
      · exact ih h hp.2

theorem flushSeek_stores (s : OrderedFieldIndexInserter) (w : Word) :
    (flushSeek s w)._fieldIndex.dictionary = s._fieldIndex.dictionary ∧
      (flushSeek s w)._fieldIndex.wordStore = s._fieldIndex.wordStore := by
  unfold flushSeek
  cases h : s.dItrEntry with
  | none => exact ⟨rfl, rfl⟩
  | some e =>
    by_cases hw : s._fieldIndex.getWord e.1 < w
    · simp only [if_pos hw]; exact ⟨trivial, trivial⟩
    · simp only [if_neg hw]; exact ⟨trivial, trivial⟩

theorem flushInsert_stores (s : OrderedFieldIndexInserter) (w : Word) :
    (∀ k ∈ s._fieldIndex.dictionary.map Prod.fst,
        k ∈ (flushInsert s w)._fieldIndex.dictionary.map Prod.fst) ∧
      (∀ k, k < s._fieldIndex.wordStore.length →
        k < (flushInsert s w)._fieldIndex.wordStore.length ∧
        (flushInsert s w)._fieldIndex.getWord k = s._fieldIndex.getWord k) := by
  have hins : (∀ k ∈ s._fieldIndex.dictionary.map Prod.fst,
        k ∈ (((s._fieldIndex.addWord w).2.dictInsert s._dItr
          (s._fieldIndex.addWord w).1 []).dictionary).map Prod.fst) ∧
      (∀ k, k < s._fieldIndex.wordStore.length →
        k < ((s._fieldIndex.addWord w).2.dictInsert s._dItr
            (s._fieldIndex.addWord w).1 []).wordStore.length ∧
        ((s._fieldIndex.addWord w).2.dictInsert s._dItr
          (s._fieldIndex.addWord w).1 []).getWord k = s._fieldIndex.getWord k) := by
    constructor
    · intro k hk
      show k ∈ (s._fieldIndex.dictionary.take s._dItr ++
        (s._fieldIndex.wordStore.length, []) :: s._fieldIndex.dictionary.drop s._dItr).map Prod.fst
      rw [← List.take_append_drop s._dItr s._fieldIndex.dictionary, List.map_append,
        List.mem_append] at hk
      rw [List.map_append, List.map_cons, List.mem_append, List.mem_cons]
      rcases hk with hk | hk
      · exact Or.inl hk
      · exact Or.inr (Or.inr hk)
    · intro k hk
      refine ⟨?_, getWord_addWord_old s._fieldIndex w k hk⟩
      show k < (s._fieldIndex.wordStore ++ [w]).length
      rw [List.length_append]; omega
  unfold flushInsert
  cases h : s.dItrEntry with
  | none => simpa using hins
  | some e =>
    by_cases hw : w < s._fieldIndex.getWord e.1
    · simpa [hw] using hins
    · simp only [hw, decide_False, Bool.false_eq_true, if_false]
      exact ⟨fun k hk => hk, fun k hk => ⟨hk, trivial⟩⟩

theorem flushEntry_stores (s : OrderedFieldIndexInserter) (adds_offset removes_offset : Nat)
    (word_entry : Word × Nat × Nat) (r : OrderedFieldIndexInserter × Nat × Nat)
    (h : flushEntry s adds_offset removes_offset word_entry = some r) :
    (∀ k ∈ s._fieldIndex.dictionary.map Prod.fst, k ∈ r.1._fieldIndex.dictionary.map Prod.fst) ∧
      (∀ k, k < s._fieldIndex.wordStore.length →
        k < r.1._fieldIndex.wordStore.length ∧
        r.1._fieldIndex.getWord k = s._fieldIndex.getWord k) := by
  unfold flushEntry at h
  simp only [] at h
  cases hA : flushApply (flushInsert (flushSeek s word_entry.1) word_entry.1) word_entry.1
      ((s._adds.drop adds_offset).take word_entry.2.1)
      ((s._removes.drop removes_offset).take word_entry.2.2) with
  | none => rw [hA] at h; exact Option.noConfusion h
  | some s3 =>
    rw [hA] at h
    simp only [Option.some.injEq] at h
    subst h
    obtain ⟨e, fi3, rel, he, _, hs3, _, _, _, hws, hd⟩ := flushApply_frame _ _ _ _ _ hA
    obtain ⟨hk2, hw2⟩ := flushInsert_stores (flushSeek s word_entry.1) word_entry.1
    obtain ⟨hd1, hw1⟩ := flushSeek_stores s word_entry.1
    rw [hd1] at hk2
    rw [hw1] at hw2
    have hfi : s3._fieldIndex = fi3 := by rw [hs3]
    have hkeys : s3._fieldIndex.dictionary.map Prod.fst =
        (flushInsert (flushSeek s word_entry.1) word_entry.1)._fieldIndex.dictionary.map
          Prod.fst := by
      rw [hfi, hd, List.map_set]
      apply set_of_getElem?
      rw [List.getElem?_map]
      unfold dItrEntry at he
      rw [he]
      rfl
    constructor
    · intro k hk
      show k ∈ s3._fieldIndex.dictionary.map Prod.fst
      rw [hkeys]
      exact hk2 k hk
    · intro k hk
      show k < s3._fieldIndex.wordStore.length ∧ s3._fieldIndex.getWord k = _
      rw [getWord_congr s3._fieldIndex _ (hfi ▸ hws), hfi, hws]
      have := hw2 k hk
      rw [getWord_congr (flushSeek s word_entry.1)._fieldIndex s._fieldIndex hw1] at this
      exact this

theorem flushLoop_stores (es : List (Word × Nat × Nat)) :
    ∀ (s : OrderedFieldIndexInserter) (adds_offset removes_offset : Nat)
      (r : OrderedFieldIndexInserter × Nat × Nat),
      flushLoop s adds_offset removes_offset es = some r →
      (∀ k ∈ s._fieldIndex.dictionary.map Prod.fst,
          k ∈ r.1._fieldIndex.dictionary.map Prod.fst) ∧
        (∀ k, k < s._fieldIndex.wordStore.length →
          k < r.1._fieldIndex.wordStore.length ∧
          r.1._fieldIndex.getWord k = s._fieldIndex.getWord k) := by
  induction es with
  | nil =>
    intro s ao ro r h
    simp only [flushLoop, Option.some.injEq] at h
    subst h
    exact ⟨fun k hk => hk, fun k hk => ⟨hk, rfl⟩⟩
  | cons e es ih =>
    intro s ao ro r h
    simp only [flushLoop] at h
    cases h1 : flushEntry s ao ro e with
    | none => rw [h1] at h; exact Option.noConfusion h
    | some r1 =>
      rw [h1] at h
      obtain ⟨hk1, hw1⟩ := flushEntry_stores s ao ro e r1 h1
      obtain ⟨hk2, hw2⟩ := ih r1.1 r1.2.1 r1.2.2 r h
      constructor
      · intro k hk; exact hk2 k (hk1 k hk)
      · intro k hk
        have a := hw1 k hk
        have b := hw2 k a.1
        exact ⟨b.1, b.2.trans a.2⟩


theorem flushLoop_notify (es : List (Word × Nat × Nat)) :
    ∀ (s : OrderedFieldIndexInserter) (adds_offset removes_offset : Nat),
      s._fieldIndex.WellFormed →
      s._dItr ≤ s._fieldIndex.dictionary.length →
      (es.map Prod.fst).Pairwise (· ≤ ·) →
      (∀ w ∈ es.map Prod.fst, ∀ e ∈ s._fieldIndex.dictionary.take s._dItr,
        s._fieldIndex.getWord e.1 < w) →
      ∀ r, flushLoop s adds_offset removes_offset es = some r →
        r.1._fieldIndex.WellFormed ∧
        ∃ (ext : List Event) (refs : List Nat), r.1._fieldIndex.trace = s._fieldIndex.trace ++ ext ∧
          refs.length = es.length ∧
          drainEvents ext = drainOf (refs.zip
            (descriptorSlices s._adds s._removes adds_offset removes_offset es)) ∧
          ∀ kb ∈ refs.zip
              (descriptorSlices s._adds s._removes adds_offset removes_offset es),
            r.1._fieldIndex.wordRefOf kb.2.1 = some kb.1 := by
  induction es with
  | nil =>
    intro s ao ro hwf _ _ _ r h
    simp only [flushLoop, Option.some.injEq] at h
    subst h
    refine ⟨hwf, [], [], by simp, rfl, rfl, ?_⟩
    intro kb hkb
    simp at hkb
  | cons e es ih =>
    intro s ao ro hwf hle hasc hlt r h
    simp only [List.map_cons, List.pairwise_cons] at hasc
    simp only [flushLoop] at h
    cases h1 : flushEntry s ao ro e with
    | none => rw [h1] at h; exact Option.noConfusion h
    | some r1 =>
      rw [h1] at h
      simp only [] at h
      obtain ⟨s1, hs1, _, hwf1, hle1, _, _, hlt1, _, _⟩ :=
        flushLoop_spec [e] s ao ro hwf hle (List.pairwise_singleton _ _)
          (fun w hw => hlt w (by
            simp only [List.map_cons, List.map_nil, List.mem_singleton] at hw
            rw [hw]; exact List.mem_cons_self _ _))
      have hr1 : flushLoop s ao ro [e] = some r1 := by simp [flushLoop, h1]
      rw [hr1, Option.some.injEq] at hs1
      have hs1' : r1.1 = s1 := by rw [hs1]
      rw [← hs1'] at hwf1 hle1 hlt1
      obtain ⟨ho1, ho2, hf, _, _, pre, k, old, rel, htr, hpre, hrel, hentry, hk⟩ :=
        flushEntry_frame s ao ro e r1 h1
      have hadds : r1.1._adds = s._adds := by rw [hf]
      have hremoves : r1.1._removes = s._removes := by rw [hf]
      obtain ⟨hwf2, ext2, refs2, htr2, hlen2, hev2, href2⟩ :=
        ih r1.1 r1.2.1 r1.2.2 hwf1 hle1 hasc.2
          (fun w hw => hlt1 w
            (fun v hv => by
              simp only [List.map_cons, List.map_nil, List.mem_singleton] at hv
              rw [hv]; exact hasc.1 w hw)
            (hlt w (List.mem_cons_of_mem _ hw))) r h
      rw [hadds, hremoves, ho1, ho2] at hev2 href2
      obtain ⟨hkeys, hwords⟩ := flushLoop_stores es r1.1 r1.2.1 r1.2.2 r h
      have hmem1 : (k, PostingListStore.apply old ((s._adds.drop ao).take e.2.1)
          ((s._removes.drop ro).take e.2.2)) ∈ r1.1._fieldIndex.dictionary := by
        unfold dItrEntry at hentry
        exact List.getElem?_mem hentry
      have hklt : k < r1.1._fieldIndex.wordStore.length := hwf1.1 _ hmem1
      have hkin : k ∈ r.1._fieldIndex.dictionary.map Prod.fst :=
        hkeys k (List.mem_map.mpr ⟨_, hmem1, rfl⟩)
      obtain ⟨kp, hkp, hkp1⟩ := List.mem_map.mp hkin
      have hkp' : (k, kp.2) ∈ r.1._fieldIndex.dictionary := by rw [← hkp1]; exact hkp
      have hword : r.1._fieldIndex.getWord k = e.1 := ((hwords k hklt).2).trans hk
      have href : r.1._fieldIndex.wordRefOf e.1 = some k :=
        wordRefOf_eq r.1._fieldIndex hwf2 k kp.2 e.1 hkp' hword
      have hpre0 : drainEvents pre = [] := by
        apply drainEvents_of_silent
        intro x hx
        rcases hpre x hx with h | h | ⟨n, h⟩ <;> rw [h] <;>
          exact ⟨fun _ _ hne => Event.noConfusion hne, fun _ _ _ hne => Event.noConfusion hne⟩
      have hrel0 : drainEvents rel = [] := by
        rcases hrel with h | h <;> rw [h] <;> rfl
      refine ⟨hwf2, (pre ++ (((s._adds.drop ao).take e.2.1).map
            (fun a => Event.listenerInsert k a._key) ++
          Event.apply old ((s._adds.drop ao).take e.2.1)
            ((s._removes.drop ro).take e.2.2) :: rel)) ++ ext2, k :: refs2, ?_, ?_, ?_, ?_⟩
      · rw [htr2, htr, List.append_assoc]
      · rw [List.length_cons, List.length_cons, hlen2]
      · rw [drainEvents_append, drainEvents_append, drainEvents_append, hpre0,
          drainEvents_listenerInsert, hev2]
        simp only [drainEvents, hrel0, descriptorSlices, List.zip_cons_cons, drainOf,
          List.nil_append, List.append_assoc, List.cons_append]
        rfl
      · intro kb hkb
        simp only [descriptorSlices, List.zip_cons_cons, List.mem_cons] at hkb
        rcases hkb with hkb | hkb
        · rw [hkb]; exact href
        · exact href2 kb hkb


theorem wordRefOf_congr (fi1 fi2 : FieldIndex) (hd : fi1.dictionary = fi2.dictionary)
    (hw : fi1.wordStore = fi2.wordStore) (w : Word) : fi1.wordRefOf w = fi2.wordRefOf w := by
  unfold FieldIndex.wordRefOf
  rw [hd]
  have : (fun e : Nat × PostingList => decide (fi1.getWord e.1 = w)) =
      (fun e : Nat × PostingList => decide (fi2.getWord e.1 = w)) := by
    funext e
    rw [getWord_congr fi1 fi2 hw]
  rw [this]

theorem wellFormed_congr (fi1 fi2 : FieldIndex) (hd : fi1.dictionary = fi2.dictionary)
    (hw : fi1.wordStore = fi2.wordStore) (h : fi2.WellFormed) : fi1.WellFormed := by
  refine ⟨?_, ?_⟩
  · rw [hd, hw]; exact h.1
  · unfold FieldIndex.terms
    rw [entries_congr fi1 fi2 hd hw]
    exact h.2

theorem flush_notify (s s1 : OrderedFieldIndexInserter) (h : Inv s) (hfl : flush s = some s1) :
    s1._fieldIndex.WellFormed ∧
    ∃ (ext : List Event) (refs : List Nat),
      s1._fieldIndex.trace = s._fieldIndex.trace ++ ext ∧
      refs.length = (queuedBatches (flushWord s)).length ∧
      drainEvents ext = drainOf (refs.zip (queuedBatches (flushWord s))) ∧
      ∀ kb ∈ refs.zip (queuedBatches (flushWord s)),
        s1._fieldIndex.wordRefOf kb.2.1 = some kb.1 := by
  have h0 := inv_flushWord s h
  have hasc := List.pairwise_append.mp h0.ascending
  have hlen : (queuedBatches (flushWord s)).length = (flushWord s)._word_entries.length := by
    have := congrArg List.length (descriptorSlices_words (flushWord s)._adds
      (flushWord s)._removes (flushWord s)._word_entries 0 0)
    rw [List.length_map, List.length_map] at this
    exact this
  have key : ∀ (fi : FieldIndex) (g : List Event), fi.dictionary = s._fieldIndex.dictionary →
      fi.wordStore = s._fieldIndex.wordStore → fi.trace = s._fieldIndex.trace ++ g →
      drainEvents g = [] →
      ∀ r, flushLoop { flushWord s with _fieldIndex := fi } 0 0 (flushWord s)._word_entries =
          some r →
        r.1._fieldIndex.WellFormed ∧
        ∃ (ext : List Event) (refs : List Nat),
          r.1._fieldIndex.trace ++ [Event.listenerFlush] = s._fieldIndex.trace ++ ext ∧
          refs.length = (queuedBatches (flushWord s)).length ∧
          drainEvents ext = drainOf (refs.zip (queuedBatches (flushWord s))) ∧
          ∀ kb ∈ refs.zip (queuedBatches (flushWord s)),
            r.1._fieldIndex.wordRefOf kb.2.1 = some kb.1 := by
    intro fi g hd hw htr hg r hr
    have hwf : fi.WellFormed := wellFormed_congr fi _ hd hw h.wellFormed
    obtain ⟨hwf1, ext, refs, hext, hrefs, hev, href⟩ :=
      flushLoop_notify (flushWord s)._word_entries { flushWord s with _fieldIndex := fi } 0 0
        hwf (by
          show (flushWord s)._dItr ≤ fi.dictionary.length
          rw [flushWord_dItr, hd]; exact h.itr_le)
        hasc.1 (by
          intro w hw1 e he
          have he : e ∈ fi.dictionary.take (flushWord s)._dItr := he
          rw [flushWord_dItr, hd] at he
          show fi.getWord e.1 < w
          rw [getWord_congr fi _ hw]
          have := h0.itr_lt w (List.mem_append_left _ hw1) e
          rw [flushWord_fieldIndex, flushWord_dItr] at this
          exact this he) r hr
    refine ⟨hwf1, g ++ ext ++ [Event.listenerFlush], refs, ?_, ?_, ?_, href⟩
    · rw [hext]
      show (fi.trace ++ ext) ++ _ = _
      rw [htr]
      simp only [List.append_assoc]
    · rw [hrefs, hlen]
    · rw [drainEvents_append, drainEvents_append, hg, hev]
      simp only [drainEvents, List.nil_append, List.append_nil]
      rfl
  have c1 : ¬ ((flushWord s)._adds_offset ≠ (flushWord s)._adds.length) := by
    rw [flushWord_adds_offset, flushWord_adds]; simp
  have c2 : ¬ ((flushWord s)._removes_offset ≠ (flushWord s)._removes.length) := by
    rw [flushWord_removes_offset, flushWord_removes]; simp
  simp only [flush] at hfl
  rw [if_neg c1, if_neg c2] at hfl
  by_cases hne : (flushWord s)._adds ≠ []
  · rw [if_pos hne] at hfl
    cases hl : flushLoop { flushWord s with
        _fieldIndex := (flushWord s)._fieldIndex.add_features_guard_bytes } 0 0
        (flushWord s)._word_entries with
    | none =>
      have hl : flushLoop { flushWord s with
        _fieldIndex := (flushWord s)._fieldIndex.add_features_guard_bytes } 0 0
        ({ flushWord s with
          _fieldIndex := (flushWord s)._fieldIndex.add_features_guard_bytes } :
            OrderedFieldIndexInserter)._word_entries = none := hl
      rw [hl] at hfl
      exact Option.noConfusion hfl
    | some r =>
      have hl2 : flushLoop { flushWord s with
        _fieldIndex := (flushWord s)._fieldIndex.add_features_guard_bytes } 0 0
        ({ flushWord s with
          _fieldIndex := (flushWord s)._fieldIndex.add_features_guard_bytes } :
            OrderedFieldIndexInserter)._word_entries = some r := hl
      rw [hl2] at hfl
      simp only [] at hfl
      obtain ⟨hwf, ext, refs, hext, hrefs, hev, href⟩ :=
        key (flushWord s)._fieldIndex.add_features_guard_bytes [Event.add_features_guard_bytes]
          (by rw [flushWord_fieldIndex]; rfl) (by rw [flushWord_fieldIndex]; rfl)
          (by rw [flushWord_fieldIndex]; rfl) rfl r hl
      split at hfl
      · exact Option.noConfusion hfl
      · split at hfl
        · exact Option.noConfusion hfl
        · simp only [Option.some.injEq] at hfl
          subst hfl
          exact ⟨hwf, ext, refs, hext, hrefs, hev, href⟩
  · rw [if_neg hne] at hfl
    cases hl : flushLoop (flushWord s) 0 0 (flushWord s)._word_entries with
    | none => rw [hl] at hfl; exact Option.noConfusion hfl
    | some r =>
      rw [hl] at hfl
      simp only [] at hfl
      obtain ⟨hwf, ext, refs, hext, hrefs, hev, href⟩ :=
        key (flushWord s)._fieldIndex [] (by rw [flushWord_fieldIndex])
          (by rw [flushWord_fieldIndex]) (by rw [flushWord_fieldIndex, List.append_nil]) rfl r hl
      split at hfl
      · exact Option.noConfusion hfl
      · split at hfl
        · exact Option.noConfusion hfl
        · simp only [Option.some.injEq] at hfl
          subst hfl
          exact ⟨hwf, ext, refs, hext, hrefs, hev, href⟩


theorem notifiedDocIds_append (a b : List DrainEvent) :
    notifiedDocIds (a ++ b) = notifiedDocIds a ++ notifiedDocIds b := by
  induction a with
  | nil => rfl
  | cons e a ih => cases e <;> simp [notifiedDocIds, ih]

theorem notifiedDocIds_notify (k : Nat) (adds : List PostingListKeyDataType) :
    notifiedDocIds (adds.map (fun a => DrainEvent.notify k a._key)) = adds.map (·._key) := by
  induction adds with
  | nil => rfl
  | cons a adds ih => simp [notifiedDocIds, ih]

theorem notifiedDocIds_drainOf (kbs : List (Nat × Batch)) :
    notifiedDocIds (drainOf kbs) = (batchAdds (kbs.map Prod.snd)).map (·._key) := by
  induction kbs with
  | nil => rfl
  | cons kb kbs ih =>
    simp only [drainOf, List.map_cons, batchAdds, List.map_append]
    rw [notifiedDocIds_append, notifiedDocIds_notify]
    simp only [notifiedDocIds, ih]

theorem batchAdds_filter (bs : List Batch) :
    batchAdds (bs.filter Batch.nonEmpty) = batchAdds bs := by
  induction bs with
  | nil => rfl
  | cons b bs ih =>
    by_cases hb : Batch.nonEmpty b = true
    · rw [List.filter_cons_of_pos hb]
      simp only [batchAdds, ih]
    · rw [List.filter_cons_of_neg hb, ih]
      have : b.2.1 = [] := by
        unfold Batch.nonEmpty at hb
        simp only [Bool.not_eq_true', Bool.not_eq_false, Bool.and_eq_true,
          List.isEmpty_iff] at hb
        exact hb.1
      simp only [batchAdds, this, List.nil_append]

/-- C16: let `s0` be a state reached from a fresh inserter over a well-formed
field index in which no add and no remove is pending, and let `s` be reached
from `s0` by accepted `setNextWord`/`add`/`remove` calls.  Then `flush()`
completes, and what the removal listener and the posting-list store see of the
drain is, batch after batch in the order of the terms (the non-empty batches of
the call sequence), one `insert(wordRef, docId)` per add of the batch, in the
order the adds were made, followed by the merge of that batch; `wordRef` is the
key of the batch's term in the drained dictionary; and the notified document
ids are exactly the pending adds, each once and in order, so a pending remove
causes no notification. -/
theorem listener_notified (noDocId : Nat) (fieldIndex : FieldIndex)
    (prior calls : List Call) (s0 s : OrderedFieldIndexInserter) (hwf : fieldIndex.WellFormed)
    (hprior : run noDocId (construct noDocId fieldIndex) prior = some s0)
    (hidle : s0._adds = [] ∧ s0._removes = [])
    (hfeed : ∀ c ∈ calls, c.isFeed = true)
    (hrun : run noDocId s0 calls = some s) :
    ∃ (s1 : OrderedFieldIndexInserter) (ext : List Event) (refs : List Nat),
      flush s = some s1 ∧
      s1._fieldIndex.trace = s._fieldIndex.trace ++ ext ∧
      refs.length =
        ((batchesOf s0._fieldIndex (s0._word, [], []) calls).filter Batch.nonEmpty).length ∧
      drainEvents ext = drainOf (refs.zip
        ((batchesOf s0._fieldIndex (s0._word, [], []) calls).filter Batch.nonEmpty)) ∧
      (∀ kb ∈ refs.zip
          ((batchesOf s0._fieldIndex (s0._word, [], []) calls).filter Batch.nonEmpty),
        s1._fieldIndex.wordRefOf kb.2.1 = some kb.1) ∧
      notifiedDocIds (drainEvents ext) = s._adds.map (·._key) := by
  have h0 := inv_run noDocId prior _ s0 (inv_construct noDocId fieldIndex hwf) hprior
  have hs := inv_run noDocId calls s0 s h0 hrun
  obtain ⟨s1, hfl, _⟩ := flush_spec s hs
  obtain ⟨_, ext, refs, hext, hlen, hev, href⟩ := flush_notify s s1 hs hfl
  have hq := queuedBatches_flushWord_of_run noDocId calls s0 s h0 hidle hfeed hrun
  rw [hq] at hlen hev href
  obtain ⟨hadds, _⟩ := pending_run noDocId calls s0 s (s0._word, [], []) [] [] hfeed
    (by rw [hidle.1]; rfl) (by rw [hidle.2]; rfl) hrun
  refine ⟨s1, ext, refs, hfl, hext, hlen, hev, href, ?_⟩
  rw [hev, notifiedDocIds_drainOf, List.map_snd_zip _ _ (le_of_eq hlen.symm), batchAdds_filter,
    hadds, List.nil_append]

/-- Witness of C16: the calls `exampleCalls` on a fresh inserter over
`exampleFieldIndex`; the drain notifies `(0, 5)` and `(0, 9)` for the two adds
of `"a"`, merges that batch, notifies `(1, 5)` for the add of `"c"` and merges
that batch; the remove of `5` under `"c"` causes no notification. -/
theorem listener_notified_witness :
    (flush exampleFed).map
        (fun s => drainEvents (s._fieldIndex.trace.drop exampleFed._fieldIndex.trace.length)) =
      some [DrainEvent.notify 0 5, DrainEvent.notify 0 9,
        DrainEvent.merge [⟨5, ⟨1, 1, 3⟩⟩, ⟨9, ⟨2, 65535, 65535⟩⟩] [],
        DrainEvent.notify 1 5, DrainEvent.merge [⟨5, ⟨3, 1, 3⟩⟩] [5]] ∧
    ∃ (s1 : OrderedFieldIndexInserter) (ext : List Event) (refs : List Nat),
      flush exampleFed = some s1 ∧
      s1._fieldIndex.trace = exampleFed._fieldIndex.trace ++ ext ∧
      refs.length =
        ((batchesOf exampleFieldIndex ([], [], []) exampleCalls).filter Batch.nonEmpty).length ∧
      drainEvents ext = drainOf (refs.zip
        ((batchesOf exampleFieldIndex ([], [], []) exampleCalls).filter Batch.nonEmpty)) ∧
      (∀ kb ∈ refs.zip
          ((batchesOf exampleFieldIndex ([], [], []) exampleCalls).filter Batch.nonEmpty),
        s1._fieldIndex.wordRefOf kb.2.1 = some kb.1) ∧
      notifiedDocIds (drainEvents ext) = exampleFed._adds.map (·._key) :=
  ⟨by decide,
    listener_notified 4294967295 exampleFieldIndex [] exampleCalls
      (construct 4294967295 exampleFieldIndex) exampleFed
      wellFormed_exampleFieldIndex rfl ⟨rfl, rfl⟩ (by decide) (by decide)⟩


/-! ## Lookup or insert in one loop step -/

theorem flushInsert_present (s : OrderedFieldIndexInserter) (w : Word) (e : Nat × PostingList)
    (he : s.dItrEntry = some e) (hw : ¬ w < s._fieldIndex.getWord e.1) :
    flushInsert s w = s := by
  unfold flushInsert
  rw [he]
  simp [hw]

theorem flushInsert_absent (s : OrderedFieldIndexInserter) (w : Word)
    (h : ∀ e, s.dItrEntry = some e → w < s._fieldIndex.getWord e.1) :
    flushInsert s w =
      { s with _fieldIndex :=
          (s._fieldIndex.addWord w).2.dictInsert s._dItr (s._fieldIndex.addWord w).1 [] } := by
  unfold flushInsert
  cases he : s.dItrEntry with
  | none => simp
  | some e => simp [h e he]

theorem seek_lands_present (D : List (Nat × PostingList)) (f : Nat → Word) (w : Word) (j : Nat)
    (hp : (D.map (fun e => f e.1)).Pairwise (· < ·))
    (hbefore : ∀ e ∈ D.take j, f e.1 < w)
    (hhead : ∀ e, D[j]? = some e → ¬ f e.1 < w)
    (hmem : w ∈ D.map (fun e => f e.1)) :
    ∃ e, D[j]? = some e ∧ f e.1 = w ∧ D = D.take j ++ e :: D.drop (j + 1) := by
  obtain ⟨e, he, hew⟩ := List.mem_map.mp hmem
  have hew : f e.1 = w := hew
  rw [← List.take_append_drop j D, List.mem_append] at he
  rcases he with he | he
  · exact absurd (hbefore e he) (by rw [hew]; exact lt_irrefl _)
  · have hjlt : j < D.length := by
      by_contra hn
      rw [List.drop_eq_nil_of_le (by omega)] at he
      simp at he
    have hget : D[j]? = some D[j] := List.getElem?_eq_getElem hjlt
    have hdrop : D.drop j = D[j] :: D.drop (j + 1) := List.drop_eq_getElem_cons hjlt
    have hsplit : D = D.take j ++ D[j] :: D.drop (j + 1) := by
      rw [← hdrop, List.take_append_drop]
    rw [hdrop] at he
    rcases List.mem_cons.mp he with he | he
    · rw [he] at hew
      exact ⟨D[j], hget, hew, hsplit⟩
    · have hp2 : (D.drop j).Pairwise (fun a b => f a.1 < f b.1) :=
        (List.pairwise_map.mp hp).sublist (List.drop_sublist j D)
      rw [hdrop, List.pairwise_cons] at hp2
      have := hp2.1 e he
      rw [hew] at this
      exact absurd this (hhead D[j] hget)

theorem seek_lands_absent (D : List (Nat × PostingList)) (f : Nat → Word) (w : Word) (j : Nat)
    (hhead : ∀ e, D[j]? = some e → ¬ f e.1 < w)
    (hmem : w ∉ D.map (fun e => f e.1)) :
    ∀ e, D[j]? = some e → w < f e.1 := by
  intro e he
  have h1 := hhead e he
  have h2 : f e.1 ≠ w := by
    intro heq
    exact hmem (List.mem_map.mpr ⟨e, List.getElem?_mem he, heq⟩)
  rcases lt_trichotomy (f e.1) w with h | h | h
  · exact absurd h h1
  · exact absurd h h2
  · exact h

theorem terms_eq_map (fi : FieldIndex) :
    fi.terms = fi.dictionary.map (fun e => fi.getWord e.1) := by
  unfold FieldIndex.terms FieldIndex.entries
  rw [List.map_map]
  rfl

theorem flushEntry_present (s : OrderedFieldIndexInserter) (adds_offset removes_offset : Nat)
    (word_entry : Word × Nat × Nat) (hwf : s._fieldIndex.WellFormed)
    (hle : s._dItr ≤ s._fieldIndex.dictionary.length)
    (hlt : ∀ e ∈ s._fieldIndex.dictionary.take s._dItr,
      s._fieldIndex.getWord e.1 < word_entry.1)
    (hmem : word_entry.1 ∈ s._fieldIndex.terms) :
    flushInsert (flushSeek s word_entry.1) word_entry.1 = flushSeek s word_entry.1 ∧
    ∃ s3 e, flushEntry s adds_offset removes_offset word_entry =
        some (s3, adds_offset + word_entry.2.1, removes_offset + word_entry.2.2) ∧
      s3._dItr = (flushSeek s word_entry.1)._dItr ∧
      s._fieldIndex.dictionary[s3._dItr]? = some e ∧
      s._fieldIndex.getWord e.1 = word_entry.1 ∧
      s3._fieldIndex.wordStore = s._fieldIndex.wordStore ∧
      s3._fieldIndex.dictionary = s._fieldIndex.dictionary.take s3._dItr ++
        (e.1, PostingListStore.apply e.2 ((s._adds.drop adds_offset).take word_entry.2.1)
          ((s._removes.drop removes_offset).take word_entry.2.2)) ::
        s._fieldIndex.dictionary.drop (s3._dItr + 1) := by
  obtain ⟨j, tr, hs1, hj, hjlt, hjhead, _, _⟩ := flushSeek_spec s word_entry.1 hle hlt
  rw [terms_eq_map] at hmem
  obtain ⟨e, he, hew, hsplit⟩ := seek_lands_present s._fieldIndex.dictionary
    s._fieldIndex.getWord word_entry.1 j
    (by rw [← terms_eq_map]; exact hwf.2) hjlt hjhead hmem
  have hentry : (flushSeek s word_entry.1).dItrEntry = some e := by
    rw [hs1]; exact he
  have hgw : (flushSeek s word_entry.1)._fieldIndex.getWord e.1 = word_entry.1 := by
    rw [hs1]; exact hew
  have hins : flushInsert (flushSeek s word_entry.1) word_entry.1 = flushSeek s word_entry.1 :=
    flushInsert_present _ _ e hentry (by rw [hgw]; exact lt_irrefl _)
  have hlen : (s._fieldIndex.dictionary.take j).length = j := by
    rw [List.length_take]; omega
  obtain ⟨fi3, happ, hd3, hw3, _, _⟩ := flushApply_spec (flushSeek s word_entry.1) word_entry.1
    ((s._adds.drop adds_offset).take word_entry.2.1)
    ((s._removes.drop removes_offset).take word_entry.2.2)
    (s._fieldIndex.dictionary.take j) (s._fieldIndex.dictionary.drop (j + 1)) e.1 e.2
    (by rw [hs1]; exact hsplit) (by rw [hs1, hlen]) hgw
  refine ⟨hins, { flushSeek s word_entry.1 with _fieldIndex := fi3 }, e, ?_, rfl, ?_, hew, ?_, ?_⟩
  · unfold flushEntry
    simp only []
    rw [hins, happ]
  · show s._fieldIndex.dictionary[(flushSeek s word_entry.1)._dItr]? = some e
    rw [hs1]; exact he
  · show fi3.wordStore = _
    rw [hw3, hs1]
  · show fi3.dictionary = s._fieldIndex.dictionary.take (flushSeek s word_entry.1)._dItr ++ _ ::
      s._fieldIndex.dictionary.drop ((flushSeek s word_entry.1)._dItr + 1)
    rw [hd3, hs1]

theorem flushEntry_absent (s : OrderedFieldIndexInserter) (adds_offset removes_offset : Nat)
    (word_entry : Word × Nat × Nat)
    (hle : s._dItr ≤ s._fieldIndex.dictionary.length)
    (hlt : ∀ e ∈ s._fieldIndex.dictionary.take s._dItr,
      s._fieldIndex.getWord e.1 < word_entry.1)
    (hmem : word_entry.1 ∉ s._fieldIndex.terms) :
    (flushInsert (flushSeek s word_entry.1) word_entry.1)._fieldIndex.dictionary =
      s._fieldIndex.dictionary.take (flushSeek s word_entry.1)._dItr ++
        (s._fieldIndex.wordStore.length, []) ::
        s._fieldIndex.dictionary.drop (flushSeek s word_entry.1)._dItr ∧
    (flushInsert (flushSeek s word_entry.1) word_entry.1)._fieldIndex.wordStore =
      s._fieldIndex.wordStore ++ [word_entry.1] ∧
    ∃ s3, flushEntry s adds_offset removes_offset word_entry =
        some (s3, adds_offset + word_entry.2.1, removes_offset + word_entry.2.2) ∧
      s3._dItr = (flushSeek s word_entry.1)._dItr ∧
      s3._fieldIndex.wordStore = s._fieldIndex.wordStore ++ [word_entry.1] ∧
      s3._fieldIndex.dictionary = s._fieldIndex.dictionary.take s3._dItr ++
        (s._fieldIndex.wordStore.length,
          PostingListStore.apply [] ((s._adds.drop adds_offset).take word_entry.2.1)
            ((s._removes.drop removes_offset).take word_entry.2.2)) ::
        s._fieldIndex.dictionary.drop s3._dItr := by
  obtain ⟨j, tr, hs1, hj, hjlt, hjhead, _, _⟩ := flushSeek_spec s word_entry.1 hle hlt
  rw [terms_eq_map] at hmem
  have habs := seek_lands_absent s._fieldIndex.dictionary s._fieldIndex.getWord word_entry.1 j
    hjhead hmem
  have hins := flushInsert_absent (flushSeek s word_entry.1) word_entry.1 (by
    intro e he
    rw [hs1] at he ⊢
    exact habs e he)
  have hlen : (s._fieldIndex.dictionary.take j).length = j := by
    rw [List.length_take]; omega
  have hd2 : (flushInsert (flushSeek s word_entry.1) word_entry.1)._fieldIndex.dictionary =
      s._fieldIndex.dictionary.take j ++ (s._fieldIndex.wordStore.length, []) ::
        s._fieldIndex.dictionary.drop j := by
    rw [hins, hs1]; rfl
  have hw2 : (flushInsert (flushSeek s word_entry.1) word_entry.1)._fieldIndex.wordStore =
      s._fieldIndex.wordStore ++ [word_entry.1] := by
    rw [hins, hs1]; rfl
  have hi2 : (flushInsert (flushSeek s word_entry.1) word_entry.1)._dItr = j := by
    rw [hins, hs1]
  have hj1 : (flushSeek s word_entry.1)._dItr = j := by rw [hs1]
  have hk2 : (flushInsert (flushSeek s word_entry.1) word_entry.1)._fieldIndex.getWord
      s._fieldIndex.wordStore.length = word_entry.1 := by
    unfold FieldIndex.getWord
    rw [hw2]
    simp
  obtain ⟨fi3, happ, hd3, hw3, _, _⟩ := flushApply_spec
    (flushInsert (flushSeek s word_entry.1) word_entry.1) word_entry.1
    ((s._adds.drop adds_offset).take word_entry.2.1)
    ((s._removes.drop removes_offset).take word_entry.2.2)
    (s._fieldIndex.dictionary.take j) (s._fieldIndex.dictionary.drop j)
    s._fieldIndex.wordStore.length [] hd2 (by rw [hi2, hlen]) hk2
  refine ⟨by rw [hj1]; exact hd2, hw2,
    { flushInsert (flushSeek s word_entry.1) word_entry.1 with _fieldIndex := fi3 }, ?_, ?_, ?_, ?_⟩
  · unfold flushEntry
    simp only []
    rw [happ]
  · show (flushInsert (flushSeek s word_entry.1) word_entry.1)._dItr = _
    rw [hi2, hj1]
  · show fi3.wordStore = _
    rw [hw3, hw2]
  · show fi3.dictionary = s._fieldIndex.dictionary.take
        (flushInsert (flushSeek s word_entry.1) word_entry.1)._dItr ++ _ ::
      s._fieldIndex.dictionary.drop (flushInsert (flushSeek s word_entry.1) word_entry.1)._dItr
    rw [hd3, hi2]


theorem nodup_of_ascending (l : List Word) (h : l.Pairwise (· < ·)) : l.Nodup :=
  List.Pairwise.imp (fun hab => ne_of_lt hab) h

theorem dItrWord_eq_some (s : OrderedFieldIndexInserter) (t : Word) :
    s.dItrWord = some t ↔ ∃ e, s.dItrEntry = some e ∧ s._fieldIndex.getWord e.1 = t := by
  unfold dItrWord getWordRef
  cases s.dItrEntry with
  | none => simp
  | some e => simp

theorem flushSeek_dItrWord (s : OrderedFieldIndexInserter) (w t1 : Word) :
    (flushSeek s w).dItrWord = some t1 ↔
      ∃ e, s._fieldIndex.dictionary[(flushSeek s w)._dItr]? = some e ∧
        s._fieldIndex.getWord e.1 = t1 := by
  rw [dItrWord_eq_some]
  unfold dItrEntry FieldIndex.getWord
  rw [(flushSeek_stores s w).1, (flushSeek_stores s w).2]

theorem flushSeek_term (s : OrderedFieldIndexInserter) (w : Word)
    (hle : s._dItr ≤ s._fieldIndex.dictionary.length)
    (hlt : ∀ e ∈ s._fieldIndex.dictionary.take s._dItr, s._fieldIndex.getWord e.1 < w) :
    (∀ t t1, s.dItrWord = some t → (flushSeek s w).dItrWord = some t1 → t ≤ t1) ∧
    (∀ t1, (flushSeek s w).dItrWord = some t1 → w ≤ t1) := by
  obtain ⟨j, tr, hs1, _, _, hhead, _⟩ := flushSeek_spec s w hle hlt
  have hj : (flushSeek s w)._dItr = j := by rw [hs1]
  have hsecond : ∀ t1, (flushSeek s w).dItrWord = some t1 → w ≤ t1 := by
    intro t1 h1
    obtain ⟨e1, he1, hw1⟩ := (flushSeek_dItrWord s w t1).mp h1
    rw [hj] at he1
    rw [← hw1]
    exact not_lt.mp (hhead e1 he1)
  refine ⟨?_, hsecond⟩
  intro t t1 h h1
  obtain ⟨e, he, hw⟩ := (dItrWord_eq_some s t).mp h
  by_cases hc : s._fieldIndex.getWord e.1 < w
  · rw [← hw]
    exact le_of_lt (lt_of_lt_of_le hc (hsecond t1 h1))
  · have hsame : flushSeek s w = s := by
      unfold flushSeek
      rw [he]
      simp only [if_neg hc]
    rw [hsame, h, Option.some.injEq] at h1
    rw [h1]

/-- C17, counterexample: a fresh inserter over a well-formed field index whose
dictionary holds `"c"` alone is fed `setNextWord("a")`, `add(5)`, both accepted.
Before `flush()` the iterator stands at position `0`, on `"c"`; the drain
inserts `"a"` at the iterator position, and after it the iterator stands at
position `0` on `"a"`, a smaller term.  The same inside one loop step: on
`exampleFed`, for a descriptor of `"b"`, the iterator stands on `"a"`, the seek
moves it to `"c"`, and the insert puts `"b"`, smaller than `"c"`, under it. -/
theorem dictionary_lookup_or_insert_counterexample :
    (∀ e ∈ singleTermFieldIndex.dictionary, e.1 < singleTermFieldIndex.wordStore.length) ∧
    singleTermFieldIndex.terms = [[99]] ∧
    singleTermFieldIndex.terms.Pairwise (· < ·) ∧
    (run 4294967295 (construct 4294967295 singleTermFieldIndex)
      [Call.setNextWord [97], Call.add 5 exampleFeatures]).map
        (fun s => (s._dItr, s.getWordRef, s.dItrWord, s._word)) =
      some (0, some 0, some [99], [97]) ∧
    ((run 4294967295 (construct 4294967295 singleTermFieldIndex)
      [Call.setNextWord [97], Call.add 5 exampleFeatures]).bind flush).map
        (fun s => (s._dItr, s.getWordRef, s.dItrWord, s._fieldIndex.terms)) =
      some (0, some 1, some [97], [[97], [99]]) ∧
    ([97] : Word) < [99] ∧
    exampleFed.dItrWord = some [97] ∧
    (flushSeek exampleFed [98]).dItrWord = some [99] ∧
    (flushEntry exampleFed 0 0 ([98], 1, 0)).map (fun r => r.1.dItrWord) = some (some [98]) ∧
    ([98] : Word) < [99] := by
  refine ⟨by decide, by decide, by decide, by decide, by decide, by decide, by decide,
    by decide, by decide, by decide⟩

/-- C17, amended: lookup-or-insert in the drain.  One loop step, for a
descriptor of term `w`, on a well-formed field index whose entries before the
iterator are all below `w`: the step completes, so its two assertions hold; the
position of the iterator does not decrease and is the one the seek left; the
iterator ends on an entry whose term is `w`, with every entry before it below
`w`; the field index stays well-formed; the seek moves the iterator only to a
term that is not smaller.  When `w` is in the dictionary the seek stops on `w`,
which is not below the term the iterator stood on, and nothing is inserted: the
insert statement leaves the state as the seek left it, the word store is
unchanged and the dictionary differs only in the posting list of the existing
entry of `w`.  When `w` is absent the term the seek stopped on, if any, is above
`w`, and exactly one entry, with the null root, is inserted at the iterator
position, under the word reference the word store gives the newly interned `w`:
the insert puts the smaller term `w` under the iterator without moving it.
Consequently, from every state reached from a fresh inserter over a well-formed
field index, `flush()` completes, the terms of the dictionary are strictly
ascending without a duplicate afterwards, they are the old terms and the terms
of the queued descriptors, and the position of the iterator has not
decreased. -/
theorem dictionary_lookup_or_insert :
    (∀ (s : OrderedFieldIndexInserter) (adds_offset removes_offset : Nat)
      (word_entry : Word × Nat × Nat),
      s._fieldIndex.WellFormed →
      s._dItr ≤ s._fieldIndex.dictionary.length →
      (∀ e ∈ s._fieldIndex.dictionary.take s._dItr,
        s._fieldIndex.getWord e.1 < word_entry.1) →
      ∃ s3, flushEntry s adds_offset removes_offset word_entry =
          some (s3, adds_offset + word_entry.2.1, removes_offset + word_entry.2.2) ∧
        s._dItr ≤ s3._dItr ∧ s3._dItr = (flushSeek s word_entry.1)._dItr ∧
        s3._fieldIndex.WellFormed ∧
        (∃ e, s3.dItrEntry = some e ∧ s3._fieldIndex.getWord e.1 = word_entry.1) ∧
        (∀ e ∈ s3._fieldIndex.dictionary.take s3._dItr,
          s3._fieldIndex.getWord e.1 < word_entry.1) ∧
        s3.dItrWord = some word_entry.1 ∧
        (∀ t t1, s.dItrWord = some t → (flushSeek s word_entry.1).dItrWord = some t1 →
          t ≤ t1) ∧
        (word_entry.1 ∈ s._fieldIndex.terms →
          (flushSeek s word_entry.1).dItrWord = some word_entry.1 ∧
          (∀ t, s.dItrWord = some t → t ≤ word_entry.1) ∧
          flushInsert (flushSeek s word_entry.1) word_entry.1 = flushSeek s word_entry.1 ∧
          s3._fieldIndex.wordStore = s._fieldIndex.wordStore ∧
          ∃ e, s._fieldIndex.dictionary[s3._dItr]? = some e ∧
            s._fieldIndex.getWord e.1 = word_entry.1 ∧
            s3._fieldIndex.dictionary = s._fieldIndex.dictionary.take s3._dItr ++
              (e.1, PostingListStore.apply e.2
                ((s._adds.drop adds_offset).take word_entry.2.1)
                ((s._removes.drop removes_offset).take word_entry.2.2)) ::
              s._fieldIndex.dictionary.drop (s3._dItr + 1)) ∧
        (word_entry.1 ∉ s._fieldIndex.terms →
          (∀ t1, (flushSeek s word_entry.1).dItrWord = some t1 → word_entry.1 < t1) ∧
          (flushInsert (flushSeek s word_entry.1) word_entry.1)._fieldIndex.dictionary =
            s._fieldIndex.dictionary.take s3._dItr ++
              (s._fieldIndex.wordStore.length, []) :: s._fieldIndex.dictionary.drop s3._dItr ∧
          s3._fieldIndex.wordStore = s._fieldIndex.wordStore ++ [word_entry.1] ∧
          s3._fieldIndex.dictionary = s._fieldIndex.dictionary.take s3._dItr ++
            (s._fieldIndex.wordStore.length,
              PostingListStore.apply [] ((s._adds.drop adds_offset).take word_entry.2.1)
                ((s._removes.drop removes_offset).take word_entry.2.2)) ::
            s._fieldIndex.dictionary.drop s3._dItr)) ∧
    (∀ (noDocId : Nat) (fieldIndex : FieldIndex) (calls : List Call)
      (s : OrderedFieldIndexInserter),
      fieldIndex.WellFormed →
      run noDocId (construct noDocId fieldIndex) calls = some s →
      s._fieldIndex.terms.Pairwise (· < ·) ∧
      ∃ s1, flush s = some s1 ∧
        s1._fieldIndex.terms.Pairwise (· < ·) ∧ s1._fieldIndex.terms.Nodup ∧
        (∀ x, x ∈ s1._fieldIndex.terms ↔
          x ∈ s._fieldIndex.terms ∨ x ∈ (flushWord s)._word_entries.map Prod.fst) ∧
        s._dItr ≤ s1._dItr) := by
  constructor
  · intro s ao ro we hwf hle hlt
    obtain ⟨s3, hs3, _, _, _, _, hlt3, _, _⟩ := flushEntry_spec s ao ro we hwf.1 hle hlt
    obtain ⟨s1, hs1, _, hwf1, _, _, _, _, _, _⟩ :=
      flushLoop_spec [we] s ao ro hwf hle (List.pairwise_singleton _ _)
        (fun w hw => by
          simp only [List.map_cons, List.map_nil, List.mem_singleton] at hw
          rw [hw]; exact hlt)
    have hl : flushLoop s ao ro [we] = some (s3, ao + we.2.1, ro + we.2.2) := by
      simp [flushLoop, hs3]
    rw [hl, Option.some.injEq, Prod.mk.injEq] at hs1
    rw [← hs1.1] at hwf1
    obtain ⟨_, _, _, hmono, _, _, k, old, _, _, _, _, hentry, hk⟩ :=
      flushEntry_frame s ao ro we _ hs3
    have hj : s3._dItr = (flushSeek s we.1)._dItr := by
      by_cases hmem : we.1 ∈ s._fieldIndex.terms
      · obtain ⟨_, s3', _, h3, hi, _⟩ := flushEntry_present s ao ro we hwf hle hlt hmem
        rw [hs3, Option.some.injEq, Prod.mk.injEq] at h3
        rw [h3.1]; exact hi
      · obtain ⟨_, _, s3', h3, hi, _⟩ := flushEntry_absent s ao ro we hle hlt hmem
        rw [hs3, Option.some.injEq, Prod.mk.injEq] at h3
        rw [h3.1]; exact hi
    obtain ⟨hseek, hstop⟩ := flushSeek_term s we.1 hle hlt
    refine ⟨s3, hs3, hmono, hj, hwf1, ⟨_, hentry, hk⟩, hlt3,
      (dItrWord_eq_some s3 we.1).mpr ⟨_, hentry, hk⟩, hseek, ?_, ?_⟩
    · intro hmem
      obtain ⟨hins, s3', e, h3, _, he, hew, hws, hd⟩ :=
        flushEntry_present s ao ro we hwf hle hlt hmem
      rw [hs3, Option.some.injEq, Prod.mk.injEq] at h3
      rw [← h3.1] at he hws hd
      have hon : (flushSeek s we.1).dItrWord = some we.1 := by
        rw [flushSeek_dItrWord, ← hj]
        exact ⟨e, he, hew⟩
      exact ⟨hon, fun t ht => hseek t we.1 ht hon, hins, hws, e, he, hew, hd⟩
    · intro hmem
      obtain ⟨hd2, _, s3', h3, _, hws, hd⟩ := flushEntry_absent s ao ro we hle hlt hmem
      rw [hs3, Option.some.injEq, Prod.mk.injEq] at h3
      rw [← h3.1] at hws hd
      rw [← hj] at hd2
      refine ⟨?_, hd2, hws, hd⟩
      intro t1 h1
      obtain ⟨e1, he1, hw1⟩ := (flushSeek_dItrWord s we.1 t1).mp h1
      have hin : t1 ∈ s._fieldIndex.terms := by
        rw [terms_eq_map]
        exact List.mem_map.mpr ⟨e1, List.getElem?_mem he1, hw1⟩
      exact lt_of_le_of_ne (hstop t1 h1) (fun h => hmem (h ▸ hin))
  · intro noDocId fieldIndex calls s hwf hrun
    have hs := inv_run noDocId calls _ s (inv_construct noDocId fieldIndex hwf) hrun
    obtain ⟨s1, hfl, hinv1, _, _, _, _, _, _, _, _, _, hterms, _⟩ := flush_spec s hs
    obtain ⟨_, _, _, _, _, _, _, _, hmono, _⟩ := flush_frame s s1 hfl
    exact ⟨hs.wellFormed.2, s1, hfl, hinv1.wellFormed.2,
      nodup_of_ascending _ hinv1.wellFormed.2, hterms, hmono⟩

/-- Witness of C17: on `exampleFed`, whose dictionary holds `"a"` and `"c"` and
whose iterator stands on `"a"`, the step for a descriptor of `"a"` inserts
nothing and leaves the iterator on `"a"`; the step for a descriptor of `"b"`
seeks to `"c"`, which is above `"b"`, interns `"b"` as word `2` and inserts one
entry between `"a"` and `"c"`, the iterator on it at the position the seek left;
and the drain of `exampleFed` leaves the terms strictly ascending, the position
of the iterator not decreased. -/
theorem dictionary_lookup_or_insert_witness :
    ((flushEntry exampleFed 0 0 ([97], 2, 0)).map
        (fun r => (r.1._dItr, r.1._fieldIndex.wordStore,
          r.1._fieldIndex.dictionary.map Prod.fst)) = some (0, [[97], [99]], [0, 1])) ∧
    ((flushEntry exampleFed 0 0 ([98], 1, 0)).map
        (fun r => (r.1._dItr, r.1._fieldIndex.wordStore,
          r.1._fieldIndex.dictionary.map Prod.fst)) =
      some (1, [[97], [99], [98]], [0, 2, 1])) ∧
    (∃ s3, flushEntry exampleFed 0 0 ([97], 2, 0) = some (s3, 2, 0) ∧
      exampleFed._dItr ≤ s3._dItr ∧
      s3._fieldIndex.WellFormed ∧
      (∃ e, s3.dItrEntry = some e ∧ s3._fieldIndex.getWord e.1 = [97]) ∧
      s3.dItrWord = some [97] ∧
      (flushSeek exampleFed [97]).dItrWord = some [97] ∧
      (∀ t, exampleFed.dItrWord = some t → t ≤ [97]) ∧
      flushInsert (flushSeek exampleFed [97]) [97] = flushSeek exampleFed [97] ∧
      s3._fieldIndex.wordStore = exampleFed._fieldIndex.wordStore) ∧
    (∃ s3, flushEntry exampleFed 0 0 ([98], 1, 0) = some (s3, 1, 0) ∧
      exampleFed._dItr ≤ s3._dItr ∧ s3._dItr = (flushSeek exampleFed [98])._dItr ∧
      s3._fieldIndex.WellFormed ∧
      (∃ e, s3.dItrEntry = some e ∧ s3._fieldIndex.getWord e.1 = [98]) ∧
      s3.dItrWord = some [98] ∧
      (∀ t t1, exampleFed.dItrWord = some t →
        (flushSeek exampleFed [98]).dItrWord = some t1 → t ≤ t1) ∧
      (∀ t1, (flushSeek exampleFed [98]).dItrWord = some t1 → [98] < t1) ∧
      (flushInsert (flushSeek exampleFed [98]) [98])._fieldIndex.dictionary =
        exampleFed._fieldIndex.dictionary.take s3._dItr ++
          (exampleFed._fieldIndex.wordStore.length, []) ::
          exampleFed._fieldIndex.dictionary.drop s3._dItr ∧
      s3._fieldIndex.wordStore = exampleFed._fieldIndex.wordStore ++ [[98]]) ∧
    (∃ s1, flush exampleFed = some s1 ∧
      s1._fieldIndex.terms.Pairwise (· < ·) ∧ s1._fieldIndex.terms.Nodup ∧
      exampleFed._dItr ≤ s1._dItr) := by
  have hwf : exampleFed._fieldIndex.WellFormed :=
    wellFormed_congr exampleFed._fieldIndex exampleFieldIndex rfl rfl
      wellFormed_exampleFieldIndex
  obtain ⟨a, ha, hma, _, hwfa, henta, _, hwa, _, hpres, _⟩ :=
    dictionary_lookup_or_insert.1 exampleFed 0 0 ([97], 2, 0) hwf (by decide) (by decide)
  obtain ⟨b, hb, hmb, hjb, hwfb, hentb, _, hwb, hseekb, _, habs⟩ :=
    dictionary_lookup_or_insert.1 exampleFed 0 0 ([98], 1, 0) hwf (by decide) (by decide)
  obtain ⟨_, s1, hs1, hasc, hnd, _, hmono⟩ :=
    dictionary_lookup_or_insert.2 4294967295 exampleFieldIndex exampleCalls exampleFed
      wellFormed_exampleFieldIndex (by decide)
  have hp := hpres (by decide)
  have hq := habs (by decide)
  exact ⟨by decide, by decide,
    ⟨a, ha, hma, hwfa, henta, hwa, hp.1, hp.2.1, hp.2.2.1, hp.2.2.2.1⟩,
    ⟨b, hb, hmb, hjb, hwfb, hentb, hwb, hseekb, hq.1, hq.2.1, hq.2.2.1⟩,
    ⟨s1, hs1, hasc, hnd, hmono⟩⟩


/-! ## The bookkeeping of the batches -/

theorem ordered_flushWord (R : Word → Word → Prop) (hrefl : ∀ x, R x x)
    (s : OrderedFieldIndexInserter)
    (h : (s._word_entries.map Prod.fst ++ [s._word]).Pairwise R) :
    ((flushWord s)._word_entries.map Prod.fst ++ [(flushWord s)._word]).Pairwise R := by
  rw [flushWord_word, flushWord_word_entries]
  by_cases hc : s._removes.length = s._removes_offset ∧ s._adds.length = s._adds_offset
  · rw [if_pos hc]; exact h
  · rw [if_neg hc, List.map_append, List.map_cons, List.map_nil, List.pairwise_append]
    refine ⟨h, List.pairwise_singleton _ _, ?_⟩
    intro x hx y hy
    rw [List.mem_singleton.mp hy]
    have hp := List.pairwise_append.mp h
    rcases List.mem_append.mp hx with hx | hx
    · exact hp.2.2 x hx s._word (List.mem_singleton_self _)
    · rw [List.mem_singleton.mp hx]; exact hrefl _

theorem ordered_setNextWord (R : Word → Word → Prop)
    (h1 : ∀ x y z, R x y → y < z → R x z) (h2 : ∀ y z : Word, y < z → R y z)
    (noDocId : Nat) (s s1 : OrderedFieldIndexInserter) (w : Word)
    (h : (s._word_entries.map Prod.fst ++ [s._word]).Pairwise R)
    (hs : setNextWord noDocId s w = some s1) :
    (s1._word_entries.map Prod.fst ++ [s1._word]).Pairwise R := by
  obtain ⟨hlt, hs1⟩ := setNextWord_eq_some noDocId s s1 w hs
  have he : s1._word_entries = (flushWord s)._word_entries := by rw [hs1]
  have hw : s1._word = w := by rw [hs1]
  rw [he, hw, flushWord_word_entries]
  have hp := List.pairwise_append.mp h
  have hall : ∀ x ∈ s._word_entries.map Prod.fst, R x w :=
    fun x hx => h1 x s._word w (hp.2.2 x hx s._word (List.mem_singleton_self _)) hlt
  by_cases hc : s._removes.length = s._removes_offset ∧ s._adds.length = s._adds_offset
  · rw [if_pos hc, List.pairwise_append]
    refine ⟨hp.1, List.pairwise_singleton _ _, ?_⟩
    intro x hx y hy
    rw [List.mem_singleton.mp hy]
    exact hall x hx
  · rw [if_neg hc, List.map_append, List.map_cons, List.map_nil, List.pairwise_append]
    refine ⟨h, List.pairwise_singleton _ _, ?_⟩
    intro x hx y hy
    rw [List.mem_singleton.mp hy]
    rcases List.mem_append.mp hx with hx | hx
    · exact hall x hx
    · rw [List.mem_singleton.mp hx]; exact h2 _ _ hlt

theorem ordered_step (R : Word → Word → Prop)
    (h1 : ∀ x y z, R x y → y < z → R x z) (h2 : ∀ y z : Word, y < z → R y z)
    (noDocId : Nat) (s s1 : OrderedFieldIndexInserter) (c : Call)
    (hfw : c = Call.flushWord → ∀ x, R x x) (hb : Book s)
    (h : (s._word_entries.map Prod.fst ++ [s._word]).Pairwise R)
    (hs : step noDocId s c = some s1) :
    (s1._word_entries.map Prod.fst ++ [s1._word]).Pairwise R := by
  cases c with
  | setNextWord w => exact ordered_setNextWord R h1 h2 noDocId s s1 w h hs
  | add d f =>
    obtain ⟨_, _, _, hs1⟩ := add_eq_some noDocId s s1 d f hs
    rw [hs1]; exact h
  | remove d =>
    obtain ⟨_, _, hs1⟩ := remove_eq_some noDocId s s1 d hs
    rw [hs1]; exact h
  | flushWord =>
    simp only [step, Option.some.injEq] at hs
    rw [← hs]
    exact ordered_flushWord R (hfw rfl) s h
  | flush =>
    obtain ⟨_, _, hq, _⟩ := flush_frame s s1 hs
    rw [hq]
    exact List.pairwise_singleton _ _
  | rewind =>
    obtain ⟨hc, hs1⟩ := rewind_eq_some noDocId s s1 hs
    have hq := book_word_entries_nil s hb hc.2 hc.1
    have he : s1._word_entries = [] := by rw [hs1]; exact hq
    rw [he]
    exact List.pairwise_singleton _ _

theorem ordered_run (R : Word → Word → Prop)
    (h1 : ∀ x y z, R x y → y < z → R x z) (h2 : ∀ y z : Word, y < z → R y z)
    (noDocId : Nat) (calls : List Call) :
    ∀ (s s1 : OrderedFieldIndexInserter), (Call.flushWord ∈ calls → ∀ x, R x x) → Book s →
      (s._word_entries.map Prod.fst ++ [s._word]).Pairwise R →
      run noDocId s calls = some s1 →
      (s1._word_entries.map Prod.fst ++ [s1._word]).Pairwise R := by
  induction calls with
  | nil =>
    intro s s1 _ _ h hr
    simp only [run, Option.some.injEq] at hr
    exact hr ▸ h
  | cons c cs ih =>
    intro s s1 hfw hb h hr
    simp only [run] at hr
    cases hs : step noDocId s c with
    | none => rw [hs] at hr; exact Option.noConfusion hr
    | some s2 =>
      rw [hs] at hr
      exact ih s2 s1 (fun hm => hfw (List.mem_cons_of_mem _ hm)) (book_step noDocId s s2 c hb hs)
        (ordered_step R h1 h2 noDocId s s2 c
          (fun hc => hfw (by rw [hc]; exact List.mem_cons_self _ _)) hb h hs) hr


theorem flush_completes_iff (s : OrderedFieldIndexInserter) (hb : Book s) :
    (flush s).isSome =
      (flushLoop
        (if (flushWord s)._adds ≠ [] then
          { flushWord s with
            _fieldIndex := (flushWord s)._fieldIndex.add_features_guard_bytes }
        else flushWord s) 0 0 (flushWord s)._word_entries).isSome := by
  have h0 := book_flushWord s hb
  have c1 : ¬ ((flushWord s)._adds_offset ≠ (flushWord s)._adds.length) := by
    rw [flushWord_adds_offset, flushWord_adds]; simp
  have c2 : ¬ ((flushWord s)._removes_offset ≠ (flushWord s)._removes.length) := by
    rw [flushWord_removes_offset, flushWord_removes]; simp
  have key : ∀ (fi : FieldIndex) (r : OrderedFieldIndexInserter × Nat × Nat),
      flushLoop { flushWord s with _fieldIndex := fi } 0 0 (flushWord s)._word_entries = some r →
      r.2.1 = r.1._adds.length ∧ r.2.2 = r.1._removes.length := by
    intro fi r hr
    obtain ⟨ha, hrm, hf, _⟩ := flushLoop_frame _ _ _ _ _ hr
    have hA : r.1._adds = (flushWord s)._adds := by rw [hf]
    have hR : r.1._removes = (flushWord s)._removes := by rw [hf]
    rw [ha, hrm, hA, hR, h0.adds_sum, h0.removes_sum, flushWord_adds_offset,
      flushWord_removes_offset, flushWord_adds, flushWord_removes]
    exact ⟨Nat.zero_add _, Nat.zero_add _⟩
  simp only [flush]
  rw [if_neg c1, if_neg c2]
  by_cases hne : (flushWord s)._adds ≠ []
  · rw [if_pos hne]
    cases hl : flushLoop { flushWord s with
        _fieldIndex := (flushWord s)._fieldIndex.add_features_guard_bytes } 0 0
        (flushWord s)._word_entries with
    | none => rfl
    | some r =>
      obtain ⟨k1, k2⟩ := key _ r hl
      simp only [k1, k2, ne_eq, not_true_eq_false, if_false]
      rfl
  · rw [if_neg hne]
    cases hl : flushLoop (flushWord s) 0 0 (flushWord s)._word_entries with
    | none => rfl
    | some r =>
      obtain ⟨k1, k2⟩ := key (flushWord s)._fieldIndex r hl
      simp only [k1, k2, ne_eq, not_true_eq_false, if_false]
      rfl

theorem sum_prefix_le (f : Word × Nat × Nat → Nat) (pre post : List (Word × Nat × Nat))
    (e : Word × Nat × Nat) :
    (pre.map f).sum + f e ≤ ((pre ++ e :: post).map f).sum := by
  rw [List.map_append, List.sum_append, List.map_cons, List.sum_cons]
  omega


/-- C24, counterexample: after `setNextWord("a")`, `add(5)`, `flushWord()`,
`add(9)`, `flushWord()` on a fresh inserter, all accepted, two descriptors of
the term `"a"` are queued, so the terms of the queued descriptors are not
strictly increasing. -/
theorem batch_bookkeeping_counterexample :
    (run 4294967295 (construct 4294967295 emptyFieldIndex)
      [Call.setNextWord [97], Call.add 5 exampleFeatures, Call.flushWord,
        Call.add 9 exampleFeatures, Call.flushWord]).map (fun s => s._word_entries) =
      some [([97], 1, 0), ([97], 1, 0)] ∧
    ¬ (([([97], 1, 0), ([97], 1, 0)] : List (Word × Nat × Nat)).map Prod.fst).Pairwise
      (· < ·) := by
  decide

/-- C24, amended: in every state reached from a fresh inserter by accepted
`setNextWord`, `add`, `remove`, `flushWord`, `flush` and `rewind` calls, the
add offset is at most the number of pending adds, the remove offset at most the
number of pending removes, the add counts of the queued descriptors sum to the
add offset and their remove counts to the remove offset, every queued descriptor
covers at least one operation, and the terms of the queued descriptors are
non-decreasing; they are strictly increasing when `flushWord` is not among the
calls, so that it runs only inside `setNextWord` and `flush`.  Therefore
`flush()` completes exactly when its loop completes (none of the four size
assertions fails), it does complete on a well-formed field index, and every
slice it takes lies inside the pending sequences. -/
theorem batch_bookkeeping (noDocId : Nat) (fieldIndex : FieldIndex) (calls : List Call)
    (s : OrderedFieldIndexInserter)
    (hrun : run noDocId (construct noDocId fieldIndex) calls = some s) :
    s._adds_offset ≤ s._adds.length ∧ s._removes_offset ≤ s._removes.length ∧
    (s._word_entries.map (fun e => e.2.1)).sum = s._adds_offset ∧
    (s._word_entries.map (fun e => e.2.2)).sum = s._removes_offset ∧
    (∀ e ∈ s._word_entries, 0 < e.2.1 + e.2.2) ∧
    (s._word_entries.map Prod.fst).Pairwise (· ≤ ·) ∧
    (Call.flushWord ∉ calls → (s._word_entries.map Prod.fst).Pairwise (· < ·)) ∧
    (flush s).isSome =
      (flushLoop
        (if (flushWord s)._adds ≠ [] then
          { flushWord s with
            _fieldIndex := (flushWord s)._fieldIndex.add_features_guard_bytes }
        else flushWord s) 0 0 (flushWord s)._word_entries).isSome ∧
    (fieldIndex.WellFormed → (flush s).isSome = true) ∧
    (∀ pre e post, (flushWord s)._word_entries = pre ++ e :: post →
      (pre.map (fun e => e.2.1)).sum + e.2.1 ≤ s._adds.length ∧
      (pre.map (fun e => e.2.2)).sum + e.2.2 ≤ s._removes.length) := by
  have hb := book_run noDocId calls _ s (book_construct noDocId fieldIndex) hrun
  have hle := ordered_run (· ≤ ·) (fun x y z hxy hyz => le_of_lt (lt_of_le_of_lt hxy hyz))
    (fun y z hyz => le_of_lt hyz) noDocId calls _ s (fun _ x => le_refl x)
    (book_construct noDocId fieldIndex) (List.pairwise_singleton _ _) hrun
  refine ⟨hb.adds_le, hb.removes_le, hb.adds_sum, hb.removes_sum, hb.covers,
    (List.pairwise_append.mp hle).1, ?_, flush_completes_iff s hb, ?_, ?_⟩
  · intro hno
    have hlt := ordered_run (· < ·) (fun x y z hxy hyz => lt_trans hxy hyz)
      (fun y z hyz => hyz) noDocId calls _ s (fun hm => absurd hm hno)
      (book_construct noDocId fieldIndex) (List.pairwise_singleton _ _) hrun
    exact (List.pairwise_append.mp hlt).1
  · intro hwf
    have hs := inv_run noDocId calls _ s (inv_construct noDocId fieldIndex hwf) hrun
    obtain ⟨s1, hfl, _⟩ := flush_spec s hs
    rw [hfl]
    rfl
  · intro pre e post hsplit
    have h0 := book_flushWord s hb
    have ha := sum_prefix_le (fun e => e.2.1) pre post e
    have hr := sum_prefix_le (fun e => e.2.2) pre post e
    rw [← hsplit, h0.adds_sum, flushWord_adds_offset] at ha
    rw [← hsplit, h0.removes_sum, flushWord_removes_offset] at hr
    exact ⟨ha, hr⟩

/-- Witness of C24: the state `exampleFed`, reached from a fresh inserter over
`exampleFieldIndex` by the calls `exampleCalls`, none of them `flushWord`. -/
theorem batch_bookkeeping_witness :
    run 4294967295 (construct 4294967295 exampleFieldIndex) exampleCalls = some exampleFed ∧
    Call.flushWord ∉ exampleCalls ∧
    exampleFed._adds_offset ≤ exampleFed._adds.length ∧
    (exampleFed._word_entries.map Prod.fst).Pairwise (· < ·) ∧
    (flush exampleFed).isSome = true ∧
    (∀ pre e post, (flushWord exampleFed)._word_entries = pre ++ e :: post →
      (pre.map (fun e => e.2.1)).sum + e.2.1 ≤ exampleFed._adds.length ∧
      (pre.map (fun e => e.2.2)).sum + e.2.2 ≤ exampleFed._removes.length) :=
  ⟨by decide, by decide,
    (batch_bookkeeping 4294967295 exampleFieldIndex exampleCalls exampleFed (by decide)).1,
    (batch_bookkeeping 4294967295 exampleFieldIndex exampleCalls exampleFed
      (by decide)).2.2.2.2.2.2.1 (by decide),
    (batch_bookkeeping 4294967295 exampleFieldIndex exampleCalls exampleFed
      (by decide)).2.2.2.2.2.2.2.2.1 wellFormed_exampleFieldIndex,
    (batch_bookkeeping 4294967295 exampleFieldIndex exampleCalls exampleFed
      (by decide)).2.2.2.2.2.2.2.2.2⟩

end OrderedFieldIndexInserter

end search.memoryindex

/-! # Properties of the value arena and of the unique value builder -/

namespace search.datastore

namespace UniqueStoreAllocator

/-! ## Reference stability -/

theorem get_wrapped_append {EntryT : Type} (a : UniqueStoreAllocator EntryT)
    (xs : List (UniqueStoreEntry EntryT)) (held : List EntryRef) (r : EntryRef)
    (e : UniqueStoreEntry EntryT) (h : a.get_wrapped r = some e) :
    get_wrapped ⟨a._store ++ xs, held⟩ r = some e := by
  unfold get_wrapped at h ⊢
  have hlt : r < a._store.length := by
    by_contra hn
    rw [List.getElem?_eq_none_iff.mpr (Nat.le_of_not_lt hn)] at h
    exact Option.noConfusion h
  show (a._store ++ xs)[r]? = some e
  rw [List.getElem?_append_left hlt]
  exact h

theorem get_wrapped_lt {EntryT : Type} (a : UniqueStoreAllocator EntryT) (r : EntryRef)
    (e : UniqueStoreEntry EntryT) (h : a.get_wrapped r = some e) : r < a._store.length := by
  unfold get_wrapped at h
  by_contra hn
  rw [List.getElem?_eq_none_iff.mpr (Nat.le_of_not_lt hn)] at h
  exact Option.noConfusion h

theorem get_wrapped_allocate {EntryT : Type} (a : UniqueStoreAllocator EntryT) (v : EntryT) :
    (a.allocate v).2.get_wrapped (a.allocate v).1 = some ⟨v, 0⟩ := by
  show (a._store ++ [⟨v, 0⟩])[a._store.length]? = some ⟨v, 0⟩
  simp

theorem get_wrapped_step {EntryT : Type} (a a1 : UniqueStoreAllocator EntryT) (c : Call EntryT)
    (r : EntryRef) (e : UniqueStoreEntry EntryT) (h : a.get_wrapped r = some e)
    (hs : a.step c = some a1) : a1.get_wrapped r = some e := by
  cases c with
  | allocate v =>
    simp only [step, Option.some.injEq] at hs
    rw [← hs]
    exact get_wrapped_append a [⟨v, 0⟩] a.held r e h
  | hold ref =>
    simp only [step, Option.some.injEq] at hs
    rw [← hs]
    exact h
  | move ref =>
    simp only [step, move] at hs
    cases hg : a.get_wrapped ref with
    | none => rw [hg] at hs; exact Option.noConfusion hs
    | some e1 =>
      rw [hg] at hs
      simp only [Option.map_some', Option.some.injEq] at hs
      rw [← hs]
      exact get_wrapped_append a [e1] a.held r e h

theorem get_wrapped_run {EntryT : Type} (calls : List (Call EntryT)) :
    ∀ (a a1 : UniqueStoreAllocator EntryT) (r : EntryRef) (e : UniqueStoreEntry EntryT),
      a.get_wrapped r = some e → run a calls = some a1 → a1.get_wrapped r = some e := by
  induction calls with
  | nil =>
    intro a a1 r e h hr
    simp only [run, Option.some.injEq] at hr
    exact hr ▸ h
  | cons c cs ih =>
    intro a a1 r e h hr
    simp only [run] at hr
    cases hs : a.step c with
    | none => rw [hs] at hr; exact Option.noConfusion hr
    | some a2 =>
      rw [hs] at hr
      exact ih a2 a1 r e (get_wrapped_step a a2 c r e h hs) hr

theorem run_allocate_isSome {EntryT : Type} (calls : List (Call EntryT)) :
    ∀ (a : UniqueStoreAllocator EntryT), (∀ c ∈ calls, c.isAllocate = true) →
      (run a calls).isSome = true := by
  induction calls with
  | nil => intro a _; rfl
  | cons c cs ih =>
    intro a h
    have hc := h c (List.mem_cons_self _ _)
    cases c with
    | allocate v =>
      simp only [run, step]
      exact ih _ (fun x hx => h x (List.mem_cons_of_mem _ hx))
    | hold ref => exact Bool.noConfusion hc
    | move ref => exact Bool.noConfusion hc

/-- C21: reference stability of the value arena.  When `allocate(v)` returns the
reference `r`, `get(r)` is `v` and the wrapped entry at `r` has reference count
zero; a sequence of further `allocate` calls always completes; and after every
completed sequence of further `allocate`, `hold` and `move` calls among which
there is no `move(r)`, `get(r)` is still `v` and the count is still zero, and a
`move(r)` made then completes and returns a new reference, different from `r`,
under which `get` returns `v`. -/
theorem reference_stability {EntryT : Type} (a : UniqueStoreAllocator EntryT) (v : EntryT) :
    (a.allocate v).2.get (a.allocate v).1 = some v ∧
    ((a.allocate v).2.get_wrapped (a.allocate v).1).map (fun e => e.ref_count) = some 0 ∧
    (∀ calls : List (Call EntryT), (∀ c ∈ calls, c.isAllocate = true) →
      (run (a.allocate v).2 calls).isSome = true) ∧
    (∀ (calls : List (Call EntryT)) (a2 : UniqueStoreAllocator EntryT),
      Call.move (a.allocate v).1 ∉ calls →
      run (a.allocate v).2 calls = some a2 →
      a2.get (a.allocate v).1 = some v ∧
      (a2.get_wrapped (a.allocate v).1).map (fun e => e.ref_count) = some 0 ∧
      ∃ r1 a3, a2.move (a.allocate v).1 = some (r1, a3) ∧ r1 ≠ (a.allocate v).1 ∧
        a3.get r1 = some v) := by
  have h0 := get_wrapped_allocate a v
  refine ⟨?_, ?_, fun calls hc => run_allocate_isSome calls _ hc, ?_⟩
  · unfold get; rw [h0]; rfl
  · rw [h0]; rfl
  · intro calls a2 _ hr
    have h2 := get_wrapped_run calls _ a2 _ _ h0 hr
    refine ⟨?_, ?_, a2._store.length, { a2 with _store := a2._store ++ [⟨v, 0⟩] }, ?_, ?_, ?_⟩
    · unfold get; rw [h2]; rfl
    · rw [h2]; rfl
    · unfold move; rw [h2]
    · exact Nat.ne_of_gt (get_wrapped_lt a2 _ _ h2)
    · unfold get get_wrapped
      show ((a2._store ++ [⟨v, 0⟩])[a2._store.length]?).map _ = some v
      simp

/-- Witness of C21: in `exampleArena` the value `70` is allocated under the
reference `1`; after `allocate(80)`, `hold(1)` and `move(2)` the reference `1`
still yields `70` with count zero, and `move(1)` then returns the reference
`4`. -/
theorem reference_stability_witness :
    (UniqueStoreBuilder.exampleArena.allocate 70).1 = 1 ∧
    (run (UniqueStoreBuilder.exampleArena.allocate 70).2
      [Call.allocate 80, Call.hold 1, Call.move 2]).isSome = true ∧
    (run (UniqueStoreBuilder.exampleArena.allocate 70).2 [Call.allocate 80, Call.allocate 90]).isSome
      = true ∧
    ∃ a2, run (UniqueStoreBuilder.exampleArena.allocate 70).2
        [Call.allocate 80, Call.hold 1, Call.move 2] = some a2 ∧
      a2.get 1 = some 70 ∧ (a2.get_wrapped 1).map (fun e => e.ref_count) = some 0 ∧
      ∃ r1 a3, a2.move 1 = some (r1, a3) ∧ r1 ≠ 1 ∧ a3.get r1 = some 70 := by
  have h : (run (UniqueStoreBuilder.exampleArena.allocate 70).2
      [Call.allocate 80, Call.hold 1, Call.move 2]).isSome = true := by decide
  obtain ⟨a2, ha2⟩ := Option.isSome_iff_exists.mp h
  exact ⟨rfl, h,
    (reference_stability UniqueStoreBuilder.exampleArena 70).2.2.1
      [Call.allocate 80, Call.allocate 90] (by decide),
    a2, ha2,
    (reference_stability UniqueStoreBuilder.exampleArena 70).2.2.2 _ a2 (by decide) ha2⟩

end UniqueStoreAllocator

end search.datastore

namespace search.datastore

namespace UniqueStoreBuilder

/-! ## Construction and counter setup -/

theorem resize_nil (n : Nat) : resize [] n = List.replicate n 0 := by
  unfold resize
  simp

theorem refCounts_foldl_add {EntryT : Type} (values : List EntryT) :
    ∀ b : UniqueStoreBuilder EntryT,
      (values.foldl add b)._refCounts = b._refCounts ∧
      (values.foldl add b)._refs.length = b._refs.length + values.length ∧
      (values.foldl add b)._refs.take b._refs.length = b._refs := by
  induction values with
  | nil => intro b; simp
  | cons v vs ih =>
    intro b
    obtain ⟨h1, h2, h3⟩ := ih (add b v)
    have hr : (add b v)._refs = b._refs ++ [(b._allocator.allocate v).1] := rfl
    have hc : (add b v)._refCounts = b._refCounts := rfl
    rw [List.foldl_cons]
    refine ⟨h1.trans hc, ?_, ?_⟩
    · rw [h2, hr, List.length_append, List.length_cons, List.length_nil, List.length_cons]
      omega
    · have := congrArg (List.take b._refs.length) h3
      rw [List.take_take, hr, List.length_append, Nat.min_eq_left (Nat.le_add_right _ _),
        List.take_left'] at this
      · exact this
      · rfl

/-- C22: a newly constructed builder holds the reference sequence `[nullRef]`,
the null reference alone at index 0, and no counter, whatever the hint;
`setupRefCounts()` on a builder without counters yields as many counters as
there are references, all zero, and leaves the references; so it does after any
number of `add` calls on a new builder, whose sentinel stays at index 0. -/
theorem builder_initial {EntryT : Type} (nullRef : EntryRef)
    (allocator : UniqueStoreAllocator EntryT) (dict : UniqueStoreDictionaryBase)
    (uniqueValuesHint : Nat) :
    (construct nullRef allocator dict uniqueValuesHint)._refs = [nullRef] ∧
    (construct nullRef allocator dict uniqueValuesHint)._refCounts = [] ∧
    (∀ b : UniqueStoreBuilder EntryT, b._refCounts = [] →
      (setupRefCounts b)._refCounts.length = (setupRefCounts b)._refs.length ∧
      (∀ c ∈ (setupRefCounts b)._refCounts, c = 0) ∧
      (setupRefCounts b)._refCounts = List.replicate b._refs.length 0 ∧
      (setupRefCounts b)._refs = b._refs) ∧
    (∀ values : List EntryT,
      (setupRefCounts (values.foldl add
          (construct nullRef allocator dict uniqueValuesHint)))._refCounts =
        List.replicate (values.length + 1) 0 ∧
      (values.foldl add (construct nullRef allocator dict uniqueValuesHint))._refs[0]? =
        some nullRef) := by
  have key : ∀ b : UniqueStoreBuilder EntryT, b._refCounts = [] →
      (setupRefCounts b)._refCounts = List.replicate b._refs.length 0 := by
    intro b hb
    show resize b._refCounts b._refs.length = _
    rw [hb, resize_nil]
  refine ⟨rfl, rfl, ?_, ?_⟩
  · intro b hb
    refine ⟨?_, ?_, key b hb, rfl⟩
    · rw [key b hb, List.length_replicate]; rfl
    · intro c hc
      rw [key b hb] at hc
      exact (List.mem_replicate.mp hc).2
  · intro values
    obtain ⟨h1, h2, h3⟩ := refCounts_foldl_add values
      (construct nullRef allocator dict uniqueValuesHint)
    constructor
    · rw [key _ (h1.trans rfl), h2]
      have : (construct nullRef allocator dict uniqueValuesHint)._refs.length = 1 := rfl
      rw [this, Nat.add_comm]
    · have h4 := congrArg (fun l => l[0]?) h3
      simp only [] at h4
      rw [List.getElem?_take] at h4
      have hpos : 0 < (construct nullRef allocator dict uniqueValuesHint)._refs.length :=
        Nat.zero_lt_one
      rw [if_pos hpos] at h4
      exact h4

/-- Witness of C22: a builder constructed over `exampleArena` with the hint `2`
and the null reference `0`; after two `add` calls it has no counter yet, and
`setupRefCounts()` gives the three counters `[0, 0, 0]`. -/
theorem builder_initial_witness :
    (construct 0 exampleArena exampleDict 2)._refs = [0] ∧
    (add (add (construct 0 exampleArena exampleDict 2) 70) 80)._refCounts = [] ∧
    (setupRefCounts (add (add (construct 0 exampleArena exampleDict 2) 70) 80))._refCounts =
      [0, 0, 0] ∧
    (setupRefCounts (add (add (construct 0 exampleArena exampleDict 2) 70) 80))._refCounts.length
      = (setupRefCounts (add (add (construct 0 exampleArena exampleDict 2) 70) 80))._refs.length ∧
    (∀ c ∈ (setupRefCounts (add (add (construct 0 exampleArena exampleDict 2) 70) 80))._refCounts,
      c = 0) :=
  ⟨(builder_initial 0 exampleArena exampleDict 2).1, rfl, by decide,
    ((builder_initial 0 exampleArena exampleDict 2).2.2.1
      (add (add (construct 0 exampleArena exampleDict 2) 70) 80) rfl).1,
    ((builder_initial 0 exampleArena exampleDict 2).2.2.1
      (add (add (construct 0 exampleArena exampleDict 2) 70) 80) rfl).2.1⟩

end UniqueStoreBuilder

end search.datastore

namespace search.datastore

namespace UniqueStoreBuilder

/-! ## Materializing the dictionary -/

theorem write_ref_count_spec {EntryT : Type} (a : UniqueStoreAllocator EntryT) (ref : EntryRef)
    (c : Nat) (e : UniqueStoreEntry EntryT) (h : a.get_wrapped ref = some e) :
    ∃ a1, a.write_ref_count ref c = some a1 ∧
      a1.held = a.held ∧
      a1.get_wrapped ref = some ⟨e.value, c⟩ ∧
      (∀ r, r ≠ ref → a1.get_wrapped r = a.get_wrapped r) ∧
      (∀ r, a1.get r = a.get r) := by
  have hlt := UniqueStoreAllocator.get_wrapped_lt a ref e h
  refine ⟨{ a with _store := a._store.set ref (e.set_ref_count c) }, ?_, rfl, ?_, ?_, ?_⟩
  · unfold UniqueStoreAllocator.write_ref_count
    rw [h]
  · show (a._store.set ref (e.set_ref_count c))[ref]? = _
    rw [List.getElem?_set_self hlt]
    rfl
  · intro r hr
    show (a._store.set ref (e.set_ref_count c))[r]? = a._store[r]?
    exact List.getElem?_set_ne (Ne.symm hr)
  · intro r
    unfold UniqueStoreAllocator.get UniqueStoreAllocator.get_wrapped
    show ((a._store.set ref (e.set_ref_count c))[r]?).map _ = _
    by_cases hr : r = ref
    · rw [hr, List.getElem?_set_self hlt]
      unfold UniqueStoreAllocator.get_wrapped at h
      rw [h]
      rfl
    · rw [List.getElem?_set_ne (Ne.symm hr)]

theorem makeDictionaryLoop_spec {EntryT : Type} (refs : List EntryRef) :
    ∀ (cs : List Nat) (b : UniqueStoreBuilder EntryT), cs.length = refs.length →
      (∀ r ∈ refs, (b._allocator.get_wrapped r).isSome = true) →
      ∃ b1, makeDictionaryLoop b refs cs = some b1 ∧
        b1.trace = b.trace ++ List.zipWith BuilderEvent.set_ref_count refs cs ∧
        b1._refs = b._refs ∧ b1._refCounts = b._refCounts ∧
        b1._dict.unkept = b._dict.unkept ∧
        b1._allocator.held = b._allocator.held ∧
        (∀ r, b1._allocator.get r = b._allocator.get r) ∧
        (∀ r, r ∉ refs → b1._allocator.get_wrapped r = b._allocator.get_wrapped r) ∧
        (∀ (i : Nat) (r : EntryRef) (c : Nat), refs[i]? = some r → cs[i]? = some c →
          (∀ j : Nat, i < j → refs[j]? ≠ some r) →
          (b1._allocator.get_wrapped r).map (fun e => e.ref_count) = some c) := by
  induction refs with
  | nil =>
    intro cs b _ _
    refine ⟨b, ?_, by simp, rfl, rfl, rfl, rfl, fun r => rfl, fun r _ => rfl, ?_⟩
    · cases cs <;> rfl
    · intro i r c hi; simp at hi
  | cons ref refs ih =>
    intro cs b hlen hlive
    cases cs with
    | nil => simp at hlen
    | cons c cs =>
      simp only [List.length_cons, Nat.add_right_cancel_iff] at hlen
      have h0 := hlive ref (List.mem_cons_self _ _)
      obtain ⟨e, he⟩ := Option.isSome_iff_exists.mp h0
      obtain ⟨a1, hw, hheld, hself, hother, hget⟩ := write_ref_count_spec b._allocator ref c e he
      have hlive1 : ∀ r ∈ refs, (a1.get_wrapped r).isSome = true := by
        intro r hr
        by_cases hrr : r = ref
        · rw [hrr, hself]; rfl
        · rw [hother r hrr]; exact hlive r (List.mem_cons_of_mem _ hr)
      obtain ⟨b1, hb1, htr, hrefs, hcounts, hdict, hheld1, hget1, hout1, hin1⟩ :=
        ih cs { b with _allocator := a1,
                       trace := b.trace ++ [BuilderEvent.set_ref_count ref c] } hlen hlive1
      refine ⟨b1, ?_, ?_, hrefs, hcounts, hdict, hheld1.trans hheld, ?_, ?_, ?_⟩
      · simp only [makeDictionaryLoop, hw]
        exact hb1
      · rw [htr]
        simp only [List.zipWith_cons_cons, List.append_assoc, List.singleton_append]
      · intro r; rw [hget1 r]; exact hget r
      · intro r hr
        rw [hout1 r (fun hm => hr (List.mem_cons_of_mem _ hm))]
        exact hother r (fun h => hr (h ▸ List.mem_cons_self _ _))
      · intro i r c1 hi hc hlast
        cases i with
        | zero =>
          simp only [List.getElem?_cons_zero, Option.some.injEq] at hi hc
          subst hi
          subst hc
          have hnot : ref ∉ refs := by
            intro hm
            obtain ⟨j, hj⟩ := List.mem_iff_getElem?.mp hm
            exact hlast (j + 1) (Nat.succ_pos j) (by simpa using hj)
          rw [hout1 ref hnot]
          show (a1.get_wrapped ref).map _ = _
          rw [hself]
          rfl
        | succ i =>
          simp only [List.getElem?_cons_succ] at hi hc
          apply hin1 i r c1 hi hc
          intro j hj
          have := hlast (j + 1) (by omega)
          simpa using this

theorem dictBuild_foldl {EntryT : Type} (refs : List EntryRef) :
    ∀ b : UniqueStoreBuilder EntryT,
      (refs.foldl (fun (b : UniqueStoreBuilder EntryT) ref =>
          { b with _allocator := b._allocator.hold ref,
                   trace := b.trace ++ [BuilderEvent.hold ref] }) b).trace =
        b.trace ++ refs.map BuilderEvent.hold ∧
      (refs.foldl (fun (b : UniqueStoreBuilder EntryT) ref =>
          { b with _allocator := b._allocator.hold ref,
                   trace := b.trace ++ [BuilderEvent.hold ref] }) b)._allocator =
        { b._allocator with held := b._allocator.held ++ refs } ∧
      (refs.foldl (fun (b : UniqueStoreBuilder EntryT) ref =>
          { b with _allocator := b._allocator.hold ref,
                   trace := b.trace ++ [BuilderEvent.hold ref] }) b)._refs = b._refs ∧
      (refs.foldl (fun (b : UniqueStoreBuilder EntryT) ref =>
          { b with _allocator := b._allocator.hold ref,
                   trace := b.trace ++ [BuilderEvent.hold ref] }) b)._refCounts = b._refCounts := by
  induction refs with
  | nil => intro b; simp
  | cons r rs ih =>
    intro b
    obtain ⟨h1, h2, h3, h4⟩ := ih { b with _allocator := b._allocator.hold r,
                                            trace := b.trace ++ [BuilderEvent.hold r] }
    rw [List.foldl_cons]
    refine ⟨?_, ?_, h3, h4⟩
    · rw [h1]
      simp only [List.map_cons, List.append_assoc, List.singleton_append]
    · rw [h2]
      simp only [UniqueStoreAllocator.hold, List.append_assoc, List.singleton_append]

theorem makeDictionaryLoop_short {EntryT : Type} (refs : List EntryRef) :
    ∀ (cs : List Nat) (b : UniqueStoreBuilder EntryT), cs.length < refs.length →
      makeDictionaryLoop b refs cs = none := by
  induction refs with
  | nil => intro cs b h; simp at h
  | cons ref refs ih =>
    intro cs b h
    cases cs with
    | nil => rfl
    | cons c cs =>
      simp only [List.length_cons, Nat.add_lt_add_iff_right] at h
      simp only [makeDictionaryLoop]
      cases b._allocator.write_ref_count ref c with
      | none => rfl
      | some a => exact ih cs _ h

/-- C23: `makeDictionary()` on a builder with as many counters as references,
each reference denoting an entry of the arena.  The run completes, so no counter
is read past the end of the counters (with fewer counters than references it
does not complete).  It writes, in accumulation order, the counter at index `i`
into the wrapped entry at the reference at index `i`; then it calls the bulk
build of the dictionary once, with the complete reference and counter
sequences; the callback then puts on hold, in the allocator, exactly the
references the dictionary hands it.  Afterwards the count written last for a
reference is the count of its entry (the counter at its index when no reference
occurs twice), the stored values and the entries of other references are as
before, and the two sequences are unchanged. -/
theorem makeDictionary_contract {EntryT : Type} (b : UniqueStoreBuilder EntryT)
    (hlen : b._refCounts.length = b._refs.length)
    (hlive : ∀ r ∈ b._refs, (b._allocator.get_wrapped r).isSome = true) :
    (∀ b0 : UniqueStoreBuilder EntryT, b0._refCounts.length < b0._refs.length →
      makeDictionary b0 = none) ∧
    ∃ b1, makeDictionary b = some b1 ∧
      b1.trace = b.trace ++ List.zipWith BuilderEvent.set_ref_count b._refs b._refCounts ++
        BuilderEvent.build b._refs b._refCounts ::
          (b._dict.unkept b._refs b._refCounts).map BuilderEvent.hold ∧
      b1._allocator.held = b._allocator.held ++ b._dict.unkept b._refs b._refCounts ∧
      b1._refs = b._refs ∧ b1._refCounts = b._refCounts ∧
      (∀ r, b1._allocator.get r = b._allocator.get r) ∧
      (∀ r, r ∉ b._refs → b1._allocator.get_wrapped r = b._allocator.get_wrapped r) ∧
      (∀ (i : Nat) (r : EntryRef) (c : Nat), b._refs[i]? = some r → b._refCounts[i]? = some c →
        (∀ j : Nat, i < j → b._refs[j]? ≠ some r) →
        (b1._allocator.get_wrapped r).map (fun e => e.ref_count) = some c) ∧
      (b._refs.Nodup →
        ∀ (i : Nat) (r : EntryRef) (c : Nat), b._refs[i]? = some r → b._refCounts[i]? = some c →
          (b1._allocator.get_wrapped r).map (fun e => e.ref_count) = some c) := by
  constructor
  · intro b0 h0
    unfold makeDictionary
    rw [makeDictionaryLoop_short b0._refs b0._refCounts b0 h0]
  obtain ⟨b1, hb1, htr, hrefs, hcounts, hdict, hheld, hget, hout, hin⟩ :=
    makeDictionaryLoop_spec b._refs b._refCounts b hlen hlive
  obtain ⟨f1, f2, f3, f4⟩ := dictBuild_foldl (b1._dict.unkept b1._refs b1._refCounts)
    { b1 with trace := b1.trace ++ [BuilderEvent.build b1._refs b1._refCounts] }
  have f1 : (dictBuild b1).trace = (b1.trace ++ [BuilderEvent.build b1._refs b1._refCounts]) ++
      (b1._dict.unkept b1._refs b1._refCounts).map BuilderEvent.hold := f1
  have f2 : (dictBuild b1)._allocator =
      { b1._allocator with
        held := b1._allocator.held ++ b1._dict.unkept b1._refs b1._refCounts } := f2
  have f3 : (dictBuild b1)._refs = b1._refs := f3
  have f4 : (dictBuild b1)._refCounts = b1._refCounts := f4
  have hgw : ∀ r, (dictBuild b1)._allocator.get_wrapped r = b1._allocator.get_wrapped r := by
    intro r; rw [f2]; rfl
  have hlast : ∀ (i : Nat) (r : EntryRef) (c : Nat), b._refs[i]? = some r →
      b._refCounts[i]? = some c → (∀ j : Nat, i < j → b._refs[j]? ≠ some r) →
      ((dictBuild b1)._allocator.get_wrapped r).map (fun e => e.ref_count) = some c := by
    intro i r c hi hc hl
    rw [hgw]
    exact hin i r c hi hc hl
  refine ⟨dictBuild b1, ?_, ?_, ?_, f3.trans hrefs, f4.trans hcounts, ?_, ?_, hlast, ?_⟩
  · unfold makeDictionary
    rw [hb1]
  · rw [f1, htr, hrefs, hcounts, hdict]
    simp only [List.append_assoc, List.singleton_append]
  · rw [f2, hheld, hdict, hrefs, hcounts]
  · intro r
    unfold UniqueStoreAllocator.get
    rw [hgw]
    exact hget r
  · intro r hr
    rw [hgw]
    exact hout r hr
  · intro hnd i r c hi hc
    apply hlast i r c hi hc
    intro j hij hj
    have hjl : j < b._refs.length := by
      by_contra hn
      rw [List.getElem?_eq_none_iff.mpr (Nat.le_of_not_lt hn)] at hj
      exact Option.noConfusion hj
    exact List.nodup_iff_getElem?_ne_getElem?.mp hnd i j hij hjl (hi.trans hj.symm)

/-- Witness of C23: `exampleBuilder`, with the references `[0, 1, 2]` and the
counters `[0, 2, 0]`; the three counts are written in order, then the
dictionary is built, which hands the sentinel `0` and the unreferenced `2` to
the callback, and the allocator holds both. -/
theorem makeDictionary_contract_witness :
    exampleBuilder._refs = [0, 1, 2] ∧ exampleBuilder._refCounts = [0, 2, 0] ∧
    ∃ b1, makeDictionary exampleBuilder = some b1 ∧
      b1.trace = [BuilderEvent.set_ref_count 0 0, BuilderEvent.set_ref_count 1 2,
        BuilderEvent.set_ref_count 2 0, BuilderEvent.build [0, 1, 2] [0, 2, 0],
        BuilderEvent.hold 0, BuilderEvent.hold 2] ∧
      b1._allocator.held = [0, 2] ∧
      b1._allocator.get 1 = some 70 ∧
      (b1._allocator.get_wrapped 1).map (fun e => e.ref_count) = some 2 := by
  obtain ⟨b1, h, htr, hheld, _, _, hget, _, _, hcount⟩ :=
    (makeDictionary_contract exampleBuilder (by decide) (by decide)).2
  refine ⟨by decide, by decide, b1, h, ?_, ?_, ?_, hcount (by decide) 1 1 2 (by decide)
    (by decide)⟩
  · rw [htr]; decide
  · rw [hheld]; decide
  · rw [hget]; decide

end UniqueStoreBuilder

end search.datastore

/-! # Properties of the field name map -/

namespace vsm

namespace StringFieldIdTMap

theorem mapFind_none_iff (l : List (String × Nat)) (s : String) :
    mapFind l s = none ↔ s ∉ l.map Prod.fst := by
  induction l with
  | nil => simp [mapFind]
  | cons e l ih =>
    obtain ⟨k, v⟩ := e
    by_cases hk : k = s
    · simp [mapFind, hk]
    · simp only [mapFind, if_neg hk, ih, List.map_cons, List.mem_cons, not_or]
      exact ⟨fun h => ⟨fun he => hk he.symm, h⟩, fun h => h.2⟩

theorem mapAssign_absent (l : List (String × Nat)) (s : String) (v : Nat)
    (h : s ∉ l.map Prod.fst) : mapAssign l s v = l ++ [(s, v)] := by
  induction l with
  | nil => rfl
  | cons e l ih =>
    obtain ⟨k, x⟩ := e
    simp only [List.map_cons, List.mem_cons, not_or] at h
    simp only [mapAssign, if_neg (fun hk : k = s => h.1 hk.symm), ih h.2, List.cons_append]

theorem numberedFrom_append (ks : List String) (s : String) :
    ∀ first, numberedFrom first (ks ++ [s]) =
      numberedFrom first ks ++ [(s, first + ks.length)] := by
  induction ks with
  | nil => intro first; rfl
  | cons k ks ih =>
    intro first
    show (k, first) :: numberedFrom (first + 1) (ks ++ [s]) =
      (k, first) :: (numberedFrom (first + 1) ks ++ [(s, first + (ks.length + 1))])
    rw [ih, show first + 1 + ks.length = first + (ks.length + 1) by omega]

theorem numberedFrom_keys (ks : List String) :
    ∀ first, (numberedFrom first ks).map Prod.fst = ks := by
  induction ks with
  | nil => intro first; rfl
  | cons k ks ih => intro first; simp only [numberedFrom, List.map_cons, ih]

theorem numberedFrom_ids (ks : List String) :
    ∀ first, (numberedFrom first ks).map Prod.snd = List.range' first ks.length := by
  induction ks with
  | nil => intro first; rfl
  | cons k ks ih =>
    intro first
    simp only [numberedFrom, List.map_cons, ih, List.length_cons, List.range'_succ]

theorem numberedFrom_length (ks : List String) (first : Nat) :
    (numberedFrom first ks).length = ks.length := by
  have := congrArg List.length (numberedFrom_keys ks first)
  rw [List.length_map] at this
  exact this

theorem mapFind_numberedFrom (ks : List String) (s : String) :
    ∀ first, mapFind (numberedFrom first ks) s =
      if s ∈ ks then some (first + ks.indexOf s) else none := by
  induction ks with
  | nil => intro first; rfl
  | cons k ks ih =>
    intro first
    by_cases hk : k = s
    · subst hk
      simp [numberedFrom, mapFind]
    · have hne : s ≠ k := fun h => hk h.symm
      simp only [numberedFrom, mapFind, if_neg hk, ih, List.mem_cons, hne, false_or]
      by_cases hm : s ∈ ks
      · rw [if_pos hm, if_pos hm, List.indexOf_cons_ne _ hk]
        congr 1
        omega
      · rw [if_neg hm, if_neg hm]

theorem distinctFrom_spec (names : List String) :
    ∀ seen : List String, seen.Nodup →
      (distinctFrom seen names).Nodup ∧
      (∀ s, s ∈ distinctFrom seen names ↔ s ∈ seen ∨ s ∈ names) ∧
      seen.length ≤ (distinctFrom seen names).length ∧
      (distinctFrom seen names).take seen.length = seen := by
  induction names with
  | nil => intro seen h; exact ⟨h, by simp [distinctFrom], Nat.le_refl _, by simp [distinctFrom]⟩
  | cons n names ih =>
    intro seen h
    by_cases hn : n ∈ seen
    · obtain ⟨h1, h2, h3, h4⟩ := ih seen h
      simp only [distinctFrom, if_pos hn]
      refine ⟨h1, ?_, h3, h4⟩
      intro s
      rw [h2 s, List.mem_cons]
      constructor
      · rintro (hs | hs)
        · exact Or.inl hs
        · exact Or.inr (Or.inr hs)
      · rintro (hs | hs | hs)
        · exact Or.inl hs
        · exact Or.inl (hs ▸ hn)
        · exact Or.inr hs
    · have hnd : (seen ++ [n]).Nodup := by
        rw [List.nodup_append]
        exact ⟨h, List.nodup_singleton _, by
          intro a ha hb
          rw [List.mem_singleton] at hb
          exact hn (hb ▸ ha)⟩
      obtain ⟨h1, h2, h3, h4⟩ := ih (seen ++ [n]) hnd
      simp only [distinctFrom, if_neg hn]
      rw [List.length_append, List.length_cons, List.length_nil] at h3 h4
      refine ⟨h1, ?_, by omega, ?_⟩
      · intro s
        rw [h2 s, List.mem_append, List.mem_singleton, List.mem_cons]
        constructor
        · rintro ((hs | hs) | hs)
          · exact Or.inl hs
          · exact Or.inr (Or.inl hs)
          · exact Or.inr (Or.inr hs)
        · rintro (hs | hs | hs)
          · exact Or.inl (Or.inl hs)
          · exact Or.inl (Or.inr hs)
          · exact Or.inr hs
      · have := congrArg (List.take seen.length) h4
        rw [List.take_take, Nat.min_eq_left (by omega), List.take_left'] at this
        · exact this
        · rfl

end StringFieldIdTMap

end vsm

namespace vsm

namespace StringFieldIdTMap

theorem build_from (fieldIdBits : Nat) (names : List String) :
    ∀ seen : List String, seen.Nodup →
      (distinctFrom seen names).length ≤ 2 ^ fieldIdBits →
      names.foldl (add fieldIdBits) ⟨numberedFrom 0 seen⟩ =
        ⟨numberedFrom 0 (distinctFrom seen names)⟩ := by
  induction names with
  | nil => intro seen _ _; rfl
  | cons n names ih =>
    intro seen hnd hlen
    rw [List.foldl_cons]
    by_cases hn : n ∈ seen
    · have hfind : mapFind (numberedFrom 0 seen) n ≠ none := by
        rw [Ne, mapFind_none_iff, numberedFrom_keys]
        exact fun h => h hn
      have hadd : add fieldIdBits ⟨numberedFrom 0 seen⟩ n = ⟨numberedFrom 0 seen⟩ := by
        unfold add
        rw [if_neg hfind]
      simp only [distinctFrom, if_pos hn] at hlen ⊢
      rw [hadd]
      exact ih seen hnd hlen
    · have hfind : mapFind (numberedFrom 0 seen) n = none := by
        rw [mapFind_none_iff, numberedFrom_keys]
        exact hn
      have hnd1 : (seen ++ [n]).Nodup := by
        rw [List.nodup_append]
        exact ⟨hnd, List.nodup_singleton _, by
          intro a ha hb
          rw [List.mem_singleton] at hb
          exact hn (hb ▸ ha)⟩
      simp only [distinctFrom, if_neg hn] at hlen ⊢
      have hgrow := (distinctFrom_spec names (seen ++ [n]) hnd1).2.2.1
      rw [List.length_append, List.length_cons, List.length_nil] at hgrow
      have hsize : seen.length % 2 ^ fieldIdBits = seen.length :=
        Nat.mod_eq_of_lt (by omega)
      have hadd : add fieldIdBits ⟨numberedFrom 0 seen⟩ n = ⟨numberedFrom 0 (seen ++ [n])⟩ := by
        unfold add
        rw [if_pos hfind]
        show StringFieldIdTMap.mk (mapAssign (numberedFrom 0 seen) n
          ((numberedFrom 0 seen).length % 2 ^ fieldIdBits)) = _
        rw [numberedFrom_length, hsize,
          mapAssign_absent _ _ _ (by rw [numberedFrom_keys]; exact hn), numberedFrom_append,
          Nat.zero_add]
      rw [hadd]
      exact ih (seen ++ [n]) hnd1 hlen

theorem highestFieldNoLoop_spec (fieldIdBits : Nat) (fields : List (String × Nat)) :
    ∀ maxFNo : Nat, (∀ e ∈ fields, e.2 + 1 < 2 ^ fieldIdBits) →
      maxFNo ≤ highestFieldNoLoop fieldIdBits maxFNo fields ∧
      (∀ e ∈ fields, e.2 < highestFieldNoLoop fieldIdBits maxFNo fields) ∧
      (highestFieldNoLoop fieldIdBits maxFNo fields = maxFNo ∨
        ∃ e ∈ fields, highestFieldNoLoop fieldIdBits maxFNo fields = e.2 + 1) := by
  induction fields with
  | nil => intro m _; exact ⟨Nat.le_refl _, by simp, Or.inl rfl⟩
  | cons f fields ih =>
    intro m hb
    have hf := hb f (List.mem_cons_self _ _)
    have hstep : highestFieldNoLoop fieldIdBits m (f :: fields) =
        highestFieldNoLoop fieldIdBits
          (if f.2 ≥ m then (f.2 + 1) % 2 ^ fieldIdBits else m) fields := rfl
    rw [hstep]
    by_cases hc : f.2 ≥ m
    · rw [if_pos hc, Nat.mod_eq_of_lt hf]
      obtain ⟨h1, h2, h3⟩ := ih (f.2 + 1) (fun e he => hb e (List.mem_cons_of_mem _ he))
      refine ⟨by omega, ?_, ?_⟩
      · intro e he
        rcases List.mem_cons.mp he with he | he
        · rw [he]; omega
        · exact h2 e he
      · rcases h3 with h3 | ⟨e, he, h3⟩
        · exact Or.inr ⟨f, List.mem_cons_self _ _, h3⟩
        · exact Or.inr ⟨e, List.mem_cons_of_mem _ he, h3⟩
    · rw [if_neg hc]
      obtain ⟨h1, h2, h3⟩ := ih m (fun e he => hb e (List.mem_cons_of_mem _ he))
      refine ⟨h1, ?_, ?_⟩
      · intro e he
        rcases List.mem_cons.mp he with he | he
        · rw [he]; omega
        · exact h2 e he
      · rcases h3 with h3 | ⟨e, he, h3⟩
        · exact Or.inl h3
        · exact Or.inr ⟨e, List.mem_cons_of_mem _ he, h3⟩

theorem highestFieldNoLoop_numbered (fieldIdBits : Nat) (ks : List String)
    (fields : List (String × Nat)) (hp : fields.Perm (numberedFrom 0 ks))
    (hsmall : ks.length < 2 ^ fieldIdBits) :
    highestFieldNoLoop fieldIdBits 0 fields = ks.length := by
  have hid : ∀ e ∈ fields, e.2 < ks.length := by
    intro e he
    have h1 : e.2 ∈ (numberedFrom 0 ks).map Prod.snd :=
      List.mem_map.mpr ⟨e, hp.mem_iff.mp he, rfl⟩
    rw [numberedFrom_ids, List.mem_range'_1] at h1
    omega
  obtain ⟨_, h2, h3⟩ := highestFieldNoLoop_spec fieldIdBits fields 0
    (fun e he => by have := hid e he; omega)
  have hle : highestFieldNoLoop fieldIdBits 0 fields ≤ ks.length := by
    rcases h3 with h3 | ⟨e, he, h3⟩
    · rw [h3]; exact Nat.zero_le _
    · rw [h3]; exact hid e he
  have hge : ks.length ≤ highestFieldNoLoop fieldIdBits 0 fields := by
    by_cases h0 : ks.length = 0
    · rw [h0]; exact Nat.zero_le _
    · have hm : ks.length - 1 ∈ (numberedFrom 0 ks).map Prod.snd := by
        rw [numberedFrom_ids, List.mem_range'_1]
        omega
      obtain ⟨e, he, hev⟩ := List.mem_map.mp hm
      have := h2 e (hp.mem_iff.mpr he)
      omega
  omega

end StringFieldIdTMap

end vsm

namespace vsm

namespace StringFieldIdTMap

/-- C26: the map built from the empty map by `add(name)` calls, the distinct
names fewer than `FieldIdT` has values.  Its entries are the distinct names in
first-insertion order with the ids `0`, `1`, and so on: the ids are pairwise
distinct and exactly `0..n-1`.  A further `add` of a present name changes
nothing; of a new name it appends the name with the id `n`, the number of names
present before.  `fieldNo` returns the id of a present name, its position among
the distinct names, and `npos` for an absent one.  `highestFieldNo()` returns
`n`, in whatever order the map is iterated, and `0` for the empty map. -/
theorem field_ids (fieldIdBits npos : Nat) (names : List String)
    (hsmall : (distinctNames names).length < 2 ^ fieldIdBits) :
    (distinctNames names).Nodup ∧
    (∀ s, s ∈ distinctNames names ↔ s ∈ names) ∧
    (build fieldIdBits names)._map = numberedFrom 0 (distinctNames names) ∧
    (build fieldIdBits names)._map.map Prod.fst = distinctNames names ∧
    (build fieldIdBits names)._map.map Prod.snd = List.range (distinctNames names).length ∧
    ((build fieldIdBits names)._map.map Prod.snd).Nodup ∧
    (∀ s, s ∈ names → add fieldIdBits (build fieldIdBits names) s = build fieldIdBits names) ∧
    (∀ s, s ∉ names →
      add fieldIdBits (build fieldIdBits names) s =
        ⟨(build fieldIdBits names)._map ++ [(s, (distinctNames names).length)]⟩) ∧
    (∀ s, s ∈ names →
      fieldNo npos (build fieldIdBits names) s = (distinctNames names).indexOf s ∧
      fieldNo npos (build fieldIdBits names) s < (distinctNames names).length) ∧
    (∀ s, s ∉ names → fieldNo npos (build fieldIdBits names) s = npos) ∧
    (∀ fields : List (String × Nat), fields.Perm (build fieldIdBits names)._map →
      highestFieldNoLoop fieldIdBits 0 fields = (distinctNames names).length) ∧
    highestFieldNo fieldIdBits (build fieldIdBits names) = (distinctNames names).length ∧
    highestFieldNo fieldIdBits construct = 0 := by
  obtain ⟨hnd, hmem, _, _⟩ := distinctFrom_spec names [] List.nodup_nil
  have hmem : ∀ s, s ∈ distinctNames names ↔ s ∈ names := by
    intro s
    have := hmem s
    simpa using this
  have hnd : (distinctNames names).Nodup := hnd
  have hb : build fieldIdBits names = ⟨numberedFrom 0 (distinctNames names)⟩ :=
    build_from fieldIdBits names [] List.nodup_nil (Nat.le_of_lt hsmall)
  have hmap : (build fieldIdBits names)._map = numberedFrom 0 (distinctNames names) := by
    rw [hb]
  have hids : (build fieldIdBits names)._map.map Prod.snd =
      List.range (distinctNames names).length := by
    rw [hmap, numberedFrom_ids, List.range_eq_range']
  have hfind : ∀ s, mapFind (build fieldIdBits names)._map s =
      if s ∈ names then some ((distinctNames names).indexOf s) else none := by
    intro s
    rw [hmap, mapFind_numberedFrom, Nat.zero_add]
    by_cases hs : s ∈ names
    · rw [if_pos hs, if_pos ((hmem s).mpr hs)]
    · rw [if_neg hs, if_neg (fun h => hs ((hmem s).mp h))]
  refine ⟨hnd, hmem, hmap, by rw [hmap, numberedFrom_keys], hids,
    by rw [hids]; exact List.nodup_range _, ?_, ?_, ?_, ?_, ?_, ?_, rfl⟩
  · intro s hs
    unfold add
    rw [hfind s, if_pos hs, if_neg (fun h => Option.noConfusion h)]
  · intro s hs
    unfold add
    rw [hfind s, if_neg hs, if_pos rfl]
    show StringFieldIdTMap.mk (mapAssign (build fieldIdBits names)._map s
      ((build fieldIdBits names)._map.length % 2 ^ fieldIdBits)) = _
    rw [mapAssign_absent _ _ _ (by
        rw [hmap, numberedFrom_keys]; exact fun h => hs ((hmem s).mp h)),
      hmap, numberedFrom_length, Nat.mod_eq_of_lt hsmall]
  · intro s hs
    have h1 : fieldNo npos (build fieldIdBits names) s = (distinctNames names).indexOf s := by
      unfold fieldNo
      rw [hfind s, if_pos hs]
    exact ⟨h1, by rw [h1]; exact List.indexOf_lt_length.mpr ((hmem s).mpr hs)⟩
  · intro s hs
    unfold fieldNo
    rw [hfind s, if_neg hs]
  · intro fields hp
    rw [hmap] at hp
    exact highestFieldNoLoop_numbered fieldIdBits _ fields hp hsmall
  · unfold highestFieldNo
    rw [hmap]
    exact highestFieldNoLoop_numbered fieldIdBits _ _ (List.Perm.refl _) hsmall

/-- Witness of C26: the names `title`, `body`, `title`, `url` added in this
order with a 32-bit `FieldIdT` and `npos = 0xFFFFFFFF`: the map is `title = 0`,
`body = 1`, `url = 2`, `fieldNo("url")` is `2`, `fieldNo("date")` is `npos` and
`highestFieldNo()` is `3`. -/
theorem field_ids_witness :
    (build 32 ["title", "body", "title", "url"])._map =
      [("title", 0), ("body", 1), ("url", 2)] ∧
    fieldNo 4294967295 (build 32 ["title", "body", "title", "url"]) "url" = 2 ∧
    fieldNo 4294967295 (build 32 ["title", "body", "title", "url"]) "date" = 4294967295 ∧
    highestFieldNo 32 (build 32 ["title", "body", "title", "url"]) = 3 ∧
    (distinctNames ["title", "body", "title", "url"]).length < 2 ^ 32 ∧
    (build 32 ["title", "body", "title", "url"])._map =
      numberedFrom 0 (distinctNames ["title", "body", "title", "url"]) ∧
    (build 32 ["title", "body", "title", "url"])._map.map Prod.snd =
      List.range (distinctNames ["title", "body", "title", "url"]).length ∧
    add 32 (build 32 ["title", "body", "title", "url"]) "body" =
      build 32 ["title", "body", "title", "url"] ∧
    highestFieldNo 32 (build 32 ["title", "body", "title", "url"]) =
      (distinctNames ["title", "body", "title", "url"]).length :=
  ⟨by decide, by decide, by decide, by decide, by decide,
    (field_ids 32 4294967295 ["title", "body", "title", "url"] (by decide)).2.2.1,
    (field_ids 32 4294967295 ["title", "body", "title", "url"] (by decide)).2.2.2.2.1,
    (field_ids 32 4294967295 ["title", "body", "title", "url"] (by decide)).2.2.2.2.2.2.1
      "body" (by decide),
    (field_ids 32 4294967295 ["title", "body", "title", "url"]
      (by decide)).2.2.2.2.2.2.2.2.2.2.2.1⟩

end StringFieldIdTMap

end vsm

/-! # Properties of the second-phase work -/

namespace proton.matching

namespace GetSecondPhaseWork

/-! ## Lists and arithmetic used by the loop -/

theorem foldl_best_mem (f : Nat → Nat → Bool) (rest : List Nat) :
    ∀ i : Nat, rest.foldl (fun best j => if f j best then j else best) i ∈ i :: rest := by
  induction rest with
  | nil => intro i; exact List.mem_cons_self _ _
  | cons r rest ih =>
    intro i
    rw [List.foldl_cons]
    rcases List.mem_cons.mp (ih (if f r i then r else i)) with h | h
    · rw [h]
      by_cases hf : f r i = true
      · rw [if_pos hf]; exact List.mem_cons_of_mem _ (List.mem_cons_self _ _)
      · rw [if_neg hf]; exact List.mem_cons_self _ _
    · exact List.mem_cons_of_mem _ (List.mem_cons_of_mem _ h)

theorem front_mem {Score : Type} (d : Declared Score) (s : GetSecondPhaseWork Score)
    (q : List Nat) (hq : q ≠ []) : ∃ i, front d s q = some i ∧ i ∈ q := by
  cases q with
  | nil => exact absurd rfl hq
  | cons i rest => exact ⟨_, rfl, foldl_best_mem _ rest i⟩

theorem getD_set {α : Type} (l : List (List α)) (i j : Nat) (a : List α) (hi : i < l.length) :
    (l.set i a).getD j [] = if i = j then a else l.getD j [] := by
  rw [List.getD_eq_getElem?_getD, List.getD_eq_getElem?_getD, List.getElem?_set]
  by_cases h : i = j
  · rw [if_pos h, if_pos h, if_pos hi]; rfl
  · rw [if_neg h, if_neg h]

theorem sum_length_set {α : Type} (l : List (List α)) :
    ∀ (i : Nat) (a old : List α), l[i]? = some old →
      ((l.set i a).map List.length).sum + old.length = (l.map List.length).sum + a.length := by
  induction l with
  | nil => intro i a old h; simp at h
  | cons x l ih =>
    intro i a old h
    cases i with
    | zero =>
      simp only [List.getElem?_cons_zero, Option.some.injEq] at h
      subst h
      simp only [List.set_cons_zero, List.map_cons, List.sum_cons]
      omega
    | succ i =>
      simp only [List.getElem?_cons_succ] at h
      have := ih i a old h
      simp only [List.set_cons_succ, List.map_cons, List.sum_cons]
      omega

theorem getD_of_getElem? {α : Type} (l : List (List α)) (i : Nat) (o : List α)
    (h : l[i]? = some o) : l.getD i [] = o := by
  rw [List.getD_eq_getElem?_getD, h]; rfl

theorem getElem?_of_lt {α : Type} (l : List (List α)) (i : Nat) (h : i < l.length) :
    l[i]? = some (l.getD i []) := by
  rw [List.getD_eq_getElem?_getD, List.getElem?_eq_getElem h]; rfl

theorem succ_div_mod (p n j : Nat) (hn : 0 < n) (hj : j < n) :
    (p + 1) / n + (if j < (p + 1) % n then 1 else 0) =
      p / n + (if j < p % n then 1 else 0) + (if j = p % n then 1 else 0) := by
  have hdm := Nat.div_add_mod p n
  have hlt := Nat.mod_lt p hn
  by_cases hc : p % n + 1 < n
  · have h := (Nat.div_mod_unique (a := p + 1) (c := p % n + 1) (d := p / n) hn).mpr
      ⟨by omega, hc⟩
    rw [h.1, h.2]
    split_ifs <;> omega
  · have h := (Nat.div_mod_unique (a := p + 1) (c := 0) (d := p / n + 1) hn).mpr
      ⟨by rw [Nat.mul_succ]; omega, hn⟩
    rw [h.1, h.2]
    split_ifs <;> omega

theorem emitted_append {Score : Type} (p : Taken Score) (hit : Hit Score) (i : Nat) (ok : Bool) :
    emitted (p ++ [(hit, i, ok)]) = emitted p ++ (if ok then [(hit, i)] else []) := by
  unfold emitted
  rw [List.filter_append, List.map_append]
  cases ok <;> rfl

theorem rejected_append {Score : Type} (p : Taken Score) (hit : Hit Score) (i : Nat) (ok : Bool) :
    rejected (p ++ [(hit, i, ok)]) = rejected p ++ (if ok then [] else [(hit, i)]) := by
  unfold rejected
  rw [List.filter_append, List.map_append]
  cases ok <;> rfl

theorem takenFrom_append {Score : Type} (p : Taken Score) (hit : Hit Score) (i j : Nat)
    (ok : Bool) :
    takenFrom (p ++ [(hit, i, ok)]) j = takenFrom p j ++ (if i = j then [hit] else []) := by
  unfold takenFrom
  rw [List.filter_append, List.map_append]
  by_cases h : i = j
  · rw [if_pos h]; simp [h]
  · rw [if_neg h]; simp [h]

end GetSecondPhaseWork

end proton.matching

namespace proton.matching

namespace GetSecondPhaseWork

/-! ## One iteration of the loop -/

theorem mingleStep_accepted {Score : Type} (d : Declared Score) (s : GetSecondPhaseWork Score)
    (l : MingleLocals Score) (i : Nat) (hit : Hit Score) (rest : List (Hit Score))
    (o : List (Hit Score × Nat)) (hf : front d s l.queue = some i)
    (hin : s.input i = hit :: rest) (ha : (accept s._diversifier hit.1).1 = true)
    (ho : s._out[l.picked % s.size]? = some o) :
    mingleStep d s l = some
      ({ s with
         _diversifier := (accept s._diversifier hit.1).2,
         _first_phase_rank_lookup :=
           s._first_phase_rank_lookup.map (fun t => t ++ [(hit.1, l._rank + 1)]),
         _out := s._out.set (l.picked % s.size) (o ++ [(hit, i)]),
         best_scores :=
           if l.picked + 1 = 1 then { s.best_scores with high := hit.2 } else s.best_scores,
         _in := s._in.set i rest },
       { queue := if !rest.isEmpty then l.queue else l.queue.erase i,
         picked := l.picked + 1,
         last_score := hit.2,
         _rank := if s._first_phase_rank_lookup.isSome then l._rank + 1 else l._rank }) := by
  unfold mingleStep
  rw [hf]
  simp only [hin, ha, ho, if_true]
  cases rest <;> rfl

theorem mingleStep_rejected {Score : Type} (d : Declared Score) (s : GetSecondPhaseWork Score)
    (l : MingleLocals Score) (i : Nat) (hit : Hit Score) (rest : List (Hit Score))
    (hf : front d s l.queue = some i)
    (hin : s.input i = hit :: rest) (ha : (accept s._diversifier hit.1).1 = false) :
    mingleStep d s l = some
      ({ s with
         _diversifier := (accept s._diversifier hit.1).2,
         best_dropped :=
           if s.best_dropped.valid = false then ⟨true, hit.2⟩ else s.best_dropped,
         _in := s._in.set i rest },
       { queue := if !rest.isEmpty then l.queue else l.queue.erase i,
         picked := l.picked,
         last_score := l.last_score,
         _rank := if s._first_phase_rank_lookup.isSome then l._rank + 1 else l._rank }) := by
  unfold mingleStep
  rw [hf]
  simp only [hin, ha, Bool.false_eq_true, if_false]
  cases rest <;> rfl

end GetSecondPhaseWork

end proton.matching

namespace proton.matching

namespace GetSecondPhaseWork

theorem accept_none (docId : Nat) : accept none docId = (true, none) := rfl

theorem mingleStep_shape {Score : Type} (d : Declared Score) (s0 s : GetSecondPhaseWork Score)
    (l : MingleLocals Score) (p : Taken Score) (hI : InputsInv s0 s l p)
    (hout : s._out.length = s._in.length) (hq : l.queue ≠ []) :
    ∃ (i : Nat) (hit : Hit Score) (rest : List (Hit Score)) (ok : Bool)
      (s1 : GetSecondPhaseWork Score) (l1 : MingleLocals Score),
      mingleStep d s l = some (s1, l1) ∧ i < s._in.length ∧ i ∈ l.queue ∧
      s._in[i]? = some (hit :: rest) ∧ ok = (accept s._diversifier hit.1).1 ∧
      l.picked % s._in.length < s._in.length ∧
      s1.topN = s.topN ∧ s1._in = s._in.set i rest ∧
      s1._diversifier = (accept s._diversifier hit.1).2 ∧
      l1.queue = (if !rest.isEmpty then l.queue else l.queue.erase i) ∧
      l1.picked = l.picked + (if ok then 1 else 0) ∧
      l1.last_score = (if ok then hit.2 else l.last_score) ∧
      s1._out = (if ok then
        s._out.set (l.picked % s._in.length)
          (s.output (l.picked % s._in.length) ++ [(hit, i)])
        else s._out) ∧
      s1.best_scores = (if ok then
        (if l.picked + 1 = 1 then { s.best_scores with high := hit.2 } else s.best_scores)
        else s.best_scores) ∧
      s1.best_dropped = (if ok then s.best_dropped
        else (if s.best_dropped.valid = false then ⟨true, hit.2⟩ else s.best_dropped)) := by
  obtain ⟨i, hf, him⟩ := front_mem d s l.queue hq
  obtain ⟨hilt, hne⟩ := (hI.queue_mem i).mp him
  cases hin : s.input i with
  | nil => exact absurd hin hne
  | cons hit rest =>
    have hget : s._in[i]? = some (hit :: rest) := by
      rw [getElem?_of_lt s._in i hilt]
      exact congrArg some hin
    have hidx : l.picked % s._in.length < s._in.length :=
      Nat.mod_lt _ (Nat.lt_of_le_of_lt (Nat.zero_le _) hilt)
    have ho : s._out[l.picked % s.size]? = some (s.output (l.picked % s._in.length)) :=
      getElem?_of_lt s._out _ (by rw [hout]; exact hidx)
    cases ha : (accept s._diversifier hit.1).1 with
    | true =>
      exact ⟨i, hit, rest, true, _, _, mingleStep_accepted d s l i hit rest _ hf hin ha ho,
        hilt, him, hget, ha.symm, hidx, rfl, rfl, rfl, rfl, rfl, rfl, rfl, rfl, rfl⟩
    | false =>
      exact ⟨i, hit, rest, false, _, _, mingleStep_rejected d s l i hit rest hf hin ha,
        hilt, him, hget, ha.symm, hidx, rfl, rfl, rfl, rfl, rfl, rfl, rfl, rfl, rfl⟩

theorem inputsInv_step {Score : Type} (s0 s s1 : GetSecondPhaseWork Score)
    (l l1 : MingleLocals Score) (p : Taken Score) (i : Nat) (hit : Hit Score)
    (rest : List (Hit Score)) (ok : Bool) (hI : InputsInv s0 s l p)
    (hilt : i < s._in.length) (hget : s._in[i]? = some (hit :: rest))
    (htop : s1.topN = s.topN) (hin : s1._in = s._in.set i rest)
    (hqueue : l1.queue = (if !rest.isEmpty then l.queue else l.queue.erase i)) :
    InputsInv s0 s1 l1 (p ++ [(hit, i, ok)]) ∧
      (s1._in.map List.length).sum + 1 = (s._in.map List.length).sum := by
  have hinput : ∀ j, s1.input j = if i = j then rest else s.input j := by
    intro j
    unfold input
    rw [hin, getD_set _ _ _ _ hilt]
  have hold : s.input i = hit :: rest := getD_of_getElem? _ _ _ hget
  have hsum : (s1._in.map List.length).sum + 1 = (s._in.map List.length).sum := by
    have := sum_length_set s._in i rest (hit :: rest) hget
    rw [hin]
    rw [List.length_cons] at this
    omega
  refine ⟨⟨htop.trans hI.topN_eq, ?_, ?_, ?_, ?_, ?_⟩, hsum⟩
  · rw [hin, List.length_set]; exact hI.in_length
  · rw [hqueue]
    split
    · exact hI.queue_nodup
    · exact hI.queue_nodup.erase i
  · intro j
    rw [hinput j, hin, List.length_set, hqueue]
    by_cases hr : rest = []
    · have hq1 : (if (!rest.isEmpty) = true then l.queue else l.queue.erase i) =
          l.queue.erase i := by
        rw [hr]; rfl
      rw [hq1, hI.queue_nodup.mem_erase_iff, hI.queue_mem j]
      by_cases hj : i = j
      · rw [if_pos hj, hr]
        exact ⟨fun h => absurd hj.symm h.1, fun h => absurd rfl h.2⟩
      · rw [if_neg hj]
        exact ⟨fun h => h.2, fun h => ⟨fun e => hj e.symm, h⟩⟩
    · have hq1 : (if (!rest.isEmpty) = true then l.queue else l.queue.erase i) = l.queue := by
        cases rest with
        | nil => exact absurd rfl hr
        | cons x xs => rfl
      rw [hq1, hI.queue_mem j]
      by_cases hj : i = j
      · rw [if_pos hj, ← hj, hold]
        exact ⟨fun h => ⟨h.1, hr⟩, fun h => ⟨h.1, List.cons_ne_nil _ _⟩⟩
      · rw [if_neg hj]
  · intro j
    rw [takenFrom_append, hinput j, hI.taken j]
    by_cases hj : i = j
    · rw [if_pos hj, if_pos hj, ← hj, hold, List.append_assoc]
      rfl
    · rw [if_neg hj, if_neg hj, List.append_nil]
  · rw [List.length_append, List.length_cons, List.length_nil]
    have := hI.remaining
    omega

end GetSecondPhaseWork

end proton.matching

namespace proton.matching

namespace GetSecondPhaseWork

theorem outputsInv_step {Score : Type} (n : Nat) (s s1 : GetSecondPhaseWork Score)
    (l l1 : MingleLocals Score) (p : Taken Score) (i : Nat) (hit : Hit Score) (ok : Bool)
    (hO : OutputsInv n s l p) (hn : 0 < n)
    (hpicked : l1.picked = l.picked + (if ok then 1 else 0))
    (hout : s1._out = (if ok then
      s._out.set (l.picked % n) (s.output (l.picked % n) ++ [(hit, i)]) else s._out)) :
    OutputsInv n s1 l1 (p ++ [(hit, i, ok)]) := by
  cases ok with
  | false =>
    have hp : l1.picked = l.picked := by rw [hpicked]; rfl
    have ho : s1._out = s._out := by rw [hout]; rfl
    have he : emitted (p ++ [(hit, i, false)]) = emitted p := by
      rw [emitted_append]; exact List.append_nil _
    have hoj : ∀ j, s1.output j = s.output j := by
      intro j; unfold output; rw [ho]
    constructor
    · rw [ho]; exact hO.out_length
    · rw [hp, he]; exact hO.picked_eq
    · rw [ho, hp]; exact hO.out_sum
    · intro j hj; rw [hoj, hp]; exact hO.out_len j hj
    · intro k hk; rw [hoj, he]; rw [hp] at hk; exact hO.out_hit k hk
  | true =>
    have hp : l1.picked = l.picked + 1 := by rw [hpicked]; rfl
    have ho : s1._out =
        s._out.set (l.picked % n) (s.output (l.picked % n) ++ [(hit, i)]) := by
      rw [hout]; rfl
    have he : emitted (p ++ [(hit, i, true)]) = emitted p ++ [(hit, i)] := by
      rw [emitted_append]; rfl
    have hidx : l.picked % n < s._out.length := by
      rw [hO.out_length]; exact Nat.mod_lt _ hn
    have hoj : ∀ j, s1.output j =
        if l.picked % n = j then s.output (l.picked % n) ++ [(hit, i)] else s.output j := by
      intro j
      show s1._out.getD j [] = _
      rw [ho, getD_set _ _ _ _ hidx]
      rfl
    have hlen0 : (s.output (l.picked % n)).length = l.picked / n := by
      rw [hO.out_len _ (Nat.mod_lt _ hn), if_neg (Nat.lt_irrefl _), Nat.add_zero]
    constructor
    · rw [ho, List.length_set]; exact hO.out_length
    · rw [hp, he, List.length_append, List.length_cons, List.length_nil, hO.picked_eq]
    · have := sum_length_set s._out (l.picked % n) (s.output (l.picked % n) ++ [(hit, i)])
        (s.output (l.picked % n)) (getElem?_of_lt _ _ hidx)
      rw [List.length_append, List.length_cons, List.length_nil] at this
      rw [ho, hp]
      have h2 := hO.out_sum
      omega
    · intro j hj
      have hlenj : (s1.output j).length =
          (s.output j).length + (if j = l.picked % n then 1 else 0) := by
        rw [hoj j]
        by_cases hc : l.picked % n = j
        · rw [if_pos hc, if_pos hc.symm, List.length_append, List.length_cons,
            List.length_nil, hc]
        · rw [if_neg hc, if_neg (fun h : j = l.picked % n => hc h.symm)]
          rfl
      rw [hlenj, hO.out_len j hj, hp, succ_div_mod l.picked n j hn hj]
    · intro k hk
      rw [hp] at hk
      rw [hoj (k % n), he]
      by_cases hkp : k < l.picked
      · have hold := hO.out_hit k hkp
        have hke : k < (emitted p).length := by rw [← hO.picked_eq]; exact hkp
        rw [List.getElem?_append_left hke]
        by_cases hc : l.picked % n = k % n
        · rw [if_pos hc, ← hold, hc]
          apply List.getElem?_append_left
          by_contra hn2
          rw [List.getElem?_eq_none_iff.mpr (Nat.le_of_not_lt hn2),
            List.getElem?_eq_getElem hke] at hold
          exact Option.noConfusion hold
        · rw [if_neg hc]; exact hold
      · have hk : k = l.picked := by omega
        rw [hk]
        rw [if_pos rfl, ← hlen0, List.getElem?_concat_length]
        have hE : (emitted p ++ [(hit, i)])[(emitted p).length]? = some (hit, i) :=
          List.getElem?_concat_length _ _
        rw [← hO.picked_eq] at hE
        exact hE.symm

end GetSecondPhaseWork

end proton.matching

namespace proton.matching

namespace GetSecondPhaseWork

theorem scoresInv_step {Score : Type} (s0 s s1 : GetSecondPhaseWork Score)
    (l l1 : MingleLocals Score) (p : Taken Score) (i : Nat) (hit : Hit Score) (ok : Bool)
    (hS : ScoresInv s0 s l p) (hpe : l.picked = (emitted p).length)
    (hv0 : s0.best_dropped.valid = false)
    (hok : ok = (accept s._diversifier hit.1).1)
    (hdiv : s1._diversifier = (accept s._diversifier hit.1).2)
    (hlast : l1.last_score = (if ok then hit.2 else l.last_score))
    (hbs : s1.best_scores = (if ok then
      (if l.picked + 1 = 1 then { s.best_scores with high := hit.2 } else s.best_scores)
      else s.best_scores))
    (hbd : s1.best_dropped = (if ok then s.best_dropped
      else (if s.best_dropped.valid = false then ⟨true, hit.2⟩ else s.best_dropped))) :
    ScoresInv s0 s1 l1 (p ++ [(hit, i, ok)]) := by
  have hasked : ∀ dv0, s0._diversifier = some dv0 →
      ∃ dv, s1._diversifier = some dv ∧ dv.answer = dv0.answer ∧
        dv.asked = dv0.asked ++ (p ++ [(hit, i, ok)]).map (fun x => (x.1.1, x.2.2)) := by
    intro dv0 h0
    obtain ⟨dv, hdv, hans, hask⟩ := hS.asked dv0 h0
    rw [hdv] at hdiv hok
    refine ⟨(dv.accepted hit.1).2, hdiv, hans, ?_⟩
    have hacc : (accept (some dv) hit.1).1 = dv.answer dv.asked hit.1 := rfl
    rw [hok, hacc, List.map_append]
    show dv.asked ++ [(hit.1, dv.answer dv.asked hit.1)] =
      dv0.asked ++ (p.map (fun x => (x.1.1, x.2.2)) ++ [(hit.1, dv.answer dv.asked hit.1)])
    rw [← List.append_assoc, ← hask]
  have hnone : s0._diversifier = none → s1._diversifier = none ∧ ok = true := by
    intro h0
    have := (hS.no_diversifier h0).1
    rw [this] at hdiv hok
    exact ⟨hdiv, hok⟩
  cases ok with
  | true =>
    have he : emitted (p ++ [(hit, i, true)]) = emitted p ++ [(hit, i)] := by
      rw [emitted_append]; rfl
    have hr : rejected (p ++ [(hit, i, true)]) = rejected p := by
      rw [rejected_append]; exact List.append_nil _
    have hbd1 : s1.best_dropped = s.best_dropped := by rw [hbd]; rfl
    have hl1 : l1.last_score = hit.2 := by rw [hlast]; rfl
    constructor
    · intro e hee
      rw [he] at hee
      by_cases hE : emitted p = []
      · rw [hE] at hee hpe
        simp only [List.nil_append, List.head?_cons, Option.some.injEq] at hee
        rw [List.length_nil] at hpe
        rw [hbs, ← hee, hpe]
        rfl
      · have hh : (emitted p).head? = some e := by
          cases hEp : emitted p with
          | nil => exact absurd hEp hE
          | cons x xs => rw [hEp] at hee; exact hee
        have hpos : l.picked + 1 ≠ 1 := by
          have : 0 < (emitted p).length := List.length_pos.mpr hE
          omega
        rw [hbs]
        simp only [if_true, if_neg hpos]
        exact hS.high e hh
    · intro hE
      rw [he] at hE
      exact absurd hE (by simp)
    · intro e hee
      rw [he, List.getLast?_concat, Option.some.injEq] at hee
      rw [hl1, ← hee]
    · intro e hee
      rw [hr] at hee
      rw [hbd1]
      exact hS.dropped e hee
    · intro hR
      rw [hr] at hR
      rw [hbd1]
      exact hS.none_dropped hR
    · intro h0
      rw [hr]
      exact ⟨(hnone h0).1, (hS.no_diversifier h0).2⟩
    · exact hasked
  | false =>
    have he : emitted (p ++ [(hit, i, false)]) = emitted p := by
      rw [emitted_append]; exact List.append_nil _
    have hr : rejected (p ++ [(hit, i, false)]) = rejected p ++ [(hit, i)] := by
      rw [rejected_append]; rfl
    have hbs1 : s1.best_scores = s.best_scores := by rw [hbs]; rfl
    have hl1 : l1.last_score = l.last_score := by rw [hlast]; rfl
    have hbd1 : s1.best_dropped =
        (if s.best_dropped.valid = false then ⟨true, hit.2⟩ else s.best_dropped) := by
      rw [hbd]; rfl
    constructor
    · intro e hee
      rw [he] at hee
      rw [hbs1]
      exact hS.high e hee
    · intro hE
      rw [he] at hE
      rw [hbs1]
      exact hS.none_emitted hE
    · intro e hee
      rw [he] at hee
      rw [hl1]
      exact hS.last e hee
    · intro e hee
      rw [hr] at hee
      by_cases hR : rejected p = []
      · rw [hR] at hee
        simp only [List.nil_append, List.head?_cons, Option.some.injEq] at hee
        rw [hbd1, hS.none_dropped hR, if_pos hv0, ← hee]
      · have hh : (rejected p).head? = some e := by
          cases hRp : rejected p with
          | nil => exact absurd hRp hR
          | cons x xs => rw [hRp] at hee; exact hee
        have hold := hS.dropped e hh
        rw [hbd1, hold]
        rfl
    · intro hR
      rw [hr] at hR
      exact absurd hR (by simp)
    · intro h0
      exact absurd (hnone h0).2 (by simp)
    · exact hasked

end GetSecondPhaseWork

end proton.matching

namespace proton.matching

namespace GetSecondPhaseWork

/-! ## The loop and the whole of `mingle` -/

theorem mingleStep_inv {Score : Type} (d : Declared Score) (s0 s : GetSecondPhaseWork Score)
    (l : MingleLocals Score) (p : Taken Score) (hv0 : s0.best_dropped.valid = false)
    (hI : InputsInv s0 s l p) (hO : OutputsInv s0._in.length s l p) (hS : ScoresInv s0 s l p)
    (hlt : l.picked < s.topN) (hq : l.queue ≠ []) :
    ∃ (s1 : GetSecondPhaseWork Score) (l1 : MingleLocals Score) (p1 : Taken Score),
      mingleStep d s l = some (s1, l1) ∧
      InputsInv s0 s1 l1 p1 ∧ OutputsInv s0._in.length s1 l1 p1 ∧ ScoresInv s0 s1 l1 p1 ∧
      l1.picked ≤ s1.topN ∧
      (s1._in.map List.length).sum + 1 = (s._in.map List.length).sum := by
  obtain ⟨i, hit, rest, ok, s1, l1, hstep, hilt, _, hget, hok, _, htop, hin, hdiv, hqueue,
    hpicked, hlast, hout, hbs, hbd⟩ :=
    mingleStep_shape d s0 s l p hI (hO.out_length.trans hI.in_length.symm) hq
  have hn : 0 < s0._in.length := by
    rw [← hI.in_length]; exact Nat.lt_of_le_of_lt (Nat.zero_le _) hilt
  rw [hI.in_length] at hout
  obtain ⟨hI1, hsum⟩ := inputsInv_step s0 s s1 l l1 p i hit rest ok hI hilt hget htop hin hqueue
  refine ⟨s1, l1, p ++ [(hit, i, ok)], hstep, hI1,
    outputsInv_step _ s s1 l l1 p i hit ok hO hn hpicked hout,
    scoresInv_step s0 s s1 l l1 p i hit ok hS hO.picked_eq hv0 hok hdiv hlast hbs hbd, ?_, hsum⟩
  rw [hpicked, htop]
  cases ok
  · exact Nat.le_of_lt hlt
  · exact hlt

theorem mingleLoop_spec {Score : Type} (d : Declared Score) (s0 : GetSecondPhaseWork Score)
    (hv0 : s0.best_dropped.valid = false) (steps : Nat) :
    ∀ (s : GetSecondPhaseWork Score) (l : MingleLocals Score) (p : Taken Score),
      InputsInv s0 s l p → OutputsInv s0._in.length s l p → ScoresInv s0 s l p →
      l.picked ≤ s.topN → (s._in.map List.length).sum ≤ steps →
      ∃ (s1 : GetSecondPhaseWork Score) (l1 : MingleLocals Score) (p1 : Taken Score),
        mingleLoop d steps s l = some (s1, l1) ∧
        InputsInv s0 s1 l1 p1 ∧ OutputsInv s0._in.length s1 l1 p1 ∧ ScoresInv s0 s1 l1 p1 ∧
        l1.picked ≤ s1.topN ∧ ¬ (l1.picked < s1.topN ∧ l1.queue ≠ []) := by
  induction steps with
  | zero =>
    intro s l p hI hO hS hle hsum
    by_cases hc : l.picked < s.topN ∧ l.queue ≠ []
    · obtain ⟨_, _, _, _, _, _, _, _, hdec⟩ := mingleStep_inv d s0 s l p hv0 hI hO hS hc.1 hc.2
      omega
    · exact ⟨s, l, p, by simp only [mingleLoop, if_neg hc], hI, hO, hS, hle, hc⟩
  | succ steps ih =>
    intro s l p hI hO hS hle hsum
    by_cases hc : l.picked < s.topN ∧ l.queue ≠ []
    · obtain ⟨s1, l1, p1, hstep, hI1, hO1, hS1, hle1, hdec⟩ :=
        mingleStep_inv d s0 s l p hv0 hI hO hS hc.1 hc.2
      obtain ⟨s2, l2, p2, hloop, h⟩ := ih s1 l1 p1 hI1 hO1 hS1 hle1 (by omega)
      refine ⟨s2, l2, p2, ?_, h⟩
      simp only [mingleLoop, if_pos hc, hstep]
      exact hloop
    · exact ⟨s, l, p, by simp only [mingleLoop, if_neg hc], hI, hO, hS, hle, hc⟩

theorem sum_length_zero {α : Type} (l : List (List α)) (h : ∀ i, i < l.length → l.getD i [] = []) :
    (l.map List.length).sum = 0 := by
  induction l with
  | nil => rfl
  | cons x l ih =>
    have h0 : x = [] := h 0 (Nat.succ_pos _)
    have ht : ∀ i, i < l.length → l.getD i [] = [] := by
      intro i hi
      exact h (i + 1) (Nat.succ_lt_succ hi)
    rw [List.map_cons, List.sum_cons, ih ht, h0]
    rfl

theorem taken_length {Score : Type} (p : Taken Score) :
    (emitted p).length + (rejected p).length = p.length := by
  unfold emitted rejected
  rw [List.length_map, List.length_map]
  induction p with
  | nil => rfl
  | cons x p ih =>
    cases h : x.2.2 with
    | true =>
      rw [List.filter_cons_of_pos (by simpa using h), List.filter_cons_of_neg (by simp [h]),
        List.length_cons, List.length_cons]
      omega
    | false =>
      rw [List.filter_cons_of_neg (by simp [h]), List.filter_cons_of_pos (by simp [h]),
        List.length_cons, List.length_cons]
      omega

theorem inv_initial {Score : Type} (d : Declared Score) (s : GetSecondPhaseWork Score)
    (hout : s._out = List.replicate s.size []) :
    InputsInv s s ⟨(List.range s.size).filter (fun i => !(s.input i).isEmpty), 0, d.zero, 0⟩ [] ∧
    OutputsInv s._in.length s
      ⟨(List.range s.size).filter (fun i => !(s.input i).isEmpty), 0, d.zero, 0⟩ [] ∧
    ScoresInv s s ⟨(List.range s.size).filter (fun i => !(s.input i).isEmpty), 0, d.zero, 0⟩ [] := by
  refine ⟨⟨rfl, rfl, (List.nodup_range _).filter _, ?_, fun i => rfl, rfl⟩,
    ⟨by rw [hout, List.length_replicate]; rfl, rfl, ?_, ?_, ?_⟩,
    ⟨?_, fun _ => rfl, ?_, ?_, fun _ => rfl, fun h => ⟨h, rfl⟩, ?_⟩⟩
  · intro i
    show i ∈ (List.range s.size).filter (fun i => !(s.input i).isEmpty) ↔ _
    rw [List.mem_filter, List.mem_range]
    have : ((!(s.input i).isEmpty) = true) ↔ s.input i ≠ [] := by
      cases s.input i <;> simp
    rw [this]
    rfl
  · show (s._out.map List.length).sum = 0
    rw [hout]
    generalize s.size = n
    induction n with
    | zero => rfl
    | succ n ih =>
      rw [List.replicate_succ, List.map_cons, List.sum_cons, ih]
      rfl
  · intro j hj
    show (s._out.getD j []).length = 0 / s._in.length + (if j < 0 % s._in.length then 1 else 0)
    rw [hout, Nat.zero_div, Nat.zero_mod, if_neg (Nat.not_lt_zero _),
      List.getD_eq_getElem?_getD, List.getElem?_replicate]
    split <;> rfl
  · intro k hk
    exact absurd hk (Nat.not_lt_zero _)
  · intro e he
    exact Option.noConfusion he
  · intro e he
    exact Option.noConfusion he
  · intro e he
    exact Option.noConfusion he
  · intro dv0 h0
    exact ⟨dv0, h0, rfl, by simp⟩

end GetSecondPhaseWork

end proton.matching

namespace proton.matching

namespace GetSecondPhaseWork

theorem mingle_spec {Score : Type} (d : Declared Score) (s : GetSecondPhaseWork Score)
    (hout : s._out = List.replicate s.size []) :
    ∃ (s1 : GetSecondPhaseWork Score) (l1 : MingleLocals Score) (p : Taken Score),
      mingle d s = some (if l1.picked > 0 then
        { s1 with best_scores := { s1.best_scores with low := l1.last_score } } else s1) ∧
      InputsInv { s with best_scores := d.emptyRange,
                         best_dropped := { s.best_dropped with valid := false } } s1 l1 p ∧
      OutputsInv s._in.length s1 l1 p ∧
      ScoresInv { s with best_scores := d.emptyRange,
                         best_dropped := { s.best_dropped with valid := false } } s1 l1 p ∧
      l1.picked ≤ s1.topN ∧ ¬ (l1.picked < s1.topN ∧ l1.queue ≠ []) := by
  obtain ⟨hI, hO, hS⟩ := inv_initial d
    { s with best_scores := d.emptyRange,
             best_dropped := { s.best_dropped with valid := false } } hout
  obtain ⟨s1, l1, p, hloop, hI1, hO1, hS1, hle, hexit⟩ :=
    mingleLoop_spec d
      { s with best_scores := d.emptyRange,
               best_dropped := { s.best_dropped with valid := false } } rfl
      (s._in.map List.length).sum _ _ [] hI hO hS (Nat.zero_le _) (Nat.le_refl _)
  refine ⟨s1, l1, p, ?_, hI1, hO1, hS1, hle, hexit⟩
  unfold mingle
  simp only []
  rw [hloop]

/-- C25: `mingle()` over `n` threads whose outputs are empty.  The run completes.
With `p` the hits it took from the inputs in order, each with its input and
the diversifier's verdict: the outputs hold as many hits as were accepted, at
most `topN`, and exactly `min(topN, number of input hits)` when no diversifier
is set; the accepted hit number `k` (from 0) stands with the index of its input
at position `k / n` of output `k mod n`, so two output sizes differ by at most
one; the hits taken from an input are the front of that input, in order;
`best_scores.high` is the score of the first accepted hit and `best_scores.low`
that of the last (the range is `Range()` when no hit was accepted);
`best_dropped` is valid with the score of the first rejected hit, and not valid
when no hit was rejected, as is the case without a diversifier; a diversifier
was asked about the taken hits in order and gave the verdicts. -/
theorem mingle_contract {Score : Type} (d : Declared Score) (s : GetSecondPhaseWork Score)
    (hout : s._out = List.replicate s.size []) :
    ∃ (s1 : GetSecondPhaseWork Score) (p : Taken Score),
      mingle d s = some s1 ∧
      (s1._out.map List.length).sum = (emitted p).length ∧
      (emitted p).length ≤ s.topN ∧
      (s._diversifier = none →
        (emitted p).length = min s.topN (s._in.map List.length).sum) ∧
      s1._out.length = s.size ∧
      (∀ k, k < (emitted p).length →
        (s1.output (k % s.size))[k / s.size]? = (emitted p)[k]?) ∧
      (∀ i j, i < s.size → j < s.size → (s1.output i).length ≤ (s1.output j).length + 1) ∧
      (∀ i, s.input i = takenFrom p i ++ s1.input i) ∧
      (∀ e, (emitted p).head? = some e → s1.best_scores.high = e.1.2) ∧
      (∀ e, (emitted p).getLast? = some e → s1.best_scores.low = e.1.2) ∧
      (emitted p = [] → s1.best_scores = d.emptyRange) ∧
      (∀ e, (rejected p).head? = some e → s1.best_dropped = ⟨true, e.1.2⟩) ∧
      (rejected p = [] → s1.best_dropped.valid = false) ∧
      (s._diversifier = none → rejected p = []) ∧
      (∀ dv0, s._diversifier = some dv0 →
        ∃ dv, s1._diversifier = some dv ∧ dv.answer = dv0.answer ∧
          dv.asked = dv0.asked ++ p.map (fun x => (x.1.1, x.2.2))) := by
  obtain ⟨s1, l1, p, hm, hI, hO, hS, hle, hexit⟩ := mingle_spec d s hout
  have hfin : ∀ sF : GetSecondPhaseWork Score,
      sF = (if l1.picked > 0 then
        { s1 with best_scores := { s1.best_scores with low := l1.last_score } } else s1) →
      sF._out = s1._out ∧ sF._in = s1._in ∧ sF.best_dropped = s1.best_dropped ∧
      sF._diversifier = s1._diversifier ∧ sF.best_scores.high = s1.best_scores.high ∧
      (l1.picked > 0 → sF.best_scores.low = l1.last_score) ∧
      (¬ l1.picked > 0 → sF.best_scores = s1.best_scores) := by
    intro sF hsF
    by_cases hp : l1.picked > 0
    · rw [if_pos hp] at hsF
      rw [hsF]
      exact ⟨rfl, rfl, rfl, rfl, rfl, fun _ => rfl, fun h => absurd hp h⟩
    · rw [if_neg hp] at hsF
      rw [hsF]
      exact ⟨rfl, rfl, rfl, rfl, rfl, fun h => absurd h hp, fun _ => rfl⟩
  obtain ⟨fo, fi, fbd, fdv, fhigh, flow, fsame⟩ := hfin _ rfl
  have htop : s1.topN = s.topN := hI.topN_eq
  have hlen : (emitted p).length = l1.picked := hO.picked_eq.symm
  refine ⟨_, p, hm, ?_, ?_, ?_, ?_, ?_, ?_, ?_, ?_, ?_, ?_, ?_, ?_, ?_, ?_⟩
  · rw [fo, hlen]; exact hO.out_sum
  · rw [hlen, ← htop]; exact hle
  · intro hnd
    have hrej : rejected p = [] := (hS.no_diversifier hnd).2
    have htl := taken_length p
    rw [hrej, List.length_nil, Nat.add_zero] at htl
    have hrem : (s1._in.map List.length).sum + p.length = (s._in.map List.length).sum :=
      hI.remaining
    rw [htop] at hexit hle
    by_cases hc : l1.picked < s.topN
    · have hq : l1.queue = [] := by
        by_contra hq
        exact hexit ⟨hc, hq⟩
      have hz : (s1._in.map List.length).sum = 0 := by
        apply sum_length_zero
        intro i hi
        by_contra hne
        have := (hI.queue_mem i).mpr ⟨hi, hne⟩
        rw [hq] at this
        exact absurd this (List.not_mem_nil _)
      rw [Nat.min_def]
      split <;> omega
    · rw [Nat.min_def]
      split <;> omega
  · rw [fo]; exact hO.out_length
  · intro k hk
    rw [hlen] at hk
    show (List.getD _ (k % s._in.length) [])[k / s._in.length]? = _
    rw [fo]
    exact hO.out_hit k hk
  · intro i j hi hj
    show (List.getD _ i []).length ≤ (List.getD _ j []).length + 1
    rw [fo]
    have h1 := hO.out_len i hi
    have h2 := hO.out_len j hj
    unfold output at h1 h2
    rw [h1, h2]
    split_ifs <;> omega
  · intro i
    show _ = takenFrom p i ++ List.getD _ i []
    rw [fi]
    exact hI.taken i
  · intro e he
    rw [fhigh]
    exact hS.high e he
  · intro e he
    have hpos : l1.picked > 0 := by
      rw [← hlen]
      cases hE : emitted p with
      | nil => rw [hE] at he; exact Option.noConfusion he
      | cons x xs => exact Nat.succ_pos _
    rw [flow hpos]
    exact hS.last e he
  · intro hE
    have hz : ¬ l1.picked > 0 := by
      rw [← hlen, hE]
      exact Nat.lt_irrefl _
    rw [fsame hz]
    exact hS.none_emitted hE
  · intro e he
    rw [fbd]
    exact hS.dropped e he
  · intro hR
    rw [fbd, hS.none_dropped hR]
  · intro hnd
    exact (hS.no_diversifier hnd).2
  · intro dv0 h0
    rw [fdv]
    exact hS.asked dv0 h0

end GetSecondPhaseWork

end proton.matching

namespace proton.matching

namespace GetSecondPhaseWork

/-- Witness of C25: `exampleWork`, three threads and room for four hits.
Without a diversifier the four best of the six input hits go to the outputs
`0, 1, 2, 0` and the range is `[55, 95]`; with `exampleDiversifier` the hit of
document `7` is rejected first, so `best_dropped` is its score `95`, and the
range is `[50, 90]`. -/
theorem mingle_contract_witness :
    exampleWork._out = List.replicate exampleWork.size [] ∧
    (mingle exampleDeclared exampleWork).map (fun s => (s._out, s.best_scores)) =
      some ([[((7, 95), 1), ((9, 55), 1)], [((1, 90), 0)], [((8, 60), 1)]], ⟨55, 95⟩) ∧
    (mingle exampleDeclared { exampleWork with _diversifier := some exampleDiversifier }).map
        (fun s => (s._out, s.best_scores, s.best_dropped)) =
      some ([[((1, 90), 0), ((2, 50), 0)], [((8, 60), 1)], [((9, 55), 1)]], ⟨50, 90⟩,
        ⟨true, 95⟩) ∧
    (∃ (s1 : GetSecondPhaseWork Int) (p : Taken Int),
      mingle exampleDeclared exampleWork = some s1 ∧
      (s1._out.map List.length).sum = (emitted p).length ∧
      (emitted p).length = min exampleWork.topN (exampleWork._in.map List.length).sum ∧
      (∀ k, k < (emitted p).length →
        (s1.output (k % exampleWork.size))[k / exampleWork.size]? = (emitted p)[k]?) ∧
      (∀ i j, i < exampleWork.size → j < exampleWork.size →
        (s1.output i).length ≤ (s1.output j).length + 1) ∧
      (∀ e, (emitted p).head? = some e → s1.best_scores.high = e.1.2) ∧
      (∀ e, (emitted p).getLast? = some e → s1.best_scores.low = e.1.2) ∧
      s1.best_dropped.valid = false) ∧
    (∃ (s1 : GetSecondPhaseWork Int) (p : Taken Int),
      mingle exampleDeclared { exampleWork with _diversifier := some exampleDiversifier } =
        some s1 ∧
      (emitted p).length ≤ exampleWork.topN ∧
      (∀ e, (rejected p).head? = some e → s1.best_dropped = ⟨true, e.1.2⟩)) := by
  obtain ⟨s1, p, h1, h2, _, h4, _, h6, h7, _, h9, h10, _, _, h13, h14, _⟩ :=
    mingle_contract exampleDeclared exampleWork (by decide)
  obtain ⟨s2, q, g1, _, g3, _, _, _, _, _, _, _, _, g12, _⟩ :=
    mingle_contract exampleDeclared
      { exampleWork with _diversifier := some exampleDiversifier } (by decide)
  exact ⟨by decide, by decide, by decide,
    ⟨s1, p, h1, h2, h4 rfl, h6, h7, h9, h10, h13 (h14 rfl)⟩, ⟨s2, q, g1, g3, g12⟩⟩

end GetSecondPhaseWork

end proton.matching
